import Mathlib

/-!
# SelfishMiningSim: chain store, difficulty adjustment, strategy machine

A shallow embedding of `blockchain.go`, `difficulty.go` and `simulation.go`.

Conventions of the embedding.

* Go `int` is `Int`.  Heights, timestamps and block times of the simulator stay
  far below `2^63`, so wrap-around is not modelled, except in `Init64`, which
  computes the timestamps of the starting blocks in 64-bit arithmetic
  (`wrapInt64`) and agrees with `Init` whenever `2999 * expectedBlockTime` fits
  64 bits.  Go `/` and `%` on `int` truncate toward zero: `Int.tdiv` and
  `Int.tmod`.
* Go `float64` is `ℚ`: difficulties and work are exact rationals, so rounding,
  infinities and NaN are not modelled.
* Go slices are `List`s with value semantics.  An index or slice expression
  that leaves `0 .. len` is a run-time panic, modelled as an `Except.error`;
  spare capacity beyond `len` is not modelled.
* A method with a pointer receiver returns the new receiver; a method that can
  panic returns `Except Fault _`.
* Logging has no effect on the state and is dropped, except where building the
  log record itself can panic, and for `log.Fatal`, which ends the process.
* Random draws (delays, coin tosses) are inputs of the step function.
-/

namespace SelfishMining

/-- Ways in which a call can end without returning. -/
inductive Fault where
  | indexOutOfRange
  | sliceBounds
  | divideByZero
  | nilDifficulty
  | makeSliceLen
  | fatal
deriving DecidableEq, Repr

deriving instance DecidableEq for Except

/-- Go `xs[i]`. -/
def index {α : Type} (xs : List α) (i : Int) : Except Fault α :=
  if i < 0 then .error .indexOutOfRange
  else match xs[i.toNat]? with
    | some x => .ok x
    | none => .error .indexOutOfRange

/-- Go `xs[lo:hi]`. -/
def slice {α : Type} (xs : List α) (lo hi : Int) : Except Fault (List α) :=
  if 0 ≤ lo ∧ lo ≤ hi ∧ hi ≤ (xs.length : Int) then
    .ok ((xs.take hi.toNat).drop lo.toNat)
  else .error .sliceBounds

/-- Go's 64-bit `int`: the mathematical integer `x` wrapped around into the
range `-2^63 .. 2^63 - 1`, as Go arithmetic on `int` does on overflow. -/
def wrapInt64 (x : Int) : Int := (x + 2 ^ 63) % 2 ^ 64 - 2 ^ 63

def BASElINE_DIFFICULTY : ℚ := 1

def STARTING_BLOCKS : Int := 3000

/-- Modelled from the spec: the identifier `startingBlocks` used by
`difficulty.go` and `simulation.go` is declared in none of the source files;
the spec names the same quantity `STARTING_BLOCKS`, the constant of
`blockchain.go`. -/
def startingBlocks : Int := STARTING_BLOCKS

/-- Block holds information on a block: its height, difficulty and timestamp. -/
structure Block where
  height : Int
  difficulty : ℚ
  timestamp : Int
  isHonest : Bool
deriving DecidableEq, Repr

structure bchDifficulty where
  Lookback : Int
  OffByOne : Bool
  Mediantimepast : Int
deriving DecidableEq, Repr

structure btcDifficulty where
  Period : Int
  OffByOne : Bool
deriving DecidableEq, Repr

structure dashDifficulty where
  NPastBlocks : Int
  OffByOne : Bool
deriving DecidableEq, Repr

structure xmrDifficulty where
  Lookback : Int
  Delay : Int
  Outliers : Int
deriving DecidableEq, Repr

structure zecDifficulty where
  NAveragingInterval : Int
  NMedianTimespan : Int
  NMaxAdjustUp : Int
  NMaxAdjustDown : Int
  NPOWDampeningFactor : ℚ
deriving DecidableEq, Repr

/-- The implementations of the Go interface `Difficulty`. -/
inductive Difficulty where
  | bch (b : bchDifficulty)
  | btc (b : btcDifficulty)
  | dash (d : dashDifficulty)
  | xmr (x : xmrDifficulty)
  | zec (z : zecDifficulty)
deriving DecidableEq, Repr

/-- The chain store.  `diffAlgo` is an interface value: `none` is Go `nil`. -/
structure Blockchain where
  chain : List Block
  privateBranch : List Block
  forkHistory : List Int
  height : Int
  forkHeight : Int
  time : Int
  privateTime : Int
  nextDifficulty : ℚ
  nextPrivateDifficulty : ℚ
  diffAlgo : Option Difficulty
  expectedBlockTime : Int
deriving DecidableEq, Repr

namespace Blockchain

/-- The Go zero value of `Blockchain`. -/
def zero : Blockchain :=
  { chain := [], privateBranch := [], forkHistory := [], height := 0, forkHeight := 0,
    time := 0, privateTime := 0, nextDifficulty := 0, nextPrivateDifficulty := 0,
    diffAlgo := none, expectedBlockTime := 0 }

/-- Whether `pushToChain` logs "New block and new height don't match". -/
def pushToChainWarns (blockchain : Blockchain) (block : Block) : Bool :=
  block.height != blockchain.height + 1

/-- pushToChain will push the given block to the public blockchain. -/
def pushToChain (blockchain : Blockchain) (block : Block) : Blockchain :=
  { blockchain with
    chain := blockchain.chain ++ [block]
    height := blockchain.height + 1
    time := block.timestamp }

/-- pushToPrivateChain pushes a block to the private branch.  The log record
reads `chain[len(chain)-1]`. -/
def pushToPrivateChain (blockchain : Blockchain) (block : Block) : Except Fault Blockchain := do
  let blockchain1 := { blockchain with
    privateBranch := blockchain.privateBranch ++ [block]
    time := block.timestamp }
  let _tip ← index blockchain1.chain ((blockchain1.chain.length : Int) - 1)
  pure blockchain1

/-- popFromChain will remove AND return the tip block of the chain. -/
def popFromChain (blockchain : Blockchain) : Except Fault (Block × Blockchain) := do
  let removedBlock ← index blockchain.chain blockchain.height
  let chain ← slice blockchain.chain 0 blockchain.height
  pure (removedBlock, { blockchain with chain := chain, height := blockchain.height - 1 })

/-- popFromPrivateChain will remove AND return the tip block of the private branch. -/
def popFromPrivateChain (blockchain : Blockchain) : Except Fault (Block × Blockchain) := do
  let n : Int := blockchain.privateBranch.length
  let removedBlock ← index blockchain.privateBranch (n - 1)
  let privateBranch ← slice blockchain.privateBranch 0 (n - 1)
  pure (removedBlock, { blockchain with privateBranch := privateBranch })

/-- popFromPrivateChainBottom will remove AND return the first block in the private branch. -/
def popFromPrivateChainBottom (blockchain : Blockchain) : Except Fault (Block × Blockchain) := do
  let removedBlock ← index blockchain.privateBranch 0
  let privateBranch ← slice blockchain.privateBranch 1 blockchain.privateBranch.length
  pure (removedBlock, { blockchain with privateBranch := privateBranch })

/-- The loop `for len(privateBranch) > 0 { popFromPrivateChain() }`.  Every
iteration removes one block, so `len(privateBranch)` iterations are enough;
the first argument is that bound. -/
def popPrivateLoop : Nat → Blockchain → Except Fault Blockchain
  | 0, blockchain => pure blockchain
  | n + 1, blockchain =>
    if blockchain.privateBranch.length > 0 then do
      let (_, blockchain1) ← popFromPrivateChain blockchain
      popPrivateLoop n blockchain1
    else pure blockchain

/-- clearPrivateBranch will remove all private branch blocks. -/
def clearPrivateBrach (blockchain : Blockchain) : Except Fault Blockchain :=
  popPrivateLoop blockchain.privateBranch.length blockchain

/-- getPostForkWork will return the amount of work for the public chain and
private branch; it only includes work past the fork. -/
def getPostForkWork (blockchain : Blockchain) : Except Fault (ℚ × ℚ) :=
  if blockchain.forkHeight = 0 then pure (0, 0)
  else do
    let rest ← slice blockchain.chain (blockchain.forkHeight + 1) blockchain.chain.length
    let mainWork := rest.foldl (fun w thisBlock => w + thisBlock.difficulty) 0
    let privWork := blockchain.privateBranch.foldl (fun w thisBlock => w + thisBlock.difficulty) 0
    pure (mainWork, privWork)

/-- setForkHeight sets the height of where a fork occurs: offset is 0 if we
are no longer forking, negative if we have just forked, else offset adds. -/
def setForkHeight (blockchain : Blockchain) (offset : Int) : Blockchain :=
  let forkHeight :=
    if offset = 0 then 0
    else if offset > 0 then blockchain.forkHeight + offset
    else blockchain.height
  { blockchain with
    forkHeight := forkHeight
    forkHistory := blockchain.forkHistory ++ [forkHeight] }

/-- getPrivateView returns the entire blockchain from the view of the private
branch: `chain[i]` for `i = 0 .. forkHeight`, then the private branch. -/
def getPrivateView (blockchain : Blockchain) : Except Fault (List Block) := do
  let chain ← (List.range (blockchain.forkHeight + 1).toNat).foldlM
    (fun (acc : List Block) (i : Nat) => do
      let b ← index blockchain.chain (i : Int)
      pure (acc ++ [b])) []
  pure (chain ++ blockchain.privateBranch)

/-- Init initializes a blockchain with the starting blocks, all with normal
difficulty and time. -/
def Init (blockchain : Blockchain) : Blockchain :=
  let blockchain0 := { blockchain with height := -1 }
  let blockchain1 := (List.range STARTING_BLOCKS.toNat).foldl
    (fun (bc : Blockchain) (i : Nat) =>
      bc.pushToChain ⟨(i : Int), BASElINE_DIFFICULTY, (i : Int) * bc.expectedBlockTime, true⟩)
    blockchain0
  { blockchain1 with
    forkHeight := 0
    nextDifficulty := BASElINE_DIFFICULTY
    nextPrivateDifficulty := BASElINE_DIFFICULTY }

/-- Init with the product `i * blockchain.expectedBlockTime` computed as Go
computes it, in 64-bit `int` arithmetic. -/
def Init64 (blockchain : Blockchain) : Blockchain :=
  let blockchain0 := { blockchain with height := -1 }
  let blockchain1 := (List.range STARTING_BLOCKS.toNat).foldl
    (fun (bc : Blockchain) (i : Nat) =>
      bc.pushToChain
        ⟨(i : Int), BASElINE_DIFFICULTY, wrapInt64 ((i : Int) * bc.expectedBlockTime), true⟩)
    blockchain0
  { blockchain1 with
    forkHeight := 0
    nextDifficulty := BASElINE_DIFFICULTY
    nextPrivateDifficulty := BASElINE_DIFFICULTY }

def setDiffAlgo (blockchain : Blockchain) (diffAlgo : Option Difficulty) : Blockchain :=
  { blockchain with diffAlgo := diffAlgo }

/-- Reset will reset the blockchain to empty and then call Init(). -/
def Reset (blockchain : Blockchain) : Blockchain :=
  Init { blockchain with
    chain := []
    privateBranch := []
    forkHistory := []
    privateTime := 0
    nextDifficulty := 0
    nextPrivateDifficulty := 0 }

end Blockchain

/-! ## difficulty.go -/

/-- The median-timestamped block: the first block whose timestamp is element
`num/2` of the sorted timestamps; `blocks[0]` after the logged no-match error. -/
def median (blocks : List Block) : Except Fault Block := do
  let num : Int := blocks.length
  let times := (blocks.map (fun block => block.timestamp)).insertionSort (· ≤ ·)
  let med ← index times (num.tdiv 2)
  match blocks.find? (fun block => med == block.timestamp) with
  | some block => pure block
  | none => index blocks 0

def sum (input : List ℚ) : ℚ :=
  input.foldl (fun s n => s + n) 0

def sumBlocks (input : List Block) : ℚ :=
  sum (input.map (fun w => w.difficulty))

def bchDifficulty.getDiff (b : bchDifficulty) (isPrivate : Bool) (blockchain : Blockchain) :
    Except Fault ℚ := do
  let chain ← if isPrivate then blockchain.getPrivateView else pure blockchain.chain
  let chainLen : Int := chain.length
  let top3 ← slice chain (chainLen - b.Mediantimepast) chainLen
  let bottom3 ← slice chain (chainLen - b.Lookback - b.Mediantimepast) (chainLen - b.Lookback)
  let topMed ← median top3
  let bottomMed ← median bottom3
  let subChain ← slice chain bottomMed.height (topMed.height + 1)
  let totalTime := topMed.timestamp - bottomMed.timestamp
  let totalWork := sumBlocks subChain
  let totalTime :=
    if totalTime > 2 * b.Lookback * blockchain.expectedBlockTime then
      2 * b.Lookback * blockchain.expectedBlockTime
    else if totalTime < (b.Lookback * blockchain.expectedBlockTime).tdiv 2 then
      (b.Lookback * blockchain.expectedBlockTime).tdiv 2
    else totalTime
  let newDiff := (totalWork * (blockchain.expectedBlockTime : ℚ)) / (totalTime : ℚ)
  if newDiff < 1 / 10 then .error .fatal
  else pure newDiff

def btcDifficulty.getDiff (b : btcDifficulty) (isPrivate : Bool) (blockchain : Blockchain) :
    Except Fault ℚ := do
  let chain ← if isPrivate then blockchain.getPrivateView else pure blockchain.chain
  let chainLen : Int := chain.length
  if b.Period = 0 then .error .divideByZero
  else if (chainLen - startingBlocks).tmod b.Period ≠ 0 then do
    let last ← index chain (chainLen - 1)
    pure last.difficulty
  else do
    let top ← index chain (chainLen - 1)
    let botBlock := chainLen - b.Period
    let botBlock := if !b.OffByOne then botBlock - 1 else botBlock
    let bot ← index chain botBlock
    let totalTime := top.timestamp - bot.timestamp
    let work ← slice chain (chainLen - b.Period) (chainLen - 1)
    let totalWork := sumBlocks work
    let totalTime :=
      if totalTime > b.Period * 4 * blockchain.expectedBlockTime then
        b.Period * 4 * blockchain.expectedBlockTime
      else if totalTime < (b.Period.tdiv 4) * blockchain.expectedBlockTime then
        (b.Period.tdiv 4) * blockchain.expectedBlockTime
      else totalTime
    let newDiff := totalWork * (blockchain.expectedBlockTime : ℚ) / (totalTime : ℚ)
    pure newDiff

def dashDifficulty.getDiff (d : dashDifficulty) (isPrivate : Bool) (blockchain : Blockchain) :
    Except Fault ℚ := do
  let nPastBlocks := d.NPastBlocks
  let (chain, pIndexLast) ←
    if isPrivate then do
      let privBranchLen : Int := blockchain.privateBranch.length
      let tip ← index blockchain.privateBranch (privBranchLen - 1)
      let chain ← blockchain.getPrivateView
      pure (chain, tip.height)
    else pure (blockchain.chain, blockchain.height)
  let (pIndex, bnPastTargetAvg) ← (List.range nPastBlocks.toNat).foldlM
    (fun (st : Int × ℚ) (i : Nat) => do
      let nBlock : Int := (i : Int) + 1
      let blk ← index chain st.1
      let bnTarget : ℚ := 1 / blk.difficulty
      let bnPastTargetAvg : ℚ :=
        if nBlock = 1 then bnTarget
        else (st.2 * (nBlock : ℚ) + bnTarget) / ((nBlock + 1 : Int) : ℚ)
      let pIndex := if nBlock ≠ nPastBlocks then st.1 - 1 else st.1
      pure (pIndex, bnPastTargetAvg))
    (pIndexLast, (0 : ℚ))
  let bnNew := bnPastTargetAvg
  let pIndex := if !d.OffByOne then pIndex - 1 else pIndex
  let last ← index chain pIndexLast
  let first ← index chain pIndex
  let nActualTimestamp := last.timestamp - first.timestamp
  let nTargetTimestamp := blockchain.expectedBlockTime * nPastBlocks
  let nActualTimestamp :=
    if nActualTimestamp > nTargetTimestamp * 3 then nTargetTimestamp * 3
    else if (nActualTimestamp : ℚ) < (nTargetTimestamp : ℚ) / 3 then nTargetTimestamp.tdiv 3
    else nActualTimestamp
  let bnNew := bnNew * ((nActualTimestamp : ℚ) / (nTargetTimestamp : ℚ))
  pure (1 / bnNew)

def xmrDifficulty.getDiff (x : xmrDifficulty) (isPrivate : Bool) (blockchain : Blockchain) :
    Except Fault ℚ := do
  let chain ← if isPrivate then blockchain.getPrivateView else pure blockchain.chain
  let chainHeight : Int := (chain.length : Int) - 1
  if x.Lookback < 0 then .error .makeSliceLen
  else do
    let examineChain ← (List.range x.Lookback.toNat).foldlM
      (fun (acc : List Block) (j : Nat) => do
        let blk ← index chain (chainHeight - x.Lookback - x.Delay + (j : Int))
        pure (acc ++ [blk])) []
    let timestampList := (examineChain.map (fun blk => blk.timestamp)).insertionSort (· ≤ ·)
    let timestampListOutliersRemoved ←
      slice timestampList x.Outliers ((timestampList.length : Int) - x.Outliers)
    let hi ← index timestampListOutliersRemoved
      ((timestampListOutliersRemoved.length : Int) - 1)
    let lo ← index timestampListOutliersRemoved 0
    let timeSpan := hi - lo
    let diffOutliersRemoved ←
      slice examineChain x.Outliers ((examineChain.length : Int) - x.Outliers)
    let totalWork := sumBlocks diffOutliersRemoved
    let target := blockchain.expectedBlockTime
    let newDiff := (totalWork * (target : ℚ)) / (timeSpan : ℚ)
    pure newDiff

def zecDifficulty.getDiff (z : zecDifficulty) (isPrivate : Bool) (blockchain : Blockchain) :
    Except Fault ℚ := do
  let chain ← if isPrivate then blockchain.getPrivateView else pure blockchain.chain
  let nAveragingInterval := z.NAveragingInterval
  let nMediantimespan := z.NMedianTimespan
  let nMaxAdjustUp := z.NMaxAdjustUp
  let nMaxAdjustDown := z.NMaxAdjustDown
  let nPOWDampeningFactor := z.NPOWDampeningFactor
  let nAveragingTargetTimespan := nAveragingInterval * blockchain.expectedBlockTime
  let nMinActualTimespanV3 : ℚ :=
    (nAveragingTargetTimespan : ℚ) * ((100 - nMaxAdjustUp : Int) : ℚ) / 100
  let nMaxActualTimespanV3 : ℚ :=
    (nAveragingTargetTimespan : ℚ) * ((100 + nMaxAdjustDown : Int) : ℚ) / 100
  let B ← index chain ((chain.length : Int) - 1)
  let A ← index chain ((chain.length : Int) - 1 - nAveragingInterval)
  let bWindow ← slice chain (B.height - nMediantimespan) B.height
  let bMedian ← median bWindow
  let aWindow ← slice chain (A.height - nMediantimespan) A.height
  let aMedian ← median aWindow
  let nActualTimespan := bMedian.timestamp - aMedian.timestamp
  let nActualTimespanf : ℚ := (nAveragingTargetTimespan : ℚ) +
    ((nActualTimespan - nAveragingTargetTimespan : Int) : ℚ) / nPOWDampeningFactor
  let nActualTimespanf :=
    if nActualTimespanf < nMinActualTimespanV3 then nMinActualTimespanV3
    else if nActualTimespanf > nMaxActualTimespanV3 then nMaxActualTimespanV3
    else nActualTimespanf
  let window ← slice chain (B.height - nAveragingInterval) B.height
  let nAvgTarget : ℚ := window.foldl (fun t block => t + 1 / block.difficulty) 0
  let nAvgTarget := nAvgTarget / (nAveragingInterval : ℚ)
  let bnNew := nAvgTarget / (nAveragingTargetTimespan : ℚ)
  let bnNew := bnNew * nActualTimespanf
  let _top30 ← slice chain ((chain.length : Int) - 30) chain.length
  pure (1 / bnNew)

/-- Dynamic dispatch of `getDiff` on the interface value. -/
def Difficulty.getDiff : Difficulty → Bool → Blockchain → Except Fault ℚ
  | .bch b => b.getDiff
  | .btc b => b.getDiff
  | .dash d => d.getDiff
  | .xmr x => x.getDiff
  | .zec z => z.getDiff

/-! ## blockchain.go, continued -/

namespace Blockchain

def adjustDifficulty (blockchain : Blockchain) (isPrivate : Bool) : Except Fault Blockchain :=
  match blockchain.diffAlgo with
  | none => .error .nilDifficulty
  | some diffAlgo => do
    let newDiff ← diffAlgo.getDiff isPrivate blockchain
    if isPrivate then pure { blockchain with nextPrivateDifficulty := newDiff }
    else pure { blockchain with nextDifficulty := newDiff }

/-- newBlock creates a new block and pushes it to the chain. -/
def newBlock (blockchain : Blockchain) (time : Int) : Except Fault (Block × Blockchain) := do
  let block : Block := ⟨blockchain.height + 1, blockchain.nextDifficulty, time, true⟩
  let blockchain1 := blockchain.pushToChain block
  let blockchain2 ← blockchain1.adjustDifficulty false
  pure (block, blockchain2)

/-- newPrivateBlock creates a new block and pushes it to the private branch. -/
def newPrivateBlock (blockchain : Blockchain) (time : Int) :
    Except Fault (Block × Blockchain) := do
  let privBranchLen : Int := blockchain.privateBranch.length
  let newHeight ←
    if privBranchLen > 0 then do
      let tip ← index blockchain.privateBranch (privBranchLen - 1)
      pure (tip.height + 1)
    else pure (blockchain.height + 1)
  let block : Block := ⟨newHeight, blockchain.nextPrivateDifficulty, time, false⟩
  let blockchain1 ← blockchain.pushToPrivateChain block
  let blockchain2 ← blockchain1.adjustDifficulty true
  pure (block, blockchain2)

/-- The loop of `reorg` that moves the private branch, oldest block first, onto
the public chain.  Every iteration removes one private block, so
`len(privateBranch)` iterations are enough; the first argument is that bound. -/
def reorgPushLoop : Nat → Blockchain → Except Fault Blockchain
  | 0, blockchain => pure blockchain
  | n + 1, blockchain =>
    if blockchain.privateBranch.length > 0 then do
      let (block, blockchain1) ← blockchain.popFromPrivateChainBottom
      reorgPushLoop n (blockchain1.pushToChain block)
    else pure blockchain

/-- reorg will replace the main chain with the private branch. -/
def reorg (blockchain : Blockchain) : Except Fault Blockchain := do
  let numOrphanBlocks := blockchain.height - blockchain.forkHeight
  let blockchain1 ← (List.range numOrphanBlocks.toNat).foldlM
    (fun (bc : Blockchain) (_ : Nat) => do
      let (_, bc1) ← bc.popFromChain
      pure bc1) blockchain
  let blockchain2 ← reorgPushLoop blockchain1.privateBranch.length blockchain1
  let blockchain3 := blockchain2.setForkHeight 0
  pure { blockchain3 with nextDifficulty := blockchain3.nextPrivateDifficulty }

/-- reorgRace is called when the SM has a lead and wants to orphan an honest
block: pop the tip of the honest chain and add the 2 earliest fork blocks. -/
def reorgRace (blockchain : Blockchain) : Except Fault Blockchain := do
  let (_, blockchain1) ← blockchain.popFromChain
  let (b1, blockchain2) ← blockchain1.popFromPrivateChainBottom
  let blockchain3 := blockchain2.pushToChain b1
  let (b2, blockchain4) ← blockchain3.popFromPrivateChainBottom
  let blockchain5 := blockchain4.pushToChain b2
  let blockchain6 := blockchain5.setForkHeight (-1)
  blockchain6.adjustDifficulty false

/-- The selfish count, the total and the win ratio over `chain[STARTING_BLOCKS:]`. -/
def stats (blockchain : Blockchain) : Except Fault (Int × Int × ℚ) := do
  let blocks ← slice blockchain.chain STARTING_BLOCKS blockchain.chain.length
  let (hm, sm) := blocks.foldl
    (fun (c : Int × Int) block => if block.isHonest then (c.1 + 1, c.2) else (c.1, c.2 + 1))
    ((0 : Int), (0 : Int))
  let total := hm + sm
  let winRatio : ℚ := (sm : ℚ) / (total : ℚ)
  pure (sm, total, winRatio)

end Blockchain

/-! ## simulation.go -/

/-- Simulation holds the information regarding a certain simulation. -/
structure Simulation where
  blockchain : Blockchain
  expectedBlockTime : Int
  startTime : Int
  numSimBlocks : Int
  timewarpOffset : Int
  isTimewarp : Bool
  isBCHStrategic : Bool
  alpha : ℚ
  honestRatio : ℚ
  gamma : ℚ
  state : Int
  prevState : Int
  effectiveState : ℚ
  ifLose : ℚ
  realTime : Int
  stateHistory : List Int
  effectiveStateHistory : List ℚ
  simHistory : List ℚ
  ID : Int
deriving DecidableEq, Repr

/-- SimulationResult holds the results of a simulation. -/
structure SimulationResult where
  WinRatio : ℚ
  AdjustedWinning : ℚ
  SelfishSecondsPerBlock : ℚ
  RelativeGain : ℚ
  AdjustedRelativeGain : ℚ
  FinalHeight : Int
  NumReorgs : Int
  SmWinReorgs : Int
deriving DecidableEq, Repr

/-- The Go zero value of `SimulationResult` (`var res SimulationResult`). -/
def SimulationResult.zero : SimulationResult :=
  { WinRatio := 0, AdjustedWinning := 0, SelfishSecondsPerBlock := 0, RelativeGain := 0,
    AdjustedRelativeGain := 0, FinalHeight := 0, NumReorgs := 0, SmWinReorgs := 0 }

/-- The random draws one iteration of the `runSimulation` loop can consume:
`delay` is the truncated exponential sample of state 0, `delayHonest` and
`delaySelfish` are the results of `getDelays`, `coin` is `rand.Float64()`.
The fields are free inputs: they are not restricted to the values the samplers
can return at the rates of the current state. -/
structure Draw where
  delay : Int
  delayHonest : Int
  delaySelfish : Int
  coin : ℚ
deriving DecidableEq, Repr

namespace Simulation

/-- The Go zero value of `Simulation` (`var sim Simulation`). -/
def zero : Simulation :=
  { blockchain := Blockchain.zero, expectedBlockTime := 0, startTime := 0, numSimBlocks := 0,
    timewarpOffset := 0, isTimewarp := false, isBCHStrategic := false, alpha := 0,
    honestRatio := 0, gamma := 0, state := 0, prevState := 0, effectiveState := 0,
    ifLose := 0, realTime := 0, stateHistory := [], effectiveStateHistory := [],
    simHistory := [], ID := 0 }

/-- init will initialize the simulation with the given parameters. -/
def init (sim : Simulation) (alpha gamma : ℚ) (blocks timewarp : Int) (isBCHStrategic : Bool)
    (diffAlgo : Option Difficulty) (expectedBlockTime : Int) (id : Int) : Simulation :=
  let blockchain := { sim.blockchain with expectedBlockTime := expectedBlockTime }
  let blockchain := blockchain.Init
  let blockchain := blockchain.setDiffAlgo diffAlgo
  { sim with
    expectedBlockTime := expectedBlockTime
    blockchain := blockchain
    numSimBlocks := blocks
    isBCHStrategic := isBCHStrategic
    timewarpOffset := timewarp
    alpha := alpha
    honestRatio := 1 - alpha
    gamma := gamma
    state := 0
    effectiveState := 0
    realTime := blockchain.time
    startTime := startingBlocks * expectedBlockTime
    ID := id }

def reset (sim : Simulation) : Simulation :=
  let blockchain := sim.blockchain.Reset
  { sim with
    blockchain := blockchain
    state := 0
    effectiveState := 0
    realTime := blockchain.time
    stateHistory := []
    effectiveStateHistory := [] }

def setState (sim : Simulation) (state : Int) : Except Fault Simulation := do
  let (mainWork, privWork) ← sim.blockchain.getPostForkWork
  let effectiveState := privWork - mainWork
  let ifLose := effectiveState - sim.blockchain.nextDifficulty
  let privLen := sim.blockchain.privateBranch.length
  let prevState := sim.state
  let newState : Int :=
    if prevState = 1 ∧ privLen > 0 ∧ effectiveState = 0 then -1
    else if state = -1 then -1
    else if privLen = 0 then 0
    else if ifLose < 0 ∧ privLen > 0 then -1
    else if ifLose = 0 ∧ privLen > 0 then 1
    else if ifLose > 0 ∧ privLen > 0 then 2
    else sim.state
  pure { sim with
    effectiveState := effectiveState
    effectiveStateHistory := sim.effectiveStateHistory ++ [effectiveState]
    ifLose := ifLose
    prevState := prevState
    state := newState
    stateHistory := sim.stateHistory ++ [newState] }

def setRealTime (sim : Simulation) (timeOffset : Int) : Simulation :=
  { sim with realTime := sim.realTime + timeOffset }

def newPrivateBlock (sim : Simulation) : Except Fault Simulation := do
  let (_, blockchain) ← sim.blockchain.newPrivateBlock (sim.realTime + sim.timewarpOffset)
  pure { sim with blockchain := blockchain }

/-- getLambdas returns the lambdas for honest and selfish poisson. -/
def getLambdas (sim : Simulation) : ℚ × ℚ :=
  let lambdaHonest : ℚ :=
    1 / ((sim.blockchain.nextDifficulty * (sim.expectedBlockTime : ℚ)) / sim.honestRatio)
  let lambdaSelfish : ℚ :=
    1 / ((sim.blockchain.nextPrivateDifficulty * (sim.expectedBlockTime : ℚ)) / sim.alpha)
  (lambdaHonest, lambdaSelfish)

/-- zeroToOne occurs when a selfish miner has mined a block and STARTED a private branch. -/
def zeroToOne (sim : Simulation) : Except Fault Simulation := do
  let sim1 := { sim with blockchain := sim.blockchain.setForkHeight (-1) }
  let sim2 ← sim1.newPrivateBlock
  sim2.setState 1

/-- oneToTwo occurs when selfish miner now has two blocks on private branch. -/
def oneToTwo (sim : Simulation) (delay : Int) : Except Fault Simulation := do
  let sim1 := sim.setRealTime delay
  let sim2 ← sim1.newPrivateBlock
  sim2.setState (sim2.state + 1)

def moreThanTwo (sim : Simulation) (delay : Int) : Except Fault Simulation := do
  let sim1 := sim.setRealTime delay
  let sim2 ← sim1.newPrivateBlock
  sim2.setState (sim2.state + 1)

/-- moreThanTwoHonestWins occurs when selfish has a lead >= 2. -/
def moreThanTwoHonestWins (sim : Simulation) (delay : Int) : Except Fault Simulation := do
  let sim1 := sim.setRealTime delay
  let (_, blockchain2) ← sim1.blockchain.newBlock sim1.realTime
  let sim2 := { sim1 with blockchain := blockchain2 }
  let sim3 ← sim2.setState 0
  if sim3.ifLose < 0 ∧ sim3.blockchain.privateBranch.length > 0 then do
    let blockchain4 ← sim3.blockchain.reorg
    let sim4 := { sim3 with blockchain := blockchain4 }
    sim4.setState 0
  else pure sim3

/-- smWinsRace: the selfish miner mines the next block during a race. -/
def smWinsRace (sim : Simulation) (delay : Int) : Except Fault Simulation := do
  let sim1 := sim.setRealTime delay
  let sim2 ← sim1.newPrivateBlock
  let blockchain3 ← sim2.blockchain.reorg
  let sim3 := { sim2 with blockchain := blockchain3 }
  sim3.setState 0

/-- hmOnSm occurs when there is a race, but the HM mines a new block on top of
the SM block. -/
def hmOnSm (sim : Simulation) (delay : Int) : Except Fault Simulation := do
  let sim1 := sim.setRealTime delay
  let blockchain2 ← sim1.blockchain.reorg
  let (_, blockchain3) ← blockchain2.newBlock sim1.realTime
  let blockchain4 := { blockchain3 with nextPrivateDifficulty := blockchain3.nextDifficulty }
  let blockchain5 := blockchain4.setForkHeight 0
  let sim5 := { sim1 with blockchain := blockchain5 }
  sim5.setState 0

/-- hmWinsRace occurs when SM had a one block lead, HM mines the next block and
SM publishes her block but loses the race. -/
def hmWinsRace (sim : Simulation) (delay : Int) : Except Fault Simulation := do
  let sim1 := sim.setRealTime delay
  let (_, blockchain2) ← sim1.blockchain.newBlock sim1.realTime
  let blockchain3 ← Blockchain.popPrivateLoop blockchain2.privateBranch.length blockchain2
  let blockchain4 := { blockchain3 with nextPrivateDifficulty := blockchain3.nextDifficulty }
  let blockchain5 := blockchain4.setForkHeight 0
  let sim5 := { sim1 with blockchain := blockchain5 }
  sim5.setState 0

/-- The guard of the `runSimulation` loop. -/
def loopCond (sim : Simulation) : Bool :=
  decide (sim.blockchain.height < startingBlocks + sim.numSimBlocks) ||
    decide (sim.blockchain.privateBranch.length ≠ 0)

/-- The `Priv height` field of the log record written at the head of every
iteration: `len(getPrivateView())` when the private branch is non-empty. -/
def privHeight (sim : Simulation) : Except Fault Int :=
  if sim.blockchain.privateBranch.length > 0 then do
    let view ← sim.blockchain.getPrivateView
    pure (view.length : Int)
  else pure 0

/-- The branch `sim.state == 0` of the loop: no private branch, both mining at
the same tip. -/
def stepZero (sim : Simulation) (res : SimulationResult) (d : Draw) :
    Except Fault (Simulation × SimulationResult) := do
  let sim1 := { sim with
    blockchain := { sim.blockchain with
      nextPrivateDifficulty := sim.blockchain.nextDifficulty } }
  let sim2 := sim1.setRealTime d.delay
  if d.coin ≤ sim2.alpha then do
    let sim3 ← sim2.zeroToOne
    pure (sim3, res)
  else do
    let (_, blockchain3) ← sim2.blockchain.newBlock sim2.realTime
    pure ({ sim2 with blockchain := blockchain3 }, res)

/-- The branch `sim.state == 1` of the loop: the selfish miner has a private
chain of length 1. -/
def stepOne (sim : Simulation) (res : SimulationResult) (d : Draw) :
    Except Fault (Simulation × SimulationResult) := do
  if d.delaySelfish < d.delayHonest then do
    let sim1 ← sim.oneToTwo d.delaySelfish
    pure (sim1, res)
  else do
    let sim1 := sim.setRealTime d.delayHonest
    let (_, blockchain2) ← sim1.blockchain.newBlock sim1.realTime
    let sim2 := { sim1 with blockchain := blockchain2 }
    let sim3 ← sim2.setState (-1)
    pure (sim3, res)

/-- The branch `sim.state >= 2` of the loop: the selfish miner has a lead of
more than 1. -/
def stepLead (sim : Simulation) (res : SimulationResult) (d : Draw) :
    Except Fault (Simulation × SimulationResult) := do
  if d.delaySelfish < d.delayHonest then do
    let sim1 ← sim.moreThanTwo d.delaySelfish
    pure (sim1, res)
  else do
    let sim1 ← sim.moreThanTwoHonestWins d.delayHonest
    pure (sim1, res)

/-- The branch `sim.state == -1` of the loop: the race. -/
def stepRace (sim : Simulation) (res : SimulationResult) (d : Draw) :
    Except Fault (Simulation × SimulationResult) := do
  let res1 := { res with NumReorgs := res.NumReorgs + 1 }
  if d.delaySelfish < d.delayHonest then do
    let sim1 ← sim.smWinsRace d.delaySelfish
    pure (sim1, { res1 with SmWinReorgs := res1.SmWinReorgs + 1 })
  else if d.coin < sim.gamma then do
    let sim1 ← sim.hmOnSm d.delayHonest
    pure (sim1, res1)
  else do
    let sim1 ← sim.hmWinsRace d.delayHonest
    pure (sim1, res1)

/-- One iteration of the `runSimulation` loop, on the draws `d`: the log
record, then the first branch whose guard holds; an iteration in which no
guard holds changes nothing. -/
def loopBody (sim : Simulation) (res : SimulationResult) (d : Draw) :
    Except Fault (Simulation × SimulationResult) :=
  sim.privHeight >>= fun _ =>
    if sim.state = 0 then sim.stepZero res d
    else if sim.state = 1 then sim.stepOne res d
    else if sim.state ≥ 2 then sim.stepLead res d
    else if sim.state = -1 then sim.stepRace res d
    else pure (sim, res)

end Simulation

/-- The states of a run of `runSimulation` at the head of its loop: the state
`init` leaves from the zero value, and every state an iteration whose guard
holds produces from such a state, for any draws. -/
inductive Reachable : Simulation → SimulationResult → Prop where
  | start (alpha gamma : ℚ) (blocks timewarp : Int) (isBCHStrategic : Bool)
      (diffAlgo : Option Difficulty) (expectedBlockTime id : Int) :
      Reachable
        (Simulation.zero.init alpha gamma blocks timewarp isBCHStrategic diffAlgo
          expectedBlockTime id)
        SimulationResult.zero
  | step {sim sim1 : Simulation} {res res1 : SimulationResult} (d : Draw) :
      Reachable sim res → sim.loopCond = true → sim.loopBody res d = .ok (sim1, res1) →
      Reachable sim1 res1

/-- The loop of `runSimulation` on the draws `draws`, one per iteration; `none`
when the draws run out while the guard of the loop still holds. -/
def Simulation.runLoop :
    List Draw → Simulation → SimulationResult →
      Except Fault (Option (Simulation × SimulationResult))
  | [], sim, res => if sim.loopCond then pure none else pure (some (sim, res))
  | d :: rest, sim, res =>
    if sim.loopCond then do
      let (sim1, res1) ← sim.loopBody res d
      runLoop rest sim1 res1
    else pure (some (sim, res))

/-- The part of `runSimulation` after the loop: the height check over
`chain[0..height]`, the statistics and the emitted result. -/
def Simulation.report (sim : Simulation) (res : SimulationResult) :
    Except Fault (Simulation × SimulationResult) := do
  let _ ← (List.range (sim.blockchain.height + 1).toNat).foldlM
    (fun (_ : Unit) (i : Nat) => do
      let _block ← index sim.blockchain.chain (i : Int)
      pure ()) ()
  let (sm, _, winRatio) ← sim.blockchain.stats
  let elapsedTime := sim.realTime - sim.startTime
  let timeRatio : ℚ := (elapsedTime : ℚ) /
    (((sim.blockchain.height - startingBlocks) * sim.expectedBlockTime : Int) : ℚ)
  let res := { res with WinRatio := winRatio }
  let res := { res with AdjustedWinning := winRatio / timeRatio }
  let res := { res with RelativeGain := (winRatio - sim.alpha) / sim.alpha }
  let res := { res with AdjustedRelativeGain := (res.AdjustedWinning - sim.alpha) / sim.alpha }
  if sm = 0 then
    pure (sim, { res with SelfishSecondsPerBlock := -1 })
  else
    let res := { res with SelfishSecondsPerBlock := (elapsedTime : ℚ) / (sm : ℚ) }
    let sim := { sim with simHistory := sim.simHistory ++ [res.SelfishSecondsPerBlock] }
    pure (sim, { res with FinalHeight := sim.blockchain.height })

/-- runSimulation on the draws `draws`: the loop, then the emitted result. -/
def Simulation.runSimulation (sim : Simulation) (draws : List Draw) :
    Except Fault (Option (Simulation × SimulationResult)) := do
  match ← sim.runLoop draws SimulationResult.zero with
  | none => pure none
  | some (sim1, res) => do
    let r ← sim1.report res
    pure (some r)

/-- The states at the head of the `runSimulation` loop that are reached through
iterations whose draws all satisfy `P`. -/
inductive ReachableWith (P : Draw → Prop) : Simulation → SimulationResult → Prop where
  | start (alpha gamma : ℚ) (blocks timewarp : Int) (isBCHStrategic : Bool)
      (diffAlgo : Option Difficulty) (expectedBlockTime id : Int) :
      ReachableWith P
        (Simulation.zero.init alpha gamma blocks timewarp isBCHStrategic diffAlgo
          expectedBlockTime id)
        SimulationResult.zero
  | step {sim sim1 : Simulation} {res res1 : SimulationResult} (d : Draw) :
      P d → ReachableWith P sim res → sim.loopCond = true →
      sim.loopBody res d = .ok (sim1, res1) → ReachableWith P sim1 res1

/-! ## Specification vocabulary and sample states -/

/-- The block `Init` mints at height `i`. -/
def baseline (T : Int) (i : Nat) : Block := ⟨(i : Int), BASElINE_DIFFICULTY, (i : Int) * T, true⟩

/-- The block `Init` mints at height `i` in 64-bit arithmetic. -/
def baseline64 (T : Int) (i : Nat) : Block :=
  ⟨(i : Int), BASElINE_DIFFICULTY, wrapInt64 ((i : Int) * T), true⟩

/-- The timestamp of the last block of `bs`, or `t` when there is none. -/
def lastTime (t : Int) (bs : List Block) : Int :=
  match bs.getLast? with
  | some b => b.timestamp
  | none => t

/-- The height of the last block of the public chain. -/
def tipHeight (bc : Blockchain) : Option Int :=
  bc.chain.getLast?.map (fun b => b.height)

/-- The chain-store invariants: `chain[i].height == i`, `height == len(chain) - 1`,
`0 <= forkHeight <= len(chain) - 1`, and the private branch has consecutive
heights from `forkHeight + 1`. -/
structure ChainInv (bc : Blockchain) : Prop where
  heights : ∀ (i : Nat) (h : i < bc.chain.length), (bc.chain.get ⟨i, h⟩).height = (i : Int)
  height_eq : bc.height = (bc.chain.length : Int) - 1
  fork_nonneg : 0 ≤ bc.forkHeight
  fork_le : bc.forkHeight ≤ (bc.chain.length : Int) - 1
  priv : ∀ (k : Nat) (h : k < bc.privateBranch.length),
    (bc.privateBranch.get ⟨k, h⟩).height = bc.forkHeight + 1 + (k : Int)

/-- A block of difficulty 1 at height `h`, stamped `600 * h`. -/
def sampleBlock (h : Int) (isHonest : Bool) : Block := ⟨h, 1, 600 * h, isHonest⟩

/-- Three public blocks, a fork at height 1 and two private blocks on it. -/
def forkedChain : Blockchain :=
  { Blockchain.zero with
    chain := [sampleBlock 0 true, sampleBlock 1 true, sampleBlock 2 true]
    privateBranch := [sampleBlock 2 false, sampleBlock 3 false]
    height := 2, forkHeight := 1, time := 1800
    nextDifficulty := 1, nextPrivateDifficulty := 2, expectedBlockTime := 600 }

/-- Three public blocks, a fork at height 1 and one private block on it: the
public chain and the private branch both hold one block past the fork. -/
def racingChain : Blockchain :=
  { Blockchain.zero with
    chain := [sampleBlock 0 true, sampleBlock 1 true, sampleBlock 2 true]
    privateBranch := [sampleBlock 2 false]
    height := 2, forkHeight := 1, time := 1200
    nextDifficulty := 1, nextPrivateDifficulty := 1, expectedBlockTime := 600 }

/-- One public block and a negative fork height. -/
def negativeForkChain : Blockchain :=
  { Blockchain.zero with
    chain := [sampleBlock 0 true], height := 0, forkHeight := -2
    nextDifficulty := 1, nextPrivateDifficulty := 1, expectedBlockTime := 600 }

/-- The chain a DAA reads: the private view or the public chain. -/
def Blockchain.view (bc : Blockchain) (isPrivate : Bool) : Except Fault (List Block) :=
  if isPrivate then bc.getPrivateView else pure bc.chain

/-- BTC default parameters of `algoMap`. -/
def btcDefault : btcDifficulty := ⟨2016, true⟩

/-- The time span the BTC `getDiff` divides by: `elapsed` capped at
`period * 4 * T` and raised to `(period / 4) * T`, the quotient `period / 4`
being the integer one. -/
def btcClamp (period T elapsed : Int) : Int :=
  max ((period / 4) * T) (min (period * 4 * T) elapsed)

/-- The value C10 states for the BTC `getDiff` at a period boundary:
`work * T / clamp(elapsed, period*T/4, period*4*T)`. -/
def btcStatedDiff (period T : Int) (work : ℚ) (elapsed : Int) : ℚ :=
  work * (T : ℚ) / max ((period : ℚ) * (T : ℚ) / 4) (min ((period : ℚ) * 4 * (T : ℚ)) (elapsed : ℚ))

/-- Four public blocks of difficulty 1, the last one second after the third. -/
def shortPeriodChain : Blockchain :=
  { Blockchain.zero with
    chain := [⟨0, 1, 0, true⟩, ⟨1, 1, 4, true⟩, ⟨2, 1, 8, true⟩, ⟨3, 1, 9, true⟩]
    height := 3, time := 9
    nextDifficulty := 1, nextPrivateDifficulty := 1, expectedBlockTime := 4 }

/-- The work the BTC `getDiff` sums: the difficulties of `view[L-period .. L-2]`. -/
def btcWork (view : List Block) (period : Int) : ℚ :=
  (((view.drop ((view.length : Int) - period).toNat).take (period - 1).toNat).map
    (fun blk => blk.difficulty)).sum

/-- The invariant of the strategy machine at the head of the loop. -/
structure SimInv (sim : Simulation) : Prop where
  store : ChainInv sim.blockchain
  state_zero : sim.state = 0 ↔ sim.blockchain.privateBranch = []
  fork_zero : sim.blockchain.privateBranch = [] → sim.blockchain.forkHeight = 0

/-- The state `init` leaves for BTC with alpha 1/3, gamma 1/2, 5000 blocks, no
timewarp and block time 600, over the public chain `chain0`. -/
def btcSimOn (chain0 : List Block) : Simulation :=
  { blockchain :=
      { chain := chain0, privateBranch := [], forkHistory := [], height := 2999,
        forkHeight := 0, time := 1799400, privateTime := 0, nextDifficulty := 1,
        nextPrivateDifficulty := 1, diffAlgo := some (.btc btcDefault),
        expectedBlockTime := 600 }
    expectedBlockTime := 600, startTime := 1800000, numSimBlocks := 5000, timewarpOffset := 0
    isTimewarp := false, isBCHStrategic := false, alpha := 1 / 3, honestRatio := 1 - 1 / 3
    gamma := 1 / 2, state := 0, prevState := 0, effectiveState := 0, ifLose := 0
    realTime := 1799400, stateHistory := [], effectiveStateHistory := [], simHistory := []
    ID := 1 }

/-- The state one selfish block later: a fork at height 2999 and one private
block stamped ten seconds after the public tip. -/
def btcSimForkedOn (chain0 : List Block) : Simulation :=
  { btcSimOn chain0 with
    blockchain := { (btcSimOn chain0).blockchain with
      privateBranch := [⟨3000, 1, 1799410, false⟩]
      forkHistory := [2999]
      forkHeight := 2999
      time := 1799410 }
    realTime := 1799410
    effectiveState := 1
    effectiveStateHistory := [1]
    ifLose := 0
    prevState := 0
    state := 1
    stateHistory := [1] }

/-- A BTC simulation as `main` sets it up. -/
def btcSim : Simulation :=
  Simulation.zero.init (1 / 3) (1 / 2) 5000 0 false (some (.btc btcDefault)) 600 1

/-- Draws on which the selfish miner finds the next block after 10 seconds. -/
def selfishDraw : Draw := ⟨10, 0, 0, 0⟩

/-- The state after the selfish miner has found the first block of `btcSim`. -/
def btcSimForked : Simulation := btcSimForkedOn ((List.range 3000).map (baseline 600))

/-- The state C19 states for `setState`: race when the old state is 1, the
private branch is non-empty and `effectiveState == 0`; otherwise race when the
argument is -1; otherwise 0 when the private branch is empty; otherwise -1, 1
or 2 by the sign of `ifLose`. -/
def statedState (prevState : Int) (privLen : Nat) (effectiveState ifLose : ℚ) (s : Int) : Int :=
  if prevState = 1 ∧ privLen > 0 ∧ effectiveState = 0 then -1
  else if s = -1 then -1
  else if privLen = 0 then 0
  else if ifLose < 0 then -1
  else if ifLose = 0 then 1
  else 2

/-- A simulation over `racingChain`, in state 2. -/
def racingSim : Simulation :=
  { Simulation.zero with blockchain := racingChain, state := 2, expectedBlockTime := 600 }

/-- The state two selfish blocks after `btcSimOn`: a lead of two. -/
def btcSimLeadOn (chain0 : List Block) : Simulation :=
  { btcSimForkedOn chain0 with
    blockchain := { (btcSimForkedOn chain0).blockchain with
      privateBranch := [⟨3000, 1, 1799410, false⟩, ⟨3001, 1, 1799415, false⟩]
      time := 1799415 }
    realTime := 1799415
    effectiveState := 2
    effectiveStateHistory := [1, 2]
    ifLose := 1
    prevState := 1
    state := 2
    stateHistory := [1, 2] }

/-- Draws on which the selfish miner is first, after 5 seconds. -/
def selfishFirstDraw : Draw := ⟨0, 20, 5, 0⟩

/-- The state after the selfish miner has found the first two blocks of `btcSim`. -/
def btcSimLead : Simulation := btcSimLeadOn ((List.range 3000).map (baseline 600))

/-- The chain store of `btcSimLead` after an honest block 30 seconds later. -/
def btcLeadAfterHonest : Blockchain :=
  { btcSimLead.blockchain with
    chain := btcSimLead.blockchain.chain ++ [⟨3000, 1, 1799445, true⟩]
    height := 3000
    time := 1799445 }

/-- Three public blocks, the last of difficulty 1/20, under the BTC defaults. -/
def lowDifficultyChain : Blockchain :=
  { Blockchain.zero with
    chain := [⟨0, 1, 0, true⟩, ⟨1, 1, 600, true⟩, ⟨2, 1 / 20, 1200, true⟩]
    height := 2, time := 1200
    nextDifficulty := 1, nextPrivateDifficulty := 1
    diffAlgo := some (.btc btcDefault), expectedBlockTime := 600 }

/-- BCH default parameters of `algoMap`. -/
def bchDefault : bchDifficulty := ⟨144, true, 3⟩

/-- The body of the BCH `getDiff` on the chain it has selected. -/
def bchDifficulty.onView (b : bchDifficulty) (T : Int) (chain : List Block) : Except Fault ℚ := do
  let chainLen : Int := chain.length
  let top3 ← slice chain (chainLen - b.Mediantimepast) chainLen
  let bottom3 ← slice chain (chainLen - b.Lookback - b.Mediantimepast) (chainLen - b.Lookback)
  let topMed ← median top3
  let bottomMed ← median bottom3
  let subChain ← slice chain bottomMed.height (topMed.height + 1)
  let totalTime := topMed.timestamp - bottomMed.timestamp
  let totalWork := sumBlocks subChain
  let totalTime :=
    if totalTime > 2 * b.Lookback * T then 2 * b.Lookback * T
    else if totalTime < (b.Lookback * T).tdiv 2 then (b.Lookback * T).tdiv 2
    else totalTime
  let newDiff := (totalWork * (T : ℚ)) / (totalTime : ℚ)
  if newDiff < 1 / 10 then .error .fatal
  else pure newDiff

/-- The block `b` with `c` added to its timestamp. -/
def shiftBlock (c : Int) (b : Block) : Block := { b with timestamp := b.timestamp + c }

/-- The chain store with `c` added to the timestamp of every public and
private block. -/
def Blockchain.shiftTimestamps (bc : Blockchain) (c : Int) : Blockchain :=
  { bc with
    chain := bc.chain.map (shiftBlock c)
    privateBranch := bc.privateBranch.map (shiftBlock c) }

/-- Dash default parameters of `algoMap`. -/
def dashDefault : dashDifficulty := ⟨24, true⟩

/-- The chain the Dash `getDiff` reads and the index `pIndexLast` it starts
from: the private view and the height of the private tip, or the public chain
and `height`. -/
def dashSource (isPrivate : Bool) (blockchain : Blockchain) : Except Fault (List Block × Int) :=
  if isPrivate then do
    let privBranchLen : Int := blockchain.privateBranch.length
    let tip ← index blockchain.privateBranch (privBranchLen - 1)
    let chain ← blockchain.getPrivateView
    pure (chain, tip.height)
  else pure (blockchain.chain, blockchain.height)

/-- The loop of the Dash `getDiff`: walks back from `pIndexLast` and returns the
final `pIndex` and `bnPastTargetAvg`. -/
def dashDifficulty.walk (d : dashDifficulty) (chain : List Block) (pIndexLast : Int) :
    Except Fault (Int × ℚ) :=
  (List.range d.NPastBlocks.toNat).foldlM
    (fun (st : Int × ℚ) (i : Nat) => do
      let nBlock : Int := (i : Int) + 1
      let blk ← index chain st.1
      let bnTarget : ℚ := 1 / blk.difficulty
      let bnPastTargetAvg : ℚ :=
        if nBlock = 1 then bnTarget
        else (st.2 * (nBlock : ℚ) + bnTarget) / ((nBlock + 1 : Int) : ℚ)
      let pIndex := if nBlock ≠ d.NPastBlocks then st.1 - 1 else st.1
      pure (pIndex, bnPastTargetAvg))
    (pIndexLast, (0 : ℚ))

/-- The averaged target and the time span `nActualTimestamp`, before it is
clamped, that the Dash `getDiff` computes on `chain` from `pIndexLast`. -/
def dashDifficulty.measure (d : dashDifficulty) (chain : List Block) (pIndexLast : Int) :
    Except Fault (ℚ × Int) := do
  let (pIndex, bnPastTargetAvg) ← d.walk chain pIndexLast
  let pIndex := if !d.OffByOne then pIndex - 1 else pIndex
  let last ← index chain pIndexLast
  let first ← index chain pIndex
  pure (bnPastTargetAvg, last.timestamp - first.timestamp)

/-- The end of the Dash `getDiff`: clamp the time span and scale the averaged
target. -/
def dashFinish (T nPastBlocks : Int) (bnPastTargetAvg : ℚ) (nActualTimestamp : Int) : ℚ :=
  let nTargetTimestamp := T * nPastBlocks
  let nActualTimestamp :=
    if nActualTimestamp > nTargetTimestamp * 3 then nTargetTimestamp * 3
    else if (nActualTimestamp : ℚ) < (nTargetTimestamp : ℚ) / 3 then nTargetTimestamp.tdiv 3
    else nActualTimestamp
  1 / (bnPastTargetAvg * ((nActualTimestamp : ℚ) / (nTargetTimestamp : ℚ)))

/-- The targets `1 / difficulty` of the last `n` blocks of `view`, the tip first. -/
def dashTargets (view : List Block) (n : Nat) : List ℚ :=
  (view.reverse.take n).map (fun b => 1 / b.difficulty)

/-- The average the Dash walk produces: the recurrence `avg_1 = target_1`,
`avg_k = (avg_(k-1) * k + target_k) / (k + 1)` in closed form, which counts the
tip's target twice and divides by one more than the number of targets. -/
def dashWeightedAvg (targets : List ℚ) : ℚ :=
  (targets.headD 0 + targets.sum) / ((targets.length : ℚ) + 1)

/-- The arithmetic mean of `targets`. -/
def arithmeticMean (targets : List ℚ) : ℚ :=
  targets.sum / (targets.length : ℚ)

/-- The time span C12 states for the Dash `getDiff`:
`tip.timestamp - view[tip - n].timestamp` with the off-by-one option disabled,
`tip.timestamp - view[tip - n - 1].timestamp` with it enabled. -/
def dashStatedTimespan (view : List Block) (n : Int) (offByOne : Bool) : Option Int := do
  let tip ← view[view.length - 1]?
  let first ← view[((view.length : Int) - 1 - n - (if offByOne then 1 else 0)).toNat]?
  pure (tip.timestamp - first.timestamp)

/-- Four public blocks with uneven timestamps, the third of difficulty 1/2. -/
def unevenChain : Blockchain :=
  { Blockchain.zero with
    chain := [⟨0, 1, 0, true⟩, ⟨1, 1, 10, true⟩, ⟨2, 1 / 2, 30, true⟩, ⟨3, 1, 70, true⟩]
    height := 3, time := 70
    nextDifficulty := 1, nextPrivateDifficulty := 1, expectedBlockTime := 150 }

/-- Zcash default parameters of `algoMap`. -/
def zecDefault : zecDifficulty := ⟨17, 11, 16, 32, 4⟩

/-- The blocks `bMedian` and `aMedian` the Zcash `getDiff` computes on `chain`. -/
def zecDifficulty.medians (z : zecDifficulty) (chain : List Block) :
    Except Fault (Block × Block) := do
  let B ← index chain ((chain.length : Int) - 1)
  let A ← index chain ((chain.length : Int) - 1 - z.NAveragingInterval)
  let bWindow ← slice chain (B.height - z.NMedianTimespan) B.height
  let bMedian ← median bWindow
  let aWindow ← slice chain (A.height - z.NMedianTimespan) A.height
  let aMedian ← median aWindow
  pure (bMedian, aMedian)

/-- The dampened time span `nActualTimespanf` of the Zcash `getDiff`, before it
is clamped. -/
def zecDampened (z : zecDifficulty) (T : Int) (nActualTimespan : Int) : ℚ :=
  ((z.NAveragingInterval * T : Int) : ℚ) +
    ((nActualTimespan - z.NAveragingInterval * T : Int) : ℚ) / z.NPOWDampeningFactor

/-- The lower end of the Zcash clamp interval, `nMinActualTimespanV3`. -/
def zecMinTimespan (z : zecDifficulty) (T : Int) : ℚ :=
  ((z.NAveragingInterval * T : Int) : ℚ) * ((100 - z.NMaxAdjustUp : Int) : ℚ) / 100

/-- The upper end of the Zcash clamp interval, `nMaxActualTimespanV3`. -/
def zecMaxTimespan (z : zecDifficulty) (T : Int) : ℚ :=
  ((z.NAveragingInterval * T : Int) : ℚ) * ((100 + z.NMaxAdjustDown : Int) : ℚ) / 100

/-- The clamped time span of the Zcash `getDiff`. -/
def zecClamped (z : zecDifficulty) (T : Int) (nActualTimespan : Int) : ℚ :=
  if zecDampened z T nActualTimespan < zecMinTimespan z T then zecMinTimespan z T
  else if zecDampened z T nActualTimespan > zecMaxTimespan z T then zecMaxTimespan z T
  else zecDampened z T nActualTimespan

/-- The averaged target `nAvgTarget` of the Zcash `getDiff` over `window`. -/
def zecAvgTarget (z : zecDifficulty) (window : List Block) : ℚ :=
  window.foldl (fun t block => t + 1 / block.difficulty) 0 / (z.NAveragingInterval : ℚ)

/-- The difficulty the Zcash `getDiff` returns for a time span and a window. -/
def zecFinish (z : zecDifficulty) (T : Int) (nActualTimespan : Int) (window : List Block) : ℚ :=
  1 / (zecAvgTarget z window / ((z.NAveragingInterval * T : Int) : ℚ)
    * zecClamped z T nActualTimespan)

/-- The body of the Zcash `getDiff` on the chain it has selected. -/
def zecDifficulty.onView (z : zecDifficulty) (T : Int) (chain : List Block) :
    Except Fault ℚ := do
  let B ← index chain ((chain.length : Int) - 1)
  let (bMedian, aMedian) ← z.medians chain
  let window ← slice chain (B.height - z.NAveragingInterval) B.height
  let _top30 ← slice chain ((chain.length : Int) - 30) chain.length
  pure (zecFinish z T (bMedian.timestamp - aMedian.timestamp) window)

/-- Every block of `view` sits at the index equal to its height. -/
def HeightsMatch (view : List Block) : Prop :=
  ∀ (i : Nat) (b : Block), view[i]? = some b → b.height = (i : Int)

/-- Every block of `view` has a positive difficulty. -/
def PositiveDifficulties (view : List Block) : Prop :=
  ∀ b ∈ view, 0 < b.difficulty

/-- The blocks `view[lo], ..., view[hi-1]`. -/
def window (view : List Block) (lo hi : Nat) : List Block :=
  (view.take hi).drop lo

/-- Block `i` of `view` has height `i` and timestamp `i * T`. -/
def Paced (T : Int) (view : List Block) : Prop :=
  ∀ (i : Nat) (b : Block), view[i]? = some b →
    b.height = (i : Int) ∧ b.timestamp = (i : Int) * T

/-- Block `i` of `view` has height `i`, difficulty 1.0 and timestamp `i * T`. -/
def Steady (T : Int) (view : List Block) : Prop :=
  ∀ (i : Nat) (b : Block), view[i]? = some b →
    b.height = (i : Int) ∧ b.difficulty = 1 ∧ b.timestamp = (i : Int) * T

/-- A chain store holding the `n` baseline blocks of block time `T`, as `Init`
leaves it for `n = STARTING_BLOCKS`. -/
def steadyChain (T : Int) (n : Nat) : Blockchain :=
  { Blockchain.zero with
    chain := (List.range n).map (baseline T)
    height := (n : Int) - 1
    time := ((n : Int) - 1) * T
    nextDifficulty := 1, nextPrivateDifficulty := 1
    expectedBlockTime := T }

/-- The medians C14 states: of the `n_median_timespan` consecutive blocks that
end with, and include, `B = view[len-1]`, and of those that end with, and
include, `A = view[len-1-n_averaging_interval]`. -/
def zecStatedMedians (z : zecDifficulty) (view : List Block) : Except Fault (Block × Block) := do
  let bMedian ← median (window view (view.length - z.NMedianTimespan.toNat) view.length)
  let aMedian ← median (window view
    (view.length - z.NAveragingInterval.toNat - z.NMedianTimespan.toNat)
    (view.length - z.NAveragingInterval.toNat))
  pure (bMedian, aMedian)

/-- Monero default parameters of `algoMap`. -/
def xmrDefault : xmrDifficulty := ⟨720, 15, 60⟩

/-- The total work and the time span the Monero `getDiff` computes on the chain
it has selected. -/
def xmrDifficulty.measure (x : xmrDifficulty) (chain : List Block) : Except Fault (ℚ × Int) :=
  let chainHeight : Int := (chain.length : Int) - 1
  if x.Lookback < 0 then .error .makeSliceLen
  else do
    let examineChain ← (List.range x.Lookback.toNat).foldlM
      (fun (acc : List Block) (j : Nat) => do
        let blk ← index chain (chainHeight - x.Lookback - x.Delay + (j : Int))
        pure (acc ++ [blk])) []
    let timestampList := (examineChain.map (fun blk => blk.timestamp)).insertionSort (· ≤ ·)
    let timestampListOutliersRemoved ←
      slice timestampList x.Outliers ((timestampList.length : Int) - x.Outliers)
    let hi ← index timestampListOutliersRemoved
      ((timestampListOutliersRemoved.length : Int) - 1)
    let lo ← index timestampListOutliersRemoved 0
    let diffOutliersRemoved ←
      slice examineChain x.Outliers ((examineChain.length : Int) - x.Outliers)
    pure (sumBlocks diffOutliersRemoved, hi - lo)

/-- The blocks the Monero defaults examine: `view[L-736 .. L-17]`. -/
def xmrExamined (view : List Block) : List Block :=
  window view (view.length - 736) (view.length - 16)

/-- The sorted timestamps of the examined blocks. -/
def xmrSortedTimes (view : List Block) : List Int :=
  ((xmrExamined view).map (fun blk => blk.timestamp)).insertionSort (· ≤ ·)

/-- The block of height `i`, difficulty 1/1000 and timestamp `i * T`. -/
def faintBlock (T : Int) (i : Nat) : Block := ⟨(i : Int), 1 / 1000, (i : Int) * T, true⟩

/-- A chain store of `n` blocks of difficulty 1/1000, `T` seconds apart. -/
def faintChain (T : Int) (n : Nat) : Blockchain :=
  { Blockchain.zero with
    chain := (List.range n).map (faintBlock T)
    height := (n : Int) - 1
    time := ((n : Int) - 1) * T
    nextDifficulty := 1 / 1000, nextPrivateDifficulty := 1 / 1000
    expectedBlockTime := T }

/-- The run parameters, which no step of the simulation changes: `alpha`,
`honestRatio`, `gamma`, `numSimBlocks`, `timewarpOffset`, both copies of the
block time, `startTime` and the DAA. -/
def Simulation.params (sim : Simulation) :
    ℚ × ℚ × ℚ × Int × Int × Int × Int × Int × Option Difficulty :=
  (sim.alpha, sim.honestRatio, sim.gamma, sim.numSimBlocks, sim.timewarpOffset,
    sim.expectedBlockTime, sim.startTime, sim.blockchain.expectedBlockTime,
    sim.blockchain.diffAlgo)

/-- The value `d` is what the DAA `algo` returns on some chain state of block
time `T` on which it reads the chain `view` and the tip height `tip`. -/
def DaaValue (algo : Difficulty) (T : Int) (view : List Block) (tip : Int) (d : ℚ) : Prop :=
  ∃ (isPrivate : Bool) (bc : Blockchain), bc.expectedBlockTime = T ∧
    dashSource isPrivate bc = .ok (view, tip) ∧ algo.getDiff isPrivate bc = .ok d

/-- The work of the public chain past the fork: the sum of difficulty over
`chain[forkHeight+1:]`. -/
def Blockchain.mainWork (bc : Blockchain) : ℚ :=
  ((bc.chain.drop (bc.forkHeight + 1).toNat).map (fun b => b.difficulty)).sum

/-- The work of the private branch: the sum of difficulty over it. -/
def Blockchain.privWork (bc : Blockchain) : ℚ :=
  (bc.privateBranch.map (fun b => b.difficulty)).sum

/-- The public chain holds the starting blocks, and a fork lies at or above the
last starting block. -/
structure Grounded (bc : Blockchain) : Prop where
  long : 3000 ≤ bc.chain.length
  fork_high : bc.privateBranch ≠ [] → 2999 ≤ bc.forkHeight

/-- The state `init` leaves for the BTC defaults with block time 600, for the
given `alpha`, `gamma`, number of blocks and timewarp offset, over the public
chain `chain0`. -/
def simOn (alpha gamma : ℚ) (blocks tw : Int) (chain0 : List Block) : Simulation :=
  { blockchain :=
      { chain := chain0, privateBranch := [], forkHistory := [], height := 2999,
        forkHeight := 0, time := 1799400, privateTime := 0, nextDifficulty := 1,
        nextPrivateDifficulty := 1, diffAlgo := some (.btc btcDefault),
        expectedBlockTime := 600 }
    expectedBlockTime := 600, startTime := 1800000, numSimBlocks := blocks
    timewarpOffset := tw, isTimewarp := false, isBCHStrategic := false, alpha := alpha
    honestRatio := 1 - alpha, gamma := gamma, state := 0, prevState := 0, effectiveState := 0
    ifLose := 0, realTime := 1799400, stateHistory := [], effectiveStateHistory := []
    simHistory := [], ID := 1 }

/-- The state after a first iteration of `simOn` in which the selfish miner
finds the block after 10 seconds: a fork at height 2999 and one private block,
stamped with the timewarp offset added. -/
def forkedOn (alpha gamma : ℚ) (blocks tw : Int) (chain0 : List Block) : Simulation :=
  { simOn alpha gamma blocks tw chain0 with
    blockchain := { (simOn alpha gamma blocks tw chain0).blockchain with
      privateBranch := [⟨3000, 1, 1799410 + tw, false⟩]
      forkHistory := [2999]
      forkHeight := 2999
      time := 1799410 + tw }
    realTime := 1799410
    effectiveState := 1
    effectiveStateHistory := [1]
    ifLose := 0
    prevState := 0
    state := 1
    stateHistory := [1] }

/-- The state after a first iteration of `simOn` in which the honest miners
find the block after 10 seconds. -/
def honestOn (alpha gamma : ℚ) (blocks tw : Int) (chain0 : List Block) : Simulation :=
  { simOn alpha gamma blocks tw chain0 with
    blockchain := { (simOn alpha gamma blocks tw chain0).blockchain with
      chain := chain0 ++ [⟨3000, 1, 1799410, true⟩]
      height := 3000
      time := 1799410 }
    realTime := 1799410 }

/-- The state after `forkedOn` when the honest miners find the next block after
20 seconds: a race between one private and one public block past the fork. -/
def racingOn (alpha gamma : ℚ) (blocks tw : Int) (chain0 : List Block) : Simulation :=
  { forkedOn alpha gamma blocks tw chain0 with
    blockchain := { (forkedOn alpha gamma blocks tw chain0).blockchain with
      chain := chain0 ++ [⟨3000, 1, 1799430, true⟩]
      height := 3000
      time := 1799430 }
    realTime := 1799430
    effectiveState := 0
    effectiveStateHistory := [1, 0]
    ifLose := -1
    prevState := 1
    state := -1
    stateHistory := [1, -1] }

/-- The state after `racingOn` when the honest miners find the next block after
5 seconds and mine it on the selfish block (`hmOnSm`). -/
def racedOn (alpha gamma : ℚ) (blocks tw : Int) (chain0 : List Block) : Simulation :=
  { racingOn alpha gamma blocks tw chain0 with
    blockchain := { (racingOn alpha gamma blocks tw chain0).blockchain with
      chain := chain0 ++ [⟨3000, 1, 1799410 + tw, false⟩, ⟨3001, 1, 1799435, true⟩]
      privateBranch := []
      forkHistory := [2999, 0, 0]
      height := 3001
      forkHeight := 0
      time := 1799435 }
    realTime := 1799435
    effectiveState := 0
    effectiveStateHistory := [1, 0, 0]
    ifLose := -1
    prevState := -1
    state := 0
    stateHistory := [1, -1, 0] }

/-- The number of selfish blocks on the public chain past the starting blocks. -/
def Blockchain.selfishBlocks (bc : Blockchain) : Nat :=
  (bc.chain.drop 3000).countP (fun b => !b.isHonest)

/-- The number of honest blocks on the public chain past the starting blocks. -/
def Blockchain.honestBlocks (bc : Blockchain) : Nat :=
  (bc.chain.drop 3000).countP (fun b => b.isHonest)

/-- The starting blocks of block time 600, as `Init` mints them. -/
def baseChain : List Block := (List.range 3000).map (baseline 600)

/-- The draws whose three sampled delays are non-negative. -/
def Draw.nonnegDelays (d : Draw) : Prop :=
  0 ≤ d.delay ∧ 0 ≤ d.delayHonest ∧ 0 ≤ d.delaySelfish

/-- The time order of a chain store at time `rt`: the timestamps of the public
chain and of the private branch are non-decreasing, none is later than `rt`,
and no block of `chain[0..fh]` is later than a private block. -/
structure TimeOrd (chain priv : List Block) (fh rt : Int) : Prop where
  chain_sorted : chain.Pairwise (fun a b => a.timestamp ≤ b.timestamp)
  priv_sorted : priv.Pairwise (fun a b => a.timestamp ≤ b.timestamp)
  chain_le : ∀ b ∈ chain, b.timestamp ≤ rt
  priv_le : ∀ b ∈ priv, b.timestamp ≤ rt
  cross : ∀ a ∈ chain.take (fh + 1).toNat, ∀ b ∈ priv, a.timestamp ≤ b.timestamp

/-- The time order of the chain store of `sim` at `sim.realTime`. -/
def TimeInv (sim : Simulation) : Prop :=
  TimeOrd sim.blockchain.chain sim.blockchain.privateBranch sim.blockchain.forkHeight
    sim.realTime

/-- The DAA `algo` returns only positive difficulties at block time `T` when
it reads a view of at least `STARTING_BLOCKS` blocks with `view[i].height == i`
and positive difficulties, from the index of the last block of the view. -/
def PositiveDAA (algo : Difficulty) (T : Int) : Prop :=
  ∀ (view : List Block) (d : ℚ), DaaValue algo T view ((view.length : Int) - 1) d →
    3000 ≤ view.length → HeightsMatch view → PositiveDifficulties view → 0 < d

/-- The lead of the private branch in a chain store: all difficulties are
positive; in state 1 the private work past the fork exceeds the public work
past the fork by exactly `nextDifficulty`, in a state `>= 2` by more than
`nextDifficulty`, and in the race state the two are equal. -/
structure LeadOrd (chain priv : List Block) (fh : Int) (nd npd : ℚ) (state : Int) : Prop where
  pos_chain : PositiveDifficulties chain
  pos_priv : PositiveDifficulties priv
  pos_nd : 0 < nd
  pos_npd : 0 < npd
  one : state = 1 →
    (priv.map (fun b => b.difficulty)).sum
      - ((chain.drop (fh + 1).toNat).map (fun b => b.difficulty)).sum - nd = 0
  lead : 2 ≤ state →
    0 < (priv.map (fun b => b.difficulty)).sum
      - ((chain.drop (fh + 1).toNat).map (fun b => b.difficulty)).sum - nd
  race : state = -1 →
    (priv.map (fun b => b.difficulty)).sum
      = ((chain.drop (fh + 1).toNat).map (fun b => b.difficulty)).sum

/-- The lead invariant of the strategy machine at the head of the loop. -/
def LeadInv (sim : Simulation) : Prop :=
  LeadOrd sim.blockchain.chain sim.blockchain.privateBranch sim.blockchain.forkHeight
    sim.blockchain.nextDifficulty sim.blockchain.nextPrivateDifficulty sim.state

/-- Every block of `view` has a difficulty that is not negative. -/
def NonnegDifficulties (view : List Block) : Prop :=
  ∀ b ∈ view, 0 ≤ b.difficulty

/-- The work bookkeeping of the strategy machine: in state 1 the private work
past the fork exceeds the public work past the fork by exactly `nd`, in a state
`>= 2` by more than `nd`, and in the race state the two are equal. -/
structure WorkOrd (chain priv : List Block) (fh : Int) (nd : ℚ) (state : Int) : Prop where
  one : state = 1 →
    (priv.map (fun b => b.difficulty)).sum
      - ((chain.drop (fh + 1).toNat).map (fun b => b.difficulty)).sum - nd = 0
  lead : 2 ≤ state →
    0 < (priv.map (fun b => b.difficulty)).sum
      - ((chain.drop (fh + 1).toNat).map (fun b => b.difficulty)).sum - nd
  race : state = -1 →
    (priv.map (fun b => b.difficulty)).sum
      = ((chain.drop (fh + 1).toNat).map (fun b => b.difficulty)).sum

/-- The work bookkeeping at the head of the loop. -/
def WorkInv (sim : Simulation) : Prop :=
  WorkOrd sim.blockchain.chain sim.blockchain.privateBranch sim.blockchain.forkHeight
    sim.blockchain.nextDifficulty sim.state

/-- No difficulty of the chain store is negative: those of the blocks of the
public chain and of the private branch, and the two next difficulties. -/
structure NonnegInv (sim : Simulation) : Prop where
  nn_chain : NonnegDifficulties sim.blockchain.chain
  nn_priv : NonnegDifficulties sim.blockchain.privateBranch
  nn_nd : 0 ≤ sim.blockchain.nextDifficulty
  nn_npd : 0 ≤ sim.blockchain.nextPrivateDifficulty

/-- The states at the head of the `runSimulation` loop of the runs in which the
`nextPrivateDifficulty` is never negative at the head of the loop: the state
`init` leaves, and every state an iteration whose guard holds produces from
such a state, for any draws, as long as the `nextPrivateDifficulty` it leaves
is not negative. -/
inductive NonnegRun : Simulation → SimulationResult → Prop where
  | start (alpha gamma : ℚ) (blocks timewarp : Int) (isBCHStrategic : Bool)
      (diffAlgo : Option Difficulty) (expectedBlockTime id : Int) :
      NonnegRun
        (Simulation.zero.init alpha gamma blocks timewarp isBCHStrategic diffAlgo
          expectedBlockTime id)
        SimulationResult.zero
  | step {sim sim1 : Simulation} {res res1 : SimulationResult} (d : Draw) :
      NonnegRun sim res → sim.loopCond = true → sim.loopBody res d = .ok (sim1, res1) →
      0 ≤ sim1.blockchain.nextPrivateDifficulty → NonnegRun sim1 res1

/-- The starting blocks of block time 120, as `Init` mints them. -/
def xmrBase : List Block := (List.range 3000).map (baseline 120)

/-- The state `init` leaves for the Monero defaults with block time 120 and no
timewarp offset, for the given `alpha`, `gamma` and number of blocks, over the
public chain `chain0`. -/
def xmrOn (alpha gamma : ℚ) (blocks : Int) (chain0 : List Block) : Simulation :=
  { blockchain :=
      { chain := chain0, privateBranch := [], forkHistory := [], height := 2999,
        forkHeight := 0, time := 359880, privateTime := 0, nextDifficulty := 1,
        nextPrivateDifficulty := 1, diffAlgo := some (.xmr xmrDefault),
        expectedBlockTime := 120 }
    expectedBlockTime := 120, startTime := 360000, numSimBlocks := blocks
    timewarpOffset := 0, isTimewarp := false, isBCHStrategic := false, alpha := alpha
    honestRatio := 1 - alpha, gamma := gamma, state := 0, prevState := 0, effectiveState := 0
    ifLose := 0, realTime := 359880, stateHistory := [], effectiveStateHistory := []
    simHistory := [], ID := 1 }

/-- The state after a first iteration of `xmrOn` in which the selfish miner
finds the block after 120 seconds: a fork at height 2999, one private block
and the next private difficulty the Monero DAA returns, 600/599. -/
def xmrForked (alpha gamma : ℚ) (blocks : Int) (chain0 : List Block) : Simulation :=
  { xmrOn alpha gamma blocks chain0 with
    blockchain := { (xmrOn alpha gamma blocks chain0).blockchain with
      privateBranch := [⟨3000, 1, 360000, false⟩]
      forkHistory := [2999]
      forkHeight := 2999
      time := 360000
      nextPrivateDifficulty := 600 / 599 }
    realTime := 360000
    effectiveState := 1
    effectiveStateHistory := [1]
    ifLose := 0
    prevState := 0
    state := 1
    stateHistory := [1] }

/-- The state after `xmrForked` when the honest miners find the next block
within the same second: a race between one private and one public block past
the fork, with the next public difficulty the Monero DAA returns, 600/599. -/
def xmrRacing (alpha gamma : ℚ) (blocks : Int) (chain0 : List Block) : Simulation :=
  { xmrForked alpha gamma blocks chain0 with
    blockchain := { (xmrForked alpha gamma blocks chain0).blockchain with
      chain := chain0 ++ [⟨3000, 1, 360000, true⟩]
      height := 3000
      time := 360000
      nextDifficulty := 600 / 599 }
    realTime := 360000
    effectiveState := 0
    effectiveStateHistory := [1, 0]
    ifLose := -(600 / 599)
    prevState := 1
    state := -1
    stateHistory := [1, -1] }

/-! ## Theorems -/

theorem index_natCast {α : Type} (xs : List α) (n : Nat) (h : n < xs.length) :
    index xs (n : Int) = .ok (xs.get ⟨n, h⟩) := by
  unfold index
  have h0 : ¬ ((n : Int) < 0) := by omega
  simp [h0, List.getElem?_eq_getElem h]

theorem index_eq_ok {α : Type} {xs : List α} {i : Int} {x : α} (h : index xs i = .ok x) :
    0 ≤ i ∧ xs[i.toNat]? = some x := by
  unfold index at h
  split at h
  · cases h
  · split at h
    · rename_i y hy
      cases h
      exact ⟨by omega, hy⟩
    · cases h

theorem slice_ok {α : Type} (xs : List α) (lo hi : Int) (h0 : 0 ≤ lo) (h1 : lo ≤ hi)
    (h2 : hi ≤ (xs.length : Int)) :
    slice xs lo hi = .ok ((xs.take hi.toNat).drop lo.toNat) := by
  unfold slice
  simp [h0, h1, h2]

theorem slice_eq_ok {α : Type} {xs ys : List α} {lo hi : Int} (h : slice xs lo hi = .ok ys) :
    0 ≤ lo ∧ lo ≤ hi ∧ hi ≤ (xs.length : Int) ∧ ys = (xs.take hi.toNat).drop lo.toNat := by
  unfold slice at h
  split at h
  · rename_i hc
    cases h
    exact ⟨hc.1, hc.2.1, hc.2.2, rfl⟩
  · cases h

theorem initLoop_eq (n : Nat) (bc : Blockchain) :
    (List.range n).foldl
      (fun (bc : Blockchain) (i : Nat) =>
        bc.pushToChain ⟨(i : Int), BASElINE_DIFFICULTY, (i : Int) * bc.expectedBlockTime, true⟩) bc
    = { bc with
        chain := bc.chain ++ (List.range n).map (baseline bc.expectedBlockTime)
        height := bc.height + n
        time := if n = 0 then bc.time else ((n : Int) - 1) * bc.expectedBlockTime } := by
  induction n with
  | zero => simp
  | succ k ih =>
    rw [List.range_succ, List.foldl_append, ih]
    simp [Blockchain.pushToChain, baseline, List.map_append]
    omega

theorem Init_eq (bc : Blockchain) :
    bc.Init = { bc with
      chain := bc.chain ++ (List.range 3000).map (baseline bc.expectedBlockTime)
      height := 2999
      time := 2999 * bc.expectedBlockTime
      forkHeight := 0
      nextDifficulty := 1
      nextPrivateDifficulty := 1 } := by
  unfold Blockchain.Init
  simp only [initLoop_eq]
  simp [STARTING_BLOCKS, BASElINE_DIFFICULTY]

theorem wrapInt64_of_fits {x : Int} (h0 : -2 ^ 63 ≤ x) (h1 : x < 2 ^ 63) : wrapInt64 x = x := by
  unfold wrapInt64
  rw [Int.emod_eq_of_lt (by omega) (by omega)]
  omega

theorem initLoop64_eq (n : Nat) (bc : Blockchain) :
    (List.range n).foldl
      (fun (bc : Blockchain) (i : Nat) =>
        bc.pushToChain
          ⟨(i : Int), BASElINE_DIFFICULTY, wrapInt64 ((i : Int) * bc.expectedBlockTime), true⟩) bc
    = { bc with
        chain := bc.chain ++ (List.range n).map (baseline64 bc.expectedBlockTime)
        height := bc.height + n
        time := if n = 0 then bc.time
          else wrapInt64 (((n : Int) - 1) * bc.expectedBlockTime) } := by
  induction n with
  | zero => simp
  | succ k ih =>
    rw [List.range_succ, List.foldl_append, ih]
    simp [Blockchain.pushToChain, baseline64, List.map_append]
    omega

theorem Init64_eq (bc : Blockchain) :
    bc.Init64 = { bc with
      chain := bc.chain ++ (List.range 3000).map (baseline64 bc.expectedBlockTime)
      height := 2999
      time := wrapInt64 (2999 * bc.expectedBlockTime)
      forkHeight := 0
      nextDifficulty := 1
      nextPrivateDifficulty := 1 } := by
  unfold Blockchain.Init64
  simp only [initLoop64_eq]
  simp [STARTING_BLOCKS, BASElINE_DIFFICULTY]

theorem product_fits {T : Int} (hlo : -2 ^ 63 ≤ 2999 * T) (hhi : 2999 * T < 2 ^ 63)
    {i : Nat} (hi : i < 3000) : -2 ^ 63 ≤ (i : Int) * T ∧ (i : Int) * T < 2 ^ 63 := by
  have hi' : (i : Int) ≤ 2999 := by omega
  have h0 : (0 : Int) ≤ i := by omega
  rcases le_or_lt 0 T with hT | hT
  · have h1 : (i : Int) * T ≤ 2999 * T := Int.mul_le_mul_of_nonneg_right hi' hT
    have h2 : 0 ≤ (i : Int) * T := Int.mul_nonneg h0 hT
    constructor <;> omega
  · have h1 : 2999 * T ≤ (i : Int) * T := Int.mul_le_mul_of_nonpos_right hi' hT.le
    have h2 : (i : Int) * T ≤ 0 := Int.mul_nonpos_of_nonneg_of_nonpos h0 hT.le
    constructor <;> omega

/-- C6, as stated, fails for block times whose multiples overflow Go's 64-bit
`int`: with `expectedBlockTime = 2^62` (a value `main.go` accepts) block 2 of
the chain `Init` builds from an empty chain carries the timestamp `-2^63`, not
`2 * 2^62 = 2^63`. -/
theorem Init64_wraps :
    ({ Blockchain.zero with expectedBlockTime := 2 ^ 62 } : Blockchain).chain = [] ∧
    ({ Blockchain.zero with expectedBlockTime := 2 ^ 62 } : Blockchain).Init64.chain[2]?
      = some ⟨2, 1, -2 ^ 63, true⟩ ∧
    (2 : Int) * 2 ^ 62 = 2 ^ 63 ∧ (-2 ^ 63 : Int) ≠ 2 * 2 ^ 62 := by
  refine ⟨rfl, ?_, by norm_num, by norm_num⟩
  rw [Init64_eq]
  simp [Blockchain.zero, baseline64, BASElINE_DIFFICULTY, wrapInt64]

/-- C6, amended: for every expected block time `T` whose multiples up to
`2999 * T` fit Go's 64-bit `int` (`-2^63 <= 2999 * T < 2^63`), `Init` applied to
a Blockchain with an empty chain yields a public chain of exactly 3000 blocks in
which block `i` has height `i`, difficulty 1, timestamp `i * T` and
`isHonest = true`, with `height == 2999`, `forkHeight == 0` and both next
difficulties equal to 1; on such block times the 64-bit `Init` and `Init` over
the mathematical integers agree. -/
theorem Init64_on_empty_chain (bc : Blockchain) (h : bc.chain = [])
    (hlo : -2 ^ 63 ≤ 2999 * bc.expectedBlockTime) (hhi : 2999 * bc.expectedBlockTime < 2 ^ 63) :
    bc.Init64.chain.length = 3000 ∧
    (∀ i : Nat, i < 3000 →
      bc.Init64.chain[i]? = some ⟨(i : Int), 1, (i : Int) * bc.expectedBlockTime, true⟩) ∧
    bc.Init64.height = 2999 ∧ bc.Init64.forkHeight = 0 ∧
    bc.Init64.nextDifficulty = 1 ∧ bc.Init64.nextPrivateDifficulty = 1 ∧
    bc.Init64 = bc.Init := by
  have hmap : (List.range 3000).map (baseline64 bc.expectedBlockTime)
      = (List.range 3000).map (baseline bc.expectedBlockTime) := by
    apply List.map_congr_left
    intro i hi
    rw [List.mem_range] at hi
    obtain ⟨a, b⟩ := product_fits hlo hhi hi
    simp only [baseline64, baseline, wrapInt64_of_fits a b]
  have heq : bc.Init64 = bc.Init := by
    rw [Init64_eq, Init_eq, hmap, wrapInt64_of_fits hlo hhi]
  rw [heq, Init_eq]
  refine ⟨by simp [h], ?_, rfl, rfl, rfl, rfl, rfl⟩
  intro i hi
  simp [h, hi, baseline, BASElINE_DIFFICULTY]

theorem Init64_on_empty_chain_witness :
    ({ Blockchain.zero with expectedBlockTime := 600 } : Blockchain).chain = [] ∧
    (-2 ^ 63 : Int) ≤ 2999 * 600 ∧ (2999 * 600 : Int) < 2 ^ 63 ∧
    ({ Blockchain.zero with expectedBlockTime := 600 } : Blockchain).Init64.chain.length = 3000 ∧
    ({ Blockchain.zero with expectedBlockTime := 600 } : Blockchain).Init64.chain[2]? =
      some ⟨2, 1, 1200, true⟩ ∧
    ({ Blockchain.zero with expectedBlockTime := 600 } : Blockchain).Init64.height = 2999 := by
  have h := Init64_on_empty_chain { Blockchain.zero with expectedBlockTime := 600 } rfl
    (by decide) (by decide)
  refine ⟨rfl, by decide, by decide, h.1, ?_, h.2.2.1⟩
  have h2 := h.2.1 2 (by norm_num)
  simpa using h2

/-- C7: for every chain state `s`, `Reset` yields the state `Init` produces from
the zero-valued Blockchain carrying the `expectedBlockTime` and `diffAlgo` of
`s`, equal in every field; hence `Reset` is idempotent. -/
theorem Reset_eq_Init_of_empty (s : Blockchain) :
    s.Reset = ({ Blockchain.zero with
        expectedBlockTime := s.expectedBlockTime, diffAlgo := s.diffAlgo } : Blockchain).Init ∧
    s.Reset.Reset = s.Reset := by
  have h : ∀ t : Blockchain, t.Reset = ({ Blockchain.zero with
        expectedBlockTime := t.expectedBlockTime, diffAlgo := t.diffAlgo } : Blockchain).Init := by
    intro t
    unfold Blockchain.Reset
    rw [Init_eq, Init_eq]
    simp [Blockchain.zero]
  have h2 : s.Reset.Reset = s.Reset := by
    rw [h s.Reset, h s]
    simp [Init_eq]
  exact ⟨h s, h2⟩

theorem getPrivateViewLoop_eq (chain : List Block) (n : Nat) (h : n ≤ chain.length) :
    (List.range n).foldlM
      (fun (acc : List Block) (i : Nat) => do
        let b ← index chain (i : Int)
        pure (acc ++ [b])) ([] : List Block)
    = (Except.ok (chain.take n) : Except Fault (List Block)) := by
  induction n with
  | zero => rfl
  | succ k ih =>
    have hk : k < chain.length := by omega
    rw [List.range_succ, List.foldlM_append, ih (by omega)]
    simp only [List.foldlM_cons, List.foldlM_nil, index_natCast chain k hk, bind, Except.bind,
      pure, Except.pure]
    rw [List.take_succ, List.getElem?_eq_getElem hk]
    rfl

theorem getPrivateView_eq (bc : Blockchain) (h0 : -1 ≤ bc.forkHeight)
    (h1 : bc.forkHeight < (bc.chain.length : Int)) :
    bc.getPrivateView =
      .ok (bc.chain.take (bc.forkHeight + 1).toNat ++ bc.privateBranch) := by
  unfold Blockchain.getPrivateView
  rw [getPrivateViewLoop_eq bc.chain _ (by omega)]
  rfl

theorem popFromChain_eq (bc : Blockchain) (h0 : 0 ≤ bc.height)
    (h1 : bc.height < (bc.chain.length : Int)) :
    ∃ b, bc.popFromChain =
      .ok (b, { bc with chain := bc.chain.take bc.height.toNat, height := bc.height - 1 }) := by
  unfold Blockchain.popFromChain
  have hlt : bc.height.toNat < bc.chain.length := by omega
  have hi : index bc.chain bc.height = .ok (bc.chain.get ⟨bc.height.toNat, hlt⟩) := by
    have := index_natCast bc.chain bc.height.toNat hlt
    rwa [Int.toNat_of_nonneg h0] at this
  rw [hi, slice_ok _ _ _ (le_refl 0) h0 (le_of_lt h1)]
  exact ⟨_, rfl⟩

theorem popLoop_eq (n : Nat) (bc : Blockchain) (hh : bc.height = (bc.chain.length : Int) - 1)
    (hn : n ≤ bc.chain.length) :
    (List.range n).foldlM
      (fun (bc : Blockchain) (_ : Nat) => do
        let (_, bc1) ← bc.popFromChain
        pure bc1) bc
    = (Except.ok { bc with
        chain := bc.chain.take (bc.chain.length - n)
        height := bc.height - n } : Except Fault Blockchain) := by
  induction n with
  | zero => simp [pure, Except.pure]
  | succ k ih =>
    rw [List.range_succ, List.foldlM_append, ih (by omega)]
    simp only [List.foldlM_cons, List.foldlM_nil]
    have hlen : (bc.chain.take (bc.chain.length - k)).length = bc.chain.length - k := by
      simp
    obtain ⟨b, hb⟩ := popFromChain_eq
      { bc with chain := bc.chain.take (bc.chain.length - k), height := bc.height - k }
      (by simp only; omega) (by simp only [hlen]; omega)
    simp only [bind, Except.bind, pure, Except.pure, hb]
    congr 1
    have e1 : (bc.height - (k : Int)).toNat = bc.chain.length - (k + 1) := by omega
    simp only [e1, List.take_take]
    have e2 : min (bc.chain.length - (k + 1)) (bc.chain.length - k) = bc.chain.length - (k + 1) := by
      omega
    simp [e2]
    omega

theorem popFromPrivateChainBottom_cons (bc : Blockchain) (b : Block) (rest : List Block)
    (h : bc.privateBranch = b :: rest) :
    bc.popFromPrivateChainBottom = .ok (b, { bc with privateBranch := rest }) := by
  unfold Blockchain.popFromPrivateChainBottom
  rw [h]
  have hs : slice (b :: rest) 1 ((b :: rest).length : Int) = .ok rest := by
    rw [slice_ok _ _ _ (by norm_num) (by simp) (le_refl _)]
    simp
  rw [hs]
  simp [index, bind, Except.bind, pure, Except.pure]

theorem lastTime_cons (t : Int) (b : Block) (rest : List Block) :
    lastTime b.timestamp rest = lastTime t (b :: rest) := by
  cases rest with
  | nil => simp [lastTime]
  | cons c cs =>
    simp only [lastTime, List.getLast?_cons_cons]
    rw [List.getLast?_eq_getLast _ (by simp)]

theorem reorgPushLoop_eq (n : Nat) : ∀ (bc : Blockchain), bc.privateBranch.length ≤ n →
    Blockchain.reorgPushLoop n bc = .ok { bc with
      chain := bc.chain ++ bc.privateBranch
      privateBranch := []
      height := bc.height + bc.privateBranch.length
      time := lastTime bc.time bc.privateBranch } := by
  induction n with
  | zero =>
    intro bc h
    have : bc.privateBranch = [] := List.eq_nil_of_length_eq_zero (by omega)
    cases bc
    simp_all [Blockchain.reorgPushLoop, lastTime, pure, Except.pure]
  | succ k ih =>
    intro bc h
    cases hp : bc.privateBranch with
    | nil =>
      cases bc
      simp_all [Blockchain.reorgPushLoop, lastTime, pure, Except.pure]
    | cons b rest =>
      rw [hp] at h
      simp only [Blockchain.reorgPushLoop, hp, List.length_cons, Nat.succ_pos, ↓reduceIte,
        gt_iff_lt, Nat.zero_lt_succ]
      have := popFromPrivateChainBottom_cons bc b rest hp
      simp only [bind, Except.bind, this]
      rw [ih _ (by simpa [Blockchain.pushToChain] using h)]
      simp only [Blockchain.pushToChain]
      rw [lastTime_cons bc.time b rest]
      simp
      omega

theorem reorg_eq (bc : Blockchain) (hh : bc.height = (bc.chain.length : Int) - 1)
    (h0 : 0 ≤ bc.forkHeight) (h1 : bc.forkHeight ≤ bc.height) :
    bc.reorg = .ok { bc with
      chain := bc.chain.take (bc.forkHeight + 1).toNat ++ bc.privateBranch
      privateBranch := []
      height := bc.forkHeight + bc.privateBranch.length
      time := lastTime bc.time bc.privateBranch
      forkHeight := 0
      forkHistory := bc.forkHistory ++ [0]
      nextDifficulty := bc.nextPrivateDifficulty } := by
  unfold Blockchain.reorg
  simp only []
  rw [popLoop_eq _ bc hh (by omega)]
  simp only [bind, Except.bind]
  rw [reorgPushLoop_eq bc.privateBranch.length]
  · simp only [pure, Except.pure, Blockchain.setForkHeight, ↓reduceIte]
    have e : bc.chain.length - (bc.height - bc.forkHeight).toNat = (bc.forkHeight + 1).toNat := by
      omega
    rw [e]
    congr 2
    omega
  · exact le_refl _

theorem foldl_difficulty_eq (l : List Block) (a : ℚ) :
    l.foldl (fun w thisBlock => w + thisBlock.difficulty) a
      = a + (l.map (fun b => b.difficulty)).sum := by
  induction l generalizing a with
  | nil => simp
  | cons b bs ih => simp [ih, add_assoc]

/-- C3: for a chain state with `height == len(chain) - 1` and
`0 <= forkHeight <= height`, `reorg()` returns, the new public chain is the
value `getPrivateView()` had before the call, namely `chain[0..forkHeight]`
followed by the private blocks in order, the private branch is empty,
`forkHeight` is 0 and `nextDifficulty` is the old `nextPrivateDifficulty`. -/
theorem reorg_publishes_private_view (s : Blockchain)
    (hh : s.height = (s.chain.length : Int) - 1) (h0 : 0 ≤ s.forkHeight)
    (h1 : s.forkHeight ≤ s.height) :
    ∃ s1, s.reorg = .ok s1 ∧ s.getPrivateView = .ok s1.chain ∧
      s1.chain = s.chain.take (s.forkHeight + 1).toNat ++ s.privateBranch ∧
      s1.privateBranch = [] ∧ s1.forkHeight = 0 ∧
      s1.nextDifficulty = s.nextPrivateDifficulty := by
  refine ⟨_, reorg_eq s hh h0 h1, ?_, rfl, rfl, rfl, rfl⟩
  exact getPrivateView_eq s (by omega) (by omega)

theorem reorg_publishes_private_view_witness :
    forkedChain.height = (forkedChain.chain.length : Int) - 1 ∧
    0 ≤ forkedChain.forkHeight ∧ forkedChain.forkHeight ≤ forkedChain.height ∧
    ∃ s1, forkedChain.reorg = .ok s1 ∧ forkedChain.getPrivateView = .ok s1.chain ∧
      s1.chain = forkedChain.chain.take (forkedChain.forkHeight + 1).toNat
        ++ forkedChain.privateBranch ∧
      s1.privateBranch = [] ∧ s1.forkHeight = 0 ∧
      s1.nextDifficulty = forkedChain.nextPrivateDifficulty :=
  ⟨by decide, by decide, by decide,
    reorg_publishes_private_view forkedChain (by decide) (by decide) (by decide)⟩

theorem racingChain_inv : ChainInv racingChain := by
  refine ⟨?_, by decide, by decide, by decide, ?_⟩
  · intro i h
    have h3 : i < 3 := h
    interval_cases i <;> simp [racingChain, sampleBlock]
  · intro k h
    have h1 : k < 1 := h
    interval_cases k
    simp [racingChain, sampleBlock]

/-- C4, as stated, fails: `racingChain` satisfies the chain-store invariants
(with positive next difficulties) and has a non-empty private branch, `reorg()`
returns, and the public tip has height 2 before and height 2 after. -/
theorem reorg_tip_not_higher :
    ChainInv racingChain ∧ 0 < racingChain.nextDifficulty ∧
    0 < racingChain.nextPrivateDifficulty ∧ racingChain.privateBranch ≠ [] ∧
    tipHeight racingChain = some 2 ∧
    ∃ s1, racingChain.reorg = .ok s1 ∧ tipHeight s1 = some 2 ∧ s1.height = racingChain.height := by
  refine ⟨racingChain_inv, by norm_num [racingChain], by norm_num [racingChain], by decide,
    by decide, ?_⟩
  refine ⟨_, reorg_eq racingChain (by decide) (by decide) (by decide), ?_, ?_⟩
  · decide
  · decide

theorem tipHeight_of_heights (bc : Blockchain)
    (hs : ∀ (i : Nat) (h : i < bc.chain.length), (bc.chain.get ⟨i, h⟩).height = (i : Int))
    (hne : bc.chain ≠ []) : tipHeight bc = some ((bc.chain.length : Int) - 1) := by
  unfold tipHeight
  rw [List.getLast?_eq_getLast _ hne, List.getLast_eq_getElem]
  have hpos : 0 < bc.chain.length := List.length_pos.mpr hne
  have := hs (bc.chain.length - 1) (by omega)
  simp only [List.get_eq_getElem] at this
  simp only [Option.map_some', this]
  congr 1
  omega

/-- C4, amended: for a chain state that satisfies the chain-store invariants and
has a non-empty private branch, `reorg()` returns with `forkHeight == 0` and an
empty private branch, and the new public tip has the height of the former
private tip, `forkHeight + len(privateBranch)`; it is strictly above the old
public tip exactly when the private branch holds more blocks than the public
chain has past the fork. -/
theorem reorg_tip_height (s : Blockchain) (inv : ChainInv s) (hp : s.privateBranch ≠ []) :
    ∃ s1, s.reorg = .ok s1 ∧ s1.forkHeight = 0 ∧ s1.privateBranch = [] ∧
      tipHeight s = some s.height ∧
      tipHeight s1 = some (s.forkHeight + (s.privateBranch.length : Int)) ∧
      s1.height = s.forkHeight + (s.privateBranch.length : Int) ∧
      (s.height < s1.height ↔ s.height - s.forkHeight < (s.privateBranch.length : Int)) := by
  have hlen : 0 < s.chain.length := by
    have := inv.fork_nonneg
    have := inv.fork_le
    omega
  have hne : s.chain ≠ [] := List.length_pos.mp hlen
  have hfle : s.forkHeight ≤ s.height := by
    rw [inv.height_eq]; exact inv.fork_le
  refine ⟨_, reorg_eq s inv.height_eq inv.fork_nonneg hfle, rfl, rfl, ?_, ?_, rfl, ?_⟩
  · rw [tipHeight_of_heights s inv.heights hne, inv.height_eq]
  · have hplen : 0 < s.privateBranch.length := List.length_pos.mpr hp
    unfold tipHeight
    simp only []
    rw [List.getLast?_append_of_ne_nil _ hp, List.getLast?_eq_getLast _ hp,
      List.getLast_eq_getElem]
    have := inv.priv (s.privateBranch.length - 1) (by omega)
    simp only [List.get_eq_getElem] at this
    simp only [Option.map_some', this]
    congr 1
    omega
  · simp only []
    omega

theorem reorg_tip_height_witness :
    ChainInv racingChain ∧ racingChain.privateBranch ≠ [] ∧
    ∃ s1, racingChain.reorg = .ok s1 ∧ s1.forkHeight = 0 ∧ s1.privateBranch = [] ∧
      tipHeight racingChain = some racingChain.height ∧
      tipHeight s1 = some (racingChain.forkHeight + (racingChain.privateBranch.length : Int)) ∧
      s1.height = racingChain.forkHeight + (racingChain.privateBranch.length : Int) ∧
      (racingChain.height < s1.height ↔
        racingChain.height - racingChain.forkHeight < (racingChain.privateBranch.length : Int)) :=
  ⟨racingChain_inv, by decide, reorg_tip_height racingChain racingChain_inv (by decide)⟩

/-- C5, as stated, fails: `negativeForkChain` has `forkHeight < len(chain)`, and
`getPostForkWork()` panics on the slice `chain[forkHeight+1:]`. -/
theorem getPostForkWork_negative_fork :
    negativeForkChain.forkHeight < (negativeForkChain.chain.length : Int) ∧
    negativeForkChain.forkHeight ≠ 0 ∧
    negativeForkChain.getPostForkWork = .error .sliceBounds := by
  decide

theorem getPostForkWork_past_fork (s : Blockchain) (h0 : -1 ≤ s.forkHeight)
    (h1 : s.forkHeight < (s.chain.length : Int)) (hne : s.forkHeight ≠ 0) :
    s.getPostForkWork = .ok
      (((s.chain.drop (s.forkHeight + 1).toNat).map (fun b => b.difficulty)).sum,
        (s.privateBranch.map (fun b => b.difficulty)).sum) := by
  unfold Blockchain.getPostForkWork
  rw [if_neg hne, slice_ok _ _ _ (by omega) (by omega) (le_refl _)]
  simp [bind, Except.bind, pure, Except.pure, foldl_difficulty_eq]

/-- C5, amended: for a chain state with `-1 <= forkHeight < len(chain)`,
`getPostForkWork()` returns the sum of difficulty over `chain[forkHeight+1..]`
and the sum of difficulty over the private branch when `forkHeight != 0`, and
`(0, 0)` when `forkHeight == 0`; it returns `(0, 0)` on every state `Init`
produces. -/
theorem getPostForkWork_eq (s : Blockchain) (h0 : -1 ≤ s.forkHeight)
    (h1 : s.forkHeight < (s.chain.length : Int)) :
    (s.forkHeight ≠ 0 → s.getPostForkWork = .ok
      (((s.chain.drop (s.forkHeight + 1).toNat).map (fun b => b.difficulty)).sum,
        (s.privateBranch.map (fun b => b.difficulty)).sum)) ∧
    (s.forkHeight = 0 → s.getPostForkWork = .ok (0, 0)) ∧
    (∀ bc : Blockchain, bc.Init.getPostForkWork = .ok (0, 0)) := by
  refine ⟨?_, ?_, ?_⟩
  · intro hne
    exact getPostForkWork_past_fork s h0 h1 hne
  · intro he
    unfold Blockchain.getPostForkWork
    rw [if_pos he]
    rfl
  · intro bc
    unfold Blockchain.getPostForkWork
    rw [if_pos (by rw [Init_eq])]
    rfl

theorem getPostForkWork_eq_witness :
    -1 ≤ forkedChain.forkHeight ∧ forkedChain.forkHeight < (forkedChain.chain.length : Int) ∧
    forkedChain.forkHeight ≠ 0 ∧
    forkedChain.getPostForkWork = .ok (1, 2) := by
  have h := (getPostForkWork_eq forkedChain (by decide) (by decide)).1 (by decide)
  refine ⟨by decide, by decide, by decide, ?_⟩
  rw [h]
  norm_num [forkedChain, sampleBlock, Blockchain.zero, (by decide : (2 : Int).toNat = 2)]

/-- C8, as stated, fails: a block of height 7 pushed on a chain of 3 blocks is
appended all the same, and `time` takes its timestamp; only the warning is
logged. -/
theorem pushToChain_mismatch_appended :
    (sampleBlock 7 true).height ≠ (racingChain.chain.length : Int) ∧
    (racingChain.pushToChain (sampleBlock 7 true)).chain
      = racingChain.chain ++ [sampleBlock 7 true] ∧
    (racingChain.pushToChain (sampleBlock 7 true)).time = (sampleBlock 7 true).timestamp ∧
    racingChain.pushToChainWarns (sampleBlock 7 true) = true := by
  decide

/-- C8, amended: for every chain state and every block, `pushToChain` appends
the block, increments `height` and sets `time` to the block's timestamp,
whatever the block's height; a block whose height differs from the new
`height` (the length of the chain before the push, when `height` was
`len(chain) - 1`) is only reported by a warning. -/
theorem pushToChain_always_appends (bc : Blockchain) (block : Block) :
    (bc.pushToChain block).chain = bc.chain ++ [block] ∧
    (bc.pushToChain block).time = block.timestamp ∧
    (bc.pushToChain block).height = bc.height + 1 ∧
    (bc.pushToChainWarns block = true ↔ block.height ≠ bc.height + 1) ∧
    (({ bc with height := (bc.chain.length : Int) - 1 } : Blockchain).pushToChainWarns block
        = false ↔ block.height = (bc.chain.length : Int)) := by
  refine ⟨rfl, rfl, rfl, ?_, ?_⟩
  · simp [Blockchain.pushToChainWarns]
  · simp [Blockchain.pushToChainWarns]

theorem btc_getDiff_of_view (b : btcDifficulty) (isPrivate : Bool) (bc : Blockchain)
    (view : List Block) (hview : bc.view isPrivate = .ok view) :
    b.getDiff isPrivate bc =
      (if b.Period = 0 then .error .divideByZero
      else if ((view.length : Int) - startingBlocks).tmod b.Period ≠ 0 then do
        let last ← index view ((view.length : Int) - 1)
        pure last.difficulty
      else do
        let top ← index view ((view.length : Int) - 1)
        let botBlock := (view.length : Int) - b.Period
        let botBlock := if !b.OffByOne then botBlock - 1 else botBlock
        let bot ← index view botBlock
        let totalTime := top.timestamp - bot.timestamp
        let work ← slice view ((view.length : Int) - b.Period) ((view.length : Int) - 1)
        let totalWork := sumBlocks work
        let totalTime :=
          if totalTime > b.Period * 4 * bc.expectedBlockTime then
            b.Period * 4 * bc.expectedBlockTime
          else if totalTime < (b.Period.tdiv 4) * bc.expectedBlockTime then
            (b.Period.tdiv 4) * bc.expectedBlockTime
          else totalTime
        let newDiff := totalWork * (bc.expectedBlockTime : ℚ) / (totalTime : ℚ)
        pure newDiff) := by
  unfold btcDifficulty.getDiff
  unfold Blockchain.view at hview
  cases isPrivate
  · simp only [Bool.false_eq_true, ↓reduceIte] at hview ⊢
    cases hview
    rfl
  · simp only [↓reduceIte] at hview ⊢
    rw [hview]
    rfl

theorem index_of_getElem? {α : Type} (xs : List α) (i : Int) (x : α) (h0 : 0 ≤ i)
    (h : xs[i.toNat]? = some x) : index xs i = .ok x := by
  unfold index
  rw [if_neg (by omega), h]

theorem index_last {α : Type} (xs : List α) (x : α) (h : xs.getLast? = some x) :
    index xs ((xs.length : Int) - 1) = .ok x := by
  have hne : xs ≠ [] := by
    intro e
    simp [e] at h
  have hpos : 0 < xs.length := List.length_pos.mpr hne
  apply index_of_getElem? _ _ _ (by omega)
  rw [List.getLast?_eq_getElem?] at h
  have e : ((xs.length : Int) - 1).toNat = xs.length - 1 := by omega
  rw [e, h]

theorem sumBlocks_eq (l : List Block) : sumBlocks l = (l.map (fun b => b.difficulty)).sum := by
  unfold sumBlocks sum
  generalize l.map (fun w => w.difficulty) = ds
  have : ∀ (a : ℚ), ds.foldl (fun s n => s + n) a = a + ds.sum := by
    induction ds with
    | nil => simp
    | cons d ds ih =>
      intro a
      simp [ih, add_assoc]
  simpa using this 0

theorem btc_getDiff_last (b : btcDifficulty) (isPrivate : Bool) (bc : Blockchain)
    (view : List Block) (hview : bc.view isPrivate = .ok view) (hp : 1 ≤ b.Period)
    (hne : view ≠ []) (hmod : ((view.length : Int) - STARTING_BLOCKS) % b.Period ≠ 0) :
    b.getDiff isPrivate bc = .ok (view.getLast hne).difficulty := by
  rw [btc_getDiff_of_view b isPrivate bc view hview]
  have hp0 : b.Period ≠ 0 := by omega
  have hm : ((view.length : Int) - startingBlocks).tmod b.Period ≠ 0 := by
    intro h
    exact hmod (Int.emod_eq_zero_of_dvd (Int.dvd_of_tmod_eq_zero h))
  rw [if_neg hp0, if_pos hm, index_last view _ (List.getLast?_eq_getLast _ hne)]
  rfl

/-- C9: for every period >= 1 and every non-empty view whose length `L` has
`(L - STARTING_BLOCKS) mod period != 0`, the BTC `getDiff` returns the
difficulty of the last block of the view (the public chain, or the private
view when `isPrivate`), whatever the timestamps. -/
theorem btc_getDiff_off_boundary (b : btcDifficulty) (isPrivate : Bool) (bc : Blockchain)
    (view : List Block) (hview : bc.view isPrivate = .ok view) (hp : 1 ≤ b.Period)
    (hne : view ≠ []) (hmod : ((view.length : Int) - STARTING_BLOCKS) % b.Period ≠ 0) :
    ∃ last, view.getLast? = some last ∧ b.getDiff isPrivate bc = .ok last.difficulty := by
  exact ⟨view.getLast hne, List.getLast?_eq_getLast _ hne,
    btc_getDiff_last b isPrivate bc view hview hp hne hmod⟩

theorem btc_getDiff_off_boundary_witness :
    racingChain.view false = .ok racingChain.chain ∧ 1 ≤ btcDefault.Period ∧
    racingChain.chain ≠ [] ∧
    ((racingChain.chain.length : Int) - STARTING_BLOCKS) % btcDefault.Period ≠ 0 ∧
    ∃ last, racingChain.chain.getLast? = some last ∧
      btcDefault.getDiff false racingChain = .ok last.difficulty :=
  ⟨rfl, by decide, by decide, by decide,
    btc_getDiff_off_boundary btcDefault false racingChain racingChain.chain rfl
      (by decide) (by decide) (by decide)⟩

theorem btc_getDiff_boundary_eq (b : btcDifficulty) (isPrivate : Bool) (bc : Blockchain)
    (view : List Block) (hview : bc.view isPrivate = .ok view) (hp : 1 ≤ b.Period)
    (hT : 0 < bc.expectedBlockTime) (hL : b.Period < (view.length : Int))
    (hmod : ((view.length : Int) - STARTING_BLOCKS) % b.Period = 0)
    (top bot : Block)
    (htop : view[view.length - 1]? = some top)
    (hbot : view[((view.length : Int) - b.Period - (if b.OffByOne then 0 else 1)).toNat]?
      = some bot) :
    b.getDiff isPrivate bc = .ok
      ((((view.drop ((view.length : Int) - b.Period).toNat).take (b.Period - 1).toNat).map
          (fun blk => blk.difficulty)).sum * (bc.expectedBlockTime : ℚ) /
        ((btcClamp b.Period bc.expectedBlockTime (top.timestamp - bot.timestamp) : Int) : ℚ)) := by
  rw [btc_getDiff_of_view b isPrivate bc view hview]
  have hp0 : b.Period ≠ 0 := by omega
  have hm : ¬ ((view.length : Int) - startingBlocks).tmod b.Period ≠ 0 := by
    rw [not_not]
    exact Int.tmod_eq_zero_of_dvd (Int.dvd_of_emod_eq_zero hmod)
  rw [if_neg hp0, if_neg hm]
  have e1 : (((view.length : Int) - 1).toNat) = view.length - 1 := by omega
  have i1 : index view ((view.length : Int) - 1) = .ok top :=
    index_of_getElem? _ _ _ (by omega) (by rw [e1]; exact htop)
  have i2 : index view
      (if (!b.OffByOne) = true then (view.length : Int) - b.Period - 1
        else (view.length : Int) - b.Period) = .ok bot := by
    cases hb : b.OffByOne
    · rw [hb] at hbot
      simp only [Bool.not_false, ↓reduceIte, Bool.false_eq_true] at hbot ⊢
      exact index_of_getElem? _ _ _ (by omega) hbot
    · rw [hb] at hbot
      simp only [Bool.not_true, ↓reduceIte, Bool.false_eq_true, sub_zero] at hbot ⊢
      exact index_of_getElem? _ _ _ (by omega) hbot
  have i3 := slice_ok view ((view.length : Int) - b.Period) ((view.length : Int) - 1)
    (by omega) (by omega) (by omega)
  simp only [bind, Except.bind, pure, Except.pure, i1, i2, i3]
  congr 1
  have hq : b.Period.tdiv 4 = b.Period / 4 := Int.tdiv_eq_ediv (by omega) (by norm_num)
  have hlohi : b.Period / 4 * bc.expectedBlockTime ≤ b.Period * 4 * bc.expectedBlockTime := by
    have h4 : b.Period / 4 ≤ b.Period * 4 := by omega
    exact Int.mul_le_mul_of_nonneg_right h4 (le_of_lt hT)
  have hc : (if top.timestamp - bot.timestamp > b.Period * 4 * bc.expectedBlockTime then
        b.Period * 4 * bc.expectedBlockTime
      else if top.timestamp - bot.timestamp < b.Period.tdiv 4 * bc.expectedBlockTime then
        b.Period.tdiv 4 * bc.expectedBlockTime
      else top.timestamp - bot.timestamp)
      = btcClamp b.Period bc.expectedBlockTime (top.timestamp - bot.timestamp) := by
    rw [hq]
    unfold btcClamp
    split_ifs with h1 h2
    · rw [min_eq_left (le_of_lt h1), max_eq_right hlohi]
    · rw [min_eq_right (by omega), max_eq_left (le_of_lt h2)]
    · rw [min_eq_right (by omega), max_eq_right (by omega)]
  have e2 : ((view.length : Int) - 1).toNat - ((view.length : Int) - b.Period).toNat
      = (b.Period - 1).toNat := by omega
  rw [hc, sumBlocks_eq, List.drop_take, e2]

/-- C10, as stated, fails: with period 2 and block time 4 on the four blocks of
`shortPeriodChain` (a period boundary, work 1, elapsed 1) the code divides by 1
and returns 4, while the stated lower clamp `period*T/4 = 2` gives 2. -/
theorem btc_getDiff_quarter_truncated :
    (1 : Int) ≤ 2 ∧ 0 < shortPeriodChain.expectedBlockTime ∧
    (2 : Int) < (shortPeriodChain.chain.length : Int) ∧
    ((shortPeriodChain.chain.length : Int) - STARTING_BLOCKS) % 2 = 0 ∧
    btcWork shortPeriodChain.chain 2 = 1 ∧
    (⟨2, true⟩ : btcDifficulty).getDiff false shortPeriodChain = .ok 4 ∧
    btcStatedDiff 2 shortPeriodChain.expectedBlockTime (btcWork shortPeriodChain.chain 2) (9 - 8)
      = 2 := by
  have hw : btcWork shortPeriodChain.chain 2 = 1 := by
    norm_num [btcWork, shortPeriodChain, Blockchain.zero, (by decide : (2 : Int).toNat = 2),
      (by decide : (1 : Int).toNat = 1)]
  refine ⟨by decide, by decide, by decide, by decide, hw, ?_, ?_⟩
  · rw [btc_getDiff_boundary_eq ⟨2, true⟩ false shortPeriodChain shortPeriodChain.chain rfl
      (by decide) (by decide) (by decide) (by decide) ⟨3, 1, 9, true⟩ ⟨2, 1, 8, true⟩
      (by decide) (by decide)]
    norm_num [btcClamp, shortPeriodChain, Blockchain.zero, (by decide : (2 : Int).toNat = 2),
      (by decide : (1 : Int).toNat = 1)]
  · rw [hw]
    norm_num [btcStatedDiff, shortPeriodChain, Blockchain.zero]

/-- C10, amended: for every period >= 1, block time T > 0 and view of length
`L > period` with `(L - STARTING_BLOCKS) mod period == 0`, the BTC `getDiff`
returns `work * T / clamp(elapsed, (period / 4) * T, period * 4 * T)` with the
integer quotient `period / 4`, where `work` is the sum of difficulty over
`view[L-period .. L-2]` and `elapsed = view[L-1].timestamp - view[L-period].timestamp`
with off-by-one enabled (`view[L-period-1]` when disabled); when `elapsed`
exceeds `period*4*T` the result is `work*T/(period*4*T)`, when it is below
`(period / 4) * T` the result is `work*T/((period / 4) * T)`, and when 4 divides
the period the result is the stated `work * T / clamp(elapsed, period*T/4, period*4*T)`. -/
theorem btc_getDiff_on_boundary (b : btcDifficulty) (isPrivate : Bool) (bc : Blockchain)
    (view : List Block) (hview : bc.view isPrivate = .ok view) (hp : 1 ≤ b.Period)
    (hT : 0 < bc.expectedBlockTime) (hL : b.Period < (view.length : Int))
    (hmod : ((view.length : Int) - STARTING_BLOCKS) % b.Period = 0)
    (top bot : Block)
    (htop : view[view.length - 1]? = some top)
    (hbot : view[((view.length : Int) - b.Period - (if b.OffByOne then 0 else 1)).toNat]?
      = some bot) :
    b.getDiff isPrivate bc = .ok (btcWork view b.Period * (bc.expectedBlockTime : ℚ) /
      ((btcClamp b.Period bc.expectedBlockTime (top.timestamp - bot.timestamp) : Int) : ℚ)) ∧
    (b.Period * 4 * bc.expectedBlockTime < top.timestamp - bot.timestamp →
      b.getDiff isPrivate bc = .ok (btcWork view b.Period * (bc.expectedBlockTime : ℚ) /
        ((b.Period * 4 * bc.expectedBlockTime : Int) : ℚ))) ∧
    (top.timestamp - bot.timestamp < (b.Period / 4) * bc.expectedBlockTime →
      b.getDiff isPrivate bc = .ok (btcWork view b.Period * (bc.expectedBlockTime : ℚ) /
        (((b.Period / 4) * bc.expectedBlockTime : Int) : ℚ))) ∧
    (b.Period % 4 = 0 →
      b.getDiff isPrivate bc = .ok (btcStatedDiff b.Period bc.expectedBlockTime
        (btcWork view b.Period) (top.timestamp - bot.timestamp))) := by
  have key := btc_getDiff_boundary_eq b isPrivate bc view hview hp hT hL hmod top bot htop hbot
  have hlohi : b.Period / 4 * bc.expectedBlockTime ≤ b.Period * 4 * bc.expectedBlockTime := by
    have h4 : b.Period / 4 ≤ b.Period * 4 := by omega
    exact Int.mul_le_mul_of_nonneg_right h4 (le_of_lt hT)
  refine ⟨key, ?_, ?_, ?_⟩
  · intro h
    rw [key]
    unfold btcClamp btcWork
    rw [min_eq_left (le_of_lt h), max_eq_right hlohi]
  · intro h
    rw [key]
    unfold btcClamp btcWork
    rw [min_eq_right (by omega), max_eq_left (le_of_lt h)]
  · intro h4
    rw [key]
    unfold btcClamp btcStatedDiff btcWork
    obtain ⟨q, hq⟩ : (4 : Int) ∣ b.Period := Int.dvd_of_emod_eq_zero h4
    have hq4 : b.Period / 4 = q := by omega
    rw [hq4]
    congr 2
    push_cast
    rw [hq]
    push_cast
    congr 1
    ring

theorem btc_getDiff_on_boundary_witness :
    shortPeriodChain.view false = .ok shortPeriodChain.chain ∧
    (1 : Int) ≤ (⟨2, true⟩ : btcDifficulty).Period ∧ 0 < shortPeriodChain.expectedBlockTime ∧
    (⟨2, true⟩ : btcDifficulty).getDiff false shortPeriodChain = .ok
      (btcWork shortPeriodChain.chain 2 * (shortPeriodChain.expectedBlockTime : ℚ) /
        ((btcClamp 2 shortPeriodChain.expectedBlockTime (9 - 8) : Int) : ℚ)) :=
  ⟨rfl, by decide, by decide,
    (btc_getDiff_on_boundary ⟨2, true⟩ false shortPeriodChain shortPeriodChain.chain rfl
      (by decide) (by decide) (by decide) (by decide) ⟨3, 1, 9, true⟩ ⟨2, 1, 8, true⟩
      (by decide) (by decide)).1⟩

theorem bind_eq_ok {α β : Type} {x : Except Fault α} {f : α → Except Fault β} {b : β} :
    (x >>= f) = .ok b ↔ ∃ a, x = .ok a ∧ f a = .ok b := by
  cases x with
  | error e => simp [bind, Except.bind]
  | ok a => simp [bind, Except.bind]

theorem adjustDifficulty_ok {bc bc1 : Blockchain} {isPrivate : Bool}
    (h : bc.adjustDifficulty isPrivate = .ok bc1) :
    bc1.chain = bc.chain ∧ bc1.privateBranch = bc.privateBranch ∧ bc1.height = bc.height ∧
    bc1.forkHeight = bc.forkHeight := by
  unfold Blockchain.adjustDifficulty at h
  split at h
  · cases h
  · rw [bind_eq_ok] at h
    obtain ⟨d, _, h⟩ := h
    split at h <;> cases h <;> exact ⟨rfl, rfl, rfl, rfl⟩

theorem newBlock_ok {bc bc1 : Blockchain} {t : Int} {b : Block}
    (h : bc.newBlock t = .ok (b, bc1)) :
    bc1.chain = bc.chain ++ [⟨bc.height + 1, bc.nextDifficulty, t, true⟩] ∧
    bc1.privateBranch = bc.privateBranch ∧ bc1.height = bc.height + 1 ∧
    bc1.forkHeight = bc.forkHeight := by
  unfold Blockchain.newBlock at h
  simp only [] at h
  rw [bind_eq_ok] at h
  obtain ⟨bc2, h2, h⟩ := h
  cases h
  obtain ⟨e1, e2, e3, e4⟩ := adjustDifficulty_ok h2
  exact ⟨e1, e2, e3, e4⟩

theorem pushToPrivateChain_ok {bc bc1 : Blockchain} {b : Block}
    (h : bc.pushToPrivateChain b = .ok bc1) :
    bc1 = { bc with privateBranch := bc.privateBranch ++ [b], time := b.timestamp } ∧
    bc.chain ≠ [] := by
  unfold Blockchain.pushToPrivateChain at h
  simp only [] at h
  rw [bind_eq_ok] at h
  obtain ⟨tipc, htip, h2⟩ := h
  cases h2
  refine ⟨rfl, ?_⟩
  intro e
  rw [e] at htip
  simp [index] at htip

theorem newPrivateBlock_ok {bc bc1 : Blockchain} {t : Int} {b : Block}
    (h : bc.newPrivateBlock t = .ok (b, bc1)) :
    bc1.chain = bc.chain ∧ bc1.height = bc.height ∧ bc1.forkHeight = bc.forkHeight ∧
    bc1.privateBranch = bc.privateBranch ++ [b] ∧ bc.chain ≠ [] ∧
    (bc.privateBranch = [] → b.height = bc.height + 1) ∧
    (∀ tip, bc.privateBranch.getLast? = some tip → b.height = tip.height + 1) := by
  unfold Blockchain.newPrivateBlock at h
  simp only [] at h
  split at h
  · rename_i hc
    rw [bind_eq_ok] at h
    obtain ⟨tip, htip, h⟩ := h
    simp only [pure_bind] at h
    rw [bind_eq_ok] at h
    obtain ⟨bc2, h2, h⟩ := h
    rw [bind_eq_ok] at h
    obtain ⟨bc3, h3, h⟩ := h
    cases h
    obtain ⟨e1, e2, e3, e4⟩ := adjustDifficulty_ok h3
    obtain ⟨e5, hne⟩ := pushToPrivateChain_ok h2
    subst e5
    refine ⟨e1, e3, e4, e2, hne, ?_, ?_⟩
    · intro hp
      simp [hp] at hc
    · intro tip1 ht
      rw [index_last _ _ ht] at htip
      cases htip
      rfl
  · rename_i hc
    simp only [pure_bind] at h
    rw [bind_eq_ok] at h
    obtain ⟨bc2, h2, h⟩ := h
    rw [bind_eq_ok] at h
    obtain ⟨bc3, h3, h⟩ := h
    cases h
    obtain ⟨e1, e2, e3, e4⟩ := adjustDifficulty_ok h3
    obtain ⟨e5, hne⟩ := pushToPrivateChain_ok h2
    subst e5
    have hp : bc.privateBranch = [] := by
      apply List.eq_nil_of_length_eq_zero
      omega
    refine ⟨e1, e3, e4, e2, hne, fun _ => rfl, ?_⟩
    intro tip1 ht
    simp [hp] at ht

theorem popPrivateLoop_eq (n : Nat) : ∀ (bc : Blockchain), bc.privateBranch.length ≤ n →
    Blockchain.popPrivateLoop n bc = .ok { bc with privateBranch := [] } := by
  induction n with
  | zero =>
    intro bc h
    have : bc.privateBranch = [] := List.eq_nil_of_length_eq_zero (by omega)
    cases bc
    simp_all [Blockchain.popPrivateLoop, pure, Except.pure]
  | succ k ih =>
    intro bc h
    cases hp : bc.privateBranch with
    | nil =>
      cases bc
      simp_all [Blockchain.popPrivateLoop, pure, Except.pure]
    | cons b rest =>
      have hlen : 0 < bc.privateBranch.length := by rw [hp]; simp
      have hne : bc.privateBranch ≠ [] := by rw [hp]; simp
      have hpop : bc.popFromPrivateChain = .ok (bc.privateBranch.getLast hne,
          { bc with privateBranch := bc.privateBranch.take (bc.privateBranch.length - 1) }) := by
        unfold Blockchain.popFromPrivateChain
        simp only []
        rw [index_last _ _ (List.getLast?_eq_getLast _ hne),
          slice_ok _ _ _ (le_refl 0) (by omega) (by omega)]
        have e : ((bc.privateBranch.length : Int) - 1).toNat = bc.privateBranch.length - 1 := by
          omega
        simp [bind, Except.bind, pure, Except.pure, e]
      simp only [Blockchain.popPrivateLoop, gt_iff_lt, hlen, ↓reduceIte, bind, Except.bind, hpop]
      rw [ih _ (by simp only [List.length_take]; omega)]

theorem ChainInv.mk_of_eq {bc1 : Blockchain} {chain priv : List Block} {height fh : Int}
    (e1 : bc1.chain = chain) (e2 : bc1.privateBranch = priv) (e3 : bc1.height = height)
    (e4 : bc1.forkHeight = fh)
    (a : ∀ (i : Nat) (h : i < chain.length), (chain.get ⟨i, h⟩).height = (i : Int))
    (b : height = (chain.length : Int) - 1) (c : 0 ≤ fh) (d : fh ≤ (chain.length : Int) - 1)
    (e : ∀ (k : Nat) (h : k < priv.length), (priv.get ⟨k, h⟩).height = fh + 1 + (k : Int)) :
    ChainInv bc1 := by
  subst e1 e2 e3 e4
  exact ⟨a, b, c, d, e⟩

theorem ChainInv.transport {bc bc1 : Blockchain} (inv : ChainInv bc)
    (e1 : bc1.chain = bc.chain) (e2 : bc1.privateBranch = bc.privateBranch)
    (e3 : bc1.height = bc.height) (e4 : bc1.forkHeight = bc.forkHeight) : ChainInv bc1 :=
  ChainInv.mk_of_eq e1 e2 e3 e4 inv.heights inv.height_eq inv.fork_nonneg inv.fork_le inv.priv

theorem heights_append {xs : List Block} {b : Block}
    (hs : ∀ (i : Nat) (h : i < xs.length), (xs.get ⟨i, h⟩).height = (i : Int))
    (hb : b.height = (xs.length : Int)) :
    ∀ (i : Nat) (h : i < (xs ++ [b]).length), ((xs ++ [b]).get ⟨i, h⟩).height = (i : Int) := by
  intro i h
  simp only [List.get_eq_getElem]
  by_cases hi : i < xs.length
  · rw [List.getElem_append_left hi]
    exact hs i hi
  · have hlen : (xs ++ [b]).length = xs.length + 1 := by simp
    have : i = xs.length := by omega
    subst this
    simp [hb]

theorem ChainInv.newBlock {bc bc1 : Blockchain} {t : Int} {b : Block} (inv : ChainInv bc)
    (h : bc.newBlock t = .ok (b, bc1)) : ChainInv bc1 := by
  obtain ⟨e1, e2, e3, e4⟩ := newBlock_ok h
  obtain ⟨a, hb, c, d, e⟩ := inv
  refine ChainInv.mk_of_eq e1 e2 e3 e4 ?_ ?_ c ?_ e
  · exact heights_append a (by simp only; omega)
  · simp only [List.length_append, List.length_singleton, Nat.cast_add, Nat.cast_one]; omega
  · simp only [List.length_append, List.length_singleton, Nat.cast_add, Nat.cast_one]; omega

theorem ChainInv.newPrivateBlock {bc bc1 : Blockchain} {t : Int} {b : Block}
    (inv : ChainInv bc) (hf : bc.privateBranch = [] → bc.forkHeight = bc.height)
    (h : bc.newPrivateBlock t = .ok (b, bc1)) : ChainInv bc1 ∧ bc1.privateBranch ≠ [] := by
  obtain ⟨e1, e3, e4, e2, _, hnil, hlast⟩ := newPrivateBlock_ok h
  obtain ⟨a, hb, c, d, e⟩ := inv
  refine ⟨ChainInv.mk_of_eq e1 e2 e3 e4 a hb c d ?_, ?_⟩
  · intro k hk
    simp only [List.get_eq_getElem]
    by_cases hi : k < bc.privateBranch.length
    · rw [List.getElem_append_left hi]
      exact e k hi
    · have hlen : (bc.privateBranch ++ [b]).length = bc.privateBranch.length + 1 := by simp
      have hkeq : k = bc.privateBranch.length := by omega
      subst hkeq
      simp only [List.getElem_concat_length]
      by_cases hp : bc.privateBranch = []
      · rw [hnil hp, hp, hf hp]
        simp
      · have hpos : 0 < bc.privateBranch.length := List.length_pos.mpr hp
        have hl := hlast _ (List.getLast?_eq_getLast _ hp)
        rw [hl, List.getLast_eq_getElem]
        have := e (bc.privateBranch.length - 1) (by omega)
        simp only [List.get_eq_getElem] at this
        rw [this]
        omega
  · rw [e2]; simp

theorem ChainInv.reorg {bc : Blockchain} (inv : ChainInv bc) :
    ∃ bc1, bc.reorg = .ok bc1 ∧ ChainInv bc1 ∧ bc1.privateBranch = [] ∧ bc1.forkHeight = 0 := by
  obtain ⟨a, hb, c, d, e⟩ := inv
  refine ⟨_, reorg_eq bc hb c (by omega), ⟨?_, ?_, ?_, ?_, ?_⟩, rfl, rfl⟩
  · intro i hi
    simp only [List.get_eq_getElem]
    have htl : (bc.chain.take (bc.forkHeight + 1).toNat).length = (bc.forkHeight + 1).toNat := by
      rw [List.length_take]; omega
    by_cases h1 : i < (bc.chain.take (bc.forkHeight + 1).toNat).length
    · rw [List.getElem_append_left h1, List.getElem_take]
      exact a i (by rw [htl] at h1; omega)
    · rw [List.getElem_append_right (by omega)]
      have hi2 : i < (bc.chain.take (bc.forkHeight + 1).toNat ++ bc.privateBranch).length := hi
      rw [List.length_append] at hi2
      have := e (i - (bc.chain.take (bc.forkHeight + 1).toNat).length) (by omega)
      simp only [List.get_eq_getElem] at this
      rw [this, htl]
      rw [htl] at h1
      omega
  · simp only [List.length_append, List.length_take]
    omega
  · exact le_refl 0
  · simp only [List.length_append, List.length_take]
    omega
  · intro k hk
    simp at hk

theorem ChainInv.forkAtTip {bc : Blockchain} (inv : ChainInv bc) (hp : bc.privateBranch = []) :
    ChainInv (bc.setForkHeight (-1)) ∧
    (bc.setForkHeight (-1)).forkHeight = (bc.setForkHeight (-1)).height ∧
    (bc.setForkHeight (-1)).privateBranch = [] := by
  obtain ⟨a, hb, c, d, e⟩ := inv
  refine ⟨⟨a, hb, ?_, ?_, ?_⟩, ?_, hp⟩
  · simp [Blockchain.setForkHeight]; omega
  · simp [Blockchain.setForkHeight]; omega
  · intro k hk
    simp only [Blockchain.setForkHeight, hp] at hk
    simp at hk
  · simp [Blockchain.setForkHeight]

theorem ChainInv.clearFork {bc : Blockchain} (inv : ChainInv bc) (hp : bc.privateBranch = []) :
    ChainInv (bc.setForkHeight 0) := by
  obtain ⟨a, hb, c, d, e⟩ := inv
  refine ⟨a, hb, ?_, ?_, ?_⟩
  · simp [Blockchain.setForkHeight]
  · simp [Blockchain.setForkHeight]; omega
  · intro k hk
    simp only [Blockchain.setForkHeight, hp] at hk
    simp at hk

theorem ChainInv.dropPrivate {bc : Blockchain} (inv : ChainInv bc) :
    ChainInv { bc with privateBranch := [] } := by
  obtain ⟨a, hb, c, d, e⟩ := inv
  refine ⟨a, hb, c, d, ?_⟩
  intro k hk
  simp at hk

theorem setState_ok {sim sim1 : Simulation} {s : Int} (h : sim.setState s = .ok sim1) :
    sim1.blockchain = sim.blockchain ∧
    (sim.blockchain.privateBranch ≠ [] → sim1.state ≠ 0) ∧
    (sim.blockchain.privateBranch = [] → s ≠ -1 → sim1.state = 0) ∧
    (s = -1 → sim1.state = -1) := by
  unfold Simulation.setState at h
  rw [bind_eq_ok] at h
  obtain ⟨⟨mainWork, privWork⟩, _, h⟩ := h
  simp only [pure, Except.pure, Except.ok.injEq] at h
  subst h
  refine ⟨rfl, ?_, ?_, ?_⟩
  · intro hp
    have hpos : 0 < sim.blockchain.privateBranch.length := List.length_pos.mpr hp
    simp only []
    split_ifs with h1 h2 h3 h4 h5 h6 <;> first | decide | omega | skip
    exfalso
    rcases lt_trichotomy (privWork - mainWork - sim.blockchain.nextDifficulty) 0 with c | c | c
    · exact h4 ⟨c, hpos⟩
    · exact h5 ⟨c, hpos⟩
    · exact h6 ⟨c, hpos⟩
  · intro hp hs
    simp only [hp, List.length_nil]
    simp [hs]
  · intro hs
    simp only [hs]
    split_ifs <;> rfl

theorem SimInv.of_nonempty {sim : Simulation} (store : ChainInv sim.blockchain)
    (hp : sim.blockchain.privateBranch ≠ []) (hs : sim.state ≠ 0) : SimInv sim :=
  ⟨store, ⟨fun h => absurd h hs, fun h => absurd h hp⟩, fun h => absurd h hp⟩

theorem SimInv.of_empty {sim : Simulation} (store : ChainInv sim.blockchain)
    (hp : sim.blockchain.privateBranch = []) (hs : sim.state = 0)
    (hf : sim.blockchain.forkHeight = 0) : SimInv sim :=
  ⟨store, ⟨fun _ => hp, fun _ => hs⟩, fun _ => hf⟩

theorem sim_newPrivateBlock_ok {sim sim1 : Simulation} (h : sim.newPrivateBlock = .ok sim1) :
    ∃ b, sim.blockchain.newPrivateBlock (sim.realTime + sim.timewarpOffset)
      = .ok (b, sim1.blockchain) := by
  unfold Simulation.newPrivateBlock at h
  rw [bind_eq_ok] at h
  obtain ⟨⟨b, bc⟩, hb, h⟩ := h
  cases h
  exact ⟨b, hb⟩

theorem SimInv.zeroToOne {sim sim1 : Simulation} (store : ChainInv sim.blockchain)
    (hp : sim.blockchain.privateBranch = []) (h : sim.zeroToOne = .ok sim1) : SimInv sim1 := by
  unfold Simulation.zeroToOne at h
  simp only [bind_eq_ok] at h
  obtain ⟨sim2, h2, h⟩ := h
  obtain ⟨b, hb⟩ := sim_newPrivateBlock_ok h2
  obtain ⟨st, hf, hp1⟩ := ChainInv.forkAtTip store hp
  obtain ⟨st2, hne⟩ := ChainInv.newPrivateBlock st (fun _ => hf) hb
  obtain ⟨e, hs, _, _⟩ := setState_ok h
  exact SimInv.of_nonempty (by rw [e]; exact st2) (by rw [e]; exact hne) (hs hne)

theorem SimInv.grow {sim sim1 : Simulation} {delay : Int} (store : ChainInv sim.blockchain)
    (hp : sim.blockchain.privateBranch ≠ []) (h : sim.oneToTwo delay = .ok sim1) :
    SimInv sim1 := by
  unfold Simulation.oneToTwo at h
  simp only [bind_eq_ok] at h
  obtain ⟨sim2, h2, h⟩ := h
  obtain ⟨b, hb⟩ := sim_newPrivateBlock_ok h2
  obtain ⟨st2, hne⟩ := ChainInv.newPrivateBlock
    (show ChainInv (sim.setRealTime delay).blockchain from store) (fun e => absurd e hp) hb
  obtain ⟨e, hs, _, _⟩ := setState_ok h
  exact SimInv.of_nonempty (by rw [e]; exact st2) (by rw [e]; exact hne) (hs hne)

theorem moreThanTwo_eq_oneToTwo (sim : Simulation) (delay : Int) :
    sim.moreThanTwo delay = sim.oneToTwo delay := rfl

theorem SimInv.moreThanTwoHonestWins {sim sim1 : Simulation} {delay : Int}
    (store : ChainInv sim.blockchain) (hp : sim.blockchain.privateBranch ≠ [])
    (h : sim.moreThanTwoHonestWins delay = .ok sim1) : SimInv sim1 := by
  unfold Simulation.moreThanTwoHonestWins at h
  simp only [bind_eq_ok] at h
  obtain ⟨⟨b, bc2⟩, hb, sim3, h3, h⟩ := h
  simp only [] at h3 h
  have st2 : ChainInv bc2 := ChainInv.newBlock
    (show ChainInv (sim.setRealTime delay).blockchain from store) hb
  have hp2 : bc2.privateBranch ≠ [] := by
    rw [(newBlock_ok hb).2.1]; exact hp
  obtain ⟨e3, hs3, _, _⟩ := setState_ok h3
  simp only [] at e3 hs3
  split at h
  · simp only [bind_eq_ok] at h
    obtain ⟨bc4, h4, h⟩ := h
    obtain ⟨bc4', h4', st4, hp4, hf4⟩ := ChainInv.reorg
      (show ChainInv sim3.blockchain from by rw [e3]; exact st2)
    rw [h4'] at h4
    cases h4
    obtain ⟨e5, _, hs5, _⟩ := setState_ok h
    exact SimInv.of_empty (by rw [e5]; exact st4) (by rw [e5]; exact hp4)
      (hs5 hp4 (by decide)) (by rw [e5]; exact hf4)
  · cases h
    exact SimInv.of_nonempty (by rw [e3]; exact st2) (by rw [e3]; exact hp2) (hs3 hp2)

theorem SimInv.smWinsRace {sim sim1 : Simulation} {delay : Int}
    (store : ChainInv sim.blockchain) (hp : sim.blockchain.privateBranch ≠ [])
    (h : sim.smWinsRace delay = .ok sim1) : SimInv sim1 := by
  unfold Simulation.smWinsRace at h
  simp only [bind_eq_ok] at h
  obtain ⟨sim2, h2, bc3, h3, h⟩ := h
  obtain ⟨b, hb⟩ := sim_newPrivateBlock_ok h2
  obtain ⟨st2, _⟩ := ChainInv.newPrivateBlock
    (show ChainInv (sim.setRealTime delay).blockchain from store) (fun e => absurd e hp) hb
  obtain ⟨bc3', h3', st3, hp3, hf3⟩ := ChainInv.reorg st2
  rw [h3'] at h3
  cases h3
  obtain ⟨e5, _, hs5, _⟩ := setState_ok h
  exact SimInv.of_empty (by rw [e5]; exact st3) (by rw [e5]; exact hp3)
    (hs5 hp3 (by decide)) (by rw [e5]; exact hf3)

theorem SimInv.hmOnSm {sim sim1 : Simulation} {delay : Int}
    (store : ChainInv sim.blockchain)
    (h : sim.hmOnSm delay = .ok sim1) : SimInv sim1 := by
  unfold Simulation.hmOnSm at h
  simp only [bind_eq_ok] at h
  obtain ⟨bc2, h2, ⟨b, bc3⟩, h3, h⟩ := h
  simp only [] at h
  obtain ⟨bc2', h2', st2, hp2, hf2⟩ := ChainInv.reorg
    (show ChainInv (sim.setRealTime delay).blockchain from store)
  rw [h2'] at h2
  cases h2
  have st3 : ChainInv bc3 := ChainInv.newBlock st2 h3
  have hp3 : bc3.privateBranch = [] := by rw [(newBlock_ok h3).2.1]; exact hp2
  have st4 : ChainInv { bc3 with nextPrivateDifficulty := bc3.nextDifficulty } :=
    ChainInv.transport st3 rfl rfl rfl rfl
  have st5 := ChainInv.clearFork st4 hp3
  obtain ⟨e5, _, hs5, _⟩ := setState_ok h
  exact SimInv.of_empty (by rw [e5]; exact st5) (by rw [e5]; exact hp3)
    (hs5 hp3 (by decide)) (by rw [e5]; simp [Blockchain.setForkHeight])

theorem SimInv.hmWinsRace {sim sim1 : Simulation} {delay : Int}
    (store : ChainInv sim.blockchain)
    (h : sim.hmWinsRace delay = .ok sim1) : SimInv sim1 := by
  unfold Simulation.hmWinsRace at h
  simp only [bind_eq_ok] at h
  obtain ⟨⟨b, bc2⟩, h2, bc3, h3, h⟩ := h
  simp only [] at h3 h
  have st2 : ChainInv bc2 := ChainInv.newBlock
    (show ChainInv (sim.setRealTime delay).blockchain from store) h2
  rw [popPrivateLoop_eq _ _ (le_refl _)] at h3
  cases h3
  have st3 := ChainInv.dropPrivate st2
  have st4 : ChainInv { ({ bc2 with privateBranch := [] } : Blockchain) with
      nextPrivateDifficulty := bc2.nextDifficulty } :=
    ChainInv.transport st3 rfl rfl rfl rfl
  have st5 := ChainInv.clearFork st4 rfl
  obtain ⟨e5, _, hs5, _⟩ := setState_ok h
  exact SimInv.of_empty (by rw [e5]; exact st5) (by rw [e5]; rfl)
    (hs5 rfl (by decide)) (by rw [e5]; simp [Blockchain.setForkHeight])

theorem SimInv.stepZero {sim sim1 : Simulation} {res res1 : SimulationResult} {d : Draw}
    (inv : SimInv sim) (hs : sim.state = 0) (h : sim.stepZero res d = .ok (sim1, res1)) :
    SimInv sim1 := by
  have hp : sim.blockchain.privateBranch = [] := inv.state_zero.mp hs
  have st1 : ChainInv ({ sim.blockchain with
      nextPrivateDifficulty := sim.blockchain.nextDifficulty } : Blockchain) :=
    ChainInv.transport inv.store rfl rfl rfl rfl
  unfold Simulation.stepZero at h
  simp only [] at h
  split at h
  · simp only [bind_eq_ok] at h
    obtain ⟨sim3, h3, h⟩ := h
    cases h
    refine SimInv.zeroToOne ?_ ?_ h3
    · exact st1
    · exact hp
  · simp only [bind_eq_ok] at h
    obtain ⟨⟨b, bc3⟩, h3, h⟩ := h
    cases h
    have st3 : ChainInv bc3 := by
      refine ChainInv.newBlock ?_ h3
      exact st1
    obtain ⟨_, e2, _, e4⟩ := newBlock_ok h3
    exact SimInv.of_empty st3 (by rw [e2]; exact hp) hs (by rw [e4]; exact inv.fork_zero hp)

theorem SimInv.stepOne {sim sim1 : Simulation} {res res1 : SimulationResult} {d : Draw}
    (inv : SimInv sim) (hs : sim.state ≠ 0) (h : sim.stepOne res d = .ok (sim1, res1)) :
    SimInv sim1 := by
  have hp : sim.blockchain.privateBranch ≠ [] := fun e => hs (inv.state_zero.mpr e)
  unfold Simulation.stepOne at h
  split at h
  · simp only [bind_eq_ok] at h
    obtain ⟨sim2, h2, h⟩ := h
    cases h
    exact SimInv.grow inv.store hp h2
  · simp only [bind_eq_ok] at h
    obtain ⟨⟨b, bc2⟩, h2, sim3, h3, h⟩ := h
    simp only [] at h3
    cases h
    have st2 : ChainInv bc2 :=
      ChainInv.newBlock
        (show ChainInv (sim.setRealTime d.delayHonest).blockchain from inv.store) h2
    have hp2 : bc2.privateBranch ≠ [] := by
      rw [(newBlock_ok h2).2.1]; exact hp
    obtain ⟨e3, hs3, _, _⟩ := setState_ok h3
    simp only [] at e3 hs3
    exact SimInv.of_nonempty (by rw [e3]; exact st2) (by rw [e3]; exact hp2) (hs3 hp2)

theorem SimInv.stepLead {sim sim1 : Simulation} {res res1 : SimulationResult} {d : Draw}
    (inv : SimInv sim) (hs : sim.state ≠ 0) (h : sim.stepLead res d = .ok (sim1, res1)) :
    SimInv sim1 := by
  have hp : sim.blockchain.privateBranch ≠ [] := fun e => hs (inv.state_zero.mpr e)
  unfold Simulation.stepLead at h
  split at h
  · simp only [bind_eq_ok] at h
    obtain ⟨sim2, h2, h⟩ := h
    cases h
    rw [moreThanTwo_eq_oneToTwo] at h2
    exact SimInv.grow inv.store hp h2
  · simp only [bind_eq_ok] at h
    obtain ⟨sim2, h2, h⟩ := h
    cases h
    exact SimInv.moreThanTwoHonestWins inv.store hp h2

theorem SimInv.stepRace {sim sim1 : Simulation} {res res1 : SimulationResult} {d : Draw}
    (inv : SimInv sim) (hs : sim.state ≠ 0) (h : sim.stepRace res d = .ok (sim1, res1)) :
    SimInv sim1 := by
  have hp : sim.blockchain.privateBranch ≠ [] := fun e => hs (inv.state_zero.mpr e)
  unfold Simulation.stepRace at h
  simp only [] at h
  split at h
  · simp only [bind_eq_ok] at h
    obtain ⟨sim2, h2, h⟩ := h
    cases h
    exact SimInv.smWinsRace inv.store hp h2
  · split at h
    · simp only [bind_eq_ok] at h
      obtain ⟨sim2, h2, h⟩ := h
      cases h
      exact SimInv.hmOnSm inv.store h2
    · simp only [bind_eq_ok] at h
      obtain ⟨sim2, h2, h⟩ := h
      cases h
      exact SimInv.hmWinsRace inv.store h2

theorem SimInv.loopBody {sim sim1 : Simulation} {res res1 : SimulationResult} {d : Draw}
    (inv : SimInv sim) (h : sim.loopBody res d = .ok (sim1, res1)) : SimInv sim1 := by
  unfold Simulation.loopBody at h
  rw [bind_eq_ok] at h
  obtain ⟨_, _, h⟩ := h
  split at h
  · rename_i hs
    exact SimInv.stepZero inv hs h
  · rename_i hs
    split at h
    · exact SimInv.stepOne inv hs h
    · split at h
      · exact SimInv.stepLead inv hs h
      · split at h
        · exact SimInv.stepRace inv hs h
        · cases h
          exact inv

theorem SimInv.init (alpha gamma : ℚ) (blocks timewarp : Int) (isBCHStrategic : Bool)
    (diffAlgo : Option Difficulty) (expectedBlockTime id : Int) :
    SimInv (Simulation.zero.init alpha gamma blocks timewarp isBCHStrategic diffAlgo
      expectedBlockTime id) := by
  unfold Simulation.init
  simp only [Blockchain.setDiffAlgo, Init_eq, Simulation.zero, Blockchain.zero, List.nil_append]
  refine SimInv.of_empty ⟨?_, ?_, ?_, ?_, ?_⟩ rfl rfl rfl
  · intro i hi
    simp [baseline]
  · simp
  · exact le_refl 0
  · simp
  · intro k hk
    simp at hk

theorem SimInv.of_reachable {sim : Simulation} {res : SimulationResult}
    (h : Reachable sim res) : SimInv sim := by
  induction h with
  | start alpha gamma blocks timewarp isBCHStrategic diffAlgo expectedBlockTime id =>
    exact SimInv.init alpha gamma blocks timewarp isBCHStrategic diffAlgo expectedBlockTime id
  | step d _ _ hbody ih => exact SimInv.loopBody ih hbody

/-- C1: in every state reachable from an initialised simulation by iterations
of the `runSimulation` loop, for any draws, `chain[i].height == i` for every
index `i` of the public chain. -/
theorem reachable_public_heights {sim : Simulation} {res : SimulationResult}
    (h : Reachable sim res) :
    ∀ (i : Nat) (hi : i < sim.blockchain.chain.length),
      (sim.blockchain.chain.get ⟨i, hi⟩).height = (i : Int) :=
  (SimInv.of_reachable h).store.heights

/-- C2: in every reachable state with a non-empty private branch,
`privateBranch[0].height == forkHeight + 1` and
`privateBranch[k+1].height == privateBranch[k].height + 1` for every valid `k`. -/
theorem reachable_private_heights {sim : Simulation} {res : SimulationResult}
    (h : Reachable sim res) (hne : sim.blockchain.privateBranch ≠ []) :
    (∃ first, sim.blockchain.privateBranch.head? = some first ∧
      first.height = sim.blockchain.forkHeight + 1) ∧
    ∀ (k : Nat) (hk : k + 1 < sim.blockchain.privateBranch.length),
      (sim.blockchain.privateBranch.get ⟨k + 1, hk⟩).height =
        (sim.blockchain.privateBranch.get ⟨k, Nat.lt_of_succ_lt hk⟩).height + 1 := by
  have inv := (SimInv.of_reachable h).store
  constructor
  · have hpos : 0 < sim.blockchain.privateBranch.length := List.length_pos.mpr hne
    refine ⟨sim.blockchain.privateBranch.get ⟨0, hpos⟩, ?_, ?_⟩
    · rw [List.head?_eq_getElem?, List.getElem?_eq_getElem hpos]
      rfl
    · have := inv.priv 0 hpos
      simpa using this
  · intro k hk
    rw [inv.priv (k + 1) hk, inv.priv k (Nat.lt_of_succ_lt hk)]
    push_cast
    ring

theorem btcSim_eq : btcSim = btcSimOn ((List.range 3000).map (baseline 600)) := by
  simp [btcSim, btcSimOn, Simulation.init, Init_eq, Blockchain.setDiffAlgo, Simulation.zero,
    Blockchain.zero, startingBlocks, STARTING_BLOCKS]

theorem pushToPrivateChain_eq (bc : Blockchain) (b : Block) (h : bc.chain ≠ []) :
    bc.pushToPrivateChain b =
      .ok { bc with privateBranch := bc.privateBranch ++ [b], time := b.timestamp } := by
  unfold Blockchain.pushToPrivateChain
  simp only []
  rw [index_last _ _ (List.getLast?_eq_getLast _ h)]
  rfl

theorem btcSimOn_first_step (chain0 : List Block) (hlen : chain0.length = 3000) :
    (btcSimOn chain0).loopBody SimulationResult.zero selfishDraw
      = .ok (btcSimForkedOn chain0, SimulationResult.zero) := by
  have hne : chain0 ≠ [] := by
    intro e; rw [e] at hlen; simp at hlen
  unfold Simulation.loopBody Simulation.privHeight
  simp only [btcSimOn, List.length_nil, gt_iff_lt, lt_self_iff_false, ↓reduceIte, pure_bind]
  unfold Simulation.stepZero Simulation.zeroToOne Simulation.newPrivateBlock
    Blockchain.newPrivateBlock
  simp only [Simulation.setRealTime, selfishDraw, Blockchain.setForkHeight]
  norm_num
  rw [pushToPrivateChain_eq _ _ hne]
  simp only [List.nil_append, bind, Except.bind]
  have hview : (Blockchain.view
      { chain := chain0, privateBranch := [⟨3000, 1, 1799410, false⟩], forkHistory := [2999],
        height := 2999, forkHeight := 2999, time := 1799410, privateTime := 0,
        nextDifficulty := 1, nextPrivateDifficulty := 1,
        diffAlgo := some (.btc btcDefault), expectedBlockTime := 600 } true)
      = .ok (chain0.take 3000 ++ [⟨3000, 1, 1799410, false⟩]) := by
    unfold Blockchain.view
    rw [if_pos rfl, getPrivateView_eq _ (by norm_num) (by simp only [hlen]; norm_num)]
    rfl
  have hd := btc_getDiff_last btcDefault true _ _ hview (by decide) (by simp)
    (by simp [hlen, STARTING_BLOCKS, btcDefault])
  simp only [List.getLast_append_singleton] at hd
  unfold Blockchain.adjustDifficulty
  simp only [Difficulty.getDiff, hd, bind, Except.bind, ↓reduceIte, pure, Except.pure]
  unfold Simulation.setState
  rw [getPostForkWork_past_fork _ (by norm_num) (by simp only [hlen]; norm_num) (by norm_num)]
  have hdrop : chain0.drop (2999 + 1 : Int).toNat = [] := by
    apply List.drop_eq_nil_of_le
    rw [hlen]
    decide
  simp only [hdrop, bind, Except.bind, pure, Except.pure, Functor.map, Except.map]
  norm_num [btcSimForkedOn, btcSimOn]

theorem btcSimForked_reachable : Reachable btcSimForked SimulationResult.zero := by
  have h0 : Reachable btcSim SimulationResult.zero :=
    Reachable.start (1 / 3) (1 / 2) 5000 0 false (some (.btc btcDefault)) 600 1
  refine Reachable.step selfishDraw h0 ?_ ?_
  · rw [btcSim_eq]
    simp [Simulation.loopCond, btcSimOn, startingBlocks, STARTING_BLOCKS]
  · rw [btcSim_eq]
    exact btcSimOn_first_step _ (by simp)

theorem reachable_public_heights_witness :
    Reachable btcSimForked SimulationResult.zero ∧
    ∀ (i : Nat) (hi : i < btcSimForked.blockchain.chain.length),
      (btcSimForked.blockchain.chain.get ⟨i, hi⟩).height = (i : Int) :=
  ⟨btcSimForked_reachable, reachable_public_heights btcSimForked_reachable⟩

theorem reachable_private_heights_witness :
    Reachable btcSimForked SimulationResult.zero ∧
    btcSimForked.blockchain.privateBranch ≠ [] ∧
    (∃ first, btcSimForked.blockchain.privateBranch.head? = some first ∧
      first.height = btcSimForked.blockchain.forkHeight + 1) ∧
    ∀ (k : Nat) (hk : k + 1 < btcSimForked.blockchain.privateBranch.length),
      (btcSimForked.blockchain.privateBranch.get ⟨k + 1, hk⟩).height =
        (btcSimForked.blockchain.privateBranch.get ⟨k, Nat.lt_of_succ_lt hk⟩).height + 1 :=
  ⟨btcSimForked_reachable, by simp [btcSimForked, btcSimForkedOn],
    reachable_private_heights btcSimForked_reachable (by simp [btcSimForked, btcSimForkedOn])⟩

theorem setState_eq (sim : Simulation) (s : Int) (m p : ℚ)
    (h : sim.blockchain.getPostForkWork = .ok (m, p)) :
    sim.setState s = .ok { sim with
      effectiveState := p - m
      effectiveStateHistory := sim.effectiveStateHistory ++ [p - m]
      ifLose := p - m - sim.blockchain.nextDifficulty
      prevState := sim.state
      state := statedState sim.state sim.blockchain.privateBranch.length (p - m)
        (p - m - sim.blockchain.nextDifficulty) s
      stateHistory := sim.stateHistory ++
        [statedState sim.state sim.blockchain.privateBranch.length (p - m)
          (p - m - sim.blockchain.nextDifficulty) s] } := by
  have hst : (if sim.state = 1 ∧ sim.blockchain.privateBranch.length > 0 ∧ p - m = 0 then (-1 : Int)
      else if s = -1 then -1
      else if sim.blockchain.privateBranch.length = 0 then 0
      else if p - m - sim.blockchain.nextDifficulty < 0 ∧ sim.blockchain.privateBranch.length > 0
        then -1
      else if p - m - sim.blockchain.nextDifficulty = 0 ∧ sim.blockchain.privateBranch.length > 0
        then 1
      else if p - m - sim.blockchain.nextDifficulty > 0 ∧ sim.blockchain.privateBranch.length > 0
        then 2
      else sim.state)
      = statedState sim.state sim.blockchain.privateBranch.length (p - m)
        (p - m - sim.blockchain.nextDifficulty) s := by
    unfold statedState
    split_ifs <;> first | rfl | omega | skip
    all_goals
      exfalso
      rcases lt_trichotomy (p - m - sim.blockchain.nextDifficulty) 0 with c | c | c <;>
        simp_all
  unfold Simulation.setState
  rw [h]
  simp only [bind, Except.bind, pure, Except.pure]
  rw [hst]

/-- C19: whenever the post-fork works `(mainWork, privWork)` can be read,
`setState(s)` returns, leaves the chain store alone, sets
`effectiveState = privWork - mainWork` and `ifLose = effectiveState - nextDifficulty`,
records the old state as `prevState`, and sets the state to `statedState`; two
arguments other than -1 give the same result. -/
theorem setState_spec (sim : Simulation) (s : Int) (m p : ℚ)
    (h : sim.blockchain.getPostForkWork = .ok (m, p)) :
    ∃ sim1, sim.setState s = .ok sim1 ∧ sim1.blockchain = sim.blockchain ∧
      sim1.effectiveState = p - m ∧
      sim1.ifLose = sim1.effectiveState - sim.blockchain.nextDifficulty ∧
      sim1.prevState = sim.state ∧
      sim1.state = statedState sim.state sim.blockchain.privateBranch.length
        sim1.effectiveState sim1.ifLose s ∧
      ∀ s1 s2 : Int, s1 ≠ -1 → s2 ≠ -1 → sim.setState s1 = sim.setState s2 := by
  refine ⟨_, setState_eq sim s m p h, rfl, rfl, rfl, rfl, rfl, ?_⟩
  intro s1 s2 h1 h2
  rw [setState_eq sim s1 m p h, setState_eq sim s2 m p h]
  simp [statedState, h1, h2]

theorem racingSim_work : racingSim.blockchain.getPostForkWork = .ok (1, 1) := by
  have h := getPostForkWork_past_fork racingChain (by decide) (by decide) (by decide)
  rw [show racingSim.blockchain = racingChain from rfl, h]
  norm_num [racingChain, sampleBlock, Blockchain.zero, (by decide : (2 : Int).toNat = 2)]

theorem setState_spec_witness :
    racingSim.blockchain.getPostForkWork = .ok (1, 1) ∧
    ∃ sim1, racingSim.setState 0 = .ok sim1 ∧ sim1.blockchain = racingSim.blockchain ∧
      sim1.effectiveState = 1 - 1 ∧
      sim1.ifLose = sim1.effectiveState - racingSim.blockchain.nextDifficulty ∧
      sim1.prevState = racingSim.state ∧
      sim1.state = statedState racingSim.state racingSim.blockchain.privateBranch.length
        sim1.effectiveState sim1.ifLose 0 ∧
      ∀ s1 s2 : Int, s1 ≠ -1 → s2 ≠ -1 → racingSim.setState s1 = racingSim.setState s2 :=
  ⟨racingSim_work, setState_spec racingSim 0 1 1 racingSim_work⟩

theorem getPostForkWork_returns (bc : Blockchain) (h0 : -1 ≤ bc.forkHeight)
    (h1 : bc.forkHeight < (bc.chain.length : Int)) :
    ∃ m p, bc.getPostForkWork = .ok (m, p) := by
  by_cases hz : bc.forkHeight = 0
  · refine ⟨0, 0, ?_⟩
    unfold Blockchain.getPostForkWork
    rw [if_pos hz]
    rfl
  · exact ⟨_, _, getPostForkWork_past_fork bc h0 h1 hz⟩

theorem newBlock_block {bc bc1 : Blockchain} {t : Int} {b : Block}
    (h : bc.newBlock t = .ok (b, bc1)) :
    b = ⟨bc.height + 1, bc.nextDifficulty, t, true⟩ := by
  unfold Blockchain.newBlock at h
  simp only [] at h
  rw [bind_eq_ok] at h
  obtain ⟨bc2, _, h⟩ := h
  cases h
  rfl

theorem moreThanTwoHonestWins_eq (sim : Simulation) (d : Int) (b : Block) (bc2 : Blockchain)
    (m p : ℚ) (hne : sim.state ≠ 1) (hp : sim.blockchain.privateBranch ≠ [])
    (inv2 : ChainInv bc2) (hpe : bc2.privateBranch = sim.blockchain.privateBranch)
    (hb : sim.blockchain.newBlock (sim.realTime + d) = .ok (b, bc2))
    (hw : bc2.getPostForkWork = .ok (m, p)) :
    ∃ sim1, sim.moreThanTwoHonestWins d = .ok sim1 ∧ sim1.realTime = sim.realTime + d ∧
      (p - m - bc2.nextDifficulty < 0 →
        sim1.state = 0 ∧ sim1.blockchain.privateBranch = [] ∧ sim1.blockchain.forkHeight = 0 ∧
        sim1.blockchain.chain =
          bc2.chain.take (bc2.forkHeight + 1).toNat ++ sim.blockchain.privateBranch) ∧
      (p - m - bc2.nextDifficulty = 0 → sim1.state = 1 ∧ sim1.blockchain = bc2) ∧
      (0 < p - m - bc2.nextDifficulty → sim1.state = 2 ∧ sim1.blockchain = bc2) := by
  have hplen : 0 < bc2.privateBranch.length := by
    rw [hpe]; exact List.length_pos.mpr hp
  unfold Simulation.moreThanTwoHonestWins
  simp only [Simulation.setRealTime, hb, bind, Except.bind]
  rw [setState_eq _ 0 m p hw]
  simp only []
  by_cases hlt : p - m - bc2.nextDifficulty < 0
  · rw [if_pos ⟨hlt, hplen⟩]
    have hfle : bc2.forkHeight ≤ bc2.height := by
      rw [inv2.height_eq]; exact inv2.fork_le
    rw [reorg_eq bc2 inv2.height_eq inv2.fork_nonneg hfle]
    simp only []
    have hw4 : Blockchain.getPostForkWork
        { bc2 with
          chain := bc2.chain.take (bc2.forkHeight + 1).toNat ++ bc2.privateBranch
          privateBranch := []
          height := bc2.forkHeight + bc2.privateBranch.length
          time := lastTime bc2.time bc2.privateBranch
          forkHeight := 0
          forkHistory := bc2.forkHistory ++ [0]
          nextDifficulty := bc2.nextPrivateDifficulty } = .ok (0, 0) := rfl
    rw [setState_eq _ 0 0 0 hw4]
    refine ⟨_, rfl, rfl, ?_, ?_, ?_⟩
    · intro _
      refine ⟨?_, rfl, rfl, by rw [hpe]⟩
      simp [statedState, hlt, hne, Nat.pos_iff_ne_zero.mp hplen]
    · intro h0
      rw [h0] at hlt
      exact absurd hlt (lt_irrefl 0)
    · intro h0
      exact absurd hlt (not_lt.mpr (le_of_lt h0))
  · rw [if_neg (fun h => hlt h.1)]
    refine ⟨_, rfl, rfl, fun h => absurd h hlt, ?_, ?_⟩
    · intro h0
      refine ⟨?_, rfl⟩
      simp [statedState, hne, h0, Nat.pos_iff_ne_zero.mp hplen]
    · intro h0
      refine ⟨?_, rfl⟩
      simp [statedState, hne, Nat.pos_iff_ne_zero.mp hplen, not_lt.mpr (le_of_lt h0),
        ne_of_gt h0]

theorem btcSimForkedOn_second_step (chain0 : List Block) (hlen : chain0.length = 3000) :
    (btcSimForkedOn chain0).loopBody SimulationResult.zero selfishFirstDraw
      = .ok (btcSimLeadOn chain0, SimulationResult.zero) := by
  have hne : chain0 ≠ [] := by
    intro e; rw [e] at hlen; simp at hlen
  unfold Simulation.loopBody Simulation.privHeight
  have hv0 : (btcSimForkedOn chain0).blockchain.getPrivateView
      = .ok (chain0.take 3000 ++ [⟨3000, 1, 1799410, false⟩]) := by
    rw [getPrivateView_eq _ (by norm_num [btcSimForkedOn, btcSimOn])
      (by simp only [btcSimForkedOn, btcSimOn, hlen]; norm_num)]
    rfl
  rw [hv0]
  simp only [btcSimForkedOn, btcSimOn, List.length_singleton, gt_iff_lt, zero_lt_one, ↓reduceIte,
    bind, Except.bind, pure, Except.pure]
  norm_num
  unfold Simulation.stepOne Simulation.oneToTwo Simulation.newPrivateBlock
    Blockchain.newPrivateBlock
  simp only [Simulation.setRealTime, selfishFirstDraw]
  norm_num [index]
  simp only [bind, Except.bind]
  norm_num
  rw [pushToPrivateChain_eq _ _ hne]
  simp only [List.cons_append, List.nil_append, bind, Except.bind]
  have hview : (Blockchain.view
      { chain := chain0,
        privateBranch := [⟨3000, 1, 1799410, false⟩, ⟨3001, 1, 1799415, false⟩],
        forkHistory := [2999], height := 2999, forkHeight := 2999, time := 1799415,
        privateTime := 0, nextDifficulty := 1, nextPrivateDifficulty := 1,
        diffAlgo := some (.btc btcDefault), expectedBlockTime := 600 } true)
      = .ok (chain0.take 3000 ++ [⟨3000, 1, 1799410, false⟩, ⟨3001, 1, 1799415, false⟩]) := by
    unfold Blockchain.view
    rw [if_pos rfl, getPrivateView_eq _ (by norm_num) (by simp only [hlen]; norm_num)]
    rfl
  have hd := btc_getDiff_last btcDefault true _ _ hview (by decide) (by simp)
    (by simp [hlen, STARTING_BLOCKS, btcDefault])
  have hl : (chain0.take 3000 ++ [(⟨3000, 1, 1799410, false⟩ : Block),
      ⟨3001, 1, 1799415, false⟩]).getLast (by simp) = ⟨3001, 1, 1799415, false⟩ := by
    simp
  rw [hl] at hd
  unfold Blockchain.adjustDifficulty
  simp only [Difficulty.getDiff, hd, bind, Except.bind, ↓reduceIte, pure, Except.pure]
  unfold Simulation.setState
  rw [getPostForkWork_past_fork _ (by norm_num) (by simp only [hlen]; norm_num) (by norm_num)]
  have hdrop : chain0.drop (2999 + 1 : Int).toNat = [] := by
    apply List.drop_eq_nil_of_le
    rw [hlen]
    decide
  simp only [hdrop, bind, Except.bind, pure, Except.pure, Functor.map, Except.map]
  norm_num [btcSimLeadOn, btcSimForkedOn, btcSimOn]

theorem btcSimLead_reachable : Reachable btcSimLead SimulationResult.zero := by
  refine Reachable.step selfishFirstDraw btcSimForked_reachable ?_ ?_
  · simp [Simulation.loopCond, btcSimForked, btcSimForkedOn, btcSimOn]
  · exact btcSimForkedOn_second_step _ (by simp)

theorem btcSimLeadOn_newBlock (chain0 : List Block) (hlen : chain0.length = 3000) :
    (btcSimLeadOn chain0).blockchain.newBlock ((btcSimLeadOn chain0).realTime + 30)
      = .ok (⟨3000, 1, 1799445, true⟩,
        { (btcSimLeadOn chain0).blockchain with
          chain := chain0 ++ [⟨3000, 1, 1799445, true⟩]
          height := 3000
          time := 1799445 }) := by
  unfold Blockchain.newBlock Blockchain.pushToChain
  simp only [btcSimLeadOn, btcSimForkedOn, btcSimOn]
  norm_num
  have hview : (Blockchain.view
      { chain := chain0 ++ [⟨3000, 1, 1799445, true⟩],
        privateBranch := [⟨3000, 1, 1799410, false⟩, ⟨3001, 1, 1799415, false⟩],
        forkHistory := [2999], height := 3000, forkHeight := 2999, time := 1799445,
        privateTime := 0, nextDifficulty := 1, nextPrivateDifficulty := 1,
        diffAlgo := some (.btc btcDefault), expectedBlockTime := 600 } false)
      = .ok (chain0 ++ [⟨3000, 1, 1799445, true⟩]) := rfl
  have hd := btc_getDiff_last btcDefault false _ _ hview (by decide) (by simp)
    (by simp [hlen, STARTING_BLOCKS, btcDefault])
  simp only [List.getLast_append_singleton] at hd
  unfold Blockchain.adjustDifficulty
  simp only [Difficulty.getDiff, hd, bind, Except.bind, pure, Except.pure]
  rfl

/-- C20: in every reachable state with `state >= 2`, for every delay `d`, once
the honest block `b` is minted (the DAA call of `newBlock` returns), `b` has
height `height + 1`, the pre-call `nextDifficulty`, timestamp `realTime + d` and
is honest; `moreThanTwoHonestWins(d)` returns with `realTime` advanced by `d`;
with `ifLose` recomputed as private minus public post-fork work minus the new
`nextDifficulty`: if `ifLose < 0` the private branch is published
(`chain[0..forkHeight]` followed by the private branch) and the step ends with
state 0, an empty private branch and `forkHeight` 0; otherwise the chain store
is the one `newBlock` left, private branch unchanged, and the state is 1 when
`ifLose == 0` and 2 when `ifLose > 0`. -/
theorem moreThanTwoHonestWins_spec {sim : Simulation} {res : SimulationResult}
    (hr : Reachable sim res) (hs : 2 ≤ sim.state) (d : Int) (b : Block) (bc2 : Blockchain)
    (hb : sim.blockchain.newBlock (sim.realTime + d) = .ok (b, bc2)) :
    b = ⟨sim.blockchain.height + 1, sim.blockchain.nextDifficulty, sim.realTime + d, true⟩ ∧
    bc2.chain = sim.blockchain.chain ++ [b] ∧
    bc2.privateBranch = sim.blockchain.privateBranch ∧
    ∃ m p sim1, bc2.getPostForkWork = .ok (m, p) ∧
      sim.moreThanTwoHonestWins d = .ok sim1 ∧ sim1.realTime = sim.realTime + d ∧
      (p - m - bc2.nextDifficulty < 0 →
        sim1.state = 0 ∧ sim1.blockchain.privateBranch = [] ∧ sim1.blockchain.forkHeight = 0 ∧
        sim1.blockchain.chain =
          sim.blockchain.chain.take (sim.blockchain.forkHeight + 1).toNat
            ++ sim.blockchain.privateBranch) ∧
      (p - m - bc2.nextDifficulty = 0 → sim1.state = 1 ∧ sim1.blockchain = bc2) ∧
      (0 < p - m - bc2.nextDifficulty → sim1.state = 2 ∧ sim1.blockchain = bc2) := by
  have inv := SimInv.of_reachable hr
  have hp : sim.blockchain.privateBranch ≠ [] := by
    intro e
    have := inv.state_zero.mpr e
    omega
  have inv2 : ChainInv bc2 := ChainInv.newBlock inv.store hb
  have hblock := newBlock_block hb
  obtain ⟨e1, e2, e3, e4⟩ := newBlock_ok hb
  obtain ⟨m, p, hw⟩ := getPostForkWork_returns bc2 (by have := inv2.fork_nonneg; omega)
    (by have := inv2.fork_le; omega)
  obtain ⟨sim1, h1, h2, h3, h4, h5⟩ :=
    moreThanTwoHonestWins_eq sim d b bc2 m p (by omega) hp inv2 e2 hb hw
  refine ⟨hblock, by rw [e1, hblock], e2, m, p, sim1, hw, h1, h2, ?_, h4, h5⟩
  intro hlt
  obtain ⟨a1, a2, a3, a4⟩ := h3 hlt
  refine ⟨a1, a2, a3, ?_⟩
  rw [a4, e1, e4, List.take_append_of_le_length]
  have := inv.store.fork_le
  have := inv.store.fork_nonneg
  omega

theorem moreThanTwoHonestWins_spec_witness :
    Reachable btcSimLead SimulationResult.zero ∧ 2 ≤ btcSimLead.state ∧
    btcSimLead.blockchain.newBlock (btcSimLead.realTime + 30)
      = .ok (⟨3000, 1, 1799445, true⟩, btcLeadAfterHonest) ∧
    ∃ m p sim1, btcLeadAfterHonest.getPostForkWork = .ok (m, p) ∧
      btcSimLead.moreThanTwoHonestWins 30 = .ok sim1 ∧
      sim1.realTime = btcSimLead.realTime + 30 ∧
      (p - m - btcLeadAfterHonest.nextDifficulty = 0 →
        sim1.state = 1 ∧ sim1.blockchain = btcLeadAfterHonest) := by
  have hb : btcSimLead.blockchain.newBlock (btcSimLead.realTime + 30)
      = .ok (⟨3000, 1, 1799445, true⟩, btcLeadAfterHonest) := by
    have h := btcSimLeadOn_newBlock ((List.range 3000).map (baseline 600)) (by simp)
    simpa only [btcSimLead, btcLeadAfterHonest, btcSimLeadOn, btcSimForkedOn, btcSimOn] using h
  have hs : 2 ≤ btcSimLead.state := by simp [btcSimLead, btcSimLeadOn]
  obtain ⟨_, _, _, m, p, sim1, hw, h1, h2, _, h4, _⟩ :=
    moreThanTwoHonestWins_spec btcSimLead_reachable hs 30 _ _ hb
  exact ⟨btcSimLead_reachable, hs, hb, m, p, sim1, hw, h1, h2, h4⟩

theorem bch_getDiff_eq (b : bchDifficulty) (isPrivate : Bool) (bc : Blockchain) :
    b.getDiff isPrivate bc = bc.view isPrivate >>= b.onView bc.expectedBlockTime := by
  unfold bchDifficulty.getDiff Blockchain.view bchDifficulty.onView
  cases isPrivate
  · rfl
  · simp only [↓reduceIte]

theorem fatal_guard_ok {x d : ℚ}
    (h : (if x < 1 / 10 then Except.error Fault.fatal else pure x) = Except.ok d) :
    x = d ∧ 1 / 10 ≤ d := by
  split at h
  · cases h
  · rename_i hge
    cases h
    exact ⟨rfl, not_lt.mp hge⟩

theorem bch_getDiff_ge_tenth (b : bchDifficulty) (isPrivate : Bool) (bc : Blockchain) (d : ℚ)
    (h : b.getDiff isPrivate bc = .ok d) : 1 / 10 ≤ d := by
  rw [bch_getDiff_eq, bind_eq_ok] at h
  obtain ⟨view, _, h⟩ := h
  unfold bchDifficulty.onView at h
  simp only [bind_eq_ok] at h
  obtain ⟨top3, _, bottom3, _, topMed, _, bottomMed, _, subChain, _, h⟩ := h
  exact (fatal_guard_ok h).2

/-- C17 fails on the code: the BTC `getDiff` computes 1/20 on `lowDifficultyChain`
and returns it, and `adjustDifficulty` assigns it to `nextDifficulty`; only the
BCH `getDiff` never returns a value below 1/10. -/
theorem getDiff_below_tenth_returned :
    btcDefault.getDiff false lowDifficultyChain = .ok (1 / 20) ∧
    lowDifficultyChain.adjustDifficulty false
      = .ok { lowDifficultyChain with nextDifficulty := 1 / 20 } ∧
    (1 / 20 : ℚ) < 1 / 10 ∧
    ∀ (b : bchDifficulty) (isPrivate : Bool) (bc : Blockchain) (d : ℚ),
      b.getDiff isPrivate bc = .ok d → 1 / 10 ≤ d := by
  have hd : btcDefault.getDiff false lowDifficultyChain = .ok (1 / 20) := by
    have h := btc_getDiff_last btcDefault false lowDifficultyChain lowDifficultyChain.chain rfl
      (by decide) (by decide) (by decide)
    rw [h]
    rfl
  refine ⟨hd, ?_, by norm_num, bch_getDiff_ge_tenth⟩
  unfold Blockchain.adjustDifficulty
  have hda : lowDifficultyChain.diffAlgo = some (.btc btcDefault) := rfl
  simp only [hda, Difficulty.getDiff, hd, bind, Except.bind, pure, Except.pure]
  rfl

theorem index_map {α β : Type} (f : α → β) (xs : List α) (i : Int) :
    index (xs.map f) i = (index xs i).map f := by
  unfold index
  split
  · rfl
  · rw [List.getElem?_map]
    cases xs[i.toNat]? <;> rfl

theorem slice_map {α β : Type} (f : α → β) (xs : List α) (lo hi : Int) :
    slice (xs.map f) lo hi = (slice xs lo hi).map (List.map f) := by
  unfold slice
  rw [List.length_map]
  split
  · simp [Except.map, List.map_drop, List.map_take]
  · rfl

theorem getPrivateViewLoop_map (f : Block → Block) (chain : List Block) (n : Nat) :
    ∀ acc : List Block,
    (List.range n).foldlM
      (fun (acc : List Block) (i : Nat) => do
        let b ← index (chain.map f) (i : Int)
        pure (acc ++ [b])) (acc.map f)
    = ((List.range n).foldlM
      (fun (acc : List Block) (i : Nat) => do
        let b ← index chain (i : Int)
        pure (acc ++ [b])) acc).map (List.map f) := by
  induction n with
  | zero => intro acc; rfl
  | succ k ih =>
    intro acc
    rw [List.range_succ, List.foldlM_append, List.foldlM_append, ih acc]
    cases (List.range k).foldlM
      (fun (acc : List Block) (i : Nat) => do
        let b ← index chain (i : Int)
        pure (acc ++ [b])) acc with
    | error e => rfl
    | ok acc1 =>
      simp only [Except.map, bind, Except.bind, List.foldlM_cons, List.foldlM_nil, index_map]
      cases index chain (k : Int) with
      | error e => rfl
      | ok b => simp [Except.map, pure, Except.pure]

theorem view_shift (bc : Blockchain) (c : Int) (isPrivate : Bool) :
    (bc.shiftTimestamps c).view isPrivate
      = (bc.view isPrivate).map (List.map (shiftBlock c)) := by
  unfold Blockchain.view
  cases isPrivate
  · rfl
  · simp only [↓reduceIte]
    unfold Blockchain.getPrivateView
    have h := getPrivateViewLoop_map (shiftBlock c) bc.chain (bc.forkHeight + 1).toNat []
    simp only [List.map_nil] at h
    simp only [Blockchain.shiftTimestamps]
    rw [h]
    cases (List.range (bc.forkHeight + 1).toNat).foldlM
      (fun (acc : List Block) (i : Nat) => do
        let b ← index bc.chain (i : Int)
        pure (acc ++ [b])) [] with
    | error e => rfl
    | ok acc1 => simp [Except.map, bind, Except.bind, pure, Except.pure]

theorem median_shift (blocks : List Block) (c : Int) :
    median (blocks.map (shiftBlock c)) = (median blocks).map (shiftBlock c) := by
  unfold median
  simp only [List.length_map, List.map_map]
  have hts : (fun block : Block => block.timestamp) ∘ shiftBlock c
      = (fun t : Int => t + c) ∘ (fun block : Block => block.timestamp) := rfl
  rw [hts, ← List.map_map,
    ← List.map_insertionSort (· ≤ ·) (· ≤ ·) (fun t : Int => t + c) _ (by intro a _ b _; simp)]
  rw [index_map]
  cases index ((blocks.map fun block => block.timestamp).insertionSort (· ≤ ·))
      ((blocks.length : Int).tdiv 2) with
  | error e => rfl
  | ok med =>
    simp only [Except.map, bind, Except.bind, List.find?_map]
    have hp : ((fun block : Block => med + c == block.timestamp) ∘ shiftBlock c)
        = (fun block : Block => med == block.timestamp) := by
      funext block
      simp [shiftBlock]
    rw [hp]
    cases blocks.find? (fun block => med == block.timestamp) with
    | some b => rfl
    | none =>
      simp only [Option.map_none', index_map]
      cases index blocks 0 <;> rfl

theorem sumBlocks_shift (blocks : List Block) (c : Int) :
    sumBlocks (blocks.map (shiftBlock c)) = sumBlocks blocks := by
  unfold sumBlocks
  rw [List.map_map]
  rfl

theorem bch_onView_shift (b : bchDifficulty) (T : Int) (view : List Block) (c : Int) :
    b.onView T (view.map (shiftBlock c)) = b.onView T view := by
  unfold bchDifficulty.onView
  simp only [List.length_map, slice_map]
  cases slice view ((view.length : Int) - b.Mediantimepast) (view.length : Int) with
  | error e => rfl
  | ok top3 =>
    simp only [Except.map, bind, Except.bind]
    cases slice view ((view.length : Int) - b.Lookback - b.Mediantimepast)
        ((view.length : Int) - b.Lookback) with
    | error e => rfl
    | ok bottom3 =>
      simp only [median_shift]
      cases median top3 with
      | error e => rfl
      | ok topMed =>
        simp only [Except.map]
        cases median bottom3 with
        | error e => rfl
        | ok bottomMed =>
          simp only [shiftBlock]
          cases slice view bottomMed.height (topMed.height + 1) with
          | error e => rfl
          | ok subChain =>
            simp only [sumBlocks_shift, add_sub_add_right_eq_sub]

/-- C11: for every chain state, every flag and every integer `c`, the BCH
`getDiff` gives the same outcome (the same difficulty, or the same failure) on
the view and on the view with `c` added to every block's timestamp. -/
theorem bch_getDiff_shift_invariant (b : bchDifficulty) (isPrivate : Bool) (bc : Blockchain)
    (c : Int) :
    (bc.shiftTimestamps c).view isPrivate
      = (bc.view isPrivate).map (List.map (shiftBlock c)) ∧
    b.getDiff isPrivate (bc.shiftTimestamps c) = b.getDiff isPrivate bc := by
  refine ⟨view_shift bc c isPrivate, ?_⟩
  rw [bch_getDiff_eq, bch_getDiff_eq, view_shift]
  cases bc.view isPrivate with
  | error e => rfl
  | ok view =>
    simp only [Except.map, bind, Except.bind]
    exact bch_onView_shift b _ view c

theorem dash_getDiff_eq (d : dashDifficulty) (isPrivate : Bool) (bc : Blockchain) :
    d.getDiff isPrivate bc =
      dashSource isPrivate bc >>= fun src =>
        d.measure src.1 src.2 >>= fun m =>
          pure (dashFinish bc.expectedBlockTime d.NPastBlocks m.1 m.2) := by
  have key : ∀ (chain : List Block) (tip : Int),
      (do
        let (pIndex, bnPastTargetAvg) ← d.walk chain tip
        let bnNew := bnPastTargetAvg
        let pIndex := if !d.OffByOne then pIndex - 1 else pIndex
        let last ← index chain tip
        let first ← index chain pIndex
        let nActualTimestamp := last.timestamp - first.timestamp
        let nTargetTimestamp := bc.expectedBlockTime * d.NPastBlocks
        let nActualTimestamp :=
          if nActualTimestamp > nTargetTimestamp * 3 then nTargetTimestamp * 3
          else if (nActualTimestamp : ℚ) < (nTargetTimestamp : ℚ) / 3 then
            nTargetTimestamp.tdiv 3
          else nActualTimestamp
        let bnNew := bnNew * ((nActualTimestamp : ℚ) / (nTargetTimestamp : ℚ))
        (pure (1 / bnNew) : Except Fault ℚ))
      = d.measure chain tip >>= fun m =>
          pure (dashFinish bc.expectedBlockTime d.NPastBlocks m.1 m.2) := by
    intro chain tip
    unfold dashDifficulty.measure
    cases d.walk chain tip with
    | error e => rfl
    | ok st =>
      simp only [bind, Except.bind]
      cases index chain tip with
      | error e => rfl
      | ok last =>
        simp only []
        cases index chain (if (!d.OffByOne) = true then st.1 - 1 else st.1) with
        | error e => rfl
        | ok first => rfl
  cases isPrivate
  · exact key bc.chain bc.height
  · show _ = (do
        let privBranchLen : Int := bc.privateBranch.length
        let tip ← index bc.privateBranch (privBranchLen - 1)
        let chain ← bc.getPrivateView
        pure (chain, tip.height)) >>= _
    simp only [bind_assoc, pure_bind]
    unfold dashDifficulty.getDiff
    simp only [↓reduceIte, bind_assoc, pure_bind]
    cases index bc.privateBranch ((bc.privateBranch.length : Int) - 1) with
    | error e => rfl
    | ok tip =>
      simp only [bind, Except.bind]
      cases bc.getPrivateView with
      | error e => rfl
      | ok chain => exact key chain tip.height

theorem index_from_tip (view : List Block) (j : Nat) (x : Block)
    (hx : view.reverse[j]? = some x) :
    index view ((view.length : Int) - 1 - (j : Int)) = .ok x := by
  have hj : j < view.length := by
    have := (List.getElem?_eq_some_iff.mp hx).1
    simpa using this
  apply index_of_getElem? _ _ _ (by omega)
  have e : ((view.length : Int) - 1 - (j : Int)).toNat = view.length - 1 - j := by omega
  rw [e, ← List.getElem?_reverse hj]
  exact hx

theorem headD_append_of_ne_nil (l₁ l₂ : List ℚ) (h : l₁ ≠ []) :
    (l₁ ++ l₂).headD 0 = l₁.headD 0 := by
  cases l₁ with
  | nil => exact absurd rfl h
  | cons a l => rfl

theorem dash_walk_steps (d : dashDifficulty) (view : List Block) (hn : 1 ≤ d.NPastBlocks)
    (k : Nat) (hkn : (k : Int) ≤ d.NPastBlocks) (hkl : k ≤ view.length) :
    (List.range k).foldlM
      (fun (st : Int × ℚ) (i : Nat) => do
        let nBlock : Int := (i : Int) + 1
        let blk ← index view st.1
        let bnTarget : ℚ := 1 / blk.difficulty
        let bnPastTargetAvg : ℚ :=
          if nBlock = 1 then bnTarget
          else (st.2 * (nBlock : ℚ) + bnTarget) / ((nBlock + 1 : Int) : ℚ)
        let pIndex := if nBlock ≠ d.NPastBlocks then st.1 - 1 else st.1
        pure (pIndex, bnPastTargetAvg))
      ((view.length : Int) - 1, (0 : ℚ))
    = (Except.ok
        (if (k : Int) = d.NPastBlocks then (view.length : Int) - (k : Int)
          else (view.length : Int) - 1 - (k : Int),
        dashWeightedAvg (dashTargets view k)) : Except Fault (Int × ℚ)) := by
  induction k with
  | zero =>
    have h0 : ¬ ((0 : Nat) : Int) = d.NPastBlocks := by omega
    simp only [List.range_zero, List.foldlM_nil, pure, Except.pure, if_neg h0, dashTargets,
      dashWeightedAvg, List.take_zero, List.map_nil, List.headD_nil, List.sum_nil,
      List.length_nil]
    norm_num
  | succ k ih =>
    have hlt : (k : Int) ≠ d.NPastBlocks := by push_cast at hkn; omega
    rw [List.range_succ, List.foldlM_append, ih (by push_cast at hkn; omega) (by omega)]
    obtain ⟨x, hx⟩ : ∃ x, view.reverse[k]? = some x :=
      ⟨_, List.getElem?_eq_getElem (by simp; omega)⟩
    have hj := index_from_tip view k x hx
    simp only [if_neg hlt, List.foldlM_cons, List.foldlM_nil, bind, Except.bind, hj, pure,
      Except.pure]
    have hr : view.reverse.take (k + 1) = view.reverse.take k ++ [x] := by
      rw [List.take_succ, hx]
      rfl
    have hlen : (view.reverse.take k).length = k := by simp; omega
    congr 1
    refine Prod.ext ?_ ?_
    · simp only []
      push_cast
      split_ifs <;> omega
    · simp only [dashTargets, dashWeightedAvg, hr, List.map_append, List.map_cons, List.map_nil,
        List.sum_append, List.sum_cons, List.sum_nil, List.length_append, List.length_map, hlen,
        List.length_singleton]
      by_cases hk0 : k = 0
      · subst hk0
        simp only [List.take_zero, List.map_nil, List.nil_append, List.headD_cons, List.sum_nil]
        norm_num
      · have hne : (view.reverse.take k).map (fun b => 1 / b.difficulty) ≠ [] := by
          intro e
          have := congrArg List.length e
          simp only [List.length_map, hlen, List.length_nil] at this
          exact hk0 this
        have hk1 : ¬ ((k : Int) + 1 = 1) := by omega
        rw [headD_append_of_ne_nil _ _ hne, if_neg hk1]
        push_cast
        have hk : (0 : ℚ) < (k : ℚ) + 1 := by positivity
        field_simp
        ring

theorem dash_walk_eq (d : dashDifficulty) (view : List Block) (hn : 1 ≤ d.NPastBlocks)
    (hnl : d.NPastBlocks ≤ (view.length : Int)) :
    d.walk view ((view.length : Int) - 1)
      = .ok ((view.length : Int) - d.NPastBlocks,
          dashWeightedAvg (dashTargets view d.NPastBlocks.toNat)) := by
  have h := dash_walk_steps d view hn d.NPastBlocks.toNat (by omega) (by omega)
  have e : (d.NPastBlocks.toNat : Int) = d.NPastBlocks := by omega
  rw [e, if_pos rfl] at h
  exact h

theorem dash_measure_eq (d : dashDifficulty) (view : List Block) (tipB firstB : Block)
    (hn : 1 ≤ d.NPastBlocks)
    (htip : view[view.length - 1]? = some tipB)
    (hfirst : view[((view.length : Int) - d.NPastBlocks
      - (if d.OffByOne then 0 else 1)).toNat]? = some firstB)
    (hnl : d.NPastBlocks + (if d.OffByOne then 0 else 1) ≤ (view.length : Int)) :
    d.measure view ((view.length : Int) - 1)
      = .ok (dashWeightedAvg (dashTargets view d.NPastBlocks.toNat),
          tipB.timestamp - firstB.timestamp) := by
  have hnl2 : d.NPastBlocks ≤ (view.length : Int) := by
    split at hnl <;> omega
  unfold dashDifficulty.measure
  rw [dash_walk_eq d view hn hnl2]
  have e1 : (((view.length : Int) - 1).toNat) = view.length - 1 := by omega
  have i1 : index view ((view.length : Int) - 1) = .ok tipB :=
    index_of_getElem? _ _ _ (by omega) (by rw [e1]; exact htip)
  have i2 : index view
      (if (!d.OffByOne) = true then (view.length : Int) - d.NPastBlocks - 1
        else (view.length : Int) - d.NPastBlocks) = .ok firstB := by
    cases hb : d.OffByOne
    · rw [hb] at hfirst hnl
      simp only [Bool.not_false, ↓reduceIte, Bool.false_eq_true] at hfirst hnl ⊢
      exact index_of_getElem? _ _ _ (by omega) hfirst
    · rw [hb] at hfirst hnl
      simp only [Bool.not_true, ↓reduceIte, Bool.false_eq_true, sub_zero] at hfirst hnl ⊢
      exact index_of_getElem? _ _ _ (by omega) hfirst
  simp only [bind, Except.bind, i1, i2, pure, Except.pure]

theorem unevenChain_measure :
    (⟨2, true⟩ : dashDifficulty).measure unevenChain.chain 3 = .ok (4 / 3, 40) := by
  have h := dash_measure_eq ⟨2, true⟩ unevenChain.chain ⟨3, 1, 70, true⟩ ⟨2, 1 / 2, 30, true⟩
    (by decide) rfl rfl (by decide)
  have e : ((unevenChain.chain.length : Int) - 1) = 3 := by decide
  rw [e] at h
  rw [h]
  norm_num [dashWeightedAvg, dashTargets, unevenChain, Blockchain.zero,
    (by decide : (2 : Int).toNat = 2)]

/-- C12, as stated, fails: with 2 past blocks and the off-by-one option enabled
on the four blocks of `unevenChain` (timestamps 0, 10, 30, 70) the code measures
`70 - 30 = 40`, from `view[tip - n + 1]`, while the stated
`tip.timestamp - view[tip - n - 1].timestamp` is `70 - 0 = 70`. -/
theorem dash_timespan_enabled_differs :
    dashSource false unevenChain = .ok (unevenChain.chain, 3) ∧
    (2 : Int) + 2 ≤ (unevenChain.chain.length : Int) ∧
    (⟨2, true⟩ : dashDifficulty).measure unevenChain.chain 3 = .ok (4 / 3, 40) ∧
    dashStatedTimespan unevenChain.chain 2 true = some 70 :=
  ⟨rfl, by decide, unevenChain_measure, rfl⟩

/-- C12, amended: for every view with at least `n_past_blocks + 2` blocks and
`n_past_blocks >= 1`, read from a chain state whose tip index is the index of
the last block of the view, the elapsed time the Dash `getDiff` uses before
clamping is `tip.timestamp - view[tip - n_past_blocks].timestamp` when the
off-by-one option is disabled, and `tip.timestamp - view[tip - n_past_blocks + 1].timestamp`
when it is enabled; `getDiff` returns `dashFinish` of that time span. -/
theorem dash_timespan (d : dashDifficulty) (isPrivate : Bool) (bc : Blockchain)
    (view : List Block) (tipB firstB : Block)
    (hsrc : dashSource isPrivate bc = .ok (view, (view.length : Int) - 1))
    (hn : 1 ≤ d.NPastBlocks) (hlen : d.NPastBlocks + 2 ≤ (view.length : Int))
    (htip : view[view.length - 1]? = some tipB)
    (hfirst : view[((view.length : Int) - 1 - d.NPastBlocks
      + (if d.OffByOne then 1 else 0)).toNat]? = some firstB) :
    ∃ avg, d.measure view ((view.length : Int) - 1)
        = .ok (avg, tipB.timestamp - firstB.timestamp) ∧
      d.getDiff isPrivate bc = .ok (dashFinish bc.expectedBlockTime d.NPastBlocks avg
        (tipB.timestamp - firstB.timestamp)) := by
  have hfirst2 : view[((view.length : Int) - d.NPastBlocks
      - (if d.OffByOne then 0 else 1)).toNat]? = some firstB := by
    cases hb : d.OffByOne
    · rw [hb] at hfirst
      simp only [Bool.false_eq_true, ↓reduceIte, add_zero] at hfirst ⊢
      have e : ((view.length : Int) - d.NPastBlocks - 1) = (view.length : Int) - 1 - d.NPastBlocks := by
        ring
      rw [e]; exact hfirst
    · rw [hb] at hfirst
      simp only [↓reduceIte, sub_zero] at hfirst ⊢
      have e : ((view.length : Int) - d.NPastBlocks) = (view.length : Int) - 1 - d.NPastBlocks + 1 := by
        ring
      rw [e]; exact hfirst
  have hm := dash_measure_eq d view tipB firstB hn htip hfirst2 (by split <;> omega)
  refine ⟨_, hm, ?_⟩
  rw [dash_getDiff_eq, hsrc]
  simp only [bind, Except.bind, hm]
  rfl

theorem dash_timespan_witness :
    dashSource false unevenChain = .ok (unevenChain.chain, (unevenChain.chain.length : Int) - 1) ∧
    ∃ avg, (⟨2, true⟩ : dashDifficulty).measure unevenChain.chain
        ((unevenChain.chain.length : Int) - 1) = .ok (avg, 70 - 30) ∧
      (⟨2, true⟩ : dashDifficulty).getDiff false unevenChain
        = .ok (dashFinish unevenChain.expectedBlockTime 2 avg (70 - 30)) :=
  ⟨rfl, dash_timespan ⟨2, true⟩ false unevenChain unevenChain.chain ⟨3, 1, 70, true⟩
    ⟨2, 1 / 2, 30, true⟩ rfl (by decide) (by decide) rfl rfl⟩

theorem sum_eq_of_all_eq (targets : List ℚ) (t : ℚ) (h : ∀ x ∈ targets, x = t) :
    targets.sum = (targets.length : ℚ) * t := by
  induction targets with
  | nil => simp
  | cons a l ih =>
    have ha : a = t := h a (List.mem_cons_self a l)
    have hl : ∀ x ∈ l, x = t := fun x hx => h x (List.mem_cons_of_mem a hx)
    rw [List.sum_cons, ih hl, ha, List.length_cons]
    push_cast
    ring

/-- C13, as stated, fails: walking back 2 blocks on `unevenChain` (targets 1 at
the tip and 2 before it) the code averages to `(1 * 2 + 2) / 3 = 4/3`, while the
arithmetic mean of the two targets is `3/2`. -/
theorem dash_average_not_mean :
    (2 : Int) ≤ (unevenChain.chain.length : Int) ∧
    (∀ b ∈ unevenChain.chain, 0 < b.difficulty) ∧
    (⟨2, true⟩ : dashDifficulty).walk unevenChain.chain 3 = .ok (2, 4 / 3) ∧
    arithmeticMean (dashTargets unevenChain.chain 2) = 3 / 2 := by
  refine ⟨by decide, ?_, ?_, ?_⟩
  · intro b hb
    simp only [unevenChain, Blockchain.zero, List.mem_cons, List.mem_singleton,
      List.not_mem_nil, or_false] at hb
    rcases hb with h | h | h | h <;> rw [h] <;> norm_num
  · have h := dash_walk_eq ⟨2, true⟩ unevenChain.chain (by decide) (by decide)
    have e : ((unevenChain.chain.length : Int) - 1) = 3 := by decide
    rw [e] at h
    rw [h]
    norm_num [dashWeightedAvg, dashTargets, unevenChain, Blockchain.zero,
      (by decide : (2 : Int).toNat = 2)]
  · norm_num [arithmeticMean, dashTargets, unevenChain, Blockchain.zero]

/-- C13, amended: for every view with at least `n_past_blocks >= 1` blocks, the
averaged target the Dash `getDiff` computes by walking back `n_past_blocks`
blocks from the tip is the weighted mean of the recurrence
`avg_k = (avg_(k-1) * k + target_k) / (k + 1)`: the sum of `1/difficulty` over
those blocks with the tip's target counted twice, divided by `n_past_blocks + 1`;
it equals the arithmetic mean when all those targets are equal. -/
theorem dash_average (d : dashDifficulty) (view : List Block) (hn : 1 ≤ d.NPastBlocks)
    (hnl : d.NPastBlocks ≤ (view.length : Int)) :
    d.walk view ((view.length : Int) - 1)
      = .ok ((view.length : Int) - d.NPastBlocks,
          dashWeightedAvg (dashTargets view d.NPastBlocks.toNat)) ∧
    (dashTargets view d.NPastBlocks.toNat).length = d.NPastBlocks.toNat ∧
    ∀ t : ℚ, (∀ x ∈ dashTargets view d.NPastBlocks.toNat, x = t) →
      dashWeightedAvg (dashTargets view d.NPastBlocks.toNat) = t ∧
      arithmeticMean (dashTargets view d.NPastBlocks.toNat) = t := by
  have hlen : (dashTargets view d.NPastBlocks.toNat).length = d.NPastBlocks.toNat := by
    simp only [dashTargets, List.length_map, List.length_take, List.length_reverse]
    omega
  refine ⟨dash_walk_eq d view hn hnl, hlen, ?_⟩
  intro t ht
  have hpos : 0 < d.NPastBlocks.toNat := by omega
  have hq : (0 : ℚ) < (d.NPastBlocks.toNat : ℚ) := by exact_mod_cast hpos
  have hhead : (dashTargets view d.NPastBlocks.toNat).headD 0 = t := by
    cases hl : dashTargets view d.NPastBlocks.toNat with
    | nil => rw [hl] at hlen; simp at hlen; omega
    | cons a l =>
      rw [hl] at ht
      exact ht a (List.mem_cons_self a l)
  constructor
  · unfold dashWeightedAvg
    rw [hhead, sum_eq_of_all_eq _ t ht, hlen]
    field_simp
    ring
  · unfold arithmeticMean
    rw [sum_eq_of_all_eq _ t ht, hlen]
    field_simp

theorem dash_average_witness :
    (1 : Int) ≤ (⟨2, true⟩ : dashDifficulty).NPastBlocks ∧
    (⟨2, true⟩ : dashDifficulty).NPastBlocks ≤ (unevenChain.chain.length : Int) ∧
    (⟨2, true⟩ : dashDifficulty).walk unevenChain.chain ((unevenChain.chain.length : Int) - 1)
      = .ok ((unevenChain.chain.length : Int) - 2,
          dashWeightedAvg (dashTargets unevenChain.chain 2)) :=
  ⟨by decide, by decide,
    (dash_average ⟨2, true⟩ unevenChain.chain (by decide) (by decide)).1⟩

theorem zec_getDiff_eq (z : zecDifficulty) (isPrivate : Bool) (bc : Blockchain) :
    z.getDiff isPrivate bc = bc.view isPrivate >>= z.onView bc.expectedBlockTime := by
  have key : ∀ chain : List Block,
      (do
        let nAveragingInterval := z.NAveragingInterval
        let nMediantimespan := z.NMedianTimespan
        let nMaxAdjustUp := z.NMaxAdjustUp
        let nMaxAdjustDown := z.NMaxAdjustDown
        let nPOWDampeningFactor := z.NPOWDampeningFactor
        let nAveragingTargetTimespan := nAveragingInterval * bc.expectedBlockTime
        let nMinActualTimespanV3 : ℚ :=
          (nAveragingTargetTimespan : ℚ) * ((100 - nMaxAdjustUp : Int) : ℚ) / 100
        let nMaxActualTimespanV3 : ℚ :=
          (nAveragingTargetTimespan : ℚ) * ((100 + nMaxAdjustDown : Int) : ℚ) / 100
        let B ← index chain ((chain.length : Int) - 1)
        let A ← index chain ((chain.length : Int) - 1 - nAveragingInterval)
        let bWindow ← slice chain (B.height - nMediantimespan) B.height
        let bMedian ← median bWindow
        let aWindow ← slice chain (A.height - nMediantimespan) A.height
        let aMedian ← median aWindow
        let nActualTimespan := bMedian.timestamp - aMedian.timestamp
        let nActualTimespanf : ℚ := (nAveragingTargetTimespan : ℚ) +
          ((nActualTimespan - nAveragingTargetTimespan : Int) : ℚ) / nPOWDampeningFactor
        let nActualTimespanf :=
          if nActualTimespanf < nMinActualTimespanV3 then nMinActualTimespanV3
          else if nActualTimespanf > nMaxActualTimespanV3 then nMaxActualTimespanV3
          else nActualTimespanf
        let window ← slice chain (B.height - nAveragingInterval) B.height
        let nAvgTarget : ℚ := window.foldl (fun t block => t + 1 / block.difficulty) 0
        let nAvgTarget := nAvgTarget / (nAveragingInterval : ℚ)
        let bnNew := nAvgTarget / (nAveragingTargetTimespan : ℚ)
        let bnNew := bnNew * nActualTimespanf
        let _top30 ← slice chain ((chain.length : Int) - 30) chain.length
        (pure (1 / bnNew) : Except Fault ℚ))
      = z.onView bc.expectedBlockTime chain := by
    intro chain
    unfold zecDifficulty.onView zecDifficulty.medians
    cases index chain ((chain.length : Int) - 1) with
    | error e => rfl
    | ok B =>
      simp only [bind, Except.bind]
      cases index chain ((chain.length : Int) - 1 - z.NAveragingInterval) with
      | error e => rfl
      | ok A =>
        simp only []
        cases slice chain (B.height - z.NMedianTimespan) B.height with
        | error e => rfl
        | ok bWindow =>
          simp only []
          cases median bWindow with
          | error e => rfl
          | ok bMedian =>
            simp only []
            cases slice chain (A.height - z.NMedianTimespan) A.height with
            | error e => rfl
            | ok aWindow =>
              simp only []
              cases median aWindow with
              | error e => rfl
              | ok aMedian =>
                simp only []
                cases slice chain (B.height - z.NAveragingInterval) B.height with
                | error e => rfl
                | ok window =>
                  simp only []
                  cases slice chain ((chain.length : Int) - 30) (chain.length : Int) with
                  | error e => rfl
                  | ok top30 => rfl
  unfold Blockchain.view
  cases isPrivate
  · exact key bc.chain
  · simp only [↓reduceIte]
    unfold zecDifficulty.getDiff
    simp only [↓reduceIte]
    cases bc.getPrivateView with
    | error e => rfl
    | ok chain => exact key chain

theorem slice_window (view : List Block) (lo hi : Int) (h0 : 0 ≤ lo) (h1 : lo ≤ hi)
    (h2 : hi ≤ (view.length : Int)) :
    slice view lo hi = .ok (window view lo.toNat hi.toNat) :=
  slice_ok view lo hi h0 h1 h2

theorem window_length (view : List Block) (lo hi : Nat) (h : hi ≤ view.length) :
    (window view lo hi).length = hi - lo := by
  simp [window, List.length_drop, List.length_take, Nat.min_eq_left h]

theorem window_getElem? (view : List Block) (lo hi j : Nat) (h : lo + j < hi) :
    (window view lo hi)[j]? = view[lo + j]? := by
  simp [window, List.getElem?_drop, List.getElem?_take, h]

theorem window_subset (view : List Block) (lo hi : Nat) :
    ∀ b ∈ window view lo hi, b ∈ view := by
  intro b hb
  exact List.mem_of_mem_take (List.mem_of_mem_drop hb)

theorem median_mem (blocks : List Block) (hne : blocks ≠ []) :
    ∃ b, b ∈ blocks ∧ median blocks = .ok b := by
  have hpos : 0 < blocks.length := List.length_pos.mpr hne
  unfold median
  have hlen : ((blocks.map (fun block => block.timestamp)).insertionSort (· ≤ ·)).length
      = blocks.length := by
    rw [List.length_insertionSort, List.length_map]
  have hidx : ((blocks.length : Int).tdiv 2).toNat < blocks.length := by
    have : (blocks.length : Int).tdiv 2 = (blocks.length : Int) / 2 :=
      Int.tdiv_eq_ediv (by omega) (by norm_num)
    omega
  obtain ⟨med, hmed⟩ : ∃ med,
      ((blocks.map (fun block => block.timestamp)).insertionSort (· ≤ ·))[
        ((blocks.length : Int).tdiv 2).toNat]? = some med :=
    ⟨_, List.getElem?_eq_getElem (by rw [hlen]; exact hidx)⟩
  have hi : index ((blocks.map (fun block => block.timestamp)).insertionSort (· ≤ ·))
      ((blocks.length : Int).tdiv 2) = .ok med := by
    apply index_of_getElem? _ _ _ _ hmed
    have : (blocks.length : Int).tdiv 2 = (blocks.length : Int) / 2 :=
      Int.tdiv_eq_ediv (by omega) (by norm_num)
    omega
  simp only [hi, bind, Except.bind]
  have hmem : med ∈ blocks.map (fun block => block.timestamp) := by
    rw [← (List.perm_insertionSort (· ≤ ·) _).mem_iff]
    exact List.mem_iff_getElem?.mpr ⟨_, hmed⟩
  obtain ⟨b0, hb0, hts⟩ := List.mem_map.mp hmem
  cases hf : blocks.find? (fun block => med == block.timestamp) with
  | none =>
    exfalso
    have := List.find?_eq_none.mp hf b0 hb0
    simp [hts] at this
  | some b => exact ⟨b, List.mem_of_find?_eq_some hf, rfl⟩

theorem median_increasing (blocks : List Block)
    (hinc : (blocks.map (fun block => block.timestamp)).Pairwise (· < ·)) (b : Block)
    (hb : blocks[blocks.length / 2]? = some b) : median blocks = .ok b := by
  have hsorted : (blocks.map (fun block => block.timestamp)).Sorted (· ≤ ·) :=
    List.Pairwise.imp (fun h => le_of_lt h) hinc
  have hq : (blocks.length : Int).tdiv 2 = ((blocks.length / 2 : Nat) : Int) := by
    rw [Int.tdiv_eq_ediv (by omega) (by norm_num)]
    omega
  unfold median
  simp only []
  rw [hsorted.insertionSort_eq, hq]
  have hi : index (blocks.map (fun block => block.timestamp)) ((blocks.length / 2 : Nat) : Int)
      = .ok b.timestamp := by
    apply index_of_getElem? _ _ _ (by omega)
    rw [Int.toNat_ofNat, List.getElem?_map, hb]
    rfl
  simp only [hi, bind, Except.bind]
  obtain ⟨hlt, hget⟩ := List.getElem?_eq_some_iff.mp hb
  have hfind : blocks.find? (fun block => b.timestamp == block.timestamp) = some b := by
    rw [List.find?_eq_some]
    refine ⟨by simp, blocks.take (blocks.length / 2), blocks.drop (blocks.length / 2 + 1), ?_, ?_⟩
    · rw [← hget, ← List.drop_eq_getElem_cons hlt, List.take_append_drop]
    · intro a ha
      obtain ⟨k, hk⟩ := List.mem_iff_getElem?.mp ha
      rw [List.getElem?_take] at hk
      split at hk
      · rename_i hkl
        obtain ⟨hk2, hkget⟩ := List.getElem?_eq_some_iff.mp hk
        have := List.pairwise_iff_getElem.mp hinc k (blocks.length / 2)
          (by simpa using hk2) (by simpa using hlt) hkl
        simp only [List.getElem_map, hkget, hget] at this
        simp
        omega
      · cases hk
  rw [hfind]
  rfl

theorem heights_index (view : List Block) (hh : HeightsMatch view) (i : Int) (h0 : 0 ≤ i)
    (h1 : i < (view.length : Int)) :
    ∃ b, index view i = .ok b ∧ b.height = i ∧ b ∈ view := by
  have hlt : i.toNat < view.length := by omega
  refine ⟨view[i.toNat], index_of_getElem? _ _ _ h0 (List.getElem?_eq_getElem hlt), ?_,
    List.getElem_mem hlt⟩
  rw [hh i.toNat _ (List.getElem?_eq_getElem hlt)]
  omega

theorem zec_medians_eq (z : zecDifficulty) (view : List Block) (hh : HeightsMatch view)
    (hn : 0 ≤ z.NAveragingInterval) (hm : 0 ≤ z.NMedianTimespan)
    (hlen : z.NAveragingInterval + z.NMedianTimespan + 1 ≤ (view.length : Int)) :
    z.medians view =
      median (window view (view.length - 1 - z.NMedianTimespan.toNat) (view.length - 1))
        >>= fun bMedian =>
      median (window view
          (view.length - 1 - z.NAveragingInterval.toNat - z.NMedianTimespan.toNat)
          (view.length - 1 - z.NAveragingInterval.toNat))
        >>= fun aMedian => pure (bMedian, aMedian) := by
  obtain ⟨B, hB, hBh, _⟩ := heights_index view hh ((view.length : Int) - 1) (by omega) (by omega)
  obtain ⟨A, hA, hAh, _⟩ := heights_index view hh ((view.length : Int) - 1 - z.NAveragingInterval)
    (by omega) (by omega)
  unfold zecDifficulty.medians
  simp only [hB, hA, bind, Except.bind, hBh, hAh]
  rw [slice_window view _ _ (by omega) (by omega) (by omega),
    slice_window view _ _ (by omega) (by omega) (by omega)]
  have e1 : ((view.length : Int) - 1 - z.NMedianTimespan).toNat
      = view.length - 1 - z.NMedianTimespan.toNat := by omega
  have e2 : ((view.length : Int) - 1).toNat = view.length - 1 := by omega
  have e3 : ((view.length : Int) - 1 - z.NAveragingInterval - z.NMedianTimespan).toNat
      = view.length - 1 - z.NAveragingInterval.toNat - z.NMedianTimespan.toNat := by omega
  have e4 : ((view.length : Int) - 1 - z.NAveragingInterval).toNat
      = view.length - 1 - z.NAveragingInterval.toNat := by omega
  rw [e1, e2, e3, e4]

theorem zec_onView_eq (z : zecDifficulty) (T : Int) (view : List Block) (hh : HeightsMatch view)
    (hn : 0 ≤ z.NAveragingInterval) (hm : 0 ≤ z.NMedianTimespan)
    (hlen : z.NAveragingInterval + z.NMedianTimespan + 1 ≤ (view.length : Int))
    (h30 : 30 ≤ (view.length : Int)) :
    z.onView T view = z.medians view >>= fun p =>
      pure (zecFinish z T (p.1.timestamp - p.2.timestamp)
        (window view (view.length - 1 - z.NAveragingInterval.toNat) (view.length - 1))) := by
  obtain ⟨B, hB, hBh, _⟩ := heights_index view hh ((view.length : Int) - 1) (by omega) (by omega)
  unfold zecDifficulty.onView
  simp only [hB, bind, Except.bind, hBh]
  cases z.medians view with
  | error e => rfl
  | ok p =>
    simp only []
    rw [slice_window view _ _ (by omega) (by omega) (by omega),
      slice_window view _ _ (by omega) (by omega) (by omega)]
    have e1 : ((view.length : Int) - 1 - z.NAveragingInterval).toNat
        = view.length - 1 - z.NAveragingInterval.toNat := by omega
    have e2 : ((view.length : Int) - 1).toNat = view.length - 1 := by omega
    rw [e1, e2]

theorem foldl_target_eq (l : List Block) (a : ℚ) :
    l.foldl (fun t block => t + 1 / block.difficulty) a
      = a + (l.map (fun b => 1 / b.difficulty)).sum := by
  induction l generalizing a with
  | nil => simp
  | cons b l ih =>
    simp only [List.foldl_cons, List.map_cons, List.sum_cons, ih]
    ring

theorem zecAvgTarget_eq_mean (z : zecDifficulty) (w : List Block)
    (hw : (w.length : Int) = z.NAveragingInterval) :
    zecAvgTarget z w = arithmeticMean (w.map (fun b => 1 / b.difficulty)) := by
  unfold zecAvgTarget arithmeticMean
  rw [foldl_target_eq, zero_add, List.length_map, ← hw]
  norm_cast

theorem zecAvgTarget_pos (z : zecDifficulty) (w : List Block) (hn : 1 ≤ z.NAveragingInterval)
    (hne : w ≠ []) (hpos : ∀ b ∈ w, 0 < b.difficulty) : 0 < zecAvgTarget z w := by
  unfold zecAvgTarget
  rw [foldl_target_eq, zero_add]
  apply div_pos
  · apply List.sum_pos
    · intro x hx
      obtain ⟨b, hb, rfl⟩ := List.mem_map.mp hx
      exact one_div_pos.mpr (hpos b hb)
    · simpa using hne
  · exact_mod_cast (by omega : 0 < z.NAveragingInterval)

theorem zecClamped_bounds (z : zecDifficulty) (T actual : Int) (hT : 0 < T)
    (hn : 1 ≤ z.NAveragingInterval) (hup0 : 0 ≤ z.NMaxAdjustUp) (hup : z.NMaxAdjustUp < 100)
    (hdown : 0 ≤ z.NMaxAdjustDown) :
    0 < zecMinTimespan z T ∧ zecMinTimespan z T ≤ zecMaxTimespan z T ∧
    zecMinTimespan z T ≤ zecClamped z T actual ∧ zecClamped z T actual ≤ zecMaxTimespan z T ∧
    (zecDampened z T actual ≤ zecMinTimespan z T
      → zecClamped z T actual = zecMinTimespan z T) ∧
    (zecMaxTimespan z T ≤ zecDampened z T actual
      → zecClamped z T actual = zecMaxTimespan z T) ∧
    (zecMinTimespan z T < zecDampened z T actual →
      zecDampened z T actual < zecMaxTimespan z T →
      zecClamped z T actual = zecDampened z T actual) := by
  have htq : (0 : ℚ) < ((z.NAveragingInterval * T : Int) : ℚ) := by
    exact_mod_cast Int.mul_pos (by omega) hT
  have hupq : (0 : ℚ) < ((100 - z.NMaxAdjustUp : Int) : ℚ) := by
    exact_mod_cast (by omega : 0 < 100 - z.NMaxAdjustUp)
  have hle : ((100 - z.NMaxAdjustUp : Int) : ℚ) ≤ ((100 + z.NMaxAdjustDown : Int) : ℚ) := by
    exact_mod_cast (by omega : 100 - z.NMaxAdjustUp ≤ 100 + z.NMaxAdjustDown)
  have hmin : 0 < zecMinTimespan z T := by
    unfold zecMinTimespan
    positivity
  have hmm : zecMinTimespan z T ≤ zecMaxTimespan z T := by
    unfold zecMinTimespan zecMaxTimespan
    apply div_le_div_of_nonneg_right _ (by norm_num)
    exact mul_le_mul_of_nonneg_left hle (le_of_lt htq)
  refine ⟨hmin, hmm, ?_, ?_, ?_, ?_, ?_⟩
  · unfold zecClamped
    split_ifs with h1 h2
    · exact le_refl _
    · exact hmm
    · exact not_lt.mp h1
  · unfold zecClamped
    split_ifs with h1 h2
    · exact hmm
    · exact le_refl _
    · exact not_lt.mp h2
  · intro h
    unfold zecClamped
    split_ifs with h1 h2
    · rfl
    · exact absurd (lt_of_lt_of_le h2 (le_trans h hmm)) (lt_irrefl _)
    · exact le_antisymm h (not_lt.mp h1)
  · intro h
    unfold zecClamped
    split_ifs with h1 h2
    · exact absurd (lt_of_lt_of_le h1 (le_trans hmm h)) (lt_irrefl _)
    · rfl
    · exact le_antisymm (not_lt.mp h2) h
  · intro h1 h2
    unfold zecClamped
    rw [if_neg (not_lt.mpr (le_of_lt h1)), if_neg (not_lt.mpr (le_of_lt h2))]

theorem zecFinish_mul_avg (z : zecDifficulty) (T actual : Int) (w : List Block)
    (hT : 0 < T) (hn : 1 ≤ z.NAveragingInterval) (havg : 0 < zecAvgTarget z w)
    (hc : 0 < zecClamped z T actual) :
    zecFinish z T actual w * zecAvgTarget z w
      = ((z.NAveragingInterval * T : Int) : ℚ) / zecClamped z T actual ∧
    0 < zecFinish z T actual w := by
  have htq : (0 : ℚ) < ((z.NAveragingInterval * T : Int) : ℚ) := by
    exact_mod_cast Int.mul_pos (by omega) hT
  unfold zecFinish
  constructor
  · field_simp
    ring
  · positivity

theorem steadyChain_getElem? (T : Int) (n i : Nat) (h : i < n) :
    (steadyChain T n).chain[i]? = some (baseline T i) := by
  simp [steadyChain, List.getElem?_map, List.getElem?_range h]

theorem steadyChain_length (T : Int) (n : Nat) : (steadyChain T n).chain.length = n := by
  simp [steadyChain]

theorem steadyChain_steady (T : Int) (n : Nat) : Steady T (steadyChain T n).chain := by
  intro i b hb
  have hi : i < n := by
    have := (List.getElem?_eq_some_iff.mp hb).1
    simpa [steadyChain] using this
  rw [steadyChain_getElem? T n i hi] at hb
  cases hb
  exact ⟨rfl, rfl, rfl⟩

theorem Steady.heightsMatch {T : Int} {view : List Block} (hs : Steady T view) :
    HeightsMatch view :=
  fun i b hb => (hs i b hb).1

theorem Steady.positive {T : Int} {view : List Block} (hs : Steady T view) :
    PositiveDifficulties view := by
  intro b hb
  obtain ⟨i, hi⟩ := List.mem_iff_getElem?.mp hb
  rw [(hs i b hi).2.1]
  norm_num

theorem Steady.paced {T : Int} {view : List Block} (hs : Steady T view) : Paced T view :=
  fun i b hb => ⟨(hs i b hb).1, (hs i b hb).2.2⟩

theorem Paced.indexHeights {T : Int} {view : List Block} (hs : Paced T view) :
    HeightsMatch view :=
  fun i b hb => (hs i b hb).1

theorem paced_window_increasing {T : Int} {view : List Block} (hT : 0 < T)
    (hs : Paced T view) (lo hi : Nat) :
    ((window view lo hi).map (fun block => block.timestamp)).Pairwise (· < ·) := by
  rw [List.pairwise_map, List.pairwise_iff_getElem]
  intro i j hil hjl hij
  have gi : (window view lo hi)[i]? = some (window view lo hi)[i] := List.getElem?_eq_getElem hil
  have gj : (window view lo hi)[j]? = some (window view lo hi)[j] := List.getElem?_eq_getElem hjl
  simp only [window, List.getElem?_drop, List.getElem?_take] at gi gj
  split at gi
  · split at gj
    · have ti := (hs _ _ gi).2
      have tj := (hs _ _ gj).2
      show (window view lo hi)[i].timestamp < (window view lo hi)[j].timestamp
      unfold window
      rw [ti, tj]
      apply Int.mul_lt_mul_of_pos_right _ hT
      omega
    · cases gj
  · cases gi

theorem paced_median {T : Int} {view : List Block} (hT : 0 < T) (hs : Paced T view)
    (lo hi : Nat) (hlo : lo < hi) (hhi : hi ≤ view.length) (b : Block)
    (hb : view[lo + (hi - lo) / 2]? = some b) : median (window view lo hi) = .ok b := by
  apply median_increasing _ (paced_window_increasing hT hs lo hi)
  rw [window_length view lo hi hhi, window_getElem? view lo hi _ (by omega)]
  exact hb

theorem zec_medians_return (z : zecDifficulty) (view : List Block) (hh : HeightsMatch view)
    (hn : 0 ≤ z.NAveragingInterval) (hm : 1 ≤ z.NMedianTimespan)
    (hlen : z.NAveragingInterval + z.NMedianTimespan + 1 ≤ (view.length : Int)) :
    ∃ bMedian aMedian, z.medians view = .ok (bMedian, aMedian) ∧
      bMedian ∈ window view (view.length - 1 - z.NMedianTimespan.toNat) (view.length - 1) ∧
      aMedian ∈ window view
        (view.length - 1 - z.NAveragingInterval.toNat - z.NMedianTimespan.toNat)
        (view.length - 1 - z.NAveragingInterval.toNat) := by
  have ne1 : window view (view.length - 1 - z.NMedianTimespan.toNat) (view.length - 1) ≠ [] := by
    intro e
    have := congrArg List.length e
    rw [window_length view _ _ (by omega)] at this
    simp only [List.length_nil] at this
    omega
  have ne2 : window view
      (view.length - 1 - z.NAveragingInterval.toNat - z.NMedianTimespan.toNat)
      (view.length - 1 - z.NAveragingInterval.toNat) ≠ [] := by
    intro e
    have := congrArg List.length e
    rw [window_length view _ _ (by omega)] at this
    simp only [List.length_nil] at this
    omega
  obtain ⟨bM, hbm, hb⟩ := median_mem _ ne1
  obtain ⟨aM, ham, ha⟩ := median_mem _ ne2
  refine ⟨bM, aM, ?_, hbm, ham⟩
  rw [zec_medians_eq z view hh hn (by omega) hlen, hb, ha]
  rfl

theorem zec_getDiff_eq_finish (z : zecDifficulty) (isPrivate : Bool) (bc : Blockchain)
    (view : List Block) (bMedian aMedian : Block) (hview : bc.view isPrivate = .ok view)
    (hh : HeightsMatch view) (hn : 0 ≤ z.NAveragingInterval) (hm : 0 ≤ z.NMedianTimespan)
    (hlen : z.NAveragingInterval + z.NMedianTimespan + 1 ≤ (view.length : Int))
    (h30 : 30 ≤ (view.length : Int)) (hmed : z.medians view = .ok (bMedian, aMedian)) :
    z.getDiff isPrivate bc = .ok (zecFinish z bc.expectedBlockTime
      (bMedian.timestamp - aMedian.timestamp)
      (window view (view.length - 1 - z.NAveragingInterval.toNat) (view.length - 1))) := by
  rw [zec_getDiff_eq, hview]
  show z.onView bc.expectedBlockTime view = _
  rw [zec_onView_eq z _ view hh hn hm hlen h30, hmed]
  rfl

theorem ratio_cancel (t u : ℚ) (ht : 0 < t) (hu : 0 < u) : t / (t * u / 100) = 100 / u := by
  field_simp
  ring

/-- C15: for every view with positive difficulties and `view[i].height == i`
that is long enough (at least `n_averaging_interval + n_median_timespan + 1`
and at least 30 blocks, both windows non-empty), every block time `T > 0`,
damping factor `> 0`, `0 <= max_up < 100` and `max_down >= 0`, the Zcash
`getDiff` returns a difficulty `d`, and with `avg` the mean of `1/difficulty`
over the `n_averaging_interval` blocks before the tip,
`100/(100 + max_down) <= d * avg <= 100/(100 - max_up)`; the upper bound is
attained when the dampened time span is at or below the clamp interval, the
lower bound when it is at or above it, and both inequalities are strict when
it is strictly inside. -/
theorem zec_getDiff_bounds (z : zecDifficulty) (isPrivate : Bool) (bc : Blockchain)
    (view : List Block) (hview : bc.view isPrivate = .ok view)
    (hh : HeightsMatch view) (hpos : PositiveDifficulties view)
    (hT : 0 < bc.expectedBlockTime) (_hdamp : 0 < z.NPOWDampeningFactor)
    (hup0 : 0 ≤ z.NMaxAdjustUp) (hup : z.NMaxAdjustUp < 100) (hdown : 0 ≤ z.NMaxAdjustDown)
    (hn : 1 ≤ z.NAveragingInterval) (hm : 1 ≤ z.NMedianTimespan)
    (hlen : z.NAveragingInterval + z.NMedianTimespan + 1 ≤ (view.length : Int))
    (h30 : 30 ≤ (view.length : Int)) :
    ∃ (bMedian aMedian : Block) (d avg : ℚ),
      z.medians view = .ok (bMedian, aMedian) ∧
      z.getDiff isPrivate bc = .ok d ∧
      (window view (view.length - 1 - z.NAveragingInterval.toNat) (view.length - 1)).length
        = z.NAveragingInterval.toNat ∧
      avg = arithmeticMean
        ((window view (view.length - 1 - z.NAveragingInterval.toNat) (view.length - 1)).map
          (fun b => 1 / b.difficulty)) ∧
      0 < d ∧ 0 < avg ∧
      100 / ((100 + z.NMaxAdjustDown : Int) : ℚ) ≤ d * avg ∧
      d * avg ≤ 100 / ((100 - z.NMaxAdjustUp : Int) : ℚ) ∧
      (zecDampened z bc.expectedBlockTime (bMedian.timestamp - aMedian.timestamp)
          ≤ zecMinTimespan z bc.expectedBlockTime →
        d * avg = 100 / ((100 - z.NMaxAdjustUp : Int) : ℚ)) ∧
      (zecMaxTimespan z bc.expectedBlockTime
          ≤ zecDampened z bc.expectedBlockTime (bMedian.timestamp - aMedian.timestamp) →
        d * avg = 100 / ((100 + z.NMaxAdjustDown : Int) : ℚ)) ∧
      (zecMinTimespan z bc.expectedBlockTime
          < zecDampened z bc.expectedBlockTime (bMedian.timestamp - aMedian.timestamp) →
        zecDampened z bc.expectedBlockTime (bMedian.timestamp - aMedian.timestamp)
          < zecMaxTimespan z bc.expectedBlockTime →
        100 / ((100 + z.NMaxAdjustDown : Int) : ℚ) < d * avg ∧
        d * avg < 100 / ((100 - z.NMaxAdjustUp : Int) : ℚ)) := by
  obtain ⟨bM, aM, hmed, _, _⟩ := zec_medians_return z view hh (by omega) hm hlen
  have hd := zec_getDiff_eq_finish z isPrivate bc view bM aM hview hh (by omega) (by omega)
    hlen h30 hmed
  have hwl : (window view (view.length - 1 - z.NAveragingInterval.toNat)
      (view.length - 1)).length = z.NAveragingInterval.toNat := by
    rw [window_length view _ _ (by omega)]
    omega
  have hwn : window view (view.length - 1 - z.NAveragingInterval.toNat) (view.length - 1)
      ≠ [] := by
    intro e
    rw [e] at hwl
    simp only [List.length_nil] at hwl
    omega
  have hmean := zecAvgTarget_eq_mean z _ (show ((window view
    (view.length - 1 - z.NAveragingInterval.toNat) (view.length - 1)).length : Int)
      = z.NAveragingInterval by rw [hwl]; omega)
  have havg := zecAvgTarget_pos z _ hn hwn (fun b hb => hpos b (window_subset view _ _ b hb))
  obtain ⟨hmin, hmm, hc1, hc2, hlow, hhigh, hmid⟩ :=
    zecClamped_bounds z bc.expectedBlockTime (bM.timestamp - aM.timestamp) hT hn hup0 hup hdown
  have hc : 0 < zecClamped z bc.expectedBlockTime (bM.timestamp - aM.timestamp) :=
    lt_of_lt_of_le hmin hc1
  obtain ⟨hmul, hdpos⟩ := zecFinish_mul_avg z bc.expectedBlockTime
    (bM.timestamp - aM.timestamp) _ hT hn havg hc
  have htq : (0 : ℚ) < ((z.NAveragingInterval * bc.expectedBlockTime : Int) : ℚ) := by
    exact_mod_cast Int.mul_pos (by omega) hT
  have hupq : (0 : ℚ) < ((100 - z.NMaxAdjustUp : Int) : ℚ) := by
    exact_mod_cast (by omega : 0 < 100 - z.NMaxAdjustUp)
  have hdownq : (0 : ℚ) < ((100 + z.NMaxAdjustDown : Int) : ℚ) := by
    exact_mod_cast (by omega : 0 < 100 + z.NMaxAdjustDown)
  have emin : ((z.NAveragingInterval * bc.expectedBlockTime : Int) : ℚ)
      / zecMinTimespan z bc.expectedBlockTime = 100 / ((100 - z.NMaxAdjustUp : Int) : ℚ) := by
    exact ratio_cancel _ _ htq hupq
  have emax : ((z.NAveragingInterval * bc.expectedBlockTime : Int) : ℚ)
      / zecMaxTimespan z bc.expectedBlockTime = 100 / ((100 + z.NMaxAdjustDown : Int) : ℚ) := by
    exact ratio_cancel _ _ htq hdownq
  have hmax : 0 < zecMaxTimespan z bc.expectedBlockTime := lt_of_lt_of_le hmin hmm
  refine ⟨bM, aM, _, _, hmed, hd, hwl, hmean, hdpos, havg, ?_, ?_, ?_, ?_, ?_⟩
  · rw [hmul, ← emax]
    exact div_le_div_of_nonneg_left (le_of_lt htq) hc hc2
  · rw [hmul, ← emin]
    exact div_le_div_of_nonneg_left (le_of_lt htq) hmin hc1
  · intro h
    rw [hmul, hlow h, emin]
  · intro h
    rw [hmul, hhigh h, emax]
  · intro h1 h2
    rw [hmul, hmid h1 h2, ← emin, ← emax]
    exact ⟨div_lt_div_of_pos_left htq (lt_trans hmin h1) h2,
      div_lt_div_of_pos_left htq hmin h1⟩

theorem zec_getDiff_bounds_witness :
    (steadyChain 150 40).view false = .ok (steadyChain 150 40).chain ∧
    HeightsMatch (steadyChain 150 40).chain ∧
    PositiveDifficulties (steadyChain 150 40).chain ∧
    ∃ (bMedian aMedian : Block) (d avg : ℚ),
      zecDefault.medians (steadyChain 150 40).chain = .ok (bMedian, aMedian) ∧
      zecDefault.getDiff false (steadyChain 150 40) = .ok d ∧
      0 < d ∧ 0 < avg ∧
      100 / ((100 + zecDefault.NMaxAdjustDown : Int) : ℚ) ≤ d * avg ∧
      d * avg ≤ 100 / ((100 - zecDefault.NMaxAdjustUp : Int) : ℚ) := by
  have hs := steadyChain_steady 150 40
  have hl : ((steadyChain 150 40).chain.length : Int) = 40 := by
    rw [steadyChain_length]
    rfl
  obtain ⟨bM, aM, d, avg, h1, h2, _, _, h3, h4, h5, h6, _⟩ :=
    zec_getDiff_bounds zecDefault false (steadyChain 150 40) (steadyChain 150 40).chain rfl
      hs.heightsMatch hs.positive (by decide) (by norm_num [zecDefault]) (by decide) (by decide)
      (by decide) (by decide) (by decide) (by rw [hl]; decide) (by rw [hl]; decide)
  exact ⟨rfl, hs.heightsMatch, hs.positive, bM, aM, d, avg, h1, h2, h3, h4, h5, h6⟩

/-- C14 fails on the code: on the 40 baseline blocks of `steadyChain 150 40`
(`view[i].height == i`, timestamps `150 * i`) with the Zcash defaults, `B` is
block 39 and `A` is block 22; the code takes `bMedian` from blocks 28..38 and
`aMedian` from blocks 11..21, the windows that end before `B` and `A`, and so
picks blocks 33 and 16, while the medians of the 11 blocks that end with, and
include, `B` and `A` are blocks 34 and 17. -/
theorem zec_medians_exclude_tip :
    HeightsMatch (steadyChain 150 40).chain ∧
    index (steadyChain 150 40).chain (((steadyChain 150 40).chain.length : Int) - 1)
      = .ok (baseline 150 39) ∧
    index (steadyChain 150 40).chain
        (((steadyChain 150 40).chain.length : Int) - 1 - zecDefault.NAveragingInterval)
      = .ok (baseline 150 22) ∧
    zecDefault.medians (steadyChain 150 40).chain
      = .ok (baseline 150 33, baseline 150 16) ∧
    zecStatedMedians zecDefault (steadyChain 150 40).chain
      = .ok (baseline 150 34, baseline 150 17) := by
  have hs := steadyChain_steady 150 40
  have hl : (steadyChain 150 40).chain.length = 40 := steadyChain_length 150 40
  refine ⟨hs.heightsMatch, ?_, ?_, ?_, ?_⟩
  · rw [hl]
    exact index_of_getElem? _ _ _ (by decide) (steadyChain_getElem? 150 40 39 (by decide))
  · rw [hl]
    exact index_of_getElem? _ _ _ (by decide) (steadyChain_getElem? 150 40 22 (by decide))
  · rw [zec_medians_eq zecDefault _ hs.heightsMatch (by decide) (by decide) (by rw [hl]; decide), hl]
    have m1 := paced_median (by decide : (0 : Int) < 150) hs.paced 28 39 (by decide)
      (by rw [hl]; decide) (baseline 150 33) (steadyChain_getElem? 150 40 33 (by decide))
    have m2 := paced_median (by decide : (0 : Int) < 150) hs.paced 11 22 (by decide)
      (by rw [hl]; decide) (baseline 150 16) (steadyChain_getElem? 150 40 16 (by decide))
    have e1 : 40 - 1 - zecDefault.NMedianTimespan.toNat = 28 := by decide
    have e3 : 40 - 1 - zecDefault.NAveragingInterval.toNat - zecDefault.NMedianTimespan.toNat
        = 11 := by decide
    have e4 : 40 - 1 - zecDefault.NAveragingInterval.toNat = 22 := by decide
    rw [e1, e3, e4, m1, m2]
    rfl
  · unfold zecStatedMedians
    rw [hl]
    have m1 := paced_median (by decide : (0 : Int) < 150) hs.paced 29 40 (by decide)
      (by rw [hl]) (baseline 150 34) (steadyChain_getElem? 150 40 34 (by decide))
    have m2 := paced_median (by decide : (0 : Int) < 150) hs.paced 12 23 (by decide)
      (by rw [hl]; decide) (baseline 150 17) (steadyChain_getElem? 150 40 17 (by decide))
    have e1 : 40 - zecDefault.NMedianTimespan.toNat = 29 := by decide
    have e3 : 40 - zecDefault.NAveragingInterval.toNat - zecDefault.NMedianTimespan.toNat
        = 12 := by decide
    have e4 : 40 - zecDefault.NAveragingInterval.toNat = 23 := by decide
    rw [e1, e3, e4, m1, m2]
    rfl

theorem window_mem_height {view : List Block} (hh : HeightsMatch view) (lo hi : Nat)
    (b : Block) (hb : b ∈ window view lo hi) :
    (lo : Int) ≤ b.height ∧ b.height < (hi : Int) := by
  obtain ⟨j, hj⟩ := List.mem_iff_getElem?.mp hb
  simp only [window, List.getElem?_drop, List.getElem?_take] at hj
  split at hj
  · rw [hh _ _ hj]
    omega
  · cases hj

theorem window_ne_nil (view : List Block) (lo hi : Nat) (h : lo < hi) (hhi : hi ≤ view.length) :
    window view lo hi ≠ [] := by
  intro e
  have := congrArg List.length e
  rw [window_length view _ _ hhi] at this
  simp only [List.length_nil] at this
  omega

theorem fatal_guard_cases (x : ℚ) :
    (if x < 1 / 10 then Except.error Fault.fatal else pure x : Except Fault ℚ) = .error .fatal ∨
      ∃ d, (if x < 1 / 10 then Except.error Fault.fatal else pure x : Except Fault ℚ) = .ok d ∧
        1 / 10 ≤ d := by
  by_cases h : x < 1 / 10
  · left
    rw [if_pos h]
  · right
    exact ⟨x, by rw [if_neg h]; rfl, not_lt.mp h⟩

theorem bch_onView_outcome (T : Int) (view : List Block) (hh : HeightsMatch view)
    (hL : 147 ≤ view.length) :
    bchDefault.onView T view = .error .fatal ∨
      ∃ d, bchDefault.onView T view = .ok d ∧ 1 / 10 ≤ d := by
  obtain ⟨topMed, htm, ht⟩ := median_mem _ (window_ne_nil view (view.length - 3) view.length
    (by omega) (le_refl _))
  obtain ⟨botMed, hbm, hb⟩ := median_mem _ (window_ne_nil view (view.length - 147)
    (view.length - 144) (by omega) (by omega))
  have h1 := window_mem_height hh _ _ _ htm
  have h2 := window_mem_height hh _ _ _ hbm
  unfold bchDifficulty.onView
  simp only [bchDefault]
  rw [slice_window view _ _ (by omega) (by omega) (by omega),
    slice_window view _ _ (by omega) (by omega) (by omega)]
  have e1 : ((view.length : Int) - 3).toNat = view.length - 3 := by omega
  have e2 : ((view.length : Int)).toNat = view.length := by omega
  have e3 : ((view.length : Int) - 144 - 3).toNat = view.length - 147 := by omega
  have e4 : ((view.length : Int) - 144).toNat = view.length - 144 := by omega
  simp only [e1, e2, e3, e4, bind, Except.bind, ht, hb]
  rw [slice_window view _ _ (by omega) (by omega) (by omega)]
  exact fatal_guard_cases _

theorem bch_onView_paced {T : Int} {view : List Block} (hT : 0 < T) (hp : Paced T view)
    (hL : 147 ≤ view.length) :
    bchDefault.onView T view =
      if sumBlocks (window view (view.length - 146) (view.length - 1)) * (T : ℚ)
          / ((144 * T : Int) : ℚ) < 1 / 10 then .error .fatal
      else .ok (sumBlocks (window view (view.length - 146) (view.length - 1)) * (T : ℚ)
          / ((144 * T : Int) : ℚ)) := by
  obtain ⟨topMed, htop⟩ : ∃ b, view[view.length - 2]? = some b :=
    ⟨_, List.getElem?_eq_getElem (by omega)⟩
  obtain ⟨botMed, hbot⟩ : ∃ b, view[view.length - 146]? = some b :=
    ⟨_, List.getElem?_eq_getElem (by omega)⟩
  have ht := paced_median hT hp (view.length - 3) view.length (by omega) (le_refl _) topMed
    (by rw [show view.length - 3 + (view.length - (view.length - 3)) / 2 = view.length - 2 by
      omega]; exact htop)
  have hb := paced_median hT hp (view.length - 147) (view.length - 144) (by omega) (by omega)
    botMed (by rw [show view.length - 147 + (view.length - 144 - (view.length - 147)) / 2
      = view.length - 146 by omega]; exact hbot)
  obtain ⟨th, tt⟩ := hp _ _ htop
  obtain ⟨bh, bt⟩ := hp _ _ hbot
  unfold bchDifficulty.onView
  simp only [bchDefault]
  rw [slice_window view _ _ (by omega) (by omega) (by omega),
    slice_window view _ _ (by omega) (by omega) (by omega)]
  have e1 : ((view.length : Int) - 3).toNat = view.length - 3 := by omega
  have e2 : ((view.length : Int)).toNat = view.length := by omega
  have e3 : ((view.length : Int) - 144 - 3).toNat = view.length - 147 := by omega
  have e4 : ((view.length : Int) - 144).toNat = view.length - 144 := by omega
  simp only [e1, e2, e3, e4, bind, Except.bind, ht, hb]
  rw [slice_window view _ _ (by omega) (by omega) (by omega)]
  have e5 : botMed.height.toNat = view.length - 146 := by omega
  have e6 : (topMed.height + 1).toNat = view.length - 1 := by omega
  have e7 : topMed.timestamp - botMed.timestamp = 144 * T := by
    rw [tt, bt]
    have : ((view.length - 2 : Nat) : Int) = ((view.length - 146 : Nat) : Int) + 144 := by omega
    rw [this]
    ring
  have c1 : ¬ (144 * T > 2 * 144 * T) := by omega
  have c2 : ¬ (144 * T < (144 * T).tdiv 2) := by
    rw [Int.tdiv_eq_ediv (by omega) (by norm_num)]
    omega
  simp only [e5, e6, e7, if_neg c1, if_neg c2]
  rfl

theorem xmr_getDiff_eq (x : xmrDifficulty) (isPrivate : Bool) (bc : Blockchain) :
    x.getDiff isPrivate bc = bc.view isPrivate >>= fun chain =>
      x.measure chain >>= fun m =>
        pure (m.1 * (bc.expectedBlockTime : ℚ) / (m.2 : ℚ)) := by
  have key : ∀ chain : List Block,
      (let chainHeight : Int := (chain.length : Int) - 1
      if x.Lookback < 0 then (.error .makeSliceLen : Except Fault ℚ)
      else do
        let examineChain ← (List.range x.Lookback.toNat).foldlM
          (fun (acc : List Block) (j : Nat) => do
            let blk ← index chain (chainHeight - x.Lookback - x.Delay + (j : Int))
            pure (acc ++ [blk])) []
        let timestampList := (examineChain.map (fun blk => blk.timestamp)).insertionSort (· ≤ ·)
        let timestampListOutliersRemoved ←
          slice timestampList x.Outliers ((timestampList.length : Int) - x.Outliers)
        let hi ← index timestampListOutliersRemoved
          ((timestampListOutliersRemoved.length : Int) - 1)
        let lo ← index timestampListOutliersRemoved 0
        let timeSpan := hi - lo
        let diffOutliersRemoved ←
          slice examineChain x.Outliers ((examineChain.length : Int) - x.Outliers)
        let totalWork := sumBlocks diffOutliersRemoved
        let target := bc.expectedBlockTime
        let newDiff := (totalWork * (target : ℚ)) / (timeSpan : ℚ)
        pure newDiff)
      = x.measure chain >>= fun m =>
          pure (m.1 * (bc.expectedBlockTime : ℚ) / (m.2 : ℚ)) := by
    intro chain
    unfold xmrDifficulty.measure
    simp only []
    split
    · rfl
    · cases (List.range x.Lookback.toNat).foldlM
        (fun (acc : List Block) (j : Nat) => do
          let blk ← index chain ((chain.length : Int) - 1 - x.Lookback - x.Delay + (j : Int))
          pure (acc ++ [blk])) [] with
      | error e => rfl
      | ok examineChain =>
        simp only [bind, Except.bind]
        cases slice ((examineChain.map (fun blk => blk.timestamp)).insertionSort (· ≤ ·))
          x.Outliers ((((examineChain.map (fun blk => blk.timestamp)).insertionSort
            (· ≤ ·)).length : Int) - x.Outliers) with
        | error e => rfl
        | ok removed =>
          simp only []
          cases index removed ((removed.length : Int) - 1) with
          | error e => rfl
          | ok hi =>
            simp only []
            cases index removed 0 with
            | error e => rfl
            | ok lo =>
              simp only []
              cases slice examineChain x.Outliers ((examineChain.length : Int) - x.Outliers) with
              | error e => rfl
              | ok work => rfl
  unfold Blockchain.view
  cases isPrivate
  · exact key bc.chain
  · simp only [↓reduceIte]
    unfold xmrDifficulty.getDiff
    simp only [↓reduceIte]
    cases bc.getPrivateView with
    | error e => rfl
    | ok chain => exact key chain

theorem examineLoop_eq (chain : List Block) (base : Int) (h0 : 0 ≤ base) (n : Nat)
    (h : base.toNat + n ≤ chain.length) :
    (List.range n).foldlM
      (fun (acc : List Block) (j : Nat) => do
        let blk ← index chain (base + (j : Int))
        pure (acc ++ [blk])) ([] : List Block)
    = (Except.ok (window chain base.toNat (base.toNat + n)) : Except Fault (List Block)) := by
  induction n with
  | zero =>
    simp [window, List.drop_eq_nil_of_le, pure, Except.pure]
  | succ k ih =>
    have hk : base.toNat + k < chain.length := by omega
    rw [List.range_succ, List.foldlM_append, ih (by omega)]
    have hi : index chain (base + (k : Int)) = .ok chain[base.toNat + k] := by
      apply index_of_getElem? _ _ _ (by omega)
      rw [show (base + (k : Int)).toNat = base.toNat + k by omega]
      exact List.getElem?_eq_getElem hk
    simp only [List.foldlM_cons, List.foldlM_nil, hi, bind, Except.bind, pure, Except.pure]
    congr 1
    unfold window
    rw [← Nat.add_assoc, List.take_succ, List.getElem?_eq_getElem hk]
    simp only [Option.toList_some]
    rw [List.drop_append_of_le_length (by rw [List.length_take]; omega)]

theorem xmrExamined_length (view : List Block) (hL : 736 ≤ view.length) :
    (xmrExamined view).length = 720 := by
  unfold xmrExamined
  rw [window_length view _ _ (by omega)]
  omega

theorem xmrSortedTimes_length (view : List Block) (hL : 736 ≤ view.length) :
    (xmrSortedTimes view).length = 720 := by
  unfold xmrSortedTimes
  rw [List.length_insertionSort, List.length_map, xmrExamined_length view hL]

theorem xmr_measure_eq (view : List Block) (hL : 736 ≤ view.length) (lo hi : Int)
    (hlo : (xmrSortedTimes view)[60]? = some lo) (hhi : (xmrSortedTimes view)[659]? = some hi) :
    xmrDefault.measure view
      = .ok (sumBlocks (((xmrExamined view).take 660).drop 60), hi - lo) := by
  unfold xmrDifficulty.measure
  have hneg : ¬ (xmrDefault.Lookback < 0) := by decide
  simp only [if_neg hneg]
  have hbase : (view.length : Int) - 1 - xmrDefault.Lookback - xmrDefault.Delay
      = ((view.length - 736 : Nat) : Int) := by
    simp only [xmrDefault]
    omega
  have hloop := examineLoop_eq view ((view.length - 736 : Nat) : Int) (by omega) 720
    (by rw [Int.toNat_ofNat]; omega)
  rw [Int.toNat_ofNat, show view.length - 736 + 720 = view.length - 16 by omega] at hloop
  rw [hbase, show xmrDefault.Lookback.toNat = 720 by decide, hloop]
  simp only [bind, Except.bind]
  have hE := xmrExamined_length view hL
  have hS := xmrSortedTimes_length view hL
  unfold xmrSortedTimes at hS hlo hhi
  unfold xmrExamined at hE hS hlo hhi ⊢
  rw [hS, slice_ok _ _ _ (by decide) (by decide) (by rw [hS]; decide)]
  simp only []
  have hrl : (((((window view (view.length - 736) (view.length - 16)).map
      (fun blk => blk.timestamp)).insertionSort (· ≤ ·)).take
      (((720 : Nat) : Int) - xmrDefault.Outliers).toNat).drop xmrDefault.Outliers.toNat).length
      = 600 := by
    rw [List.length_drop, List.length_take, hS]
    decide
  rw [hrl]
  have i1 : index (((((window view (view.length - 736) (view.length - 16)).map
      (fun blk => blk.timestamp)).insertionSort (· ≤ ·)).take
      (((720 : Nat) : Int) - xmrDefault.Outliers).toNat).drop xmrDefault.Outliers.toNat)
      (((600 : Nat) : Int) - 1) = .ok hi := by
    apply index_of_getElem? _ _ _ (by decide)
    rw [List.getElem?_drop, List.getElem?_take]
    exact hhi
  have i2 : index (((((window view (view.length - 736) (view.length - 16)).map
      (fun blk => blk.timestamp)).insertionSort (· ≤ ·)).take
      (((720 : Nat) : Int) - xmrDefault.Outliers).toNat).drop xmrDefault.Outliers.toNat)
      0 = .ok lo := by
    apply index_of_getElem? _ _ _ (by decide)
    rw [List.getElem?_drop, List.getElem?_take]
    exact hlo
  rw [i1, i2]
  simp only []
  rw [hE, slice_ok _ _ _ (by decide) (by decide) (by rw [hE]; decide)]
  rfl

theorem dashSource_view {isPrivate : Bool} {bc : Blockchain} {view : List Block} {tip : Int}
    (h : dashSource isPrivate bc = .ok (view, tip)) : bc.view isPrivate = .ok view := by
  unfold dashSource at h
  unfold Blockchain.view
  cases isPrivate
  · simp only [Bool.false_eq_true, ↓reduceIte] at h ⊢
    cases h
    rfl
  · simp only [↓reduceIte] at h ⊢
    rw [bind_eq_ok] at h
    obtain ⟨t, _, h⟩ := h
    rw [bind_eq_ok] at h
    obtain ⟨chain, hc, h⟩ := h
    cases h
    exact hc

theorem Steady.unit {T : Int} {view : List Block} (hs : Steady T view) :
    ∀ b ∈ view, b.difficulty = 1 := by
  intro b hb
  obtain ⟨i, hi⟩ := List.mem_iff_getElem?.mp hb
  exact (hs i b hi).2.1

theorem sumBlocks_unit (l : List Block) (h : ∀ b ∈ l, b.difficulty = 1) :
    sumBlocks l = (l.length : ℚ) := by
  rw [sumBlocks_eq, sum_eq_of_all_eq _ 1, List.length_map, mul_one]
  intro x hx
  obtain ⟨b, hb, rfl⟩ := List.mem_map.mp hx
  exact h b hb

theorem btc_getDiff_steady (isPrivate : Bool) (bc : Blockchain) (view : List Block)
    (hview : bc.view isPrivate = .ok view) (hT : 0 < bc.expectedBlockTime)
    (hL : 3000 ≤ view.length) (hs : Steady bc.expectedBlockTime view) :
    btcDefault.getDiff isPrivate bc = .ok 1 := by
  have hne : view ≠ [] := by
    intro e
    rw [e] at hL
    simp at hL
  by_cases hmod : ((view.length : Int) - STARTING_BLOCKS) % btcDefault.Period = 0
  · obtain ⟨top, htop⟩ : ∃ b, view[view.length - 1]? = some b :=
      ⟨_, List.getElem?_eq_getElem (by omega)⟩
    obtain ⟨bot, hbot⟩ : ∃ b, view[view.length - 2016]? = some b :=
      ⟨_, List.getElem?_eq_getElem (by omega)⟩
    have hbot2 : view[((view.length : Int) - btcDefault.Period
        - (if btcDefault.OffByOne then 0 else 1)).toNat]? = some bot := by
      rw [show ((view.length : Int) - btcDefault.Period
        - (if btcDefault.OffByOne then 0 else 1)).toNat = view.length - 2016 by
          simp only [btcDefault, ↓reduceIte]; omega]
      exact hbot
    rw [btc_getDiff_boundary_eq btcDefault isPrivate bc view hview (by decide) hT
      (by simp only [btcDefault]; omega) hmod top bot htop hbot2]
    have hw : (((view.drop ((view.length : Int) - btcDefault.Period).toNat).take
        (btcDefault.Period - 1).toNat).map (fun blk => blk.difficulty)).sum = 2015 := by
      rw [← sumBlocks_eq, sumBlocks_unit _ (fun b hb =>
        hs.unit b (List.mem_of_mem_drop (List.mem_of_mem_take hb)))]
      rw [List.length_take, List.length_drop]
      have : min (btcDefault.Period - 1).toNat
          (view.length - ((view.length : Int) - btcDefault.Period).toNat) = 2015 := by
        simp only [btcDefault]
        omega
      rw [this]
      norm_num
    have hspan : top.timestamp - bot.timestamp = 2015 * bc.expectedBlockTime := by
      rw [(hs _ _ htop).2.2, (hs _ _ hbot).2.2]
      have : ((view.length - 1 : Nat) : Int) = ((view.length - 2016 : Nat) : Int) + 2015 := by
        omega
      rw [this]
      ring
    have hclamp : btcClamp btcDefault.Period bc.expectedBlockTime
        (2015 * bc.expectedBlockTime) = 2015 * bc.expectedBlockTime := by
      simp only [btcClamp, btcDefault]
      omega
    rw [hw, hspan, hclamp]
    have hq : (0 : ℚ) < (bc.expectedBlockTime : ℚ) := by exact_mod_cast hT
    congr 1
    push_cast
    field_simp
  · rw [btc_getDiff_last btcDefault isPrivate bc view hview (by decide) hne hmod,
      hs.unit _ (List.getLast_mem hne)]

theorem bch_getDiff_steady (isPrivate : Bool) (bc : Blockchain) (view : List Block)
    (hview : bc.view isPrivate = .ok view) (hT : 0 < bc.expectedBlockTime)
    (hL : 3000 ≤ view.length) (hs : Steady bc.expectedBlockTime view) :
    bchDefault.getDiff isPrivate bc = .ok (145 / 144) := by
  rw [bch_getDiff_eq, hview]
  show bchDefault.onView bc.expectedBlockTime view = _
  rw [bch_onView_paced hT hs.paced (by omega),
    sumBlocks_unit _ (fun b hb => hs.unit b (window_subset view _ _ b hb)),
    window_length view _ _ (by omega),
    show view.length - 1 - (view.length - 146) = 145 by omega]
  have hq : (0 : ℚ) < (bc.expectedBlockTime : ℚ) := by exact_mod_cast hT
  have e : ((145 : Nat) : ℚ) * (bc.expectedBlockTime : ℚ)
      / ((144 * bc.expectedBlockTime : Int) : ℚ) = 145 / 144 := by
    push_cast
    field_simp
    ring
  rw [e, if_neg (by norm_num)]

theorem dashWeightedAvg_of_all_eq (targets : List ℚ) (t : ℚ) (hne : targets ≠ [])
    (h : ∀ x ∈ targets, x = t) : dashWeightedAvg targets = t := by
  have hhead : targets.headD 0 = t := by
    cases targets with
    | nil => exact absurd rfl hne
    | cons a l => exact h a (List.mem_cons_self a l)
  have hq : (0 : ℚ) < (targets.length : ℚ) + 1 := by positivity
  unfold dashWeightedAvg
  rw [hhead, sum_eq_of_all_eq _ t h]
  field_simp
  ring

theorem dash_getDiff_steady (isPrivate : Bool) (bc : Blockchain) (view : List Block)
    (hsrc : dashSource isPrivate bc = .ok (view, (view.length : Int) - 1))
    (hT : 0 < bc.expectedBlockTime) (hL : 3000 ≤ view.length)
    (hs : Steady bc.expectedBlockTime view) :
    dashDefault.getDiff isPrivate bc = .ok (24 / 23) := by
  obtain ⟨top, htop⟩ : ∃ b, view[view.length - 1]? = some b :=
    ⟨_, List.getElem?_eq_getElem (by omega)⟩
  obtain ⟨bot, hbot⟩ : ∃ b, view[view.length - 24]? = some b :=
    ⟨_, List.getElem?_eq_getElem (by omega)⟩
  have hbot2 : view[((view.length : Int) - dashDefault.NPastBlocks
      - (if dashDefault.OffByOne then 0 else 1)).toNat]? = some bot := by
    rw [show ((view.length : Int) - dashDefault.NPastBlocks
      - (if dashDefault.OffByOne then 0 else 1)).toNat = view.length - 24 by
        simp only [dashDefault, ↓reduceIte]; omega]
    exact hbot
  have hm := dash_measure_eq dashDefault view top bot (by decide) htop hbot2
    (by simp only [dashDefault, ↓reduceIte]; omega)
  have htl : (dashTargets view dashDefault.NPastBlocks.toNat).length = 24 := by
    simp only [dashTargets, List.length_map, List.length_take, List.length_reverse, dashDefault]
    omega
  have havg : dashWeightedAvg (dashTargets view dashDefault.NPastBlocks.toNat) = 1 := by
    apply dashWeightedAvg_of_all_eq
    · intro e
      rw [e] at htl
      simp at htl
    · intro x hx
      obtain ⟨b, hb, rfl⟩ := List.mem_map.mp hx
      rw [hs.unit b (List.mem_reverse.mp (List.mem_of_mem_take hb))]
      norm_num
  have hspan : top.timestamp - bot.timestamp = 23 * bc.expectedBlockTime := by
    rw [(hs _ _ htop).2.2, (hs _ _ hbot).2.2]
    have : ((view.length - 1 : Nat) : Int) = ((view.length - 24 : Nat) : Int) + 23 := by omega
    rw [this]
    ring
  rw [havg, hspan] at hm
  rw [dash_getDiff_eq, hsrc]
  simp only [bind, Except.bind, hm, pure, Except.pure]
  congr 1
  have hq : (0 : ℚ) < (bc.expectedBlockTime : ℚ) := by exact_mod_cast hT
  have c1 : ¬ (23 * bc.expectedBlockTime > bc.expectedBlockTime * 24 * 3) := by omega
  have c2 : ¬ (((23 * bc.expectedBlockTime : Int) : ℚ)
      < ((bc.expectedBlockTime * 24 : Int) : ℚ) / 3) := by
    push_cast
    rw [not_lt]
    linarith
  simp only [dashFinish, dashDefault, if_neg c1, if_neg c2]
  push_cast
  field_simp
  ring

theorem increasing_sort_eq (blocks : List Block)
    (hinc : (blocks.map (fun block => block.timestamp)).Pairwise (· < ·)) :
    (blocks.map (fun block => block.timestamp)).insertionSort (· ≤ ·)
      = blocks.map (fun block => block.timestamp) :=
  List.Sorted.insertionSort_eq (List.Pairwise.imp (fun h => le_of_lt h) hinc)

theorem xmr_getDiff_steady (isPrivate : Bool) (bc : Blockchain) (view : List Block)
    (hview : bc.view isPrivate = .ok view) (hT : 0 < bc.expectedBlockTime)
    (hL : 3000 ≤ view.length) (hs : Steady bc.expectedBlockTime view) :
    xmrDefault.getDiff isPrivate bc = .ok (600 / 599) := by
  obtain ⟨lo, hlo⟩ : ∃ b, view[view.length - 676]? = some b :=
    ⟨_, List.getElem?_eq_getElem (by omega)⟩
  obtain ⟨hi, hhi⟩ : ∃ b, view[view.length - 77]? = some b :=
    ⟨_, List.getElem?_eq_getElem (by omega)⟩
  have hsort : xmrSortedTimes view = (xmrExamined view).map (fun blk => blk.timestamp) :=
    increasing_sort_eq _ (paced_window_increasing hT hs.paced _ _)
  have h60 : (xmrSortedTimes view)[60]? = some lo.timestamp := by
    rw [hsort, List.getElem?_map]
    unfold xmrExamined
    rw [window_getElem? view _ _ 60 (by omega),
      show view.length - 736 + 60 = view.length - 676 by omega, hlo]
    rfl
  have h659 : (xmrSortedTimes view)[659]? = some hi.timestamp := by
    rw [hsort, List.getElem?_map]
    unfold xmrExamined
    rw [window_getElem? view _ _ 659 (by omega),
      show view.length - 736 + 659 = view.length - 77 by omega, hhi]
    rfl
  have hm := xmr_measure_eq view (by omega) _ _ h60 h659
  have hsub : ∀ b ∈ xmrExamined view, b ∈ view := window_subset view _ _
  have hw : sumBlocks (((xmrExamined view).take 660).drop 60) = 600 := by
    rw [sumBlocks_unit _ (fun b hb => hs.unit b
      (hsub b (List.mem_of_mem_take (List.mem_of_mem_drop hb)))),
      List.length_drop, List.length_take, xmrExamined_length view (by omega)]
    norm_num
  have hspan : hi.timestamp - lo.timestamp = 599 * bc.expectedBlockTime := by
    rw [(hs _ _ hhi).2.2, (hs _ _ hlo).2.2]
    have : ((view.length - 77 : Nat) : Int) = ((view.length - 676 : Nat) : Int) + 599 := by
      omega
    rw [this]
    ring
  rw [hw, hspan] at hm
  rw [xmr_getDiff_eq, hview]
  simp only [bind, Except.bind, hm, pure, Except.pure]
  refine congrArg Except.ok ?_
  have hq : (0 : ℚ) < (bc.expectedBlockTime : ℚ) := by exact_mod_cast hT
  push_cast
  field_simp
  ring

theorem zec_getDiff_steady (isPrivate : Bool) (bc : Blockchain) (view : List Block)
    (hview : bc.view isPrivate = .ok view) (hT : 0 < bc.expectedBlockTime)
    (hL : 3000 ≤ view.length) (hs : Steady bc.expectedBlockTime view) :
    zecDefault.getDiff isPrivate bc = .ok 1 := by
  obtain ⟨bM, hbM⟩ : ∃ b, view[view.length - 7]? = some b :=
    ⟨_, List.getElem?_eq_getElem (by omega)⟩
  obtain ⟨aM, haM⟩ : ∃ b, view[view.length - 24]? = some b :=
    ⟨_, List.getElem?_eq_getElem (by omega)⟩
  have hlen : zecDefault.NAveragingInterval + zecDefault.NMedianTimespan + 1
      ≤ (view.length : Int) := by
    simp only [zecDefault]
    omega
  have m1 := paced_median hT hs.paced (view.length - 12) (view.length - 1) (by omega)
    (by omega) bM (by rw [show view.length - 12 + (view.length - 1 - (view.length - 12)) / 2
      = view.length - 7 by omega]; exact hbM)
  have m2 := paced_median hT hs.paced (view.length - 29) (view.length - 18) (by omega)
    (by omega) aM (by rw [show view.length - 29 + (view.length - 18 - (view.length - 29)) / 2
      = view.length - 24 by omega]; exact haM)
  have hmed : zecDefault.medians view = .ok (bM, aM) := by
    rw [zec_medians_eq zecDefault view hs.heightsMatch (by decide) (by decide) hlen,
      show view.length - 1 - zecDefault.NMedianTimespan.toNat = view.length - 12 by
        simp only [zecDefault]; omega,
      show view.length - 1 - zecDefault.NAveragingInterval.toNat
          - zecDefault.NMedianTimespan.toNat = view.length - 29 by
        simp only [zecDefault]; omega,
      show view.length - 1 - zecDefault.NAveragingInterval.toNat = view.length - 18 by
        simp only [zecDefault]; omega,
      m1, m2]
    rfl
  rw [zec_getDiff_eq_finish zecDefault isPrivate bc view bM aM hview hs.heightsMatch (by decide)
    (by decide) hlen (by omega) hmed]
  have hspan : bM.timestamp - aM.timestamp = 17 * bc.expectedBlockTime := by
    rw [(hs _ _ hbM).2.2, (hs _ _ haM).2.2]
    have : ((view.length - 7 : Nat) : Int) = ((view.length - 24 : Nat) : Int) + 17 := by omega
    rw [this]
    ring
  have hwl : (window view (view.length - 1 - zecDefault.NAveragingInterval.toNat)
      (view.length - 1)).length = 17 := by
    rw [window_length view _ _ (by omega)]
    simp only [zecDefault]
    omega
  have havg : zecAvgTarget zecDefault (window view
      (view.length - 1 - zecDefault.NAveragingInterval.toNat) (view.length - 1)) = 1 := by
    unfold zecAvgTarget
    rw [foldl_target_eq, zero_add, sum_eq_of_all_eq _ 1, List.length_map, hwl]
    · norm_num [zecDefault]
    · intro x hx
      obtain ⟨b, hb, rfl⟩ := List.mem_map.mp hx
      rw [hs.unit b (window_subset view _ _ b hb)]
      norm_num
  have hq : (0 : ℚ) < (bc.expectedBlockTime : ℚ) := by exact_mod_cast hT
  have hdamp : zecDampened zecDefault bc.expectedBlockTime (17 * bc.expectedBlockTime)
      = 17 * (bc.expectedBlockTime : ℚ) := by
    simp only [zecDampened, zecDefault]
    push_cast
    ring
  have hclamp : zecClamped zecDefault bc.expectedBlockTime (17 * bc.expectedBlockTime)
      = 17 * (bc.expectedBlockTime : ℚ) := by
    unfold zecClamped
    rw [hdamp]
    have c1 : ¬ (17 * (bc.expectedBlockTime : ℚ) < zecMinTimespan zecDefault bc.expectedBlockTime) := by
      simp only [zecMinTimespan, zecDefault]
      push_cast
      rw [not_lt]
      linarith
    have c2 : ¬ (17 * (bc.expectedBlockTime : ℚ) > zecMaxTimespan zecDefault bc.expectedBlockTime) := by
      simp only [zecMaxTimespan, zecDefault]
      push_cast
      rw [gt_iff_lt, not_lt]
      linarith
    rw [if_neg c1, if_neg c2]
  congr 1
  unfold zecFinish
  rw [hspan, havg, hclamp]
  simp only [zecDefault]
  push_cast
  field_simp

/-- C18: for every block time `T > 0` and every view of at least
`STARTING_BLOCKS` blocks in which block `i` has height `i`, difficulty 1.0 and
timestamp `i * T`, read from a chain state whose tip index is the index of the
last block of the view, the five DAAs with their default parameters return:
BTC and Zcash exactly 1, BCH 145/144, Dash 24/23 and Monero 600/599; each
returned `d` has `|d - 1| < 0.05`. -/
theorem steady_view_difficulties (isPrivate : Bool) (bc : Blockchain) (view : List Block)
    (hsrc : dashSource isPrivate bc = .ok (view, (view.length : Int) - 1))
    (hT : 0 < bc.expectedBlockTime) (hL : STARTING_BLOCKS ≤ (view.length : Int))
    (hs : Steady bc.expectedBlockTime view) :
    bc.view isPrivate = .ok view ∧
    btcDefault.getDiff isPrivate bc = .ok 1 ∧
    zecDefault.getDiff isPrivate bc = .ok 1 ∧
    bchDefault.getDiff isPrivate bc = .ok (145 / 144) ∧
    dashDefault.getDiff isPrivate bc = .ok (24 / 23) ∧
    xmrDefault.getDiff isPrivate bc = .ok (600 / 599) ∧
    ∀ algo ∈ [Difficulty.btc btcDefault, Difficulty.bch bchDefault, Difficulty.dash dashDefault,
        Difficulty.xmr xmrDefault, Difficulty.zec zecDefault],
      ∃ d, algo.getDiff isPrivate bc = .ok d ∧ |d - 1| < 1 / 20 := by
  have hview := dashSource_view hsrc
  have hL3 : 3000 ≤ view.length := by
    simp only [STARTING_BLOCKS] at hL
    omega
  have h1 := btc_getDiff_steady isPrivate bc view hview hT hL3 hs
  have h2 := zec_getDiff_steady isPrivate bc view hview hT hL3 hs
  have h3 := bch_getDiff_steady isPrivate bc view hview hT hL3 hs
  have h4 := dash_getDiff_steady isPrivate bc view hsrc hT hL3 hs
  have h5 := xmr_getDiff_steady isPrivate bc view hview hT hL3 hs
  refine ⟨hview, h1, h2, h3, h4, h5, ?_⟩
  intro algo halgo
  simp only [List.mem_cons, List.mem_singleton, List.not_mem_nil, or_false] at halgo
  rcases halgo with e | e | e | e | e <;> subst e
  · exact ⟨1, h1, by norm_num⟩
  · exact ⟨145 / 144, h3, by norm_num [abs_lt]⟩
  · exact ⟨24 / 23, h4, by norm_num [abs_lt]⟩
  · exact ⟨600 / 599, h5, by norm_num [abs_lt]⟩
  · exact ⟨1, h2, by norm_num⟩

theorem steady_view_difficulties_witness :
    dashSource false (steadyChain 600 3000)
      = .ok ((steadyChain 600 3000).chain, ((steadyChain 600 3000).chain.length : Int) - 1) ∧
    0 < (steadyChain 600 3000).expectedBlockTime ∧
    STARTING_BLOCKS ≤ ((steadyChain 600 3000).chain.length : Int) ∧
    Steady (steadyChain 600 3000).expectedBlockTime (steadyChain 600 3000).chain ∧
    btcDefault.getDiff false (steadyChain 600 3000) = .ok 1 ∧
    zecDefault.getDiff false (steadyChain 600 3000) = .ok 1 ∧
    bchDefault.getDiff false (steadyChain 600 3000) = .ok (145 / 144) ∧
    dashDefault.getDiff false (steadyChain 600 3000) = .ok (24 / 23) ∧
    xmrDefault.getDiff false (steadyChain 600 3000) = .ok (600 / 599) := by
  have hsrc : dashSource false (steadyChain 600 3000)
      = .ok ((steadyChain 600 3000).chain,
        ((steadyChain 600 3000).chain.length : Int) - 1) := by
    rw [steadyChain_length]
    rfl
  have hT : 0 < (steadyChain 600 3000).expectedBlockTime := by decide
  have hL : STARTING_BLOCKS ≤ ((steadyChain 600 3000).chain.length : Int) := by
    rw [steadyChain_length]
    decide
  have hs : Steady (steadyChain 600 3000).expectedBlockTime (steadyChain 600 3000).chain :=
    steadyChain_steady 600 3000
  obtain ⟨_, h1, h2, h3, h4, h5, _⟩ :=
    steady_view_difficulties false (steadyChain 600 3000) (steadyChain 600 3000).chain
      hsrc hT hL hs
  exact ⟨hsrc, hT, hL, hs, h1, h2, h3, h4, h5⟩

theorem sumBlocks_pos (l : List Block) (hne : l ≠ []) (h : ∀ b ∈ l, 0 < b.difficulty) :
    0 < sumBlocks l := by
  rw [sumBlocks_eq]
  apply List.sum_pos
  · intro x hx
    obtain ⟨b, hb, rfl⟩ := List.mem_map.mp hx
    exact h b hb
  · simpa using hne

theorem btc_getDiff_pos (isPrivate : Bool) (bc : Blockchain) (view : List Block)
    (hview : bc.view isPrivate = .ok view) (hT : 0 < bc.expectedBlockTime)
    (hL : 3000 ≤ view.length) (hpos : PositiveDifficulties view) :
    ∃ d, btcDefault.getDiff isPrivate bc = .ok d ∧ 0 < d := by
  have hne : view ≠ [] := by
    intro e
    rw [e] at hL
    simp at hL
  by_cases hmod : ((view.length : Int) - STARTING_BLOCKS) % btcDefault.Period = 0
  · obtain ⟨top, htop⟩ : ∃ b, view[view.length - 1]? = some b :=
      ⟨_, List.getElem?_eq_getElem (by omega)⟩
    obtain ⟨bot, hbot⟩ : ∃ b, view[view.length - 2016]? = some b :=
      ⟨_, List.getElem?_eq_getElem (by omega)⟩
    have hbot2 : view[((view.length : Int) - btcDefault.Period
        - (if btcDefault.OffByOne then 0 else 1)).toNat]? = some bot := by
      rw [show ((view.length : Int) - btcDefault.Period
        - (if btcDefault.OffByOne then 0 else 1)).toNat = view.length - 2016 by
          simp only [btcDefault, ↓reduceIte]; omega]
      exact hbot
    refine ⟨_, btc_getDiff_boundary_eq btcDefault isPrivate bc view hview (by decide) hT
      (by simp only [btcDefault]; omega) hmod top bot htop hbot2, ?_⟩
    have hw : 0 < (((view.drop ((view.length : Int) - btcDefault.Period).toNat).take
        (btcDefault.Period - 1).toNat).map (fun blk => blk.difficulty)).sum := by
      rw [← sumBlocks_eq]
      apply sumBlocks_pos
      · intro e
        have := congrArg List.length e
        rw [List.length_take, List.length_drop] at this
        simp only [btcDefault, List.length_nil] at this
        omega
      · intro b hb
        exact hpos b (List.mem_of_mem_drop (List.mem_of_mem_take hb))
    have hc : 0 < btcClamp btcDefault.Period bc.expectedBlockTime
        (top.timestamp - bot.timestamp) := by
      simp only [btcClamp, btcDefault]
      omega
    have hcq : (0 : ℚ) < ((btcClamp btcDefault.Period bc.expectedBlockTime
        (top.timestamp - bot.timestamp) : Int) : ℚ) := by exact_mod_cast hc
    have hq : (0 : ℚ) < (bc.expectedBlockTime : ℚ) := by exact_mod_cast hT
    positivity
  · exact ⟨_, btc_getDiff_last btcDefault isPrivate bc view hview (by decide) hne hmod,
      hpos _ (List.getLast_mem hne)⟩

theorem dashWeightedAvg_pos (targets : List ℚ) (hne : targets ≠ [])
    (h : ∀ x ∈ targets, 0 < x) : 0 < dashWeightedAvg targets := by
  have hhead : 0 < targets.headD 0 := by
    cases targets with
    | nil => exact absurd rfl hne
    | cons a l => exact h a (List.mem_cons_self a l)
  have hsum : 0 < targets.sum := List.sum_pos _ h hne
  unfold dashWeightedAvg
  positivity

theorem dash_getDiff_pos (isPrivate : Bool) (bc : Blockchain) (view : List Block)
    (hsrc : dashSource isPrivate bc = .ok (view, (view.length : Int) - 1))
    (hT : 0 < bc.expectedBlockTime) (hL : 3000 ≤ view.length)
    (hpos : PositiveDifficulties view) :
    ∃ d, dashDefault.getDiff isPrivate bc = .ok d ∧ 0 < d := by
  obtain ⟨top, htop⟩ : ∃ b, view[view.length - 1]? = some b :=
    ⟨_, List.getElem?_eq_getElem (by omega)⟩
  obtain ⟨bot, hbot⟩ : ∃ b, view[view.length - 24]? = some b :=
    ⟨_, List.getElem?_eq_getElem (by omega)⟩
  have hbot2 : view[((view.length : Int) - dashDefault.NPastBlocks
      - (if dashDefault.OffByOne then 0 else 1)).toNat]? = some bot := by
    rw [show ((view.length : Int) - dashDefault.NPastBlocks
      - (if dashDefault.OffByOne then 0 else 1)).toNat = view.length - 24 by
        simp only [dashDefault, ↓reduceIte]; omega]
    exact hbot
  have hm := dash_measure_eq dashDefault view top bot (by decide) htop hbot2
    (by simp only [dashDefault, ↓reduceIte]; omega)
  have htl : (dashTargets view dashDefault.NPastBlocks.toNat).length = 24 := by
    simp only [dashTargets, List.length_map, List.length_take, List.length_reverse, dashDefault]
    omega
  have havg : 0 < dashWeightedAvg (dashTargets view dashDefault.NPastBlocks.toNat) := by
    apply dashWeightedAvg_pos
    · intro e
      rw [e] at htl
      simp at htl
    · intro x hx
      obtain ⟨b, hb, rfl⟩ := List.mem_map.mp hx
      exact one_div_pos.mpr (hpos b (List.mem_reverse.mp (List.mem_of_mem_take hb)))
  refine ⟨_, by rw [dash_getDiff_eq, hsrc]; simp only [bind, Except.bind, hm]; rfl, ?_⟩
  have hq : (0 : ℚ) < (bc.expectedBlockTime : ℚ) := by exact_mod_cast hT
  have htq : (0 : ℚ) < ((bc.expectedBlockTime * 24 : Int) : ℚ) := by
    exact_mod_cast (by omega : 0 < bc.expectedBlockTime * 24)
  have hc : (0 : ℚ) < (((if top.timestamp - bot.timestamp > bc.expectedBlockTime * 24 * 3 then
        bc.expectedBlockTime * 24 * 3
      else if ((top.timestamp - bot.timestamp : Int) : ℚ)
          < ((bc.expectedBlockTime * 24 : Int) : ℚ) / 3 then
        (bc.expectedBlockTime * 24).tdiv 3
      else top.timestamp - bot.timestamp) : Int) : ℚ) := by
    split_ifs with c1 c2
    · exact_mod_cast (by omega : 0 < bc.expectedBlockTime * 24 * 3)
    · have : (bc.expectedBlockTime * 24).tdiv 3 = bc.expectedBlockTime * 8 := by
        rw [Int.tdiv_eq_ediv (by omega) (by norm_num)]
        omega
      rw [this]
      exact_mod_cast (by omega : 0 < bc.expectedBlockTime * 8)
    · rw [not_lt] at c2
      have : (0 : ℚ) < ((bc.expectedBlockTime * 24 : Int) : ℚ) / 3 := by positivity
      exact lt_of_lt_of_le this c2
  simp only [dashFinish, dashDefault] at hc ⊢
  positivity

theorem zec_getDiff_pos (isPrivate : Bool) (bc : Blockchain) (view : List Block)
    (hview : bc.view isPrivate = .ok view) (hT : 0 < bc.expectedBlockTime)
    (hL : 3000 ≤ view.length) (hh : HeightsMatch view) (hpos : PositiveDifficulties view) :
    ∃ d, zecDefault.getDiff isPrivate bc = .ok d ∧ 0 < d := by
  have hlen : zecDefault.NAveragingInterval + zecDefault.NMedianTimespan + 1
      ≤ (view.length : Int) := by
    simp only [zecDefault]
    omega
  obtain ⟨bM, aM, hmed, _, _⟩ := zec_medians_return zecDefault view hh (by decide) (by decide)
    hlen
  refine ⟨_, zec_getDiff_eq_finish zecDefault isPrivate bc view bM aM hview hh (by decide)
    (by decide) hlen (by omega) hmed, ?_⟩
  have hwn : window view (view.length - 1 - zecDefault.NAveragingInterval.toNat)
      (view.length - 1) ≠ [] :=
    window_ne_nil view _ _ (by simp only [zecDefault]; omega) (by omega)
  have havg := zecAvgTarget_pos zecDefault _ (by decide) hwn
    (fun b hb => hpos b (window_subset view _ _ b hb))
  obtain ⟨hmin, _, hc1, _⟩ := zecClamped_bounds zecDefault bc.expectedBlockTime
    (bM.timestamp - aM.timestamp) hT (by decide) (by decide) (by decide) (by decide)
  exact (zecFinish_mul_avg zecDefault bc.expectedBlockTime (bM.timestamp - aM.timestamp) _ hT
    (by decide) havg (lt_of_lt_of_le hmin hc1)).2

theorem xmr_measure_returns (view : List Block) (hL : 3000 ≤ view.length)
    (hpos : PositiveDifficulties view) :
    ∃ (work : ℚ) (span : Int), xmrDefault.measure view = .ok (work, span) ∧
      0 < work ∧ 0 ≤ span := by
  have hS := xmrSortedTimes_length view (by omega)
  obtain ⟨lo, hlo⟩ : ∃ t, (xmrSortedTimes view)[60]? = some t :=
    ⟨_, List.getElem?_eq_getElem (show 60 < (xmrSortedTimes view).length by rw [hS]; norm_num)⟩
  obtain ⟨hi, hhi⟩ : ∃ t, (xmrSortedTimes view)[659]? = some t :=
    ⟨_, List.getElem?_eq_getElem (show 659 < (xmrSortedTimes view).length by
      rw [hS]; norm_num)⟩
  refine ⟨_, _, xmr_measure_eq view (by omega) lo hi hlo hhi, ?_, ?_⟩
  · have hsub : ∀ b ∈ xmrExamined view, b ∈ view := window_subset view _ _
    apply sumBlocks_pos
    · intro e
      have := congrArg List.length e
      rw [List.length_drop, List.length_take, xmrExamined_length view (by omega)] at this
      simp at this
    · intro b hb
      exact hpos b (hsub b (List.mem_of_mem_take (List.mem_of_mem_drop hb)))
  · have hsorted : (xmrSortedTimes view).Sorted (· ≤ ·) := List.sorted_insertionSort _ _
    obtain ⟨h1, e1⟩ := List.getElem?_eq_some_iff.mp hlo
    obtain ⟨h2, e2⟩ := List.getElem?_eq_some_iff.mp hhi
    have := List.pairwise_iff_getElem.mp hsorted 60 659 h1 h2 (by decide)
    rw [e1, e2] at this
    omega

theorem faintChain_length (T : Int) (n : Nat) : (faintChain T n).chain.length = n := by
  simp [faintChain]

theorem faintChain_getElem? (T : Int) (n i : Nat) (h : i < n) :
    (faintChain T n).chain[i]? = some (faintBlock T i) := by
  simp [faintChain, List.getElem?_map, List.getElem?_range h]

theorem faintChain_block (T : Int) (n : Nat) (b : Block) (hb : b ∈ (faintChain T n).chain) :
    ∃ i, b = faintBlock T i := by
  simp only [faintChain, List.mem_map] at hb
  obtain ⟨i, _, rfl⟩ := hb
  exact ⟨i, rfl⟩

theorem faintChain_paced (T : Int) (n : Nat) : Paced T (faintChain T n).chain := by
  intro i b hb
  have hi : i < n := by
    have := (List.getElem?_eq_some_iff.mp hb).1
    simpa [faintChain] using this
  rw [faintChain_getElem? T n i hi] at hb
  cases hb
  exact ⟨rfl, rfl⟩

theorem faintChain_positive (T : Int) (n : Nat) : PositiveDifficulties (faintChain T n).chain := by
  intro b hb
  obtain ⟨i, rfl⟩ := faintChain_block T n b hb
  norm_num [faintBlock]

theorem bch_getDiff_faint (T : Int) (hT : 0 < T) (n : Nat) (hn : 147 ≤ n) :
    bchDefault.getDiff false (faintChain T n) = .error .fatal := by
  have hl := faintChain_length T n
  have hw : sumBlocks (window (faintChain T n).chain ((faintChain T n).chain.length - 146)
      ((faintChain T n).chain.length - 1)) = 145 / 1000 := by
    rw [sumBlocks_eq, sum_eq_of_all_eq _ (1 / 1000), List.length_map,
      window_length _ _ _ (by omega), hl,
      show n - 1 - (n - 146) = 145 by omega]
    · norm_num
    · intro x hx
      obtain ⟨b, hb, rfl⟩ := List.mem_map.mp hx
      obtain ⟨i, rfl⟩ := faintChain_block T n b (window_subset _ _ _ b hb)
      rfl
  have hq : (0 : ℚ) < (T : ℚ) := by exact_mod_cast hT
  rw [bch_getDiff_eq]
  show bchDefault.onView T (faintChain T n).chain = _
  rw [bch_onView_paced hT (faintChain_paced T n) (by omega), hw, if_pos]
  have e : (145 / 1000 : ℚ) * (T : ℚ) / ((144 * T : Int) : ℚ) = 145 / 144000 := by
    push_cast
    field_simp
    ring
  rw [e]
  norm_num

/-- C16, as stated, fails: on the 3000 blocks of `faintChain 600 3000`
(`view[i].height == i`, every difficulty 1/1000, timestamps 600 apart) the BCH
`getDiff` with the default parameters computes `0.145 * 600 / (144 * 600)`,
which is below 0.1, and ends in the fatal error instead of returning a
difficulty. -/
theorem bch_getDiff_not_returned :
    (faintChain 600 3000).view false = .ok (faintChain 600 3000).chain ∧
    STARTING_BLOCKS ≤ ((faintChain 600 3000).chain.length : Int) ∧
    HeightsMatch (faintChain 600 3000).chain ∧
    PositiveDifficulties (faintChain 600 3000).chain ∧
    bchDefault.getDiff false (faintChain 600 3000) = .error .fatal := by
  refine ⟨rfl, ?_, (faintChain_paced 600 3000).indexHeights, faintChain_positive 600 3000,
    bch_getDiff_faint 600 (by decide) 3000 (by decide)⟩
  rw [faintChain_length]
  decide

/-- C16, amended: for every block time `T > 0` and every view of at least
`STARTING_BLOCKS` blocks with `view[i].height == i` and only positive
difficulties (timestamps arbitrary), read from a chain state whose tip index is
the index of the last block of the view, with the default parameters the BTC,
Dash and Zcash `getDiff` return a difficulty strictly greater than 0; the BCH
`getDiff` either ends in the fatal error or returns a difficulty of at least
0.1; the Monero `getDiff` returns `work * T / span` with `work > 0` and
`span >= 0`, which is strictly greater than 0 when the trimmed time span is
not 0. -/
theorem default_getDiff_positive (isPrivate : Bool) (bc : Blockchain) (view : List Block)
    (hsrc : dashSource isPrivate bc = .ok (view, (view.length : Int) - 1))
    (hT : 0 < bc.expectedBlockTime) (hL : STARTING_BLOCKS ≤ (view.length : Int))
    (hh : HeightsMatch view) (hpos : PositiveDifficulties view) :
    bc.view isPrivate = .ok view ∧
    (∃ d, btcDefault.getDiff isPrivate bc = .ok d ∧ 0 < d) ∧
    (∃ d, dashDefault.getDiff isPrivate bc = .ok d ∧ 0 < d) ∧
    (∃ d, zecDefault.getDiff isPrivate bc = .ok d ∧ 0 < d) ∧
    (bchDefault.getDiff isPrivate bc = .error .fatal ∨
      ∃ d, bchDefault.getDiff isPrivate bc = .ok d ∧ 1 / 10 ≤ d) ∧
    ∃ (work : ℚ) (span : Int), xmrDefault.measure view = .ok (work, span) ∧
      0 < work ∧ 0 ≤ span ∧
      xmrDefault.getDiff isPrivate bc
        = .ok (work * (bc.expectedBlockTime : ℚ) / (span : ℚ)) ∧
      (span ≠ 0 → 0 < work * (bc.expectedBlockTime : ℚ) / (span : ℚ)) := by
  have hview := dashSource_view hsrc
  have hL3 : 3000 ≤ view.length := by
    simp only [STARTING_BLOCKS] at hL
    omega
  refine ⟨hview, btc_getDiff_pos isPrivate bc view hview hT hL3 hpos,
    dash_getDiff_pos isPrivate bc view hsrc hT hL3 hpos,
    zec_getDiff_pos isPrivate bc view hview hT hL3 hh hpos, ?_, ?_⟩
  · rw [bch_getDiff_eq, hview]
    exact bch_onView_outcome bc.expectedBlockTime view hh (by omega)
  · obtain ⟨work, span, hm, hw, hsp⟩ := xmr_measure_returns view hL3 hpos
    refine ⟨work, span, hm, hw, hsp, ?_, ?_⟩
    · rw [xmr_getDiff_eq, hview]
      simp only [bind, Except.bind, hm]
      rfl
    · intro hne
      have hq : (0 : ℚ) < (bc.expectedBlockTime : ℚ) := by exact_mod_cast hT
      have hs : (0 : ℚ) < (span : ℚ) := by
        exact_mod_cast lt_of_le_of_ne hsp (Ne.symm hne)
      positivity

theorem default_getDiff_positive_witness :
    dashSource false (steadyChain 600 3000)
      = .ok ((steadyChain 600 3000).chain, ((steadyChain 600 3000).chain.length : Int) - 1) ∧
    0 < (steadyChain 600 3000).expectedBlockTime ∧
    STARTING_BLOCKS ≤ ((steadyChain 600 3000).chain.length : Int) ∧
    HeightsMatch (steadyChain 600 3000).chain ∧
    PositiveDifficulties (steadyChain 600 3000).chain ∧
    (∃ d, btcDefault.getDiff false (steadyChain 600 3000) = .ok d ∧ 0 < d) ∧
    (∃ d, dashDefault.getDiff false (steadyChain 600 3000) = .ok d ∧ 0 < d) ∧
    (∃ d, zecDefault.getDiff false (steadyChain 600 3000) = .ok d ∧ 0 < d) ∧
    (bchDefault.getDiff false (steadyChain 600 3000) = .error .fatal ∨
      ∃ d, bchDefault.getDiff false (steadyChain 600 3000) = .ok d ∧ 1 / 10 ≤ d) := by
  have hsrc : dashSource false (steadyChain 600 3000)
      = .ok ((steadyChain 600 3000).chain,
        ((steadyChain 600 3000).chain.length : Int) - 1) := by
    rw [steadyChain_length]
    rfl
  have hT : 0 < (steadyChain 600 3000).expectedBlockTime := by decide
  have hL : STARTING_BLOCKS ≤ ((steadyChain 600 3000).chain.length : Int) := by
    rw [steadyChain_length]
    decide
  have hs := steadyChain_steady 600 3000
  obtain ⟨_, h1, h2, h3, h4, _⟩ :=
    default_getDiff_positive false (steadyChain 600 3000) (steadyChain 600 3000).chain
      hsrc hT hL hs.heightsMatch hs.positive
  exact ⟨hsrc, hT, hL, hs.heightsMatch, hs.positive, h1, h2, h3, h4⟩

theorem bch_getDiff_shift_invariant_witness :
    bchDefault.getDiff false (steadyChain 600 3000) = .ok (145 / 144) ∧
    bchDefault.getDiff false ((steadyChain 600 3000).shiftTimestamps 1000)
      = .ok (145 / 144) := by
  have h := bch_getDiff_steady false (steadyChain 600 3000) (steadyChain 600 3000).chain rfl
    (by decide) (by rw [steadyChain_length]) (steadyChain_steady 600 3000)
  exact ⟨h, by rw [(bch_getDiff_shift_invariant bchDefault false (steadyChain 600 3000) 1000).2]
               exact h⟩

theorem adjustDifficulty_effect {bc bc1 : Blockchain} {isPrivate : Bool}
    (h : bc.adjustDifficulty isPrivate = .ok bc1) :
    ∃ algo d, bc.diffAlgo = some algo ∧ algo.getDiff isPrivate bc = .ok d ∧
      bc1 = (if isPrivate then { bc with nextPrivateDifficulty := d }
        else { bc with nextDifficulty := d }) := by
  unfold Blockchain.adjustDifficulty at h
  split at h
  · cases h
  · rename_i algo halgo
    rw [bind_eq_ok] at h
    obtain ⟨d, hd, h⟩ := h
    refine ⟨algo, d, halgo, hd, ?_⟩
    split at h
    · rename_i hp
      cases h
      rw [if_pos hp]
    · rename_i hp
      cases h
      rw [if_neg hp]

theorem newBlock_effect {bc bc1 : Blockchain} {t : Int} {b : Block}
    (h : bc.newBlock t = .ok (b, bc1)) :
    b = ⟨bc.height + 1, bc.nextDifficulty, t, true⟩ ∧
    bc1.chain = bc.chain ++ [b] ∧ bc1.privateBranch = bc.privateBranch ∧
    bc1.height = bc.height + 1 ∧ bc1.forkHeight = bc.forkHeight ∧
    bc1.nextPrivateDifficulty = bc.nextPrivateDifficulty ∧
    bc1.diffAlgo = bc.diffAlgo ∧ bc1.expectedBlockTime = bc.expectedBlockTime ∧
    ∃ algo, bc.diffAlgo = some algo ∧
      DaaValue algo bc.expectedBlockTime (bc.chain ++ [b]) (bc.height + 1)
        bc1.nextDifficulty := by
  unfold Blockchain.newBlock at h
  simp only [] at h
  rw [bind_eq_ok] at h
  obtain ⟨bc2, h2, h⟩ := h
  cases h
  obtain ⟨algo, d, halgo, hd, e⟩ := adjustDifficulty_effect h2
  simp only [Bool.false_eq_true, ↓reduceIte] at e
  subst e
  exact ⟨rfl, rfl, rfl, rfl, rfl, rfl, rfl, rfl, algo, halgo, false,
    bc.pushToChain ⟨bc.height + 1, bc.nextDifficulty, t, true⟩, rfl, rfl, hd⟩

theorem newPrivateBlock_effect {bc bc1 : Blockchain} {t : Int} {b : Block}
    (h0 : -1 ≤ bc.forkHeight) (h1 : bc.forkHeight < (bc.chain.length : Int))
    (h : bc.newPrivateBlock t = .ok (b, bc1)) :
    b.difficulty = bc.nextPrivateDifficulty ∧ b.timestamp = t ∧ b.isHonest = false ∧
    bc1.chain = bc.chain ∧ bc1.privateBranch = bc.privateBranch ++ [b] ∧
    bc1.height = bc.height ∧ bc1.forkHeight = bc.forkHeight ∧
    bc1.nextDifficulty = bc.nextDifficulty ∧
    bc1.diffAlgo = bc.diffAlgo ∧ bc1.expectedBlockTime = bc.expectedBlockTime ∧
    ∃ algo, bc.diffAlgo = some algo ∧
      DaaValue algo bc.expectedBlockTime
        (bc.chain.take (bc.forkHeight + 1).toNat ++ (bc.privateBranch ++ [b])) b.height
        bc1.nextPrivateDifficulty := by
  have key : ∀ (newHeight : Int),
      (do
        let blockchain1 ← bc.pushToPrivateChain
          ⟨newHeight, bc.nextPrivateDifficulty, t, false⟩
        let blockchain2 ← blockchain1.adjustDifficulty true
        pure ((⟨newHeight, bc.nextPrivateDifficulty, t, false⟩ : Block), blockchain2))
        = Except.ok (b, bc1) →
      b.difficulty = bc.nextPrivateDifficulty ∧ b.timestamp = t ∧ b.isHonest = false ∧
      bc1.chain = bc.chain ∧ bc1.privateBranch = bc.privateBranch ++ [b] ∧
      bc1.height = bc.height ∧ bc1.forkHeight = bc.forkHeight ∧
      bc1.nextDifficulty = bc.nextDifficulty ∧
      bc1.diffAlgo = bc.diffAlgo ∧ bc1.expectedBlockTime = bc.expectedBlockTime ∧
      ∃ algo, bc.diffAlgo = some algo ∧
        DaaValue algo bc.expectedBlockTime
          (bc.chain.take (bc.forkHeight + 1).toNat ++ (bc.privateBranch ++ [b])) b.height
          bc1.nextPrivateDifficulty := by
    intro newHeight hk
    rw [bind_eq_ok] at hk
    obtain ⟨bc2, h2, hk⟩ := hk
    rw [bind_eq_ok] at hk
    obtain ⟨bc3, h3, hk⟩ := hk
    cases hk
    obtain ⟨e5, _⟩ := pushToPrivateChain_ok h2
    subst e5
    obtain ⟨algo, d, halgo, hd, e⟩ := adjustDifficulty_effect h3
    simp only [↓reduceIte] at e
    subst e
    refine ⟨rfl, rfl, rfl, rfl, rfl, rfl, rfl, rfl, rfl, rfl, algo, halgo, true,
      { bc with
        privateBranch := bc.privateBranch ++ [⟨newHeight, bc.nextPrivateDifficulty, t, false⟩]
        time := t }, rfl, ?_, hd⟩
    unfold dashSource
    rw [if_pos rfl]
    have hi := index_last (bc.privateBranch ++ [⟨newHeight, bc.nextPrivateDifficulty, t, false⟩])
      ⟨newHeight, bc.nextPrivateDifficulty, t, false⟩ (by simp)
    have hv := getPrivateView_eq
      { bc with
        privateBranch := bc.privateBranch ++ [⟨newHeight, bc.nextPrivateDifficulty, t, false⟩]
        time := t } h0 h1
    simp only [] at hv
    simp only [hi, hv, bind, Except.bind, pure, Except.pure]
  unfold Blockchain.newPrivateBlock at h
  simp only [] at h
  split at h
  · rw [bind_eq_ok] at h
    obtain ⟨tip, _, h⟩ := h
    simp only [pure_bind] at h
    exact key _ h
  · simp only [pure_bind] at h
    exact key _ h

theorem setState_effect {sim sim1 : Simulation} {s : Int} (h : sim.setState s = .ok sim1) :
    ∃ m p, sim.blockchain.getPostForkWork = .ok (m, p) ∧
      sim1 = { sim with
        effectiveState := p - m
        effectiveStateHistory := sim.effectiveStateHistory ++ [p - m]
        ifLose := p - m - sim.blockchain.nextDifficulty
        prevState := sim.state
        state := statedState sim.state sim.blockchain.privateBranch.length (p - m)
          (p - m - sim.blockchain.nextDifficulty) s
        stateHistory := sim.stateHistory ++
          [statedState sim.state sim.blockchain.privateBranch.length (p - m)
            (p - m - sim.blockchain.nextDifficulty) s] } := by
  cases hw : sim.blockchain.getPostForkWork with
  | error e =>
    unfold Simulation.setState at h
    rw [hw] at h
    cases h
  | ok mp =>
    obtain ⟨m, p⟩ := mp
    rw [setState_eq sim s m p hw] at h
    cases h
    exact ⟨m, p, rfl, rfl⟩

theorem getPostForkWork_sums {bc : Blockchain} (store : ChainInv bc)
    (hf : bc.forkHeight ≠ 0) :
    bc.getPostForkWork = .ok (bc.mainWork, bc.privWork) :=
  getPostForkWork_past_fork bc (by have := store.fork_nonneg; omega)
    (by have := store.fork_le; omega) hf

theorem statedState_nil (prev : Int) (e1 e2 i1 i2 : ℚ) (s : Int) :
    statedState prev 0 e1 i1 s = statedState prev 0 e2 i2 s := by
  simp [statedState]

theorem setState_state {sim sim1 : Simulation} {s : Int} (store : ChainInv sim.blockchain)
    (hf : sim.blockchain.privateBranch ≠ [] → sim.blockchain.forkHeight ≠ 0)
    (h : sim.setState s = .ok sim1) :
    sim1.blockchain = sim.blockchain ∧ sim1.realTime = sim.realTime ∧
    sim1.params = sim.params ∧
    sim1.state = statedState sim.state sim.blockchain.privateBranch.length
      (sim.blockchain.privWork - sim.blockchain.mainWork)
      (sim.blockchain.privWork - sim.blockchain.mainWork - sim.blockchain.nextDifficulty) s ∧
    (sim.blockchain.privateBranch ≠ [] →
      sim1.ifLose = sim.blockchain.privWork - sim.blockchain.mainWork
        - sim.blockchain.nextDifficulty) := by
  obtain ⟨m, p, hw, e⟩ := setState_effect h
  subst e
  refine ⟨rfl, rfl, rfl, ?_, ?_⟩
  · by_cases hp : sim.blockchain.privateBranch = []
    · simp only [hp, List.length_nil]
      exact statedState_nil _ _ _ _ _ _
    · rw [getPostForkWork_sums store (hf hp)] at hw
      cases hw
      rfl
  · intro hp
    rw [getPostForkWork_sums store (hf hp)] at hw
    cases hw
    rfl

theorem take_all_of_height {bc : Blockchain} (store : ChainInv bc) :
    bc.chain.take (bc.height + 1).toNat = bc.chain := by
  apply List.take_of_length_le
  have := store.height_eq
  omega

theorem drop_all_of_height {bc : Blockchain} (store : ChainInv bc) :
    bc.chain.drop (bc.height + 1).toNat = [] := by
  apply List.drop_eq_nil_of_le
  have := store.height_eq
  omega

theorem stepZero_honest {sim sim1 : Simulation} {res res1 : SimulationResult} {d : Draw}
    (hc : ¬ d.coin ≤ sim.alpha) (h : sim.stepZero res d = .ok (sim1, res1)) :
    res1 = res ∧ sim1.params = sim.params ∧ sim1.realTime = sim.realTime + d.delay ∧
    sim1.state = sim.state ∧
    sim1.blockchain.chain = sim.blockchain.chain ++
      [⟨sim.blockchain.height + 1, sim.blockchain.nextDifficulty, sim.realTime + d.delay,
        true⟩] ∧
    sim1.blockchain.privateBranch = sim.blockchain.privateBranch ∧
    sim1.blockchain.height = sim.blockchain.height + 1 ∧
    sim1.blockchain.forkHeight = sim.blockchain.forkHeight ∧
    sim1.blockchain.nextPrivateDifficulty = sim.blockchain.nextDifficulty ∧
    ∃ algo, sim.blockchain.diffAlgo = some algo ∧
      DaaValue algo sim.blockchain.expectedBlockTime sim1.blockchain.chain
        (sim.blockchain.height + 1) sim1.blockchain.nextDifficulty := by
  unfold Simulation.stepZero at h
  simp only [Simulation.setRealTime] at h
  rw [if_neg hc] at h
  simp only [bind_eq_ok] at h
  obtain ⟨⟨b, bc3⟩, h3, h⟩ := h
  cases h
  obtain ⟨eb, e1, e2, e3, e4, e5, e6, e7, algo, halgo, hd⟩ := newBlock_effect h3
  subst eb
  refine ⟨rfl, ?_, rfl, rfl, e1, e2, e3, e4, e5, algo, halgo, ?_⟩
  · simp only [Simulation.params, e6, e7]
  · rw [e1]
    exact hd

theorem block_eq {b : Block} {h : Int} {df : ℚ} {t : Int} {honest : Bool}
    (e1 : b.height = h) (e2 : b.difficulty = df) (e3 : b.timestamp = t)
    (e4 : b.isHonest = honest) : b = ⟨h, df, t, honest⟩ := by
  cases b
  simp only at e1 e2 e3 e4
  subst e1 e2 e3 e4
  rfl

theorem stepZero_selfish {sim sim1 : Simulation} {res res1 : SimulationResult} {d : Draw}
    (store : ChainInv sim.blockchain) (hp : sim.blockchain.privateBranch = [])
    (hh : sim.blockchain.height ≠ 0) (hs : sim.state = 0)
    (hc : d.coin ≤ sim.alpha) (h : sim.stepZero res d = .ok (sim1, res1)) :
    res1 = res ∧ sim1.params = sim.params ∧ sim1.realTime = sim.realTime + d.delay ∧
    sim1.state = 1 ∧
    sim1.blockchain.chain = sim.blockchain.chain ∧
    sim1.blockchain.privateBranch =
      [⟨sim.blockchain.height + 1, sim.blockchain.nextDifficulty,
        sim.realTime + d.delay + sim.timewarpOffset, false⟩] ∧
    sim1.blockchain.height = sim.blockchain.height ∧
    sim1.blockchain.forkHeight = sim.blockchain.height ∧
    sim1.blockchain.nextDifficulty = sim.blockchain.nextDifficulty ∧
    ∃ algo, sim.blockchain.diffAlgo = some algo ∧
      DaaValue algo sim.blockchain.expectedBlockTime
        (sim.blockchain.chain ++ sim1.blockchain.privateBranch) (sim.blockchain.height + 1)
        sim1.blockchain.nextPrivateDifficulty := by
  unfold Simulation.stepZero at h
  simp only [Simulation.setRealTime] at h
  rw [if_pos hc] at h
  simp only [bind_eq_ok] at h
  obtain ⟨sim3, h3, h⟩ := h
  cases h
  unfold Simulation.zeroToOne at h3
  simp only [bind_eq_ok] at h3
  obtain ⟨sim2, h2, h3⟩ := h3
  obtain ⟨b, hb⟩ := sim_newPrivateBlock_ok h2
  have e2 : sim2 = { ({ sim with
      blockchain := { sim.blockchain with
        nextPrivateDifficulty := sim.blockchain.nextDifficulty }
      realTime := sim.realTime + d.delay } : Simulation) with
      blockchain := sim2.blockchain } := by
    unfold Simulation.newPrivateBlock at h2
    rw [bind_eq_ok] at h2
    obtain ⟨⟨b', bc'⟩, _, h2⟩ := h2
    cases h2
    rfl
  simp only [] at hb
  have st1 : ChainInv ({ sim.blockchain with
      nextPrivateDifficulty := sim.blockchain.nextDifficulty } : Blockchain) :=
    ChainInv.transport store rfl rfl rfl rfl
  obtain ⟨stf, hf, hpf⟩ := ChainInv.forkAtTip st1 hp
  obtain ⟨st2, hne2⟩ := ChainInv.newPrivateBlock stf (fun _ => hf) hb
  obtain ⟨_, _, _, _, _, hnil, _⟩ := newPrivateBlock_ok hb
  have a0 := store.fork_nonneg
  have a1 := store.height_eq
  obtain ⟨f1, f2, f3, f4, f5, f6, f7, f8, f9, f10, algo, halgo, hd⟩ :=
    newPrivateBlock_effect
      (by rw [hf]; simp only [Blockchain.setForkHeight]; omega)
      (by rw [hf]; simp only [Blockchain.setForkHeight]; omega) hb
  have hbh := hnil hpf
  simp only [Blockchain.setForkHeight] at f1 f4 f5 f6 f7 f8 f9 f10 halgo hd hbh
  rw [hbh] at hd
  simp only [hp, List.nil_append] at f5 hd
  have hbeq : b = ⟨sim.blockchain.height + 1, sim.blockchain.nextDifficulty,
      sim.realTime + d.delay + sim.timewarpOffset, false⟩ := block_eq hbh f1 f2 f3
  have hfne : sim2.blockchain.privateBranch ≠ [] → sim2.blockchain.forkHeight ≠ 0 := by
    intro _
    rw [f7]
    simpa using hh
  obtain ⟨g1, g2, g3, g4, _⟩ := setState_state st2 hfne h3
  have hmw : sim2.blockchain.mainWork = 0 := by
    unfold Blockchain.mainWork
    rw [f4, f7]
    simp only [(by norm_num : (-1 : Int) ≠ 0), (by norm_num : ¬ ((-1 : Int) > 0)), ↓reduceIte]
    rw [drop_all_of_height store]
    rfl
  have hpw : sim2.blockchain.privWork = sim.blockchain.nextDifficulty := by
    unfold Blockchain.privWork
    rw [f5, hbeq]
    simp
  have hst : sim1.state = 1 := by
    rw [g4, hmw, hpw, f5, f8, e2]
    simp only [hs, List.length_singleton]
    simp [statedState]
  have htk : sim.blockchain.chain.take (sim.blockchain.height + 1).toNat = sim.blockchain.chain :=
    take_all_of_height store
  simp only [(by norm_num : (-1 : Int) ≠ 0), (by norm_num : ¬ ((-1 : Int) > 0)), ↓reduceIte,
    htk] at hd f7
  refine ⟨rfl, ?_, ?_, hst, ?_, ?_, ?_, ?_, ?_, algo, halgo, ?_⟩
  · rw [g3, e2]
    simp only [Simulation.params, f9, f10]
  · rw [g2, e2]
  · rw [g1, f4]
  · rw [g1, f5, hbeq]
  · rw [g1, f6]
  · rw [g1, f7]
  · rw [g1, f8]
  · rw [g1, f5]
    exact hd

theorem sim_newPrivateBlock_frame {sim sim1 : Simulation} (h : sim.newPrivateBlock = .ok sim1) :
    sim1 = { sim with blockchain := sim1.blockchain } := by
  unfold Simulation.newPrivateBlock at h
  rw [bind_eq_ok] at h
  obtain ⟨⟨b, bc⟩, _, h⟩ := h
  cases h
  rfl

theorem oneToTwo_effect {sim sim1 : Simulation} {delay : Int}
    (store : ChainInv sim.blockchain) (hp : sim.blockchain.privateBranch ≠ [])
    (hf : sim.blockchain.forkHeight ≠ 0) (h : sim.oneToTwo delay = .ok sim1) :
    ∃ b : Block, b.difficulty = sim.blockchain.nextPrivateDifficulty ∧
      b.timestamp = sim.realTime + delay + sim.timewarpOffset ∧ b.isHonest = false ∧
      sim1.params = sim.params ∧ sim1.realTime = sim.realTime + delay ∧
      sim1.blockchain.chain = sim.blockchain.chain ∧
      sim1.blockchain.privateBranch = sim.blockchain.privateBranch ++ [b] ∧
      sim1.blockchain.height = sim.blockchain.height ∧
      sim1.blockchain.forkHeight = sim.blockchain.forkHeight ∧
      sim1.blockchain.nextDifficulty = sim.blockchain.nextDifficulty ∧
      (∃ algo, sim.blockchain.diffAlgo = some algo ∧
        DaaValue algo sim.blockchain.expectedBlockTime
          (sim.blockchain.chain.take (sim.blockchain.forkHeight + 1).toNat
            ++ (sim.blockchain.privateBranch ++ [b])) b.height
          sim1.blockchain.nextPrivateDifficulty) ∧
      sim1.state = statedState sim.state (sim.blockchain.privateBranch.length + 1)
        (sim.blockchain.privWork + sim.blockchain.nextPrivateDifficulty
          - sim.blockchain.mainWork)
        (sim.blockchain.privWork + sim.blockchain.nextPrivateDifficulty
          - sim.blockchain.mainWork - sim.blockchain.nextDifficulty) (sim.state + 1) := by
  unfold Simulation.oneToTwo at h
  simp only [bind_eq_ok] at h
  obtain ⟨sim2, h2, h3⟩ := h
  obtain ⟨b, hb⟩ := sim_newPrivateBlock_ok h2
  have e2 := sim_newPrivateBlock_frame h2
  simp only [Simulation.setRealTime] at hb e2
  have a0 := store.fork_nonneg
  have a1 := store.fork_le
  obtain ⟨st2, hne2⟩ := ChainInv.newPrivateBlock store (fun e => absurd e hp) hb
  obtain ⟨f1, f2, f3, f4, f5, f6, f7, f8, f9, f10, algo, halgo, hd⟩ :=
    newPrivateBlock_effect (by omega) (by omega) hb
  have hfne : sim2.blockchain.privateBranch ≠ [] → sim2.blockchain.forkHeight ≠ 0 := by
    intro _
    rw [f7]
    exact hf
  obtain ⟨g1, g2, g3, g4, _⟩ := setState_state st2 hfne h3
  have hmw : sim2.blockchain.mainWork = sim.blockchain.mainWork := by
    unfold Blockchain.mainWork
    rw [f4, f7]
  have hpw : sim2.blockchain.privWork
      = sim.blockchain.privWork + sim.blockchain.nextPrivateDifficulty := by
    unfold Blockchain.privWork
    rw [f5, List.map_append, List.sum_append, ← f1]
    simp
  have hs2 : sim2.state = sim.state := by rw [e2]
  refine ⟨b, f1, f2, f3, ?_, ?_, ?_, ?_, ?_, ?_, ?_, ⟨algo, halgo, ?_⟩, ?_⟩
  · rw [g3, e2]
    simp only [Simulation.params, f9, f10]
  · rw [g2, e2]
  · rw [g1, f4]
  · rw [g1, f5]
  · rw [g1, f6]
  · rw [g1, f7]
  · rw [g1, f8]
  · rw [g1]
    exact hd
  · rw [g4, hmw, hpw, f5, f8, hs2]
    simp only [List.length_append, List.length_singleton]

theorem mainWork_push {bc bc1 : Blockchain} (b : Block) (store : ChainInv bc)
    (e1 : bc1.chain = bc.chain ++ [b]) (e4 : bc1.forkHeight = bc.forkHeight) :
    bc1.mainWork = bc.mainWork + b.difficulty := by
  unfold Blockchain.mainWork
  have a0 := store.fork_nonneg
  have a1 := store.fork_le
  rw [e1, e4, List.drop_append_of_le_length (by omega), List.map_append, List.sum_append]
  simp

theorem stepOne_honest {sim sim1 : Simulation} {res res1 : SimulationResult} {d : Draw}
    (hd : ¬ d.delaySelfish < d.delayHonest) (h : sim.stepOne res d = .ok (sim1, res1)) :
    res1 = res ∧ sim1.params = sim.params ∧ sim1.realTime = sim.realTime + d.delayHonest ∧
    sim1.blockchain.chain = sim.blockchain.chain ++
      [⟨sim.blockchain.height + 1, sim.blockchain.nextDifficulty,
        sim.realTime + d.delayHonest, true⟩] ∧
    sim1.blockchain.privateBranch = sim.blockchain.privateBranch ∧
    sim1.blockchain.height = sim.blockchain.height + 1 ∧
    sim1.blockchain.forkHeight = sim.blockchain.forkHeight ∧
    sim1.blockchain.nextPrivateDifficulty = sim.blockchain.nextPrivateDifficulty ∧
    (∃ algo, sim.blockchain.diffAlgo = some algo ∧
      DaaValue algo sim.blockchain.expectedBlockTime sim1.blockchain.chain
        (sim.blockchain.height + 1) sim1.blockchain.nextDifficulty) ∧
    sim1.state = -1 := by
  unfold Simulation.stepOne at h
  rw [if_neg hd] at h
  simp only [bind_eq_ok, Simulation.setRealTime] at h
  obtain ⟨⟨b, bc2⟩, h2, sim3, h3, h⟩ := h
  simp only [] at h3
  cases h
  obtain ⟨eb, e1, e2, e3, e4, e5, e6, e7, algo, halgo, hdv⟩ := newBlock_effect h2
  subst eb
  obtain ⟨g1, hs, _, hrace⟩ := setState_ok h3
  obtain ⟨m, p, _, e⟩ := setState_effect h3
  simp only [] at g1
  refine ⟨rfl, ?_, ?_, ?_, ?_, ?_, ?_, ?_, ⟨algo, halgo, ?_⟩, hrace rfl⟩
  · rw [e]
    simp only [Simulation.params, e6, e7]
  · rw [e]
  · rw [g1, e1]
  · rw [g1, e2]
  · rw [g1, e3]
  · rw [g1, e4]
  · rw [g1, e5]
  · rw [g1, e1]
    exact hdv

theorem moreThanTwoHonestWins_effect {sim sim1 : Simulation} {delay : Int}
    (store : ChainInv sim.blockchain) (hp : sim.blockchain.privateBranch ≠ [])
    (hf : sim.blockchain.forkHeight ≠ 0) (hs : sim.state ≠ 1)
    (h : sim.moreThanTwoHonestWins delay = .ok sim1) :
    ∃ (algo : Difficulty) (nd2 : ℚ), sim.blockchain.diffAlgo = some algo ∧
      DaaValue algo sim.blockchain.expectedBlockTime
        (sim.blockchain.chain ++ [⟨sim.blockchain.height + 1, sim.blockchain.nextDifficulty,
          sim.realTime + delay, true⟩]) (sim.blockchain.height + 1) nd2 ∧
      sim1.params = sim.params ∧ sim1.realTime = sim.realTime + delay ∧
      sim1.blockchain.nextPrivateDifficulty = sim.blockchain.nextPrivateDifficulty ∧
      ((sim.blockchain.privWork - (sim.blockchain.mainWork + sim.blockchain.nextDifficulty)
            - nd2 < 0 ∧
          sim1.blockchain.chain = sim.blockchain.chain.take
            (sim.blockchain.forkHeight + 1).toNat ++ sim.blockchain.privateBranch ∧
          sim1.blockchain.privateBranch = [] ∧
          sim1.blockchain.height
            = sim.blockchain.forkHeight + sim.blockchain.privateBranch.length ∧
          sim1.blockchain.forkHeight = 0 ∧
          sim1.blockchain.nextDifficulty = sim.blockchain.nextPrivateDifficulty ∧
          sim1.state = 0) ∨
        (¬ (sim.blockchain.privWork - (sim.blockchain.mainWork + sim.blockchain.nextDifficulty)
            - nd2 < 0) ∧
          sim1.blockchain.chain = sim.blockchain.chain ++
            [⟨sim.blockchain.height + 1, sim.blockchain.nextDifficulty,
              sim.realTime + delay, true⟩] ∧
          sim1.blockchain.privateBranch = sim.blockchain.privateBranch ∧
          sim1.blockchain.height = sim.blockchain.height + 1 ∧
          sim1.blockchain.forkHeight = sim.blockchain.forkHeight ∧
          sim1.blockchain.nextDifficulty = nd2 ∧
          sim1.state =
            (if sim.blockchain.privWork
                - (sim.blockchain.mainWork + sim.blockchain.nextDifficulty) - nd2 = 0
              then 1 else 2))) := by
  unfold Simulation.moreThanTwoHonestWins at h
  simp only [bind_eq_ok, Simulation.setRealTime] at h
  obtain ⟨⟨b, bc2⟩, hb, sim3, h3, h⟩ := h
  simp only [] at h3 h
  obtain ⟨eb, e1, e2, e3, e4, e5, e6, e7, algo, halgo, hdv⟩ := newBlock_effect hb
  subst eb
  have st2 : ChainInv bc2 := ChainInv.newBlock store hb
  have hp2 : bc2.privateBranch ≠ [] := by rw [e2]; exact hp
  have hplen : 0 < sim.blockchain.privateBranch.length := List.length_pos.mpr hp
  have hf2 : bc2.privateBranch ≠ [] → bc2.forkHeight ≠ 0 := fun _ => by rw [e4]; exact hf
  obtain ⟨g1, g2, g3, g4, g5⟩ := setState_state
    (show ChainInv ({ ({ sim with realTime := sim.realTime + delay } : Simulation) with
      blockchain := bc2 } : Simulation).blockchain from st2) hf2 h3
  simp only [] at g1 g2 g4
  have g5' := g5 hp2
  have hmw : bc2.mainWork = sim.blockchain.mainWork + sim.blockchain.nextDifficulty :=
    mainWork_push _ store e1 e4
  have hpw : bc2.privWork = sim.blockchain.privWork := by
    unfold Blockchain.privWork
    rw [e2]
  rw [hmw, hpw] at g4 g5'
  rw [e2] at g4
  refine ⟨algo, bc2.nextDifficulty, halgo, hdv, ?_⟩
  split at h
  · rename_i hlt
    simp only [bind_eq_ok] at h
    obtain ⟨bc4, h4, h⟩ := h
    have st3 : ChainInv sim3.blockchain := by rw [g1]; exact st2
    have hfle : sim3.blockchain.forkHeight ≤ sim3.blockchain.height := by
      rw [st3.height_eq]; exact st3.fork_le
    rw [reorg_eq _ st3.height_eq st3.fork_nonneg hfle] at h4
    cases h4
    obtain ⟨k1, _, k3, _⟩ := setState_ok h
    obtain ⟨m, p, _, ke⟩ := setState_effect h
    have hstate := k3 rfl (by decide)
    simp only [] at k1
    have hil : sim.blockchain.privWork
        - (sim.blockchain.mainWork + sim.blockchain.nextDifficulty) - bc2.nextDifficulty < 0 := by
      rw [← g5']
      exact hlt.1
    have htake : (bc2.chain.take (bc2.forkHeight + 1).toNat)
        = sim.blockchain.chain.take (sim.blockchain.forkHeight + 1).toNat := by
      rw [e1, e4, List.take_append_of_le_length]
      have := store.fork_le
      have := store.fork_nonneg
      omega
    have h3e : sim3 = { ({ ({ sim with realTime := sim.realTime + delay } : Simulation) with
        blockchain := bc2 } : Simulation) with
        effectiveState := sim3.effectiveState
        effectiveStateHistory := sim3.effectiveStateHistory
        ifLose := sim3.ifLose
        prevState := sim3.prevState
        state := sim3.state
        stateHistory := sim3.stateHistory } := by
      obtain ⟨m3, p3, _, e3'⟩ := setState_effect h3
      rw [e3']
    refine ⟨?_, ?_, ?_, Or.inl ⟨hil, ?_, ?_, ?_, ?_, ?_, hstate⟩⟩
    · rw [ke, h3e]
      simp only [Simulation.params, g1, e6, e7]
    · rw [ke, h3e]
    · rw [k1]
      simp only [g1, e5]
    · rw [k1]
      simp only [g1, htake, e2]
    · rw [k1]
    · rw [k1]
      simp only [g1, e4, e2]
    · rw [k1]
    · rw [k1]
      simp only [g1, e5]
  · rename_i hnlt
    cases h
    have hil : ¬ (sim.blockchain.privWork
        - (sim.blockchain.mainWork + sim.blockchain.nextDifficulty) - bc2.nextDifficulty < 0) := by
      intro hc
      apply hnlt
      rw [g5', g1, e2]
      exact ⟨hc, hplen⟩
    refine ⟨?_, ?_, ?_, Or.inr ⟨hil, ?_, ?_, ?_, ?_, ?_, ?_⟩⟩
    · rw [g3]
      simp only [Simulation.params, e6, e7]
    · rw [g2]
    · rw [g1, e5]
    · rw [g1, e1]
    · rw [g1, e2]
    · rw [g1, e3]
    · rw [g1, e4]
    · rw [g1]
    · rw [g4]
      have hl0 : sim.blockchain.privateBranch.length ≠ 0 := by omega
      simp only [statedState, hs, false_and, ↓reduceIte, hl0, hil,
        (by decide : ¬ ((0 : Int) = -1))]

theorem setState_frame {sim sim1 : Simulation} {s : Int} (h : sim.setState s = .ok sim1) :
    sim1.blockchain = sim.blockchain ∧ sim1.realTime = sim.realTime ∧
    sim1.params = sim.params := by
  obtain ⟨m, p, _, e⟩ := setState_effect h
  subst e
  exact ⟨rfl, rfl, rfl⟩

theorem smWinsRace_effect {sim sim1 : Simulation} {delay : Int}
    (store : ChainInv sim.blockchain) (hp : sim.blockchain.privateBranch ≠ [])
    (h : sim.smWinsRace delay = .ok sim1) :
    ∃ b : Block, b.difficulty = sim.blockchain.nextPrivateDifficulty ∧
      b.timestamp = sim.realTime + delay + sim.timewarpOffset ∧ b.isHonest = false ∧
      sim1.params = sim.params ∧ sim1.realTime = sim.realTime + delay ∧
      sim1.blockchain.chain = sim.blockchain.chain.take (sim.blockchain.forkHeight + 1).toNat
        ++ (sim.blockchain.privateBranch ++ [b]) ∧
      sim1.blockchain.privateBranch = [] ∧
      sim1.blockchain.height
        = sim.blockchain.forkHeight + sim.blockchain.privateBranch.length + 1 ∧
      sim1.blockchain.forkHeight = 0 ∧
      (∃ algo, sim.blockchain.diffAlgo = some algo ∧
        DaaValue algo sim.blockchain.expectedBlockTime sim1.blockchain.chain b.height
          sim1.blockchain.nextDifficulty) ∧
      sim1.blockchain.nextPrivateDifficulty = sim1.blockchain.nextDifficulty ∧
      sim1.state = 0 := by
  unfold Simulation.smWinsRace at h
  simp only [bind_eq_ok] at h
  obtain ⟨sim2, h2, bc3, h3, h⟩ := h
  obtain ⟨b, hb⟩ := sim_newPrivateBlock_ok h2
  have e2 := sim_newPrivateBlock_frame h2
  simp only [Simulation.setRealTime] at hb e2
  have a0 := store.fork_nonneg
  have a1 := store.fork_le
  obtain ⟨st2, _⟩ := ChainInv.newPrivateBlock store (fun e => absurd e hp) hb
  obtain ⟨f1, f2, f3, f4, f5, f6, f7, f8, f9, f10, algo, halgo, hd⟩ :=
    newPrivateBlock_effect (by omega) (by omega) hb
  have hfle : sim2.blockchain.forkHeight ≤ sim2.blockchain.height := by
    rw [st2.height_eq]; exact st2.fork_le
  rw [reorg_eq _ st2.height_eq st2.fork_nonneg hfle] at h3
  cases h3
  obtain ⟨k1, _, k3, _⟩ := setState_ok h
  obtain ⟨_, k2, kp⟩ := setState_frame h
  have hstate := k3 rfl (by decide)
  simp only [] at k1 k2
  refine ⟨b, f1, f2, f3, ?_, ?_, ?_, ?_, ?_, ?_, ⟨algo, halgo, ?_⟩, ?_, hstate⟩
  · rw [kp, e2]
    simp only [Simulation.params, f9, f10]
  · rw [k2, e2]
  · rw [k1]
    simp only [f4, f5, f7]
  · rw [k1]
  · rw [k1]
    simp only [f5, f7, List.length_append, List.length_singleton]
    push_cast
    ring
  · rw [k1]
  · rw [k1]
    simp only [f4, f5, f7]
    exact hd
  · rw [k1]

theorem hmOnSm_effect {sim sim1 : Simulation} {delay : Int}
    (store : ChainInv sim.blockchain) (h : sim.hmOnSm delay = .ok sim1) :
    sim1.params = sim.params ∧ sim1.realTime = sim.realTime + delay ∧
    sim1.blockchain.chain = sim.blockchain.chain.take (sim.blockchain.forkHeight + 1).toNat
      ++ sim.blockchain.privateBranch
      ++ [⟨sim.blockchain.forkHeight + sim.blockchain.privateBranch.length + 1,
        sim.blockchain.nextPrivateDifficulty, sim.realTime + delay, true⟩] ∧
    sim1.blockchain.privateBranch = [] ∧
    sim1.blockchain.height
      = sim.blockchain.forkHeight + sim.blockchain.privateBranch.length + 1 ∧
    sim1.blockchain.forkHeight = 0 ∧
    (∃ algo, sim.blockchain.diffAlgo = some algo ∧
      DaaValue algo sim.blockchain.expectedBlockTime sim1.blockchain.chain
        (sim.blockchain.forkHeight + sim.blockchain.privateBranch.length + 1)
        sim1.blockchain.nextDifficulty) ∧
    sim1.blockchain.nextPrivateDifficulty = sim1.blockchain.nextDifficulty ∧
    sim1.state = 0 := by
  unfold Simulation.hmOnSm at h
  simp only [bind_eq_ok, Simulation.setRealTime] at h
  obtain ⟨bc2, h2, ⟨b, bc3⟩, h3, h⟩ := h
  simp only [] at h
  have hfle : sim.blockchain.forkHeight ≤ sim.blockchain.height := by
    rw [store.height_eq]; exact store.fork_le
  rw [reorg_eq _ store.height_eq store.fork_nonneg hfle] at h2
  cases h2
  obtain ⟨eb, e1, e2, e3, e4, e5, e6, e7, algo, halgo, hdv⟩ := newBlock_effect h3
  subst eb
  simp only [] at e1 e2 e3 e4 e5 e6 e7 halgo hdv
  obtain ⟨k1, _, k3, _⟩ := setState_ok h
  obtain ⟨_, k2, kp⟩ := setState_frame h
  have hstate := k3 (by simp only [Blockchain.setForkHeight]; exact e2) (by decide)
  simp only [] at k1 k2
  refine ⟨?_, ?_, ?_, ?_, ?_, ?_, ⟨algo, halgo, ?_⟩, ?_, hstate⟩
  · rw [kp]
    simp only [Simulation.params, Blockchain.setForkHeight, e6, e7]
  · rw [k2]
  · rw [k1]
    simp only [Blockchain.setForkHeight, e1]
  · rw [k1]
    simp only [Blockchain.setForkHeight, e2]
  · rw [k1]
    simp only [Blockchain.setForkHeight, e3]
  · rw [k1]
    simp only [Blockchain.setForkHeight, ↓reduceIte]
  · rw [k1]
    simp only [Blockchain.setForkHeight, e1]
    exact hdv
  · rw [k1]
    simp only [Blockchain.setForkHeight]

theorem hmWinsRace_effect {sim sim1 : Simulation} {delay : Int}
    (h : sim.hmWinsRace delay = .ok sim1) :
    sim1.params = sim.params ∧ sim1.realTime = sim.realTime + delay ∧
    sim1.blockchain.chain = sim.blockchain.chain ++
      [⟨sim.blockchain.height + 1, sim.blockchain.nextDifficulty, sim.realTime + delay,
        true⟩] ∧
    sim1.blockchain.privateBranch = [] ∧
    sim1.blockchain.height = sim.blockchain.height + 1 ∧
    sim1.blockchain.forkHeight = 0 ∧
    (∃ algo, sim.blockchain.diffAlgo = some algo ∧
      DaaValue algo sim.blockchain.expectedBlockTime sim1.blockchain.chain
        (sim.blockchain.height + 1) sim1.blockchain.nextDifficulty) ∧
    sim1.blockchain.nextPrivateDifficulty = sim1.blockchain.nextDifficulty ∧
    sim1.state = 0 := by
  unfold Simulation.hmWinsRace at h
  simp only [bind_eq_ok, Simulation.setRealTime] at h
  obtain ⟨⟨b, bc2⟩, h2, bc3, h3, h⟩ := h
  simp only [] at h3 h
  rw [popPrivateLoop_eq _ _ (le_refl _)] at h3
  cases h3
  obtain ⟨eb, e1, e2, e3, e4, e5, e6, e7, algo, halgo, hdv⟩ := newBlock_effect h2
  subst eb
  obtain ⟨k1, _, k3, _⟩ := setState_ok h
  obtain ⟨_, k2, kp⟩ := setState_frame h
  have hstate := k3 rfl (by decide)
  simp only [] at k1 k2
  refine ⟨?_, ?_, ?_, ?_, ?_, ?_, ⟨algo, halgo, ?_⟩, ?_, hstate⟩
  · rw [kp]
    simp only [Simulation.params, Blockchain.setForkHeight, e6, e7]
  · rw [k2]
  · rw [k1]
    simp only [Blockchain.setForkHeight, e1]
  · rw [k1]
    simp only [Blockchain.setForkHeight]
  · rw [k1]
    simp only [Blockchain.setForkHeight, e3]
  · rw [k1]
    simp only [Blockchain.setForkHeight, ↓reduceIte]
  · rw [k1]
    simp only [Blockchain.setForkHeight, e1]
    exact hdv
  · rw [k1]
    simp only [Blockchain.setForkHeight]

theorem loopBody_cases {sim sim1 : Simulation} {res res1 : SimulationResult} {d : Draw}
    (h : sim.loopBody res d = .ok (sim1, res1)) :
    (sim.state = 0 ∧ d.coin ≤ sim.alpha ∧ sim.stepZero res d = .ok (sim1, res1)) ∨
    (sim.state = 0 ∧ ¬ d.coin ≤ sim.alpha ∧ sim.stepZero res d = .ok (sim1, res1)) ∨
    (sim.state = 1 ∧ d.delaySelfish < d.delayHonest ∧ res1 = res ∧
      sim.oneToTwo d.delaySelfish = .ok sim1) ∨
    (sim.state = 1 ∧ ¬ d.delaySelfish < d.delayHonest ∧
      sim.stepOne res d = .ok (sim1, res1)) ∨
    (2 ≤ sim.state ∧ d.delaySelfish < d.delayHonest ∧ res1 = res ∧
      sim.oneToTwo d.delaySelfish = .ok sim1) ∨
    (2 ≤ sim.state ∧ ¬ d.delaySelfish < d.delayHonest ∧ res1 = res ∧
      sim.moreThanTwoHonestWins d.delayHonest = .ok sim1) ∨
    (sim.state = -1 ∧ d.delaySelfish < d.delayHonest ∧
      res1 = { res with NumReorgs := res.NumReorgs + 1, SmWinReorgs := res.SmWinReorgs + 1 } ∧
      sim.smWinsRace d.delaySelfish = .ok sim1) ∨
    (sim.state = -1 ∧ ¬ d.delaySelfish < d.delayHonest ∧ d.coin < sim.gamma ∧
      res1 = { res with NumReorgs := res.NumReorgs + 1 } ∧
      sim.hmOnSm d.delayHonest = .ok sim1) ∨
    (sim.state = -1 ∧ ¬ d.delaySelfish < d.delayHonest ∧ ¬ d.coin < sim.gamma ∧
      res1 = { res with NumReorgs := res.NumReorgs + 1 } ∧
      sim.hmWinsRace d.delayHonest = .ok sim1) ∨
    (sim.state < -1 ∧ sim1 = sim ∧ res1 = res) := by
  unfold Simulation.loopBody at h
  rw [bind_eq_ok] at h
  obtain ⟨_, _, h⟩ := h
  split at h
  · rename_i hs
    by_cases hc : d.coin ≤ sim.alpha
    · exact Or.inl ⟨hs, hc, h⟩
    · exact Or.inr (Or.inl ⟨hs, hc, h⟩)
  · rename_i hs0
    split at h
    · rename_i hs
      by_cases hd : d.delaySelfish < d.delayHonest
      · unfold Simulation.stepOne at h
        rw [if_pos hd] at h
        simp only [bind_eq_ok] at h
        obtain ⟨sim2, h2, h⟩ := h
        cases h
        exact Or.inr (Or.inr (Or.inl ⟨hs, hd, rfl, h2⟩))
      · exact Or.inr (Or.inr (Or.inr (Or.inl ⟨hs, hd, h⟩)))
    · rename_i hs1
      split at h
      · rename_i hs
        unfold Simulation.stepLead at h
        by_cases hd : d.delaySelfish < d.delayHonest
        · rw [if_pos hd] at h
          simp only [bind_eq_ok] at h
          obtain ⟨sim2, h2, h⟩ := h
          cases h
          exact Or.inr (Or.inr (Or.inr (Or.inr (Or.inl ⟨hs, hd, rfl, h2⟩))))
        · rw [if_neg hd] at h
          simp only [bind_eq_ok] at h
          obtain ⟨sim2, h2, h⟩ := h
          cases h
          exact Or.inr (Or.inr (Or.inr (Or.inr (Or.inr (Or.inl ⟨hs, hd, rfl, h2⟩)))))
      · rename_i hs2
        split at h
        · rename_i hs
          unfold Simulation.stepRace at h
          simp only [] at h
          by_cases hd : d.delaySelfish < d.delayHonest
          · rw [if_pos hd] at h
            simp only [bind_eq_ok] at h
            obtain ⟨sim2, h2, h⟩ := h
            cases h
            exact Or.inr (Or.inr (Or.inr (Or.inr (Or.inr (Or.inr (Or.inl ⟨hs, hd, rfl, h2⟩))))))
          · rw [if_neg hd] at h
            by_cases hg : d.coin < sim.gamma
            · rw [if_pos hg] at h
              simp only [bind_eq_ok] at h
              obtain ⟨sim2, h2, h⟩ := h
              cases h
              exact Or.inr (Or.inr (Or.inr (Or.inr (Or.inr (Or.inr (Or.inr
                (Or.inl ⟨hs, hd, hg, rfl, h2⟩)))))))
            · rw [if_neg hg] at h
              simp only [bind_eq_ok] at h
              obtain ⟨sim2, h2, h⟩ := h
              cases h
              exact Or.inr (Or.inr (Or.inr (Or.inr (Or.inr (Or.inr (Or.inr (Or.inr
                (Or.inl ⟨hs, hd, hg, rfl, h2⟩))))))))
        · rename_i hs3
          cases h
          exact Or.inr (Or.inr (Or.inr (Or.inr (Or.inr (Or.inr (Or.inr (Or.inr (Or.inr
            ⟨by omega, rfl, rfl⟩))))))))

theorem grounded_of_fields {bc1 : Blockchain} {chain priv : List Block} {fh : Int}
    (e1 : bc1.chain = chain) (e2 : bc1.privateBranch = priv) (e4 : bc1.forkHeight = fh)
    (a : 3000 ≤ chain.length) (b : priv ≠ [] → 2999 ≤ fh) : Grounded bc1 := by
  subst e1 e2 e4
  exact ⟨a, b⟩

theorem grounded_step {sim sim1 : Simulation} {res res1 : SimulationResult} {d : Draw}
    (inv : SimInv sim) (g : Grounded sim.blockchain)
    (h : sim.loopBody res d = .ok (sim1, res1)) :
    Grounded sim1.blockchain ∧ sim1.params = sim.params := by
  have hlen := g.long
  have hh := inv.store.height_eq
  have hfn := inv.store.fork_nonneg
  have hfl := inv.store.fork_le
  have hpne : sim.state ≠ 0 → sim.blockchain.privateBranch ≠ [] :=
    fun hs e => hs (inv.state_zero.mpr e)
  have hfne : sim.state ≠ 0 → sim.blockchain.forkHeight ≠ 0 := by
    intro hs
    have := g.fork_high (hpne hs)
    omega
  rcases loopBody_cases h with ⟨hs, hc, h⟩ | ⟨hs, hc, h⟩ | ⟨hs, hd, hr, h⟩ | ⟨hs, hd, h⟩ |
    ⟨hs, hd, hr, h⟩ | ⟨hs, hd, hr, h⟩ | ⟨hs, hd, hr, h⟩ | ⟨hs, hd, hg, hr, h⟩ |
    ⟨hs, hd, hg, hr, h⟩ | ⟨hs, e, hr⟩
  · obtain ⟨_, hp, _, _, e1, e2, _, e4, _, _⟩ :=
      stepZero_selfish inv.store (inv.state_zero.mp hs) (by omega) hs hc h
    exact ⟨grounded_of_fields e1 e2 e4 hlen (fun _ => by omega), hp⟩
  · obtain ⟨_, hp, _, _, e1, e2, _, e4, _, _⟩ := stepZero_honest hc h
    refine ⟨grounded_of_fields e1 e2 e4 (by simp; omega) ?_, hp⟩
    intro hne
    exact absurd (inv.state_zero.mp hs) hne
  · have hs0 : sim.state ≠ 0 := by omega
    obtain ⟨b, _, _, _, hp, _, e1, e2, _, e4, _, _, _⟩ :=
      oneToTwo_effect inv.store (hpne hs0) (hfne hs0) h
    exact ⟨grounded_of_fields e1 e2 e4 hlen (fun _ => g.fork_high (hpne hs0)), hp⟩
  · have hs0 : sim.state ≠ 0 := by omega
    obtain ⟨_, hp, _, e1, e2, _, e4, _, _, _⟩ := stepOne_honest hd h
    exact ⟨grounded_of_fields e1 e2 e4 (by simp; omega) (fun _ => g.fork_high (hpne hs0)), hp⟩
  · have hs0 : sim.state ≠ 0 := by omega
    obtain ⟨b, _, _, _, hp, _, e1, e2, _, e4, _, _, _⟩ :=
      oneToTwo_effect inv.store (hpne hs0) (hfne hs0) h
    exact ⟨grounded_of_fields e1 e2 e4 hlen (fun _ => g.fork_high (hpne hs0)), hp⟩
  · have hs0 : sim.state ≠ 0 := by omega
    have hfh := g.fork_high (hpne hs0)
    obtain ⟨algo, nd2, _, _, hp, _, _, hcase⟩ :=
      moreThanTwoHonestWins_effect inv.store (hpne hs0) (hfne hs0) (by omega) h
    rcases hcase with ⟨_, e1, e2, _, e4, _, _⟩ | ⟨_, e1, e2, _, e4, _, _⟩
    · refine ⟨grounded_of_fields e1 e2 e4 ?_ (fun hne => absurd rfl hne), hp⟩
      simp only [List.length_append, List.length_take]
      omega
    · exact ⟨grounded_of_fields e1 e2 e4 (by simp; omega) (fun _ => hfh), hp⟩
  · have hs0 : sim.state ≠ 0 := by omega
    have hfh := g.fork_high (hpne hs0)
    obtain ⟨b, _, _, _, hp, _, e1, e2, _, e4, _, _, _⟩ :=
      smWinsRace_effect inv.store (hpne hs0) h
    refine ⟨grounded_of_fields e1 e2 e4 ?_ (fun hne => absurd rfl hne), hp⟩
    simp only [List.length_append, List.length_take]
    omega
  · have hs0 : sim.state ≠ 0 := by omega
    have hfh := g.fork_high (hpne hs0)
    obtain ⟨hp, _, e1, e2, _, e4, _, _, _⟩ := hmOnSm_effect inv.store h
    refine ⟨grounded_of_fields e1 e2 e4 ?_ (fun hne => absurd rfl hne), hp⟩
    simp only [List.length_append, List.length_take]
    omega
  · obtain ⟨hp, _, e1, e2, _, e4, _, _, _⟩ := hmWinsRace_effect h
    exact ⟨grounded_of_fields e1 e2 e4 (by simp; omega) (fun hne => absurd rfl hne), hp⟩
  · subst e
    exact ⟨g, rfl⟩

theorem grounded_init (alpha gamma : ℚ) (blocks timewarp : Int) (isBCHStrategic : Bool)
    (diffAlgo : Option Difficulty) (expectedBlockTime id : Int) :
    Grounded (Simulation.zero.init alpha gamma blocks timewarp isBCHStrategic diffAlgo
      expectedBlockTime id).blockchain := by
  unfold Simulation.init
  simp only [Blockchain.setDiffAlgo, Init_eq, Simulation.zero, Blockchain.zero, List.nil_append]
  refine ⟨by simp, ?_⟩
  intro hne
  exact absurd rfl hne

theorem grounded_reachable {sim : Simulation} {res : SimulationResult}
    (h : Reachable sim res) : Grounded sim.blockchain := by
  induction h with
  | start alpha gamma blocks timewarp isBCHStrategic diffAlgo expectedBlockTime id =>
    exact grounded_init alpha gamma blocks timewarp isBCHStrategic diffAlgo expectedBlockTime id
  | step d hr _ hbody ih => exact (grounded_step (SimInv.of_reachable hr) ih hbody).1

theorem loopBody_params {sim sim1 : Simulation} {res res1 : SimulationResult} {d : Draw}
    (hr : Reachable sim res) (h : sim.loopBody res d = .ok (sim1, res1)) :
    sim1.params = sim.params :=
  (grounded_step (SimInv.of_reachable hr) (grounded_reachable hr) h).2

theorem reachable_honestRatio {sim : Simulation} {res : SimulationResult}
    (h : Reachable sim res) : sim.honestRatio = 1 - sim.alpha := by
  induction h with
  | start alpha gamma blocks timewarp isBCHStrategic diffAlgo expectedBlockTime id => rfl
  | @step sim sim1 res res1 d hr _ hbody ih =>
    have hp := loopBody_params hr hbody
    simp only [Simulation.params, Prod.mk.injEq] at hp
    rw [hp.1, hp.2.1]
    exact ih

/-- C27: in every reachable state with `alpha` in (0, 1), block time `T > 0` and
positive next difficulties, `getLambdas` returns
`lambdaHonest = (1 - alpha) / (nextDifficulty * T)` and
`lambdaSelfish = alpha / (nextPrivateDifficulty * T)`, as exact rational
identities (`honestRatio` is `1 - alpha` in every reachable state). -/
theorem getLambdas_spec {sim : Simulation} {res : SimulationResult} (hr : Reachable sim res)
    (_ha0 : 0 < sim.alpha) (_ha1 : sim.alpha < 1) (_hT : 0 < sim.expectedBlockTime)
    (_hd : 0 < sim.blockchain.nextDifficulty)
    (_hp : 0 < sim.blockchain.nextPrivateDifficulty) :
    sim.honestRatio = 1 - sim.alpha ∧
    sim.getLambdas =
      ((1 - sim.alpha) / (sim.blockchain.nextDifficulty * (sim.expectedBlockTime : ℚ)),
        sim.alpha / (sim.blockchain.nextPrivateDifficulty * (sim.expectedBlockTime : ℚ))) := by
  have hh := reachable_honestRatio hr
  refine ⟨hh, ?_⟩
  unfold Simulation.getLambdas
  rw [hh]
  simp only [one_div, inv_div]

theorem getLambdas_spec_witness :
    Reachable btcSimForked SimulationResult.zero ∧
    btcSimForked.getLambdas = ((1 - 1 / 3) / (1 * 600), (1 / 3) / (1 * 600)) := by
  refine ⟨btcSimForked_reachable, ?_⟩
  have h := (getLambdas_spec btcSimForked_reachable
    (by norm_num [btcSimForked, btcSimForkedOn, btcSimOn])
    (by norm_num [btcSimForked, btcSimForkedOn, btcSimOn])
    (by norm_num [btcSimForked, btcSimForkedOn, btcSimOn])
    (by norm_num [btcSimForked, btcSimForkedOn, btcSimOn])
    (by norm_num [btcSimForked, btcSimForkedOn, btcSimOn])).2
  rw [h]
  norm_num [btcSimForked, btcSimForkedOn, btcSimOn]

/-- C28: for every non-empty list of blocks of length `n`, the sorted
timestamps (an ascending permutation of the timestamps) have an element
`floor(n/2)`, `median` returns the first block in list order whose timestamp
equals it, and the lookup finds a block: the no-match fallback is not taken. -/
theorem median_first_match (blocks : List Block) (hne : blocks ≠ []) :
    ∃ (med : Int) (b : Block),
      ((blocks.map (fun block => block.timestamp)).insertionSort (· ≤ ·)).Sorted (· ≤ ·) ∧
      ((blocks.map (fun block => block.timestamp)).insertionSort (· ≤ ·)).Perm
        (blocks.map (fun block => block.timestamp)) ∧
      ((blocks.map (fun block => block.timestamp)).insertionSort (· ≤ ·))[blocks.length / 2]?
        = some med ∧
      blocks.find? (fun block => med == block.timestamp) = some b ∧
      median blocks = .ok b ∧
      b.timestamp = med ∧
      ∃ pre post, blocks = pre ++ b :: post ∧ ∀ a ∈ pre, a.timestamp ≠ med := by
  have hpos : 0 < blocks.length := List.length_pos.mpr hne
  have hlen : ((blocks.map (fun block => block.timestamp)).insertionSort (· ≤ ·)).length
      = blocks.length := by
    rw [List.length_insertionSort, List.length_map]
  have hq : (blocks.length : Int).tdiv 2 = ((blocks.length / 2 : Nat) : Int) := by
    rw [Int.tdiv_eq_ediv (by omega) (by norm_num)]
    omega
  obtain ⟨med, hmed⟩ : ∃ med,
      ((blocks.map (fun block => block.timestamp)).insertionSort (· ≤ ·))[blocks.length / 2]?
        = some med :=
    ⟨_, List.getElem?_eq_getElem (by rw [hlen]; omega)⟩
  have hi : index ((blocks.map (fun block => block.timestamp)).insertionSort (· ≤ ·))
      ((blocks.length : Int).tdiv 2) = .ok med := by
    rw [hq]
    apply index_of_getElem? _ _ _ (by omega)
    rw [Int.toNat_ofNat]
    exact hmed
  have hmem : med ∈ blocks.map (fun block => block.timestamp) := by
    rw [← (List.perm_insertionSort (· ≤ ·) _).mem_iff]
    exact List.mem_iff_getElem?.mpr ⟨_, hmed⟩
  obtain ⟨b0, hb0, hts⟩ := List.mem_map.mp hmem
  cases hf : blocks.find? (fun block => med == block.timestamp) with
  | none =>
    exfalso
    have := List.find?_eq_none.mp hf b0 hb0
    simp [hts] at this
  | some b =>
    have hspec := List.find?_eq_some.mp hf
    obtain ⟨hb, pre, post, hsplit, hpre⟩ := hspec
    refine ⟨med, b, List.sorted_insertionSort _ _, List.perm_insertionSort _ _, hmed, hf, ?_,
      ?_, pre, post, hsplit, ?_⟩
    · unfold median
      simp only [hi, bind, Except.bind, hf]
      rfl
    · have hm : med = b.timestamp := by simpa using hb
      exact hm.symm
    · intro a ha
      have := hpre a ha
      intro e
      simp [e] at this

theorem median_first_match_witness :
    ∃ (med : Int) (b : Block),
      racingChain.chain.find? (fun block => med == block.timestamp) = some b ∧
      median racingChain.chain = .ok b ∧ b.timestamp = med := by
  obtain ⟨med, b, _, _, _, h1, h2, h3, _⟩ :=
    median_first_match racingChain.chain (by decide)
  exact ⟨med, b, h1, h2, h3⟩

theorem btc_getDiff_congr (b : btcDifficulty) (p q : Bool) (bc bc1 : Blockchain)
    (view : List Block) (hv : bc.view p = .ok view) (hv1 : bc1.view q = .ok view)
    (hT : bc1.expectedBlockTime = bc.expectedBlockTime) :
    b.getDiff p bc = b.getDiff q bc1 := by
  rw [btc_getDiff_of_view b p bc view hv, btc_getDiff_of_view b q bc1 view hv1, hT]

theorem private_tip_height {bc : Blockchain} (store : ChainInv bc)
    (hp : bc.privateBranch ≠ []) :
    ∃ tip, index bc.privateBranch ((bc.privateBranch.length : Int) - 1) = .ok tip ∧
      tip.height = bc.forkHeight + bc.privateBranch.length := by
  have hpos : 0 < bc.privateBranch.length := List.length_pos.mpr hp
  refine ⟨bc.privateBranch.getLast hp, index_last _ _ (List.getLast?_eq_getLast _ hp), ?_⟩
  rw [List.getLast_eq_getElem]
  have := store.priv (bc.privateBranch.length - 1) (by omega)
  simp only [List.get_eq_getElem] at this
  rw [this]
  omega

/-- C30: for each of the five DAAs (with any parameters) and every chain state
that satisfies the chain-store invariants and has a non-empty private branch,
`reorg()` returns, and `getDiff(isPrivate = true)` on the state before it has
the same outcome as `getDiff(isPrivate = false)` on the state after it; hence
if `nextPrivateDifficulty` was the DAA's value for the private view, the
`nextDifficulty` that `reorg()` installs is what the DAA computes for the new
public chain. -/
theorem reorg_getDiff_agrees (algo : Difficulty) (s : Blockchain) (inv : ChainInv s)
    (hp : s.privateBranch ≠ []) :
    ∃ s1, s.reorg = .ok s1 ∧ s.view true = s1.view false ∧
      algo.getDiff true s = algo.getDiff false s1 ∧
      (algo.getDiff true s = .ok s.nextPrivateDifficulty →
        algo.getDiff false s1 = .ok s1.nextDifficulty) := by
  have hfle : s.forkHeight ≤ s.height := by
    rw [inv.height_eq]; exact inv.fork_le
  have hre := reorg_eq s inv.height_eq inv.fork_nonneg hfle
  have hv : s.view true = .ok (s.chain.take (s.forkHeight + 1).toNat ++ s.privateBranch) := by
    unfold Blockchain.view
    rw [if_pos rfl]
    exact getPrivateView_eq s (by have := inv.fork_nonneg; omega)
      (by have := inv.fork_le; omega)
  have key : algo.getDiff true s = algo.getDiff false
      { s with
        chain := s.chain.take (s.forkHeight + 1).toNat ++ s.privateBranch
        privateBranch := []
        height := s.forkHeight + s.privateBranch.length
        time := lastTime s.time s.privateBranch
        forkHeight := 0
        forkHistory := s.forkHistory ++ [0]
        nextDifficulty := s.nextPrivateDifficulty } := by
    cases algo with
    | bch b =>
      simp only [Difficulty.getDiff]
      rw [bch_getDiff_eq, bch_getDiff_eq, hv]
      rfl
    | btc b =>
      simp only [Difficulty.getDiff]
      exact btc_getDiff_congr b true false _ _ _ hv rfl rfl
    | dash dd =>
      simp only [Difficulty.getDiff]
      rw [dash_getDiff_eq, dash_getDiff_eq]
      obtain ⟨tip, htip, hth⟩ := private_tip_height inv hp
      have hs1 : dashSource true s
          = .ok (s.chain.take (s.forkHeight + 1).toNat ++ s.privateBranch,
            s.forkHeight + s.privateBranch.length) := by
        unfold dashSource
        unfold Blockchain.view at hv
        rw [if_pos rfl] at hv
        simp only [↓reduceIte, htip, hv, bind, Except.bind, pure, Except.pure, hth]
      rw [hs1]
      rfl
    | xmr x =>
      simp only [Difficulty.getDiff]
      rw [xmr_getDiff_eq, xmr_getDiff_eq, hv]
      rfl
    | zec z =>
      simp only [Difficulty.getDiff]
      rw [zec_getDiff_eq, zec_getDiff_eq, hv]
      rfl
  refine ⟨_, hre, hv, key, ?_⟩
  intro h
  rw [← key]
  exact h

theorem reorg_getDiff_agrees_witness :
    racingChain.privateBranch ≠ [] ∧
    ∃ s1, racingChain.reorg = .ok s1 ∧ racingChain.view true = s1.view false ∧
      (Difficulty.btc btcDefault).getDiff true racingChain
        = (Difficulty.btc btcDefault).getDiff false s1 := by
  obtain ⟨s1, h1, h2, h3, _⟩ :=
    reorg_getDiff_agrees (Difficulty.btc btcDefault) racingChain racingChain_inv (by decide)
  exact ⟨by decide, s1, h1, h2, h3⟩

theorem ReachableWith.reachable {P : Draw → Prop} {sim : Simulation}
    {res : SimulationResult} (h : ReachableWith P sim res) : Reachable sim res := by
  induction h with
  | start alpha gamma blocks timewarp isBCHStrategic diffAlgo expectedBlockTime id =>
    exact Reachable.start alpha gamma blocks timewarp isBCHStrategic diffAlgo
      expectedBlockTime id
  | step d _ _ hc hb ih => exact Reachable.step d ih hc hb

theorem Reachable.with_true {sim : Simulation} {res : SimulationResult}
    (h : Reachable sim res) : ReachableWith (fun _ => True) sim res := by
  induction h with
  | start alpha gamma blocks timewarp isBCHStrategic diffAlgo expectedBlockTime id =>
    exact ReachableWith.start alpha gamma blocks timewarp isBCHStrategic diffAlgo
      expectedBlockTime id
  | step d _ hc hb ih => exact ReachableWith.step d trivial ih hc hb

theorem runLoop_reaches {P : Draw → Prop} (draws : List Draw) :
    ∀ (sim sim1 : Simulation) (res res1 : SimulationResult),
      (∀ d ∈ draws, P d) → ReachableWith P sim res →
      sim.runLoop draws res = .ok (some (sim1, res1)) →
      ReachableWith P sim1 res1 ∧ sim1.loopCond = false := by
  induction draws with
  | nil =>
    intro sim sim1 res res1 _ hr h
    unfold Simulation.runLoop at h
    split at h
    · cases h
    · rename_i hc
      cases h
      exact ⟨hr, by simpa using hc⟩
  | cons d rest ih =>
    intro sim sim1 res res1 hP hr h
    unfold Simulation.runLoop at h
    split at h
    · rename_i hc
      rw [bind_eq_ok] at h
      obtain ⟨⟨s2, r2⟩, hb, h⟩ := h
      exact ih s2 sim1 r2 res1 (fun x hx => hP x (List.mem_cons_of_mem d hx))
        (ReachableWith.step d (hP d (List.mem_cons_self d rest)) hr hc hb) h
    · rename_i hc
      cases h
      exact ⟨hr, by simpa using hc⟩

theorem init_simOn (alpha gamma : ℚ) (blocks tw : Int) :
    Simulation.zero.init alpha gamma blocks tw false (some (.btc btcDefault)) 600 1
      = simOn alpha gamma blocks tw ((List.range 3000).map (baseline 600)) := by
  simp [simOn, Simulation.init, Init_eq, Blockchain.setDiffAlgo, Simulation.zero,
    Blockchain.zero, startingBlocks, STARTING_BLOCKS]

theorem simOn_selfish_step (alpha gamma : ℚ) (blocks tw : Int) (chain0 : List Block)
    (hlen : chain0.length = 3000) (res : SimulationResult) (d : Draw) (hd : d.delay = 10)
    (hc : d.coin ≤ alpha) :
    (simOn alpha gamma blocks tw chain0).loopBody res d
      = .ok (forkedOn alpha gamma blocks tw chain0, res) := by
  have hne : chain0 ≠ [] := by
    intro e; rw [e] at hlen; simp at hlen
  unfold Simulation.loopBody Simulation.privHeight
  simp only [simOn, List.length_nil, gt_iff_lt, lt_self_iff_false, ↓reduceIte, pure_bind]
  unfold Simulation.stepZero Simulation.zeroToOne Simulation.newPrivateBlock
    Blockchain.newPrivateBlock
  simp only [Simulation.setRealTime, hd, hc, ↓reduceIte, Blockchain.setForkHeight]
  norm_num
  rw [pushToPrivateChain_eq _ _ hne]
  simp only [List.nil_append, bind, Except.bind]
  have hview : (Blockchain.view
      { chain := chain0, privateBranch := [⟨3000, 1, 1799410 + tw, false⟩],
        forkHistory := [2999],
        height := 2999, forkHeight := 2999, time := 1799410 + tw, privateTime := 0,
        nextDifficulty := 1, nextPrivateDifficulty := 1,
        diffAlgo := some (.btc btcDefault), expectedBlockTime := 600 } true)
      = .ok (chain0.take 3000 ++ [⟨3000, 1, 1799410 + tw, false⟩]) := by
    unfold Blockchain.view
    rw [if_pos rfl, getPrivateView_eq _ (by norm_num) (by simp only [hlen]; norm_num)]
    rfl
  have hdiff := btc_getDiff_last btcDefault true _ _ hview (by decide) (by simp)
    (by simp [hlen, STARTING_BLOCKS, btcDefault])
  simp only [List.getLast_append_singleton] at hdiff
  unfold Blockchain.adjustDifficulty
  simp only [Difficulty.getDiff, hdiff, bind, Except.bind, ↓reduceIte, pure, Except.pure]
  unfold Simulation.setState
  rw [getPostForkWork_past_fork _ (by norm_num) (by simp only [hlen]; norm_num) (by norm_num)]
  have hdrop : chain0.drop (2999 + 1 : Int).toNat = [] := by
    apply List.drop_eq_nil_of_le
    rw [hlen]
    decide
  simp only [hdrop, bind, Except.bind, pure, Except.pure, Functor.map, Except.map]
  norm_num [forkedOn, simOn]

theorem simOn_honest_step (alpha gamma : ℚ) (blocks tw : Int) (chain0 : List Block)
    (hlen : chain0.length = 3000) (res : SimulationResult) (d : Draw) (hd : d.delay = 10)
    (hc : ¬ d.coin ≤ alpha) :
    (simOn alpha gamma blocks tw chain0).loopBody res d
      = .ok (honestOn alpha gamma blocks tw chain0, res) := by
  unfold Simulation.loopBody Simulation.privHeight
  simp only [simOn, List.length_nil, gt_iff_lt, lt_self_iff_false, ↓reduceIte, pure_bind]
  unfold Simulation.stepZero Blockchain.newBlock Blockchain.pushToChain
  simp only [Simulation.setRealTime, hd, hc, ↓reduceIte]
  norm_num
  have hview : (Blockchain.view
      { chain := chain0 ++ [⟨3000, 1, 1799410, true⟩], privateBranch := [],
        forkHistory := [], height := 3000, forkHeight := 0, time := 1799410,
        privateTime := 0, nextDifficulty := 1, nextPrivateDifficulty := 1,
        diffAlgo := some (.btc btcDefault), expectedBlockTime := 600 } false)
      = .ok (chain0 ++ [⟨3000, 1, 1799410, true⟩]) := rfl
  have hdiff := btc_getDiff_last btcDefault false _ _ hview (by decide) (by simp)
    (by simp [hlen, STARTING_BLOCKS, btcDefault])
  simp only [List.getLast_append_singleton] at hdiff
  unfold Blockchain.adjustDifficulty
  simp only [Difficulty.getDiff, hdiff, bind, Except.bind, pure, Except.pure]
  rfl

theorem forkedOn_honest_step (alpha gamma : ℚ) (blocks tw : Int) (chain0 : List Block)
    (hlen : chain0.length = 3000) (res : SimulationResult) (d : Draw)
    (hd : d.delayHonest = 20) (hc : ¬ d.delaySelfish < d.delayHonest) :
    (forkedOn alpha gamma blocks tw chain0).loopBody res d
      = .ok (racingOn alpha gamma blocks tw chain0, res) := by
  rw [hd] at hc
  unfold Simulation.loopBody Simulation.privHeight
  have hv0 : (forkedOn alpha gamma blocks tw chain0).blockchain.getPrivateView
      = .ok (chain0.take 3000 ++ [⟨3000, 1, 1799410 + tw, false⟩]) := by
    rw [getPrivateView_eq _ (by norm_num [forkedOn, simOn])
      (by simp only [forkedOn, simOn, hlen]; norm_num)]
    rfl
  rw [hv0]
  simp only [forkedOn, simOn, List.length_singleton, gt_iff_lt, zero_lt_one, ↓reduceIte,
    bind, Except.bind, pure, Except.pure]
  norm_num
  unfold Simulation.stepOne Blockchain.newBlock Blockchain.pushToChain
  simp only [Simulation.setRealTime, hd, hc, ↓reduceIte]
  norm_num
  have hview : (Blockchain.view
      { chain := chain0 ++ [⟨3000, 1, 1799430, true⟩],
        privateBranch := [⟨3000, 1, 1799410 + tw, false⟩],
        forkHistory := [2999], height := 3000, forkHeight := 2999, time := 1799430,
        privateTime := 0, nextDifficulty := 1, nextPrivateDifficulty := 1,
        diffAlgo := some (.btc btcDefault), expectedBlockTime := 600 } false)
      = .ok (chain0 ++ [⟨3000, 1, 1799430, true⟩]) := rfl
  have hdiff := btc_getDiff_last btcDefault false _ _ hview (by decide) (by simp)
    (by simp [hlen, STARTING_BLOCKS, btcDefault])
  simp only [List.getLast_append_singleton] at hdiff
  unfold Blockchain.adjustDifficulty
  simp only [Difficulty.getDiff, hdiff, bind, Except.bind, pure, Except.pure,
    Bool.false_eq_true, ↓reduceIte]
  unfold Simulation.setState
  rw [getPostForkWork_past_fork _ (by norm_num) (by simp [hlen]) (by norm_num)]
  have hdrop : (chain0 ++ [(⟨3000, 1, 1799430, true⟩ : Block)]).drop (2999 + 1 : Int).toNat
      = [⟨3000, 1, 1799430, true⟩] := by
    rw [List.drop_append_of_le_length (by rw [hlen]; decide),
      List.drop_eq_nil_of_le (by rw [hlen]; decide)]
    rfl
  simp only [hdrop, bind, Except.bind, pure, Except.pure, Functor.map, Except.map]
  norm_num [racingOn, forkedOn, simOn]

theorem racingOn_hmOnSm_step (alpha gamma : ℚ) (blocks tw : Int) (chain0 : List Block)
    (hlen : chain0.length = 3000) (res : SimulationResult) (d : Draw)
    (hd : d.delayHonest = 5) (hc : ¬ d.delaySelfish < d.delayHonest)
    (hg : d.coin < gamma) :
    (racingOn alpha gamma blocks tw chain0).loopBody res d
      = .ok (racedOn alpha gamma blocks tw chain0,
          { res with NumReorgs := res.NumReorgs + 1 }) := by
  rw [hd] at hc
  unfold Simulation.loopBody Simulation.privHeight
  have hv0 : (racingOn alpha gamma blocks tw chain0).blockchain.getPrivateView
      = .ok ((chain0 ++ [(⟨3000, 1, 1799430, true⟩ : Block)]).take 3000
          ++ [⟨3000, 1, 1799410 + tw, false⟩]) := by
    rw [getPrivateView_eq _ (by norm_num [racingOn, forkedOn, simOn])
      (by simp [racingOn, forkedOn, simOn, hlen])]
    rfl
  rw [hv0]
  simp only [racingOn, forkedOn, simOn, List.length_singleton, gt_iff_lt, zero_lt_one,
    ↓reduceIte, bind, Except.bind, pure, Except.pure]
  norm_num
  unfold Simulation.stepRace Simulation.hmOnSm
  simp only [Simulation.setRealTime, hd, hc, hg, ↓reduceIte]
  rw [reorg_eq _ (by simp [hlen]) (by norm_num) (by norm_num)]
  have htake : (chain0 ++ [(⟨3000, 1, 1799430, true⟩ : Block)]).take (2999 + 1 : Int).toNat
      = chain0 := by
    rw [List.take_append_of_le_length (by rw [hlen]; decide),
      List.take_of_length_le (by rw [hlen]; decide)]
  simp only [htake, bind, Except.bind]
  unfold Blockchain.newBlock Blockchain.pushToChain
  norm_num [lastTime]
  have hview : (Blockchain.view
      { chain := chain0 ++ [⟨3000, 1, 1799410 + tw, false⟩, ⟨3001, 1, 1799435, true⟩],
        privateBranch := [],
        forkHistory := [2999, 0], height := 3001, forkHeight := 0, time := 1799435,
        privateTime := 0, nextDifficulty := 1, nextPrivateDifficulty := 1,
        diffAlgo := some (.btc btcDefault), expectedBlockTime := 600 } false)
      = .ok (chain0 ++ [⟨3000, 1, 1799410 + tw, false⟩, ⟨3001, 1, 1799435, true⟩]) := rfl
  have hdiff := btc_getDiff_last btcDefault false _ _ hview (by decide) (by simp)
    (by simp [hlen, STARTING_BLOCKS, btcDefault])
  have hl : (chain0 ++ [(⟨3000, 1, 1799410 + tw, false⟩ : Block),
      ⟨3001, 1, 1799435, true⟩]).getLast (by simp) = ⟨3001, 1, 1799435, true⟩ := by
    simp
  rw [hl] at hdiff
  unfold Blockchain.adjustDifficulty
  simp only [Difficulty.getDiff, hdiff, bind, Except.bind, pure, Except.pure,
    Bool.false_eq_true, ↓reduceIte]
  unfold Simulation.setState Blockchain.getPostForkWork
  simp only [Blockchain.setForkHeight, ↓reduceIte, bind, Except.bind, pure, Except.pure]
  norm_num [racedOn, racingOn, forkedOn, simOn]

theorem btc_getDiff_returns (isPrivate : Bool) (bc : Blockchain) (view : List Block)
    (hview : bc.view isPrivate = .ok view) (hT : 0 < bc.expectedBlockTime)
    (hL : 3000 ≤ view.length) :
    ∃ d, btcDefault.getDiff isPrivate bc = .ok d := by
  have hne : view ≠ [] := by
    intro e
    rw [e] at hL
    simp at hL
  by_cases hmod : ((view.length : Int) - STARTING_BLOCKS) % btcDefault.Period = 0
  · obtain ⟨top, htop⟩ : ∃ b, view[view.length - 1]? = some b :=
      ⟨_, List.getElem?_eq_getElem (by omega)⟩
    obtain ⟨bot, hbot⟩ : ∃ b, view[view.length - 2016]? = some b :=
      ⟨_, List.getElem?_eq_getElem (by omega)⟩
    have hbot2 : view[((view.length : Int) - btcDefault.Period
        - (if btcDefault.OffByOne then 0 else 1)).toNat]? = some bot := by
      rw [show ((view.length : Int) - btcDefault.Period
        - (if btcDefault.OffByOne then 0 else 1)).toNat = view.length - 2016 by
          simp only [btcDefault, ↓reduceIte]; omega]
      exact hbot
    exact ⟨_, btc_getDiff_boundary_eq btcDefault isPrivate bc view hview (by decide) hT
      (by simp only [btcDefault]; omega) hmod top bot htop hbot2⟩
  · exact ⟨_, btc_getDiff_last btcDefault isPrivate bc view hview (by decide) hne hmod⟩

theorem heightCheck_ok (chain : List Block) :
    ∀ n : Nat, n ≤ chain.length →
      (List.range n).foldlM
        (fun (_ : Unit) (i : Nat) => do
          let _block ← index chain (i : Int)
          (pure () : Except Fault Unit)) () = .ok () := by
  intro n
  induction n with
  | zero =>
    intro _
    rfl
  | succ k ih =>
    intro hk
    rw [List.range_succ, List.foldlM_append, ih (by omega)]
    obtain ⟨b, hb⟩ : ∃ b, chain[k]? = some b := ⟨_, List.getElem?_eq_getElem (by omega)⟩
    have hi : index chain (k : Int) = .ok b := index_of_getElem? chain _ b (by omega) (by simpa using hb)
    simp only [List.foldlM_cons, List.foldlM_nil, hi, bind, Except.bind, pure, Except.pure]

theorem stats_fold (bs : List Block) :
    ∀ c : Int × Int,
      bs.foldl
        (fun (c : Int × Int) block =>
          if block.isHonest then (c.1 + 1, c.2) else (c.1, c.2 + 1)) c
      = (c.1 + (bs.countP (fun b => b.isHonest) : Nat),
          c.2 + (bs.countP (fun b => !b.isHonest) : Nat)) := by
  induction bs with
  | nil =>
    intro c
    simp
  | cons b rest ih =>
    intro c
    rw [List.foldl_cons, ih]
    cases hb : b.isHonest
    · simp [hb, List.countP_cons]
      ring
    · simp [hb, List.countP_cons]
      ring

theorem stats_eq (bc : Blockchain) (hL : 3000 ≤ bc.chain.length) :
    bc.stats = .ok ((bc.selfishBlocks : Int), (bc.honestBlocks : Int) + (bc.selfishBlocks : Int),
      ((bc.selfishBlocks : Int) : ℚ)
        / (((bc.honestBlocks : Int) + (bc.selfishBlocks : Int) : Int) : ℚ)) := by
  unfold Blockchain.stats
  rw [slice_ok _ _ _ (by decide) (by simp only [STARTING_BLOCKS]; omega) (le_refl _)]
  simp only [bind, Except.bind, pure, Except.pure, stats_fold, Int.toNat_ofNat,
    List.take_length, STARTING_BLOCKS]
  simp [Blockchain.selfishBlocks, Blockchain.honestBlocks]

theorem selfishBlocks_eq_zero {bc : Blockchain} :
    bc.selfishBlocks = 0 ↔ ∀ b ∈ bc.chain.drop 3000, b.isHonest = true := by
  unfold Blockchain.selfishBlocks
  rw [List.countP_eq_zero]
  simp

theorem report_eq (sim : Simulation) (res : SimulationResult)
    (store : ChainInv sim.blockchain) (hL : 3000 ≤ sim.blockchain.chain.length) :
    ∃ sim1 r, sim.report res = .ok (sim1, r) ∧ sim1.blockchain = sim.blockchain ∧
      r.NumReorgs = res.NumReorgs ∧ r.SmWinReorgs = res.SmWinReorgs ∧
      r.WinRatio = ((sim.blockchain.selfishBlocks : Int) : ℚ)
        / (((sim.blockchain.honestBlocks : Int) + (sim.blockchain.selfishBlocks : Int) : Int) : ℚ) ∧
      (sim.blockchain.selfishBlocks = 0 →
        sim1 = sim ∧ r.FinalHeight = res.FinalHeight ∧ r.SelfishSecondsPerBlock = -1) ∧
      (sim.blockchain.selfishBlocks ≠ 0 → r.FinalHeight = sim.blockchain.height) := by
  have hh := store.height_eq
  unfold Simulation.report
  rw [heightCheck_ok sim.blockchain.chain _ (by omega), stats_eq _ hL]
  simp only [bind, Except.bind, pure, Except.pure]
  by_cases hz : sim.blockchain.selfishBlocks = 0
  · rw [if_pos (by exact_mod_cast hz)]
    exact ⟨_, _, rfl, rfl, rfl, rfl, rfl, fun _ => ⟨rfl, rfl, rfl⟩, fun h => absurd hz h⟩
  · rw [if_neg (by exact_mod_cast hz)]
    exact ⟨_, _, rfl, rfl, rfl, rfl, rfl, fun h => absurd h hz, fun _ => rfl⟩

theorem baseChain_length : baseChain.length = 3000 := by
  simp [baseChain]

theorem simOn_reachableWith (P : Draw → Prop) (alpha gamma : ℚ) (blocks tw : Int) :
    ReachableWith P (simOn alpha gamma blocks tw baseChain) SimulationResult.zero := by
  have h := ReachableWith.start (P := P) alpha gamma blocks tw false
    (some (.btc btcDefault)) 600 1
  rw [init_simOn] at h
  exact h

theorem simOn_loopCond (alpha gamma : ℚ) (blocks tw : Int) (chain0 : List Block)
    (hn : 0 ≤ blocks) : (simOn alpha gamma blocks tw chain0).loopCond = true := by
  simp only [Simulation.loopCond, simOn, startingBlocks, STARTING_BLOCKS, List.length_nil,
    ne_eq, not_true_eq_false, decide_False, Bool.or_false, decide_eq_true_eq]
  omega

theorem forkedOn_loopCond (alpha gamma : ℚ) (blocks tw : Int) (chain0 : List Block) :
    (forkedOn alpha gamma blocks tw chain0).loopCond = true := by
  simp [Simulation.loopCond, forkedOn, simOn]

theorem racingOn_loopCond (alpha gamma : ℚ) (blocks tw : Int) (chain0 : List Block) :
    (racingOn alpha gamma blocks tw chain0).loopCond = true := by
  simp [Simulation.loopCond, racingOn, forkedOn, simOn]

theorem racedOn_loopCond (alpha gamma : ℚ) (blocks tw : Int) (chain0 : List Block)
    (hn : blocks ≤ 1) : (racedOn alpha gamma blocks tw chain0).loopCond = false := by
  simp only [Simulation.loopCond, racedOn, racingOn, forkedOn, simOn, startingBlocks,
    STARTING_BLOCKS, List.length_nil, ne_eq, not_true_eq_false, decide_False, Bool.or_false,
    decide_eq_false_iff_not]
  omega

theorem honestOn_loopCond (alpha gamma : ℚ) (blocks tw : Int) (chain0 : List Block)
    (hn : blocks ≤ 0) : (honestOn alpha gamma blocks tw chain0).loopCond = false := by
  simp only [Simulation.loopCond, honestOn, simOn, startingBlocks,
    STARTING_BLOCKS, List.length_nil, ne_eq, not_true_eq_false, decide_False, Bool.or_false,
    decide_eq_false_iff_not]
  omega

theorem honestOn_reachableWith (P : Draw → Prop) (alpha gamma : ℚ) (blocks tw : Int)
    (hn : 0 ≤ blocks) (d : Draw) (hP : P d) (hd : d.delay = 10) (hc : ¬ d.coin ≤ alpha) :
    ReachableWith P (honestOn alpha gamma blocks tw baseChain) SimulationResult.zero :=
  ReachableWith.step d hP (simOn_reachableWith P alpha gamma blocks tw)
    (simOn_loopCond alpha gamma blocks tw baseChain hn)
    (simOn_honest_step alpha gamma blocks tw baseChain baseChain_length _ d hd hc)

theorem forkedOn_reachableWith (P : Draw → Prop) (alpha gamma : ℚ) (blocks tw : Int)
    (hn : 0 ≤ blocks) (d : Draw) (hP : P d) (hd : d.delay = 10) (hc : d.coin ≤ alpha) :
    ReachableWith P (forkedOn alpha gamma blocks tw baseChain) SimulationResult.zero :=
  ReachableWith.step d hP (simOn_reachableWith P alpha gamma blocks tw)
    (simOn_loopCond alpha gamma blocks tw baseChain hn)
    (simOn_selfish_step alpha gamma blocks tw baseChain baseChain_length _ d hd hc)

theorem racingOn_reachableWith (P : Draw → Prop) (alpha gamma : ℚ) (blocks tw : Int)
    (hn : 0 ≤ blocks) (d1 d2 : Draw) (hP1 : P d1) (hd1 : d1.delay = 10)
    (hc1 : d1.coin ≤ alpha) (hP2 : P d2) (hd2 : d2.delayHonest = 20)
    (hc2 : ¬ d2.delaySelfish < d2.delayHonest) :
    ReachableWith P (racingOn alpha gamma blocks tw baseChain) SimulationResult.zero :=
  ReachableWith.step d2 hP2 (forkedOn_reachableWith P alpha gamma blocks tw hn d1 hP1 hd1 hc1)
    (forkedOn_loopCond alpha gamma blocks tw baseChain)
    (forkedOn_honest_step alpha gamma blocks tw baseChain baseChain_length _ d2 hd2 hc2)

theorem racedOn_reachableWith (P : Draw → Prop) (alpha gamma : ℚ) (blocks tw : Int)
    (hn : 0 ≤ blocks) (d1 d2 d3 : Draw) (hP1 : P d1) (hd1 : d1.delay = 10)
    (hc1 : d1.coin ≤ alpha) (hP2 : P d2) (hd2 : d2.delayHonest = 20)
    (hc2 : ¬ d2.delaySelfish < d2.delayHonest) (hP3 : P d3) (hd3 : d3.delayHonest = 5)
    (hc3 : ¬ d3.delaySelfish < d3.delayHonest) (hg : d3.coin < gamma) :
    ReachableWith P (racedOn alpha gamma blocks tw baseChain)
      { SimulationResult.zero with NumReorgs := 1 } :=
  ReachableWith.step d3 hP3
    (racingOn_reachableWith P alpha gamma blocks tw hn d1 d2 hP1 hd1 hc1 hP2 hd2 hc2)
    (racingOn_loopCond alpha gamma blocks tw baseChain)
    (racingOn_hmOnSm_step alpha gamma blocks tw baseChain baseChain_length _ d3 hd3 hc3 hg)

theorem init_all_honest (alpha gamma : ℚ) (blocks timewarp : Int) (isBCHStrategic : Bool)
    (diffAlgo : Option Difficulty) (expectedBlockTime id : Int) :
    ∀ b ∈ (Simulation.zero.init alpha gamma blocks timewarp isBCHStrategic diffAlgo
      expectedBlockTime id).blockchain.chain, b.isHonest = true := by
  intro b hb
  simp only [Simulation.init, Blockchain.setDiffAlgo, Init_eq, Simulation.zero, Blockchain.zero,
    List.nil_append, List.mem_map] at hb
  obtain ⟨i, _, e⟩ := hb
  rw [← e]
  rfl

theorem alpha_zero_invariant {sim : Simulation} {res : SimulationResult}
    (hr : ReachableWith (fun d => 0 < d.coin) sim res) (ha : sim.alpha = 0) :
    sim.state = 0 ∧ sim.blockchain.privateBranch = [] ∧ res = SimulationResult.zero ∧
    (∀ b ∈ sim.blockchain.chain, b.isHonest = true) ∧
    (sim.blockchain.height = 2999 ∨
      sim.blockchain.height ≤ startingBlocks + sim.numSimBlocks) := by
  induction hr with
  | start alpha gamma blocks timewarp isBCHStrategic diffAlgo expectedBlockTime id =>
    refine ⟨rfl, ?_, rfl,
      init_all_honest alpha gamma blocks timewarp isBCHStrategic diffAlgo expectedBlockTime id,
      Or.inl ?_⟩
    · simp [Simulation.init, Blockchain.setDiffAlgo, Init_eq, Simulation.zero, Blockchain.zero]
    · simp [Simulation.init, Blockchain.setDiffAlgo, Init_eq, Simulation.zero, Blockchain.zero]
  | @step sim sim1 res res1 d hP hr hc hb ih =>
    have hpar := loopBody_params hr.reachable hb
    have hpar2 := hpar
    simp only [Simulation.params, Prod.mk.injEq] at hpar2
    obtain ⟨hs, hp, hres, hall, hh⟩ := ih (by rw [← hpar2.1]; exact ha)
    have hlt : sim.blockchain.height < startingBlocks + sim.numSimBlocks := by
      simpa [Simulation.loopCond, hp] using hc
    have hcoin : ¬ d.coin ≤ sim.alpha := by
      rw [← hpar2.1, ha]
      exact not_le.mpr hP
    rcases loopBody_cases hb with ⟨_, hc', _⟩ | ⟨_, _, h⟩ | ⟨hs', _⟩ | ⟨hs', _⟩ |
      ⟨hs', _⟩ | ⟨hs', _⟩ | ⟨hs', _⟩ | ⟨hs', _⟩ | ⟨hs', _⟩ | ⟨hs', _⟩
    · exact absurd hc' hcoin
    · obtain ⟨e0, _, _, e3, e4, e5, e6, _⟩ := stepZero_honest hcoin h
      refine ⟨by rw [e3, hs], by rw [e5, hp], by rw [e0, hres], ?_, Or.inr ?_⟩
      · intro b hb'
        rw [e4, List.mem_append, List.mem_singleton] at hb'
        rcases hb' with hb' | hb'
        · exact hall b hb'
        · rw [hb']
      · rw [e6, hpar2.2.2.2.1]
        omega
    all_goals omega

theorem alpha_zero_exit {sim : Simulation} {res : SimulationResult}
    (hr : ReachableWith (fun d => 0 < d.coin) sim res) (ha : sim.alpha = 0)
    (hn : 0 ≤ sim.numSimBlocks) (hc : sim.loopCond = false) :
    ∃ r, sim.report res = .ok (sim, r) ∧ r.WinRatio = 0 ∧ r.NumReorgs = 0 ∧
      r.SmWinReorgs = 0 ∧ r.FinalHeight = 0 ∧
      sim.blockchain.height = STARTING_BLOCKS + sim.numSimBlocks ∧
      (sim.blockchain.chain.length : Int) = STARTING_BLOCKS + sim.numSimBlocks + 1 ∧
      ∀ b ∈ sim.blockchain.chain, b.isHonest = true := by
  obtain ⟨hs, hp, hres, hall, hh⟩ := alpha_zero_invariant hr ha
  have inv := SimInv.of_reachable hr.reachable
  have g := grounded_reachable hr.reachable
  have hge : ¬ sim.blockchain.height < startingBlocks + sim.numSimBlocks := by
    intro hlt
    simp [Simulation.loopCond, hp, hlt] at hc
  have hz : sim.blockchain.selfishBlocks = 0 :=
    selfishBlocks_eq_zero.mpr (fun b hb => hall b (List.mem_of_mem_drop hb))
  obtain ⟨sim1, r, h1, _, h3, h4, h5, h6, _⟩ := report_eq sim res inv.store g.long
  obtain ⟨e1, e2, _⟩ := h6 hz
  have hheq := inv.store.height_eq
  simp only [startingBlocks, STARTING_BLOCKS] at hge hh ⊢
  refine ⟨r, by rw [h1, e1], ?_, by rw [h3, hres]; rfl, by rw [h4, hres]; rfl,
    by rw [e2, hres]; rfl, by omega, by omega, hall⟩
  rw [h5, hz]
  simp

theorem btc_newBlock_returns (bc : Blockchain) (t : Int)
    (halgo : bc.diffAlgo = some (.btc btcDefault)) (hT : 0 < bc.expectedBlockTime)
    (hL : 2999 ≤ bc.chain.length) : ∃ b bc1, bc.newBlock t = .ok (b, bc1) := by
  have hview : (bc.pushToChain ⟨bc.height + 1, bc.nextDifficulty, t, true⟩).view false
      = .ok (bc.chain ++ [⟨bc.height + 1, bc.nextDifficulty, t, true⟩]) := rfl
  obtain ⟨d, hd⟩ := btc_getDiff_returns false _ _ hview hT (by simp; omega)
  have hadj : ∃ bc1,
      (bc.pushToChain ⟨bc.height + 1, bc.nextDifficulty, t, true⟩).adjustDifficulty false
        = .ok bc1 := by
    unfold Blockchain.adjustDifficulty
    have ha : (bc.pushToChain ⟨bc.height + 1, bc.nextDifficulty, t, true⟩).diffAlgo
        = some (.btc btcDefault) := halgo
    rw [ha]
    simp only [Difficulty.getDiff, hd, bind, Except.bind, pure, Except.pure,
      Bool.false_eq_true, ↓reduceIte]
    exact ⟨_, rfl⟩
  obtain ⟨bc1, hadj⟩ := hadj
  unfold Blockchain.newBlock
  simp only [hadj, bind, Except.bind, pure, Except.pure]
  exact ⟨_, _, rfl⟩

theorem btc_honest_step_returns {sim : Simulation} (g : Grounded sim.blockchain)
    (hs : sim.state = 0) (hp : sim.blockchain.privateBranch = [])
    (halgo : sim.blockchain.diffAlgo = some (.btc btcDefault))
    (hT : 0 < sim.blockchain.expectedBlockTime) (res : SimulationResult) (d : Draw)
    (hc : ¬ d.coin ≤ sim.alpha) :
    ∃ sim1 res1, sim.loopBody res d = .ok (sim1, res1) := by
  have hph : sim.privHeight = .ok 0 := by
    unfold Simulation.privHeight
    rw [hp]
    rfl
  obtain ⟨b, bc1, hb⟩ := btc_newBlock_returns
    ({ sim.blockchain with nextPrivateDifficulty := sim.blockchain.nextDifficulty })
    (sim.realTime + d.delay) halgo hT (by have := g.long; show 2999 ≤ sim.blockchain.chain.length; omega)
  unfold Simulation.loopBody
  rw [hph]
  simp only [bind, Except.bind]
  rw [if_pos hs]
  unfold Simulation.stepZero
  simp only [Simulation.setRealTime]
  rw [if_neg hc]
  simp only [hb, bind, Except.bind, pure, Except.pure]
  exact ⟨_, _, rfl⟩

theorem alpha_zero_btc_loop (draws : List Draw) :
    ∀ (sim : Simulation) (res : SimulationResult),
      ReachableWith (fun d => 0 < d.coin) sim res → sim.alpha = 0 →
      sim.blockchain.diffAlgo = some (.btc btcDefault) → 0 < sim.blockchain.expectedBlockTime →
      (∀ d ∈ draws, 0 < d.coin) →
      startingBlocks + sim.numSimBlocks - sim.blockchain.height ≤ (draws.length : Int) →
      ∃ sim1 res1, sim.runLoop draws res = .ok (some (sim1, res1)) := by
  induction draws with
  | nil =>
    intro sim res hr ha _ _ _ hlen
    obtain ⟨_, hp, _, _, _⟩ := alpha_zero_invariant hr ha
    have hc : sim.loopCond = false := by
      simp only [Simulation.loopCond, hp, List.length_nil, ne_eq, not_true_eq_false,
        decide_False, Bool.or_false, decide_eq_false_iff_not]
      simp only [List.length_nil, Nat.cast_zero] at hlen
      omega
    unfold Simulation.runLoop
    rw [hc]
    exact ⟨_, _, rfl⟩
  | cons d rest ih =>
    intro sim res hr ha halgo hT hcoin hlen
    obtain ⟨hs, hp, _, _, _⟩ := alpha_zero_invariant hr ha
    unfold Simulation.runLoop
    by_cases hc : sim.loopCond = true
    · rw [if_pos hc]
      have hd : ¬ d.coin ≤ sim.alpha := by
        rw [ha]
        exact not_le.mpr (hcoin d (List.mem_cons_self d rest))
      obtain ⟨sim1, res1, hb⟩ := btc_honest_step_returns
        (grounded_reachable hr.reachable) hs hp halgo hT res d hd
      have hpar := loopBody_params hr.reachable hb
      simp only [Simulation.params, Prod.mk.injEq] at hpar
      have hh : sim1.blockchain.height = sim.blockchain.height + 1 := by
        rcases loopBody_cases hb with ⟨_, hc', _⟩ | ⟨_, _, h⟩ | ⟨hs', _⟩ | ⟨hs', _⟩ |
          ⟨hs', _⟩ | ⟨hs', _⟩ | ⟨hs', _⟩ | ⟨hs', _⟩ | ⟨hs', _⟩ | ⟨hs', _⟩
        · exact absurd hc' hd
        · exact (stepZero_honest hd h).2.2.2.2.2.2.1
        all_goals omega
      obtain ⟨sim2, res2, h2⟩ := ih sim1 res1
        (ReachableWith.step d (hcoin d (List.mem_cons_self d rest)) hr hc hb)
        (by rw [hpar.1]; exact ha) (by rw [hpar.2.2.2.2.2.2.2.2]; exact halgo)
        (by rw [hpar.2.2.2.2.2.2.2.1]; exact hT)
        (fun x hx => hcoin x (List.mem_cons_of_mem d hx))
        (by
          rw [hh, hpar.2.2.2.1]
          simp only [List.length_cons, Nat.cast_add, Nat.cast_one] at hlen
          omega)
      simp only [hb, bind, Except.bind]
      exact ⟨sim2, res2, h2⟩
    · rw [if_neg hc]
      exact ⟨_, _, rfl⟩

theorem runSimulation_eq {sim sim1 sim2 : Simulation} {draws : List Draw}
    {res r : SimulationResult}
    (hl : sim.runLoop draws SimulationResult.zero = .ok (some (sim1, res)))
    (hrep : sim1.report res = .ok (sim2, r)) :
    sim.runSimulation draws = .ok (some (sim2, r)) := by
  unfold Simulation.runSimulation
  simp only [hl, hrep, bind, Except.bind, pure, Except.pure]

theorem runSimulation_ok {sim sim2 : Simulation} {draws : List Draw} {r : SimulationResult}
    (h : sim.runSimulation draws = .ok (some (sim2, r))) :
    ∃ sim1 res, sim.runLoop draws SimulationResult.zero = .ok (some (sim1, res)) ∧
      sim1.report res = .ok (sim2, r) := by
  unfold Simulation.runSimulation at h
  rw [bind_eq_ok] at h
  obtain ⟨o, ho, h⟩ := h
  cases o with
  | none => cases h
  | some p =>
    obtain ⟨sim1, res⟩ := p
    simp only [bind_eq_ok] at h
    obtain ⟨⟨s, r'⟩, hrep, h⟩ := h
    cases h
    exact ⟨sim1, res, ho, hrep⟩

theorem runLoop_cons_true {sim sim1 : Simulation} {res res1 : SimulationResult} {d : Draw}
    (rest : List Draw) (hc : sim.loopCond = true)
    (hb : sim.loopBody res d = .ok (sim1, res1)) :
    sim.runLoop (d :: rest) res = sim1.runLoop rest res1 := by
  rw [Simulation.runLoop, if_pos hc]
  simp only [hb, bind, Except.bind]

theorem runLoop_done {sim : Simulation} (draws : List Draw) (res : SimulationResult)
    (hc : sim.loopCond = false) : sim.runLoop draws res = .ok (some (sim, res)) := by
  cases draws with
  | nil =>
    rw [Simulation.runLoop, hc]
    rfl
  | cons d rest =>
    rw [Simulation.runLoop, hc]
    rfl

theorem runLoop_params (draws : List Draw) :
    ∀ (sim sim1 : Simulation) (res res1 : SimulationResult),
      Reachable sim res → sim.runLoop draws res = .ok (some (sim1, res1)) →
      sim1.params = sim.params := by
  induction draws with
  | nil =>
    intro sim sim1 res res1 _ h
    unfold Simulation.runLoop at h
    split at h
    · cases h
    · cases h
      rfl
  | cons d rest ih =>
    intro sim sim1 res res1 hr h
    unfold Simulation.runLoop at h
    split at h
    · rename_i hc
      rw [bind_eq_ok] at h
      obtain ⟨⟨s2, r2⟩, hb, h⟩ := h
      rw [ih s2 sim1 r2 res1 (Reachable.step d hr hc hb) h]
      exact loopBody_params hr hb
    · cases h
      rfl

theorem init_params (alpha gamma : ℚ) (blocks timewarp : Int) (isBCHStrategic : Bool)
    (diffAlgo : Option Difficulty) (expectedBlockTime id : Int) :
    (Simulation.zero.init alpha gamma blocks timewarp isBCHStrategic diffAlgo
        expectedBlockTime id).params
      = (alpha, 1 - alpha, gamma, blocks, timewarp, expectedBlockTime,
          startingBlocks * expectedBlockTime, expectedBlockTime, diffAlgo) := by
  simp [Simulation.params, Simulation.init, Blockchain.setDiffAlgo, Init_eq]

theorem init_height (alpha gamma : ℚ) (blocks timewarp : Int) (isBCHStrategic : Bool)
    (diffAlgo : Option Difficulty) (expectedBlockTime id : Int) :
    (Simulation.zero.init alpha gamma blocks timewarp isBCHStrategic diffAlgo
        expectedBlockTime id).blockchain.height = 2999 := by
  simp [Simulation.init, Blockchain.setDiffAlgo, Init_eq]

theorem alpha_zero_run_facts (gamma : ℚ) (blocks timewarp : Int) (isBCHStrategic : Bool)
    (diffAlgo : Option Difficulty) (expectedBlockTime id : Int) (draws : List Draw)
    (hn : 0 ≤ blocks) (hc : ∀ d ∈ draws, 0 < d.coin) (sim1 : Simulation) (r : SimulationResult)
    (h : (Simulation.zero.init 0 gamma blocks timewarp isBCHStrategic diffAlgo
      expectedBlockTime id).runSimulation draws = .ok (some (sim1, r))) :
    (∀ b ∈ sim1.blockchain.chain, b.isHonest = true) ∧
    sim1.blockchain.height = STARTING_BLOCKS + blocks ∧
    (sim1.blockchain.chain.length : Int) = STARTING_BLOCKS + blocks + 1 ∧
    r.WinRatio = 0 ∧ r.NumReorgs = 0 ∧ r.SmWinReorgs = 0 ∧ r.FinalHeight = 0 := by
  obtain ⟨s1, res, hl, hrep⟩ := runSimulation_ok h
  have hstart := ReachableWith.start (P := fun d => 0 < d.coin) 0 gamma blocks timewarp
    isBCHStrategic diffAlgo expectedBlockTime id
  obtain ⟨hr, hexit⟩ := runLoop_reaches draws _ s1 _ res hc hstart hl
  have hpar := runLoop_params draws _ s1 _ res hstart.reachable hl
  rw [init_params] at hpar
  simp only [Simulation.params, Prod.mk.injEq] at hpar
  obtain ⟨r', h1, h2, h3, h4, h5, h6, h7, h8⟩ :=
    alpha_zero_exit hr hpar.1 (by rw [hpar.2.2.2.1]; exact hn) hexit
  rw [h1] at hrep
  cases hrep
  rw [hpar.2.2.2.1] at h6 h7
  exact ⟨h8, h6, h7, h2, h3, h4, h5⟩

theorem alpha_zero_btc_run (gamma : ℚ) (blocks timewarp : Int) (isBCHStrategic : Bool)
    (expectedBlockTime id : Int) (draws : List Draw)
    (hn : 0 ≤ blocks) (hT : 0 < expectedBlockTime) (hc : ∀ d ∈ draws, 0 < d.coin)
    (hlen : blocks < (draws.length : Int)) :
    ∃ sim1 r, (Simulation.zero.init 0 gamma blocks timewarp isBCHStrategic
      (some (.btc btcDefault)) expectedBlockTime id).runSimulation draws
        = .ok (some (sim1, r)) := by
  have hstart := ReachableWith.start (P := fun d => 0 < d.coin) 0 gamma blocks timewarp
    isBCHStrategic (some (.btc btcDefault)) expectedBlockTime id
  have hpar := init_params 0 gamma blocks timewarp isBCHStrategic (some (.btc btcDefault))
    expectedBlockTime id
  simp only [Simulation.params, Prod.mk.injEq] at hpar
  obtain ⟨s1, res, hl⟩ := alpha_zero_btc_loop draws _ _ hstart hpar.1 hpar.2.2.2.2.2.2.2.2
    (by rw [hpar.2.2.2.2.2.2.2.1]; exact hT) hc
    (by
      rw [init_height, hpar.2.2.2.1]
      simp only [startingBlocks, STARTING_BLOCKS]
      omega)
  obtain ⟨hr, hexit⟩ := runLoop_reaches draws _ s1 _ res hc hstart hl
  have hpar1 := runLoop_params draws _ s1 _ res hstart.reachable hl
  rw [init_params] at hpar1
  simp only [Simulation.params, Prod.mk.injEq] at hpar1
  obtain ⟨r, h1, _⟩ := alpha_zero_exit hr hpar1.1 (by rw [hpar1.2.2.2.1]; exact hn) hexit
  exact ⟨s1, r, runSimulation_eq hl h1⟩

theorem racedOn_counts (alpha gamma : ℚ) (blocks tw : Int) (chain0 : List Block)
    (hlen : chain0.length = 3000) :
    (racedOn alpha gamma blocks tw chain0).blockchain.selfishBlocks = 1 ∧
    (racedOn alpha gamma blocks tw chain0).blockchain.honestBlocks = 1 := by
  have hd : (chain0 ++ [(⟨3000, 1, 1799410 + tw, false⟩ : Block),
      ⟨3001, 1, 1799435, true⟩]).drop 3000
      = [⟨3000, 1, 1799410 + tw, false⟩, ⟨3001, 1, 1799435, true⟩] := by
    rw [← hlen]
    exact List.drop_left' rfl
  constructor
  · show ((chain0 ++ [(⟨3000, 1, 1799410 + tw, false⟩ : Block),
      ⟨3001, 1, 1799435, true⟩]).drop 3000).countP (fun b => !b.isHonest) = 1
    rw [hd]
    rfl
  · show ((chain0 ++ [(⟨3000, 1, 1799410 + tw, false⟩ : Block),
      ⟨3001, 1, 1799435, true⟩]).drop 3000).countP (fun b => b.isHonest) = 1
    rw [hd]
    rfl

/-- C22 fails on the code: the state-0 branch tests `rand.Float64() <= alpha`,
while its sibling in the race branch tests `rand.Float64() < gamma`.  With
`alpha = 0` a coin value of exactly 0, a value of `[0, 1)`, takes the selfish
branch: `stepZero` is then `zeroToOne`, for every state and every sampled
delay.  On the BTC defaults with block time 600 and `num_blocks = 0` the loop
is entered, and its first iteration with sampled delay 10 and coin 0 (the
delays of `getDelays` are not sampled in state 0) mints a selfish private
block, adds no block to the public chain and leaves state 1.  In the race
branch a coin equal to `gamma` does not take the `hmOnSm` branch.  With every
coin strictly positive the property holds: every state at the head of the loop
is state 0 with an empty private branch, no reorg counted and only honest
blocks on the chain, every iteration that returns appends one honest block to
the public chain, a run that terminates emits `WinRatio == 0` and
`NumReorgs == 0` over a chain of `STARTING_BLOCKS + num_blocks + 1` honest
blocks, and with the BTC defaults and a block time `T > 0` a run on more than
`num_blocks` draws terminates. -/
theorem alpha_zero_coin_zero :
    (∀ (sim : Simulation) (res : SimulationResult) (d : Draw),
      sim.alpha = 0 → d.coin = 0 →
      sim.stepZero res d =
        (({ sim with blockchain := { sim.blockchain with
            nextPrivateDifficulty := sim.blockchain.nextDifficulty } } :
          Simulation).setRealTime d.delay).zeroToOne >>= fun sim3 => pure (sim3, res)) ∧
    (Simulation.zero.init 0 (1 / 2) 0 0 false (some (.btc btcDefault)) 600 1).state = 0 ∧
    (Simulation.zero.init 0 (1 / 2) 0 0 false (some (.btc btcDefault)) 600 1).loopCond = true ∧
    (∀ delayHonest delaySelfish : Int,
      (Simulation.zero.init 0 (1 / 2) 0 0 false (some (.btc btcDefault)) 600 1).loopBody
          SimulationResult.zero ⟨10, delayHonest, delaySelfish, 0⟩
        = .ok (forkedOn 0 (1 / 2) 0 0 baseChain, SimulationResult.zero)) ∧
    (forkedOn 0 (1 / 2) 0 0 baseChain).state = 1 ∧
    (forkedOn 0 (1 / 2) 0 0 baseChain).blockchain.privateBranch
      = [⟨3000, 1, 1799410, false⟩] ∧
    (forkedOn 0 (1 / 2) 0 0 baseChain).blockchain.chain = baseChain ∧
    (∀ (sim : Simulation) (res : SimulationResult) (d : Draw),
      ¬ d.delaySelfish < d.delayHonest → d.coin = sim.gamma →
      sim.stepRace res d =
        sim.hmWinsRace d.delayHonest >>= fun sim1 =>
          pure (sim1, { res with NumReorgs := res.NumReorgs + 1 })) ∧
    (∀ (sim : Simulation) (res : SimulationResult),
      ReachableWith (fun d => 0 < d.coin) sim res → sim.alpha = 0 →
      sim.state = 0 ∧ sim.blockchain.privateBranch = [] ∧ res.NumReorgs = 0 ∧
      (∀ b ∈ sim.blockchain.chain, b.isHonest = true) ∧
      ∀ (d : Draw) (sim1 : Simulation) (res1 : SimulationResult), 0 < d.coin →
        sim.loopBody res d = .ok (sim1, res1) →
        sim1.blockchain.chain = sim.blockchain.chain ++
          [⟨sim.blockchain.height + 1, sim.blockchain.nextDifficulty,
            sim.realTime + d.delay, true⟩]) ∧
    (∀ (gamma : ℚ) (blocks timewarp : Int) (isBCHStrategic : Bool)
      (diffAlgo : Option Difficulty) (expectedBlockTime id : Int) (draws : List Draw)
      (sim1 : Simulation) (r : SimulationResult),
      0 ≤ blocks → (∀ d ∈ draws, 0 < d.coin) →
      (Simulation.zero.init 0 gamma blocks timewarp isBCHStrategic diffAlgo
        expectedBlockTime id).runSimulation draws = .ok (some (sim1, r)) →
      (∀ b ∈ sim1.blockchain.chain, b.isHonest = true) ∧
      (sim1.blockchain.chain.length : Int) = STARTING_BLOCKS + blocks + 1 ∧
      r.WinRatio = 0 ∧ r.NumReorgs = 0) ∧
    (∀ (gamma : ℚ) (blocks timewarp : Int) (isBCHStrategic : Bool)
      (expectedBlockTime id : Int) (draws : List Draw),
      0 ≤ blocks → 0 < expectedBlockTime → (∀ d ∈ draws, 0 < d.coin) →
      blocks < (draws.length : Int) →
      ∃ sim1 r, (Simulation.zero.init 0 gamma blocks timewarp isBCHStrategic
        (some (.btc btcDefault)) expectedBlockTime id).runSimulation draws
          = .ok (some (sim1, r))) := by
  refine ⟨?_, ?_, ?_, ?_, ?_, ?_, ?_, ?_, ?_, ?_, ?_⟩
  · intro sim res d ha hc
    unfold Simulation.stepZero
    simp only [Simulation.setRealTime, ha, hc, le_refl, ↓reduceIte]
  · exact (congrArg Simulation.state (init_simOn 0 (1 / 2) 0 0)).trans rfl
  · rw [init_simOn]
    exact simOn_loopCond 0 (1 / 2) 0 0 _ (le_refl _)
  · intro delayHonest delaySelfish
    rw [init_simOn]
    exact simOn_selfish_step 0 (1 / 2) 0 0 baseChain baseChain_length SimulationResult.zero
      ⟨10, delayHonest, delaySelfish, 0⟩ rfl (le_refl _)
  · rfl
  · simp [forkedOn, simOn]
  · simp only [forkedOn, simOn]
  · intro sim res d hd hc
    unfold Simulation.stepRace
    simp only [hd, hc, lt_self_iff_false, ↓reduceIte]
  · intro sim res hr ha
    obtain ⟨hs, hp, hres, hall, _⟩ := alpha_zero_invariant hr ha
    refine ⟨hs, hp, by rw [hres]; rfl, hall, ?_⟩
    intro d sim1 res1 hd hb
    have hcoin : ¬ d.coin ≤ sim.alpha := by
      rw [ha]
      exact not_le.mpr hd
    rcases loopBody_cases hb with ⟨_, hc', _⟩ | ⟨_, _, h⟩ | ⟨hs', _⟩ | ⟨hs', _⟩ |
      ⟨hs', _⟩ | ⟨hs', _⟩ | ⟨hs', _⟩ | ⟨hs', _⟩ | ⟨hs', _⟩ | ⟨hs', _⟩
    · exact absurd hc' hcoin
    · exact (stepZero_honest hcoin h).2.2.2.2.1
    all_goals omega
  · intro gamma blocks timewarp isBCHStrategic diffAlgo expectedBlockTime id draws sim1 r hn
      hc h
    obtain ⟨h1, _, h3, h4, h5, _⟩ := alpha_zero_run_facts gamma blocks timewarp isBCHStrategic
      diffAlgo expectedBlockTime id draws hn hc sim1 r h
    exact ⟨h1, h3, h4, h5⟩
  · intro gamma blocks timewarp isBCHStrategic expectedBlockTime id draws hn hT hc hlen
    exact alpha_zero_btc_run gamma blocks timewarp isBCHStrategic expectedBlockTime id draws
      hn hT hc hlen

/-- C26 fails on the code: `runSimulation` sends the result and returns before
`res.FinalHeight = sim.blockchain.height` when no selfish block is on the final
chain (`sm == 0`), so `FinalHeight` keeps its zero value.  On the BTC defaults
with block time 600, `alpha = 0`, `num_blocks = 0` and the draw (delay 10, coin
1/2) the run ends at height 3000 with `FinalHeight == 0`; with `alpha = 0`,
`num_blocks = 5000` and positive coins every run on more than 5000 draws ends at
height 8000 with `FinalHeight == 0`; in general the emitted `FinalHeight` is
the height only when a selfish block is on the final chain. -/
theorem finalHeight_unset :
    (∃ r,
      (Simulation.zero.init 0 (1 / 2) 0 0 false (some (.btc btcDefault)) 600 1).runSimulation
          [⟨10, 0, 0, 1 / 2⟩] = .ok (some (honestOn 0 (1 / 2) 0 0 baseChain, r)) ∧
      (honestOn 0 (1 / 2) 0 0 baseChain).blockchain.height = 3000 ∧ r.FinalHeight = 0) ∧
    (∀ (gamma : ℚ) (timewarp id : Int) (draws : List Draw),
      (∀ d ∈ draws, 0 < d.coin) → 5000 < (draws.length : Int) →
      ∃ sim1 r,
        (Simulation.zero.init 0 gamma 5000 timewarp false (some (.btc btcDefault)) 600
          id).runSimulation draws = .ok (some (sim1, r)) ∧
        sim1.blockchain.height = 8000 ∧ r.FinalHeight = 0) ∧
    ∀ (sim : Simulation) (res : SimulationResult), ChainInv sim.blockchain →
      3000 ≤ sim.blockchain.chain.length →
      ∃ sim1 r, sim.report res = .ok (sim1, r) ∧
        (sim.blockchain.selfishBlocks = 0 → r.FinalHeight = res.FinalHeight) ∧
        (sim.blockchain.selfishBlocks ≠ 0 → r.FinalHeight = sim.blockchain.height) := by
  refine ⟨?_, ?_, ?_⟩
  · have h1 := simOn_honest_step 0 (1 / 2) 0 0 baseChain baseChain_length SimulationResult.zero
      ⟨10, 0, 0, 1 / 2⟩ rfl (by norm_num)
    have hl : (simOn 0 (1 / 2) 0 0 baseChain).runLoop [⟨10, 0, 0, 1 / 2⟩] SimulationResult.zero
        = .ok (some (honestOn 0 (1 / 2) 0 0 baseChain, SimulationResult.zero)) := by
      rw [runLoop_cons_true _ (simOn_loopCond 0 (1 / 2) 0 0 baseChain (le_refl _)) h1,
        runLoop_done _ _ (honestOn_loopCond 0 (1 / 2) 0 0 baseChain (le_refl _))]
    have hreach := honestOn_reachableWith (fun d => 0 < d.coin) 0 (1 / 2) 0 0 (le_refl _)
      ⟨10, 0, 0, 1 / 2⟩ (by norm_num) rfl (by norm_num)
    obtain ⟨r, hrep, _, _, _, hfh, _⟩ := alpha_zero_exit hreach rfl (le_refl _)
      (honestOn_loopCond 0 (1 / 2) 0 0 baseChain (le_refl _))
    refine ⟨r, ?_, rfl, hfh⟩
    rw [init_simOn]
    exact runSimulation_eq hl hrep
  · intro gamma timewarp id draws hc hlen
    obtain ⟨sim1, r, h⟩ := alpha_zero_btc_run gamma 5000 timewarp false 600 id draws
      (by decide) (by decide) hc hlen
    obtain ⟨_, h2, _, _, _, _, h7⟩ := alpha_zero_run_facts gamma 5000 timewarp false
      (some (.btc btcDefault)) 600 id draws (by decide) hc sim1 r h
    refine ⟨sim1, r, h, ?_, h7⟩
    rw [h2]
    rfl
  · intro sim res store hL
    obtain ⟨sim1, r, h1, _, _, _, _, h6, h7⟩ := report_eq sim res store hL
    exact ⟨sim1, r, h1, fun hz => (h6 hz).2.1, h7⟩

/-- C29: in every reachable state at the head of the `runSimulation` loop,
`state == 0` holds if and only if the private branch is empty, and an empty
private branch has `forkHeight == 0`; so when the guard of the loop fails,
`state == 0`, `forkHeight == 0`, the private branch is empty and
`height >= STARTING_BLOCKS + numSimBlocks`. -/
theorem loop_head_invariant {sim : Simulation} {res : SimulationResult}
    (hr : Reachable sim res) :
    (sim.state = 0 ↔ sim.blockchain.privateBranch = []) ∧
    (sim.blockchain.privateBranch = [] → sim.blockchain.forkHeight = 0) ∧
    (sim.loopCond = false →
      sim.state = 0 ∧ sim.blockchain.forkHeight = 0 ∧ sim.blockchain.privateBranch = [] ∧
      STARTING_BLOCKS + sim.numSimBlocks ≤ sim.blockchain.height) := by
  have inv := SimInv.of_reachable hr
  refine ⟨inv.state_zero, inv.fork_zero, ?_⟩
  intro hc
  simp only [Simulation.loopCond, Bool.or_eq_false_iff, decide_eq_false_iff_not, ne_eq,
    not_not, not_lt, List.length_eq_zero, startingBlocks] at hc
  exact ⟨inv.state_zero.mpr hc.2, inv.fork_zero hc.2, hc.2, hc.1⟩

theorem loop_head_invariant_witness :
    Reachable (honestOn 0 (1 / 2) 0 0 baseChain) SimulationResult.zero ∧
    (honestOn 0 (1 / 2) 0 0 baseChain).loopCond = false ∧
    (honestOn 0 (1 / 2) 0 0 baseChain).state = 0 ∧
    (honestOn 0 (1 / 2) 0 0 baseChain).blockchain.forkHeight = 0 ∧
    (honestOn 0 (1 / 2) 0 0 baseChain).blockchain.privateBranch = [] ∧
    STARTING_BLOCKS + (honestOn 0 (1 / 2) 0 0 baseChain).numSimBlocks
      ≤ (honestOn 0 (1 / 2) 0 0 baseChain).blockchain.height := by
  have hreach := (honestOn_reachableWith (fun _ => True) 0 (1 / 2) 0 0 (le_refl _)
    ⟨10, 0, 0, 1 / 2⟩ trivial rfl (by norm_num)).reachable
  have hc := honestOn_loopCond 0 (1 / 2) 0 0 baseChain (le_refl _)
  exact ⟨hreach, hc, (loop_head_invariant hreach).2.2 hc⟩

theorem hmOnSm_newBlock {sim sim1 : Simulation} {delay : Int}
    (h : sim.hmOnSm delay = .ok sim1) :
    ∃ bc2 b bc3, sim.blockchain.reorg = .ok bc2 ∧
      bc2.newBlock (sim.realTime + delay) = .ok (b, bc3) := by
  unfold Simulation.hmOnSm at h
  simp only [bind_eq_ok, Simulation.setRealTime] at h
  obtain ⟨bc2, h2, ⟨b, bc3⟩, h3, _⟩ := h
  exact ⟨bc2, b, bc3, h2, h3⟩

theorem hmOnSm_returns {sim : Simulation} {delay : Int} {bc2 bc3 : Blockchain} {b : Block}
    (h2 : sim.blockchain.reorg = .ok bc2)
    (h3 : bc2.newBlock (sim.realTime + delay) = .ok (b, bc3)) :
    ∃ sim1, sim.hmOnSm delay = .ok sim1 := by
  have hw : (({ bc3 with nextPrivateDifficulty := bc3.nextDifficulty } : Blockchain).setForkHeight
      0).getPostForkWork = .ok (0, 0) := by
    unfold Blockchain.getPostForkWork
    rw [if_pos (by simp [Blockchain.setForkHeight])]
    rfl
  unfold Simulation.hmOnSm
  simp only [Simulation.setRealTime, h2, h3, bind, Except.bind]
  exact ⟨_, setState_eq _ 0 0 0 hw⟩

/-- C21: in every reachable race state (state -1, hence a non-empty private
branch, fork at height `f`) and for every delay `d`, `reorg()` returns the
chain `chain[0..f]` followed by the private branch, and once the honest block
is minted on it (the DAA call of `newBlock` returns) `hmOnSm(d)` returns: the
public chain is `chain[0..f]`, the whole former private branch and one new
honest block of height private tip height + 1, timestamp `realTime + d` and the
pre-call `nextPrivateDifficulty`; the private branch is empty,
`forkHeight == 0`, `nextPrivateDifficulty == nextDifficulty` and `state == 0`. -/
theorem hmOnSm_spec {sim : Simulation} {res : SimulationResult} (hr : Reachable sim res)
    (hs : sim.state = -1) (d : Int) :
    ∃ tip bc2, sim.blockchain.privateBranch.getLast? = some tip ∧
      sim.blockchain.reorg = .ok bc2 ∧
      bc2.chain = sim.blockchain.chain.take (sim.blockchain.forkHeight + 1).toNat
        ++ sim.blockchain.privateBranch ∧
      ∀ b bc3, bc2.newBlock (sim.realTime + d) = .ok (b, bc3) →
        b = ⟨tip.height + 1, sim.blockchain.nextPrivateDifficulty, sim.realTime + d, true⟩ ∧
        ∃ sim1, sim.hmOnSm d = .ok sim1 ∧ sim1.realTime = sim.realTime + d ∧
          sim1.blockchain.chain = sim.blockchain.chain.take (sim.blockchain.forkHeight + 1).toNat
            ++ sim.blockchain.privateBranch ++ [b] ∧
          sim1.blockchain.height = tip.height + 1 ∧
          sim1.blockchain.privateBranch = [] ∧ sim1.blockchain.forkHeight = 0 ∧
          sim1.blockchain.nextPrivateDifficulty = sim1.blockchain.nextDifficulty ∧
          sim1.state = 0 := by
  have inv := SimInv.of_reachable hr
  have hp : sim.blockchain.privateBranch ≠ [] := by
    intro e
    have := inv.state_zero.mpr e
    omega
  have hfle : sim.blockchain.forkHeight ≤ sim.blockchain.height := by
    rw [inv.store.height_eq]
    exact inv.store.fork_le
  have hre := reorg_eq _ inv.store.height_eq inv.store.fork_nonneg hfle
  have hth : (sim.blockchain.privateBranch.getLast hp).height
      = sim.blockchain.forkHeight + sim.blockchain.privateBranch.length := by
    have hpos : 0 < sim.blockchain.privateBranch.length := List.length_pos.mpr hp
    rw [List.getLast_eq_getElem]
    have := inv.store.priv (sim.blockchain.privateBranch.length - 1) (by omega)
    simp only [List.get_eq_getElem] at this
    rw [this]
    omega
  refine ⟨sim.blockchain.privateBranch.getLast hp, _, List.getLast?_eq_getLast _ hp, hre, rfl,
    ?_⟩
  intro b bc3 hb
  obtain ⟨sim1, h1⟩ := hmOnSm_returns hre hb
  obtain ⟨eb, _⟩ := newBlock_effect hb
  obtain ⟨_, e2, e3, e4, e5, e6, _, e8, e9⟩ := hmOnSm_effect inv.store h1
  have hbeq : b = ⟨(sim.blockchain.privateBranch.getLast hp).height + 1,
      sim.blockchain.nextPrivateDifficulty, sim.realTime + d, true⟩ := by
    rw [eb, hth]
  refine ⟨hbeq, sim1, h1, e2, ?_, ?_, e4, e6, e8, e9⟩
  · rw [e3, hbeq, hth]
  · rw [e5, hth]

theorem hmOnSm_spec_witness :
    Reachable (racingOn (1 / 3) (1 / 2) 5000 0 baseChain) SimulationResult.zero ∧
    (racingOn (1 / 3) (1 / 2) 5000 0 baseChain).state = -1 ∧
    ∃ sim1, (racingOn (1 / 3) (1 / 2) 5000 0 baseChain).hmOnSm 5 = .ok sim1 ∧
      sim1.blockchain.chain =
        (racingOn (1 / 3) (1 / 2) 5000 0 baseChain).blockchain.chain.take
            ((racingOn (1 / 3) (1 / 2) 5000 0 baseChain).blockchain.forkHeight + 1).toNat
          ++ (racingOn (1 / 3) (1 / 2) 5000 0 baseChain).blockchain.privateBranch
          ++ [⟨3001, 1, 1799435, true⟩] ∧
      sim1.blockchain.privateBranch = [] ∧ sim1.blockchain.forkHeight = 0 ∧
      sim1.blockchain.nextPrivateDifficulty = sim1.blockchain.nextDifficulty ∧
      sim1.state = 0 := by
  have hreach := (racingOn_reachableWith (fun _ => True) (1 / 3) (1 / 2) 5000 0 (by decide)
    ⟨10, 0, 0, 0⟩ ⟨0, 20, 30, 0⟩ trivial rfl (by norm_num) trivial rfl (by decide)).reachable
  have hstep := racingOn_hmOnSm_step (1 / 3) (1 / 2) 5000 0 baseChain baseChain_length
    SimulationResult.zero ⟨0, 5, 5, 1 / 4⟩ rfl (by decide) (by norm_num)
  have hm : (racingOn (1 / 3) (1 / 2) 5000 0 baseChain).hmOnSm 5
      = .ok (racedOn (1 / 3) (1 / 2) 5000 0 baseChain) := by
    rcases loopBody_cases hstep with ⟨hs', _⟩ | ⟨hs', _⟩ | ⟨hs', _⟩ | ⟨hs', _⟩ |
      ⟨hs', _⟩ | ⟨hs', _⟩ | ⟨_, hd, _⟩ | ⟨_, _, _, _, h⟩ | ⟨_, _, hg, _⟩ | ⟨hs', _⟩
    · exact absurd hs' (by decide)
    · exact absurd hs' (by decide)
    · exact absurd hs' (by decide)
    · exact absurd hs' (by decide)
    · exact absurd hs' (by decide)
    · exact absurd hs' (by decide)
    · exact absurd hd (by decide)
    · exact h
    · exact absurd (show (1 / 4 : ℚ) < 1 / 2 by norm_num) hg
    · exact absurd hs' (by decide)
  obtain ⟨bc2', b, bc3, hre', hb⟩ := hmOnSm_newBlock hm
  obtain ⟨tip, bc2, htip, hre, _, hall⟩ := hmOnSm_spec hreach rfl 5
  rw [hre] at hre'
  cases hre'
  obtain ⟨hbeq, sim1, h1, _, e3, _, e4, e5, e6, e7⟩ := hall b bc3 hb
  have htip' : tip = ⟨3000, 1, 1799410 + 0, false⟩ := by
    have : (racingOn (1 / 3) (1 / 2) 5000 0 baseChain).blockchain.privateBranch.getLast?
        = some ⟨3000, 1, 1799410 + 0, false⟩ := rfl
    rw [this] at htip
    cases htip
    rfl
  refine ⟨hreach, rfl, sim1, h1, ?_, e4, e5, e6, e7⟩
  rw [e3, hbeq, htip']
  norm_num [racingOn, forkedOn, simOn]

theorem stepZero_res {sim sim1 : Simulation} {res res1 : SimulationResult} {d : Draw}
    (h : sim.stepZero res d = .ok (sim1, res1)) : res1 = res := by
  unfold Simulation.stepZero at h
  simp only [] at h
  split at h
  · simp only [bind_eq_ok] at h
    obtain ⟨_, _, h⟩ := h
    cases h
    rfl
  · simp only [bind_eq_ok] at h
    obtain ⟨_, _, h⟩ := h
    cases h
    rfl

theorem loopBody_counters {sim sim1 : Simulation} {res res1 : SimulationResult} {d : Draw}
    (h : sim.loopBody res d = .ok (sim1, res1)) :
    (sim.state = -1 →
      res1.NumReorgs = res.NumReorgs + 1 ∧
      res1.SmWinReorgs =
        (if d.delaySelfish < d.delayHonest then res.SmWinReorgs + 1 else res.SmWinReorgs)) ∧
    (sim.state ≠ -1 → res1 = res) := by
  rcases loopBody_cases h with ⟨hs, _, h⟩ | ⟨hs, _, h⟩ | ⟨hs, _, hr, _⟩ | ⟨hs, hd, h⟩ |
    ⟨hs, _, hr, _⟩ | ⟨hs, _, hr, _⟩ | ⟨hs, hd, hr, _⟩ | ⟨hs, hd, _, hr, _⟩ |
    ⟨hs, hd, _, hr, _⟩ | ⟨hs, _, hr⟩
  · exact ⟨fun e => by omega, fun _ => stepZero_res h⟩
  · exact ⟨fun e => by omega, fun _ => stepZero_res h⟩
  · exact ⟨fun e => by omega, fun _ => hr⟩
  · exact ⟨fun e => by omega, fun _ => (stepOne_honest hd h).1⟩
  · exact ⟨fun e => by omega, fun _ => hr⟩
  · exact ⟨fun e => by omega, fun _ => hr⟩
  · refine ⟨fun _ => ?_, fun e => absurd hs e⟩
    rw [hr, if_pos hd]
    exact ⟨rfl, rfl⟩
  · refine ⟨fun _ => ?_, fun e => absurd hs e⟩
    rw [hr, if_neg hd]
    exact ⟨rfl, rfl⟩
  · refine ⟨fun _ => ?_, fun e => absurd hs e⟩
    rw [hr, if_neg hd]
    exact ⟨rfl, rfl⟩
  · exact ⟨fun e => by omega, fun _ => hr⟩

theorem reorg_counters {sim : Simulation} {res : SimulationResult} (hr : Reachable sim res) :
    0 ≤ res.SmWinReorgs ∧ res.SmWinReorgs ≤ res.NumReorgs := by
  induction hr with
  | start alpha gamma blocks timewarp isBCHStrategic diffAlgo expectedBlockTime id =>
    exact ⟨le_refl _, le_refl _⟩
  | @step sim sim1 res res1 d hr _ hb ih =>
    obtain ⟨h1, h2⟩ := loopBody_counters hb
    by_cases hs : sim.state = -1
    · obtain ⟨e1, e2⟩ := h1 hs
      rw [e1, e2]
      split <;> omega
    · rw [h2 hs]
      exact ih

/-- C25: in every reachable state, an iteration of the loop that begins in the
race state and returns has taken `smWinsRace` when the selfish delay is
strictly smaller than the honest delay, else `hmOnSm` when the coin is below
`gamma`, else `hmWinsRace`; it increments `NumReorgs` by exactly one,
increments `SmWinReorgs` by one exactly when the selfish delay is strictly
smaller, and ends with `state == 0`, an empty private branch and
`forkHeight == 0`; every other iteration leaves both counters unchanged; so
`0 <= SmWinReorgs <= NumReorgs` holds in every reachable state. -/
theorem race_iteration_counters {sim : Simulation} {res : SimulationResult}
    (hr : Reachable sim res) :
    0 ≤ res.SmWinReorgs ∧ res.SmWinReorgs ≤ res.NumReorgs ∧
    ∀ (d : Draw) (sim1 : Simulation) (res1 : SimulationResult),
      sim.loopBody res d = .ok (sim1, res1) →
      (sim.state ≠ -1 → res1 = res) ∧
      (sim.state = -1 →
        res1.NumReorgs = res.NumReorgs + 1 ∧
        res1.SmWinReorgs =
          (if d.delaySelfish < d.delayHonest then res.SmWinReorgs + 1 else res.SmWinReorgs) ∧
        sim1.state = 0 ∧ sim1.blockchain.privateBranch = [] ∧
        sim1.blockchain.forkHeight = 0 ∧
        (if d.delaySelfish < d.delayHonest then sim.smWinsRace d.delaySelfish
          else if d.coin < sim.gamma then sim.hmOnSm d.delayHonest
          else sim.hmWinsRace d.delayHonest) = .ok sim1) := by
  obtain ⟨c1, c2⟩ := reorg_counters hr
  refine ⟨c1, c2, ?_⟩
  intro d sim1 res1 hb
  obtain ⟨h1, h2⟩ := loopBody_counters hb
  refine ⟨h2, ?_⟩
  intro hs
  obtain ⟨e1, e2⟩ := h1 hs
  have inv1 := SimInv.of_reachable hr
  have hp : sim.blockchain.privateBranch ≠ [] := by
    intro e
    have := inv1.state_zero.mpr e
    omega
  refine ⟨e1, e2, ?_⟩
  rcases loopBody_cases hb with ⟨hs', _⟩ | ⟨hs', _⟩ | ⟨hs', _⟩ | ⟨hs', _⟩ |
    ⟨hs', _⟩ | ⟨hs', _⟩ | ⟨_, hd, _, h⟩ | ⟨_, hd, hg, _, h⟩ | ⟨_, hd, hg, _, h⟩ | ⟨hs', _⟩
  · omega
  · omega
  · omega
  · omega
  · omega
  · omega
  · obtain ⟨b, _, _, _, _, _, _, e2', _, e4, _, _, e7⟩ := smWinsRace_effect inv1.store hp h
    rw [if_pos hd]
    exact ⟨e7, e2', e4, h⟩
  · obtain ⟨_, _, _, e2', _, e4, _, _, e7⟩ := hmOnSm_effect inv1.store h
    rw [if_neg hd, if_pos hg]
    exact ⟨e7, e2', e4, h⟩
  · obtain ⟨_, _, _, e2', _, e4, _, _, e7⟩ := hmWinsRace_effect h
    rw [if_neg hd, if_neg hg]
    exact ⟨e7, e2', e4, h⟩
  · omega

theorem race_iteration_counters_witness :
    Reachable (racingOn (1 / 3) (1 / 2) 5000 7200 baseChain) SimulationResult.zero ∧
    (racingOn (1 / 3) (1 / 2) 5000 7200 baseChain).state = -1 ∧
    (racingOn (1 / 3) (1 / 2) 5000 7200 baseChain).loopBody SimulationResult.zero
        ⟨0, 5, 5, 1 / 4⟩
      = .ok (racedOn (1 / 3) (1 / 2) 5000 7200 baseChain,
          { SimulationResult.zero with NumReorgs := SimulationResult.zero.NumReorgs + 1 }) ∧
    (racedOn (1 / 3) (1 / 2) 5000 7200 baseChain).state = 0 ∧
    (racedOn (1 / 3) (1 / 2) 5000 7200 baseChain).blockchain.privateBranch = [] ∧
    (racedOn (1 / 3) (1 / 2) 5000 7200 baseChain).blockchain.forkHeight = 0 ∧
    (racingOn (1 / 3) (1 / 2) 5000 7200 baseChain).hmOnSm 5
      = .ok (racedOn (1 / 3) (1 / 2) 5000 7200 baseChain) := by
  have hreach := (racingOn_reachableWith (fun _ => True) (1 / 3) (1 / 2) 5000 7200 (by decide)
    ⟨10, 0, 0, 0⟩ ⟨0, 20, 30, 0⟩ trivial rfl (by norm_num) trivial rfl (by decide)).reachable
  have hstep := racingOn_hmOnSm_step (1 / 3) (1 / 2) 5000 7200 baseChain baseChain_length
    SimulationResult.zero ⟨0, 5, 5, 1 / 4⟩ rfl (by decide) (by norm_num)
  obtain ⟨_, _, e3, e4, e5, e6⟩ :=
    ((race_iteration_counters hreach).2.2 ⟨0, 5, 5, 1 / 4⟩ _ _ hstep).2 rfl
  refine ⟨hreach, rfl, hstep, e3, e4, e5, ?_⟩
  rw [if_neg (by decide), if_pos (by norm_num [racingOn, forkedOn, simOn])] at e6
  exact e6

theorem TimeOrd.later {chain priv : List Block} {fh rt rt1 : Int}
    (h : TimeOrd chain priv fh rt) (hle : rt ≤ rt1) : TimeOrd chain priv fh rt1 :=
  ⟨h.chain_sorted, h.priv_sorted, fun b hb => le_trans (h.chain_le b hb) hle,
    fun b hb => le_trans (h.priv_le b hb) hle, h.cross⟩

theorem TimeOrd.pushPrivate {chain priv : List Block} {fh rt : Int}
    (h : TimeOrd chain priv fh rt) (b : Block) (hb : b.timestamp = rt) :
    TimeOrd chain (priv ++ [b]) fh rt := by
  refine ⟨h.chain_sorted, ?_, h.chain_le, ?_, ?_⟩
  · rw [List.pairwise_append]
    refine ⟨h.priv_sorted, List.pairwise_singleton _ _, ?_⟩
    intro a ha c hc
    rw [List.mem_singleton] at hc
    rw [hc, hb]
    exact h.priv_le a ha
  · intro c hc
    rw [List.mem_append, List.mem_singleton] at hc
    rcases hc with hc | hc
    · exact h.priv_le c hc
    · rw [hc, hb]
  · intro a ha c hc
    rw [List.mem_append, List.mem_singleton] at hc
    rcases hc with hc | hc
    · exact h.cross a ha c hc
    · rw [hc, hb]
      exact h.chain_le a (List.mem_of_mem_take ha)

theorem TimeOrd.pushPublic {chain priv : List Block} {fh rt : Int}
    (h : TimeOrd chain priv fh rt) (b : Block) (hb : b.timestamp = rt)
    (hf : priv = [] ∨ (fh + 1).toNat ≤ chain.length) :
    TimeOrd (chain ++ [b]) priv fh rt := by
  refine ⟨?_, h.priv_sorted, ?_, h.priv_le, ?_⟩
  · rw [List.pairwise_append]
    refine ⟨h.chain_sorted, List.pairwise_singleton _ _, ?_⟩
    intro a ha c hc
    rw [List.mem_singleton] at hc
    rw [hc, hb]
    exact h.chain_le a ha
  · intro c hc
    rw [List.mem_append, List.mem_singleton] at hc
    rcases hc with hc | hc
    · exact h.chain_le c hc
    · rw [hc, hb]
  · intro a ha c hc
    rcases hf with hf | hf
    · rw [hf] at hc
      simp at hc
    · rw [List.take_append_of_le_length hf] at ha
      exact h.cross a ha c hc

theorem TimeOrd.publish {chain priv : List Block} {fh rt : Int}
    (h : TimeOrd chain priv fh rt) (fh1 : Int) :
    TimeOrd (chain.take (fh + 1).toNat ++ priv) [] fh1 rt := by
  refine ⟨?_, List.Pairwise.nil, ?_, ?_, ?_⟩
  · rw [List.pairwise_append]
    exact ⟨h.chain_sorted.sublist (List.take_sublist _ _), h.priv_sorted, h.cross⟩
  · intro c hc
    rw [List.mem_append] at hc
    rcases hc with hc | hc
    · exact h.chain_le c (List.mem_of_mem_take hc)
    · exact h.priv_le c hc
  · intro c hc
    simp at hc
  · intro a _ c hc
    simp at hc

theorem TimeOrd.clearPrivate {chain priv : List Block} {fh rt : Int}
    (h : TimeOrd chain priv fh rt) (fh1 : Int) : TimeOrd chain [] fh1 rt :=
  ⟨h.chain_sorted, List.Pairwise.nil, h.chain_le, fun c hc => by simp at hc,
    fun a _ c hc => by simp at hc⟩

theorem timeInv_of_eq {sim1 : Simulation} {chain priv : List Block} {fh rt : Int}
    (e1 : sim1.blockchain.chain = chain) (e2 : sim1.blockchain.privateBranch = priv)
    (e4 : sim1.blockchain.forkHeight = fh) (et : sim1.realTime = rt)
    (h : TimeOrd chain priv fh rt) : TimeInv sim1 := by
  subst e1 e2 e4 et
  exact h

theorem timeInv_init (alpha gamma : ℚ) (blocks timewarp : Int) (isBCHStrategic : Bool)
    (diffAlgo : Option Difficulty) (expectedBlockTime id : Int) (hT : 0 ≤ expectedBlockTime) :
    TimeInv (Simulation.zero.init alpha gamma blocks timewarp isBCHStrategic diffAlgo
      expectedBlockTime id) := by
  have e1 : (Simulation.zero.init alpha gamma blocks timewarp isBCHStrategic diffAlgo
      expectedBlockTime id).blockchain.chain
      = (List.range 3000).map (baseline expectedBlockTime) := by
    simp [Simulation.init, Blockchain.setDiffAlgo, Init_eq, Simulation.zero, Blockchain.zero]
  have e2 : (Simulation.zero.init alpha gamma blocks timewarp isBCHStrategic diffAlgo
      expectedBlockTime id).blockchain.privateBranch = [] := by
    simp [Simulation.init, Blockchain.setDiffAlgo, Init_eq, Simulation.zero, Blockchain.zero]
  have et : (Simulation.zero.init alpha gamma blocks timewarp isBCHStrategic diffAlgo
      expectedBlockTime id).realTime = 2999 * expectedBlockTime := by
    simp [Simulation.init, Blockchain.setDiffAlgo, Init_eq, Simulation.zero, Blockchain.zero]
  refine timeInv_of_eq e1 e2 rfl et ⟨?_, List.Pairwise.nil, ?_, fun c hc => by simp at hc,
    fun a _ c hc => by simp at hc⟩
  · rw [List.pairwise_map]
    refine List.Pairwise.imp ?_ (List.pairwise_lt_range 3000)
    intro a b hab
    show (a : Int) * expectedBlockTime ≤ (b : Int) * expectedBlockTime
    have : (a : Int) ≤ (b : Int) := by exact_mod_cast hab.le
    exact Int.mul_le_mul_of_nonneg_right this hT
  · intro b hb
    rw [List.mem_map] at hb
    obtain ⟨i, hi, e⟩ := hb
    rw [← e]
    show (i : Int) * expectedBlockTime ≤ 2999 * expectedBlockTime
    have : (i : Int) ≤ 2999 := by
      rw [List.mem_range] at hi
      omega
    exact Int.mul_le_mul_of_nonneg_right this hT

theorem timeInv_step {sim sim1 : Simulation} {res res1 : SimulationResult} {d : Draw}
    (inv : SimInv sim) (g : Grounded sim.blockchain) (ht : TimeInv sim)
    (htw : sim.timewarpOffset = 0) (hd : d.nonnegDelays)
    (h : sim.loopBody res d = .ok (sim1, res1)) : TimeInv sim1 := by
  obtain ⟨hd0, hdH, hdS⟩ := hd
  have hlen := g.long
  have hh := inv.store.height_eq
  have hfn := inv.store.fork_nonneg
  have hfl := inv.store.fork_le
  have hpne : sim.state ≠ 0 → sim.blockchain.privateBranch ≠ [] :=
    fun hs e => hs (inv.state_zero.mpr e)
  have hfne : sim.state ≠ 0 → sim.blockchain.forkHeight ≠ 0 := by
    intro hs
    have := g.fork_high (hpne hs)
    omega
  have hfit : (sim.blockchain.forkHeight + 1).toNat ≤ sim.blockchain.chain.length := by omega
  unfold TimeInv at ht
  rcases loopBody_cases h with ⟨hs, hc, h⟩ | ⟨hs, hc, h⟩ | ⟨hs, hdl, hr, h⟩ | ⟨hs, hdl, h⟩ |
    ⟨hs, hdl, hr, h⟩ | ⟨hs, hdl, hr, h⟩ | ⟨hs, hdl, hr, h⟩ | ⟨hs, hdl, hg, hr, h⟩ |
    ⟨hs, hdl, hg, hr, h⟩ | ⟨hs, e, hr⟩
  · obtain ⟨_, _, ert, _, e1, e2, _, e4, _⟩ :=
      stepZero_selfish inv.store (inv.state_zero.mp hs) (by omega) hs hc h
    refine timeInv_of_eq e1 e2 e4 ert ?_
    exact ((ht.clearPrivate sim.blockchain.height).later (by omega)).pushPrivate _
      (by rw [htw]; simp)
  · obtain ⟨_, _, ert, _, e1, e2, _, e4, _⟩ := stepZero_honest hc h
    refine timeInv_of_eq e1 e2 e4 ert ?_
    exact (ht.later (by omega)).pushPublic _ rfl (Or.inl (inv.state_zero.mp hs))
  · have hs0 : sim.state ≠ 0 := by omega
    obtain ⟨b, _, bts, _, _, ert, e1, e2, _, e4, _⟩ :=
      oneToTwo_effect inv.store (hpne hs0) (hfne hs0) h
    refine timeInv_of_eq e1 e2 e4 ert ?_
    exact (ht.later (by omega)).pushPrivate b (by rw [bts, htw]; simp)
  · obtain ⟨_, _, ert, e1, e2, _, e4, _⟩ := stepOne_honest hdl h
    refine timeInv_of_eq e1 e2 e4 ert ?_
    exact (ht.later (by omega)).pushPublic _ rfl (Or.inr hfit)
  · have hs0 : sim.state ≠ 0 := by omega
    obtain ⟨b, _, bts, _, _, ert, e1, e2, _, e4, _⟩ :=
      oneToTwo_effect inv.store (hpne hs0) (hfne hs0) h
    refine timeInv_of_eq e1 e2 e4 ert ?_
    exact (ht.later (by omega)).pushPrivate b (by rw [bts, htw]; simp)
  · have hs0 : sim.state ≠ 0 := by omega
    obtain ⟨algo, nd2, _, _, _, ert, _, hcase⟩ :=
      moreThanTwoHonestWins_effect inv.store (hpne hs0) (hfne hs0) (by omega) h
    rcases hcase with ⟨_, e1, e2, _, e4, _, _⟩ | ⟨_, e1, e2, _, e4, _, _⟩
    · refine timeInv_of_eq e1 e2 e4 ert ?_
      exact (ht.later (by omega)).publish 0
    · refine timeInv_of_eq e1 e2 e4 ert ?_
      exact (ht.later (by omega)).pushPublic _ rfl (Or.inr hfit)
  · have hs0 : sim.state ≠ 0 := by omega
    obtain ⟨b, _, bts, _, _, ert, e1, e2, _, e4, _⟩ :=
      smWinsRace_effect inv.store (hpne hs0) h
    refine timeInv_of_eq e1 e2 e4 ert ?_
    exact ((ht.later (by omega)).pushPrivate b (by rw [bts, htw]; simp)).publish 0
  · obtain ⟨_, ert, e1, e2, _, e4, _⟩ := hmOnSm_effect inv.store h
    refine timeInv_of_eq e1 e2 e4 ert ?_
    exact ((ht.later (by omega)).publish 0).pushPublic _ rfl (Or.inl rfl)
  · obtain ⟨_, ert, e1, e2, _, e4, _⟩ := hmWinsRace_effect h
    refine timeInv_of_eq e1 e2 e4 ert ?_
    exact ((ht.later (by omega)).clearPrivate 0).pushPublic _ rfl (Or.inl rfl)
  · subst e
    exact ht

theorem timeInv_reachable {sim : Simulation} {res : SimulationResult}
    (hr : ReachableWith Draw.nonnegDelays sim res) (htw : sim.timewarpOffset = 0)
    (hT : 0 ≤ sim.expectedBlockTime) : TimeInv sim := by
  induction hr with
  | start alpha gamma blocks timewarp isBCHStrategic diffAlgo expectedBlockTime id =>
    exact timeInv_init alpha gamma blocks timewarp isBCHStrategic diffAlgo
      expectedBlockTime id hT
  | @step sim sim1 res res1 d hP hr hc hb ih =>
    have hpar := loopBody_params hr.reachable hb
    simp only [Simulation.params, Prod.mk.injEq] at hpar
    have htw0 : sim.timewarpOffset = 0 := by rw [← hpar.2.2.2.2.1]; exact htw
    exact timeInv_step (SimInv.of_reachable hr.reachable) (grounded_reachable hr.reachable)
      (ih htw0 (by rw [← hpar.2.2.2.2.2.1]; exact hT)) htw0 hP hb

theorem pairwise_adjacent {bs : List Block}
    (h : bs.Pairwise (fun a b => a.timestamp ≤ b.timestamp)) (i : Nat) (a b : Block)
    (ha : bs[i]? = some a) (hb : bs[i + 1]? = some b) : a.timestamp ≤ b.timestamp := by
  obtain ⟨h1, e1⟩ := List.getElem?_eq_some_iff.mp ha
  obtain ⟨h2, e2⟩ := List.getElem?_eq_some_iff.mp hb
  rw [← e1, ← e2]
  exact List.pairwise_iff_getElem.mp h i (i + 1) h1 h2 (by omega)

/-- C23 fails on the code: with a timewarp offset of 7200 (inside [0, 7200]) a
private block is stamped `realTime + 7200`; after `hmOnSm` publishes it, the
honest block minted on top of it is stamped with the plain `realTime`.  On the
BTC defaults with block time 600, `alpha = 1/3`, `gamma = 1/2`, the draws
(delay 10, coin 0), (honest delay 20, selfish 30), (honest delay 5, selfish 5,
coin 1/4), all with non-negative delays and coins in [0, 1), reach a state
whose public chain has timestamp 1806610 at index 3000 and 1799435 at index
3001. -/
theorem timewarp_timestamps_decrease :
    (0 : Int) ≤ 7200 ∧ (7200 : Int) ≤ 7200 ∧
    ReachableWith (fun d => d.nonnegDelays ∧ 0 ≤ d.coin ∧ d.coin < 1)
      (racedOn (1 / 3) (1 / 2) 5000 7200 baseChain)
      { SimulationResult.zero with NumReorgs := 1 } ∧
    (racedOn (1 / 3) (1 / 2) 5000 7200 baseChain).timewarpOffset = 7200 ∧
    (racedOn (1 / 3) (1 / 2) 5000 7200 baseChain).blockchain.chain[3000]?
      = some ⟨3000, 1, 1806610, false⟩ ∧
    (racedOn (1 / 3) (1 / 2) 5000 7200 baseChain).blockchain.chain[3001]?
      = some ⟨3001, 1, 1799435, true⟩ ∧
    (1799435 : Int) < 1806610 := by
  have hreach := racedOn_reachableWith (fun d => d.nonnegDelays ∧ 0 ≤ d.coin ∧ d.coin < 1)
    (1 / 3) (1 / 2) 5000 7200 (by decide)
    ⟨10, 0, 0, 0⟩ ⟨0, 20, 30, 0⟩ ⟨0, 5, 5, 1 / 4⟩
    (by norm_num [Draw.nonnegDelays]) rfl (by norm_num)
    (by norm_num [Draw.nonnegDelays]) rfl (by decide)
    (by norm_num [Draw.nonnegDelays]) rfl (by decide) (by norm_num)
  have hc : (racedOn (1 / 3) (1 / 2) 5000 7200 baseChain).blockchain.chain
      = baseChain ++ [⟨3000, 1, 1806610, false⟩, ⟨3001, 1, 1799435, true⟩] := by
    norm_num [racedOn, racingOn, forkedOn, simOn]
  refine ⟨by decide, le_refl _, hreach, rfl, ?_, ?_, by decide⟩
  · rw [hc, List.getElem?_append_right (by rw [baseChain_length]), baseChain_length]
    rfl
  · rw [hc, List.getElem?_append_right (by rw [baseChain_length]; decide), baseChain_length]
    rfl

/-- C23, amended: with a timewarp offset of 0 and a block time `T >= 0`, in
every state reachable from an initialised simulation through iterations whose
sampled delays are non-negative (any coin tosses), the timestamps of the public
chain are non-decreasing across indices,
`chain[i].timestamp <= chain[i+1].timestamp` for every valid `i`, and none is
later than `realTime`. -/
theorem timestamps_nondecreasing {sim : Simulation} {res : SimulationResult}
    (hr : ReachableWith Draw.nonnegDelays sim res) (htw : sim.timewarpOffset = 0)
    (hT : 0 ≤ sim.expectedBlockTime) :
    (∀ (i : Nat) (a b : Block), sim.blockchain.chain[i]? = some a →
      sim.blockchain.chain[i + 1]? = some b → a.timestamp ≤ b.timestamp) ∧
    ∀ b ∈ sim.blockchain.chain, b.timestamp ≤ sim.realTime := by
  have ht := timeInv_reachable hr htw hT
  exact ⟨pairwise_adjacent ht.chain_sorted, ht.chain_le⟩

theorem timestamps_nondecreasing_witness :
    ReachableWith Draw.nonnegDelays (racedOn (1 / 3) (1 / 2) 5000 0 baseChain)
      { SimulationResult.zero with NumReorgs := 1 } ∧
    (racedOn (1 / 3) (1 / 2) 5000 0 baseChain).timewarpOffset = 0 ∧
    (0 : Int) ≤ (racedOn (1 / 3) (1 / 2) 5000 0 baseChain).expectedBlockTime ∧
    ∀ (i : Nat) (a b : Block),
      (racedOn (1 / 3) (1 / 2) 5000 0 baseChain).blockchain.chain[i]? = some a →
      (racedOn (1 / 3) (1 / 2) 5000 0 baseChain).blockchain.chain[i + 1]? = some b →
      a.timestamp ≤ b.timestamp := by
  have hreach := racedOn_reachableWith Draw.nonnegDelays
    (1 / 3) (1 / 2) 5000 0 (by decide)
    ⟨10, 0, 0, 0⟩ ⟨0, 20, 30, 0⟩ ⟨0, 5, 5, 1 / 4⟩
    (by norm_num [Draw.nonnegDelays]) rfl (by norm_num)
    (by norm_num [Draw.nonnegDelays]) rfl (by decide)
    (by norm_num [Draw.nonnegDelays]) rfl (by decide) (by norm_num)
  have hT : (0 : Int) ≤ (racedOn (1 / 3) (1 / 2) 5000 0 baseChain).expectedBlockTime := by
    show (0 : Int) ≤ 600
    decide
  exact ⟨hreach, rfl, hT, (timestamps_nondecreasing hreach rfl hT).1⟩

theorem positiveDAA_btc {T : Int} (hT : 0 < T) : PositiveDAA (.btc btcDefault) T := by
  intro view d hv hL _ hp
  obtain ⟨isPrivate, bc, hbT, hsrc, hd⟩ := hv
  obtain ⟨d1, hd1, hpos⟩ := btc_getDiff_pos isPrivate bc view (dashSource_view hsrc)
    (by rw [hbT]; exact hT) hL hp
  have e : btcDefault.getDiff isPrivate bc = .ok d := hd
  rw [hd1] at e
  cases e
  exact hpos

theorem positiveDAA_dash {T : Int} (hT : 0 < T) : PositiveDAA (.dash dashDefault) T := by
  intro view d hv hL _ hp
  obtain ⟨isPrivate, bc, hbT, hsrc, hd⟩ := hv
  obtain ⟨d1, hd1, hpos⟩ := dash_getDiff_pos isPrivate bc view hsrc
    (by rw [hbT]; exact hT) hL hp
  have e : dashDefault.getDiff isPrivate bc = .ok d := hd
  rw [hd1] at e
  cases e
  exact hpos

theorem positiveDAA_zec {T : Int} (hT : 0 < T) : PositiveDAA (.zec zecDefault) T := by
  intro view d hv hL hh hp
  obtain ⟨isPrivate, bc, hbT, hsrc, hd⟩ := hv
  obtain ⟨d1, hd1, hpos⟩ := zec_getDiff_pos isPrivate bc view (dashSource_view hsrc)
    (by rw [hbT]; exact hT) hL hh hp
  have e : zecDefault.getDiff isPrivate bc = .ok d := hd
  rw [hd1] at e
  cases e
  exact hpos

theorem positiveDAA_bch (b : bchDifficulty) (T : Int) : PositiveDAA (.bch b) T := by
  intro view d hv _ _ _
  obtain ⟨isPrivate, bc, _, _, hd⟩ := hv
  have e : b.getDiff isPrivate bc = .ok d := hd
  have := bch_getDiff_ge_tenth b isPrivate bc d e
  linarith

theorem heightsMatch_chain {bc : Blockchain} (store : ChainInv bc) : HeightsMatch bc.chain := by
  intro i b hb
  obtain ⟨h1, e1⟩ := List.getElem?_eq_some_iff.mp hb
  rw [← e1]
  exact store.heights i h1

theorem heightsMatch_privateView {bc : Blockchain} (store : ChainInv bc) :
    HeightsMatch (bc.chain.take (bc.forkHeight + 1).toNat ++ bc.privateBranch) := by
  obtain ⟨bc1, h1, st1, _, _⟩ := ChainInv.reorg store
  have hfle : bc.forkHeight ≤ bc.height := by
    rw [store.height_eq]
    exact store.fork_le
  rw [reorg_eq _ store.height_eq store.fork_nonneg hfle] at h1
  cases h1
  exact heightsMatch_chain st1

theorem positiveDAA_last {algo : Difficulty} {T : Int} (hpos : PositiveDAA algo T)
    {view pre : List Block} {b : Block} {d : ℚ} (hview : view = pre ++ [b])
    (hv : DaaValue algo T view b.height d) (hL : 3000 ≤ view.length) (hh : HeightsMatch view)
    (hp : PositiveDifficulties view) : 0 < d := by
  have hb : b.height = (view.length : Int) - 1 := by
    have := hh pre.length b (by rw [hview]; simp)
    rw [this, hview]
    simp
  rw [hb] at hv
  exact hpos view d hv hL hh hp

theorem sum_push (priv : List Block) (b : Block) :
    ((priv ++ [b]).map (fun b => b.difficulty)).sum
      = (priv.map (fun b => b.difficulty)).sum + b.difficulty := by
  simp

theorem sum_drop_push (chain : List Block) (b : Block) (k : Nat) (hk : k ≤ chain.length) :
    (((chain ++ [b]).drop k).map (fun b => b.difficulty)).sum
      = ((chain.drop k).map (fun b => b.difficulty)).sum + b.difficulty := by
  rw [List.drop_append_of_le_length hk]
  simp

theorem leadInv_of_eq {sim1 : Simulation} {chain priv : List Block} {fh : Int} {nd npd : ℚ}
    {state : Int}
    (e1 : sim1.blockchain.chain = chain) (e2 : sim1.blockchain.privateBranch = priv)
    (e4 : sim1.blockchain.forkHeight = fh) (e5 : sim1.blockchain.nextDifficulty = nd)
    (e6 : sim1.blockchain.nextPrivateDifficulty = npd) (e7 : sim1.state = state)
    (h : LeadOrd chain priv fh nd npd state) : LeadInv sim1 := by
  subst e1 e2 e4 e5 e6 e7
  exact h

theorem LeadOrd.settled {chain : List Block} {nd npd : ℚ} (fh : Int)
    (hc : PositiveDifficulties chain) (hnd : 0 < nd) (hnpd : 0 < npd) :
    LeadOrd chain [] fh nd npd 0 :=
  ⟨hc, fun b hb => by simp at hb, hnd, hnpd, fun h => by omega, fun h => by omega,
    fun h => by omega⟩

theorem positive_append {xs ys : List Block} (hx : PositiveDifficulties xs)
    (hy : PositiveDifficulties ys) : PositiveDifficulties (xs ++ ys) := by
  intro b hb
  rw [List.mem_append] at hb
  rcases hb with hb | hb
  · exact hx b hb
  · exact hy b hb

theorem positive_take {xs : List Block} (hx : PositiveDifficulties xs) (k : Nat) :
    PositiveDifficulties (xs.take k) :=
  fun b hb => hx b (List.mem_of_mem_take hb)

theorem positive_singleton {b : Block} (hb : 0 < b.difficulty) : PositiveDifficulties [b] := by
  intro c hc
  rw [List.mem_singleton] at hc
  rw [hc]
  exact hb

theorem leadInv_init (alpha gamma : ℚ) (blocks timewarp : Int) (isBCHStrategic : Bool)
    (diffAlgo : Option Difficulty) (expectedBlockTime id : Int) :
    LeadInv (Simulation.zero.init alpha gamma blocks timewarp isBCHStrategic diffAlgo
      expectedBlockTime id) := by
  have e1 : (Simulation.zero.init alpha gamma blocks timewarp isBCHStrategic diffAlgo
      expectedBlockTime id).blockchain.chain
      = (List.range 3000).map (baseline expectedBlockTime) := by
    simp [Simulation.init, Blockchain.setDiffAlgo, Init_eq, Simulation.zero, Blockchain.zero]
  have e2 : (Simulation.zero.init alpha gamma blocks timewarp isBCHStrategic diffAlgo
      expectedBlockTime id).blockchain.privateBranch = [] := by
    simp [Simulation.init, Blockchain.setDiffAlgo, Init_eq, Simulation.zero, Blockchain.zero]
  have e5 : (Simulation.zero.init alpha gamma blocks timewarp isBCHStrategic diffAlgo
      expectedBlockTime id).blockchain.nextDifficulty = 1 := by
    simp [Simulation.init, Blockchain.setDiffAlgo, Init_eq, Simulation.zero, Blockchain.zero]
  have e6 : (Simulation.zero.init alpha gamma blocks timewarp isBCHStrategic diffAlgo
      expectedBlockTime id).blockchain.nextPrivateDifficulty = 1 := by
    simp [Simulation.init, Blockchain.setDiffAlgo, Init_eq, Simulation.zero, Blockchain.zero]
  refine leadInv_of_eq e1 e2 rfl e5 e6 rfl (LeadOrd.settled _ ?_ (by norm_num) (by norm_num))
  intro b hb
  rw [List.mem_map] at hb
  obtain ⟨i, _, e⟩ := hb
  rw [← e]
  show (0 : ℚ) < BASElINE_DIFFICULTY
  norm_num [BASElINE_DIFFICULTY]

theorem statedState_lead (prev : Int) (n : Nat) (eff ifl : ℚ) (s : Int)
    (hprev : prev = 1 → eff ≠ 0) (hs : s ≠ -1) (hn : n ≠ 0) (hi : 0 < ifl) :
    statedState prev n eff ifl s = 2 := by
  unfold statedState
  rw [if_neg (fun h => hprev h.1 h.2.2), if_neg hs, if_neg hn, if_neg (not_lt.mpr hi.le),
    if_neg (ne_of_gt hi)]

theorem algo_unique {bc : Blockchain} {a b : Difficulty} (ha : bc.diffAlgo = some a)
    (hb : bc.diffAlgo = some b) : b = a := by
  rw [ha] at hb
  cases hb
  rfl

theorem leadInv_step {sim sim1 : Simulation} {res res1 : SimulationResult} {d : Draw}
    {algo : Difficulty} (inv : SimInv sim) (inv1 : SimInv sim1) (g : Grounded sim.blockchain)
    (g1 : Grounded sim1.blockchain) (li : LeadInv sim)
    (halgo : sim.blockchain.diffAlgo = some algo)
    (hpos : PositiveDAA algo sim.blockchain.expectedBlockTime)
    (h : sim.loopBody res d = .ok (sim1, res1)) : LeadInv sim1 := by
  have hlen := g.long
  have hlen1 := g1.long
  have hh := inv.store.height_eq
  have hfn := inv.store.fork_nonneg
  have hfl := inv.store.fork_le
  have hpne : sim.state ≠ 0 → sim.blockchain.privateBranch ≠ [] :=
    fun hs e => hs (inv.state_zero.mpr e)
  have hfne : sim.state ≠ 0 → sim.blockchain.forkHeight ≠ 0 := by
    intro hs
    have := g.fork_high (hpne hs)
    omega
  have hfit : (sim.blockchain.forkHeight + 1).toNat ≤ sim.blockchain.chain.length := by omega
  have hm1 := heightsMatch_chain inv1.store
  have hv1 := heightsMatch_privateView inv1.store
  unfold LeadInv at li
  -- the public DAA value of the new state, when its chain now ends with a new block
  have publicPos : ∀ (pre : List Block) (b : Block) (algo1 : Difficulty),
      sim1.blockchain.chain = pre ++ [b] → PositiveDifficulties (pre ++ [b]) →
      sim.blockchain.diffAlgo = some algo1 →
      DaaValue algo1 sim.blockchain.expectedBlockTime sim1.blockchain.chain b.height
        sim1.blockchain.nextDifficulty →
      0 < sim1.blockchain.nextDifficulty := by
    intro pre b algo1 e hp ha hdv
    rw [algo_unique halgo ha] at hdv
    exact positiveDAA_last hpos e hdv hlen1 hm1 (by rw [e]; exact hp)
  rcases loopBody_cases h with ⟨hs, hc, h⟩ | ⟨hs, hc, h⟩ | ⟨hs, hdl, hr, h⟩ | ⟨hs, hdl, h⟩ |
    ⟨hs, hdl, hr, h⟩ | ⟨hs, hdl, hr, h⟩ | ⟨hs, hdl, hr, h⟩ | ⟨hs, hdl, hg, hr, h⟩ |
    ⟨hs, hdl, hg, hr, h⟩ | ⟨hs, e, hr⟩
  · -- state 0, the selfish miner starts a private branch
    obtain ⟨_, _, _, es, e1, e2, _, e4, e5, algo1, ha, hdv⟩ :=
      stepZero_selfish inv.store (inv.state_zero.mp hs) (by omega) hs hc h
    rw [algo_unique halgo ha, e2] at hdv
    rw [e1, e4, e2, take_all_of_height inv.store] at hv1
    have hpv : PositiveDifficulties (sim.blockchain.chain ++
        [(⟨sim.blockchain.height + 1, sim.blockchain.nextDifficulty,
          sim.realTime + d.delay + sim.timewarpOffset, false⟩ : Block)]) :=
      positive_append li.pos_chain (positive_singleton li.pos_nd)
    have hnpd := positiveDAA_last hpos rfl hdv (by simp; omega) hv1 hpv
    refine leadInv_of_eq e1 e2 e4 e5 rfl es
      ⟨li.pos_chain, positive_singleton li.pos_nd, li.pos_nd, hnpd, ?_, ?_, ?_⟩
    · intro _
      rw [drop_all_of_height inv.store]
      simp
    · intro h2
      omega
    · intro h2
      omega
  · -- state 0, the honest miners extend the chain
    obtain ⟨_, _, _, es, e1, e2, _, e4, e6, algo1, ha, hdv⟩ := stepZero_honest hc h
    have hp1 : PositiveDifficulties (sim.blockchain.chain ++
        [(⟨sim.blockchain.height + 1, sim.blockchain.nextDifficulty,
          sim.realTime + d.delay, true⟩ : Block)]) :=
      positive_append li.pos_chain (positive_singleton li.pos_nd)
    have hnd := publicPos _ _ algo1 e1 hp1 ha hdv
    rw [inv.state_zero.mp hs] at e2
    exact leadInv_of_eq e1 e2 e4 rfl e6 (es.trans hs) (LeadOrd.settled _ hp1 hnd li.pos_nd)
  · -- state 1, the selfish miner extends the private branch
    have hs0 : sim.state ≠ 0 := by omega
    obtain ⟨b, bd, _, _, _, _, e1, e2, _, e4, e5, ⟨algo1, ha, hdv⟩, est⟩ :=
      oneToTwo_effect inv.store (hpne hs0) (hfne hs0) h
    rw [algo_unique halgo ha] at hdv
    rw [e1, e4, e2] at hv1
    have hpb : 0 < b.difficulty := by rw [bd]; exact li.pos_npd
    have hpp := positive_append li.pos_priv (positive_singleton hpb)
    have hfh := g.fork_high (hpne hs0)
    have hnpd := positiveDAA_last hpos (List.append_assoc _ _ _).symm hdv
      (by simp only [List.length_append, List.length_take]; omega) hv1
      (positive_append (positive_take li.pos_chain _) hpp)
    have hone := li.one hs
    unfold Blockchain.privWork Blockchain.mainWork at est
    have hst : sim1.state = 2 := by
      rw [est]
      apply statedState_lead
      · intro _
        have := li.pos_nd
        have := li.pos_npd
        linarith
      · omega
      · omega
      · have := li.pos_npd
        linarith
    refine leadInv_of_eq e1 e2 e4 e5 rfl hst ⟨li.pos_chain, hpp, li.pos_nd, hnpd, ?_, ?_, ?_⟩
    · intro h2
      omega
    · intro _
      rw [sum_push, bd]
      have := li.pos_npd
      linarith
    · intro h2
      omega
  · -- state 1, the honest miners find a block: race
    have hs0 : sim.state ≠ 0 := by omega
    obtain ⟨_, _, _, e1, e2, _, e4, e6, ⟨algo1, ha, hdv⟩, es⟩ := stepOne_honest hdl h
    have hp1 : PositiveDifficulties (sim.blockchain.chain ++
        [(⟨sim.blockchain.height + 1, sim.blockchain.nextDifficulty,
          sim.realTime + d.delayHonest, true⟩ : Block)]) :=
      positive_append li.pos_chain (positive_singleton li.pos_nd)
    have hnd := publicPos _ _ algo1 e1 hp1 ha hdv
    have hone := li.one hs
    refine leadInv_of_eq e1 e2 e4 rfl e6 es ⟨hp1, li.pos_priv, hnd, li.pos_npd, ?_, ?_, ?_⟩
    · intro h2
      omega
    · intro h2
      omega
    · intro _
      rw [sum_drop_push _ _ _ hfit]
      linarith
  · -- state >= 2, the selfish miner extends the private branch
    have hs0 : sim.state ≠ 0 := by omega
    obtain ⟨b, bd, _, _, _, _, e1, e2, _, e4, e5, ⟨algo1, ha, hdv⟩, est⟩ :=
      oneToTwo_effect inv.store (hpne hs0) (hfne hs0) h
    rw [algo_unique halgo ha] at hdv
    rw [e1, e4, e2] at hv1
    have hpb : 0 < b.difficulty := by rw [bd]; exact li.pos_npd
    have hpp := positive_append li.pos_priv (positive_singleton hpb)
    have hfh := g.fork_high (hpne hs0)
    have hnpd := positiveDAA_last hpos (List.append_assoc _ _ _).symm hdv
      (by simp only [List.length_append, List.length_take]; omega) hv1
      (positive_append (positive_take li.pos_chain _) hpp)
    have hlead := li.lead hs
    unfold Blockchain.privWork Blockchain.mainWork at est
    have hst : sim1.state = 2 := by
      rw [est]
      apply statedState_lead
      · intro h1
        omega
      · omega
      · omega
      · have := li.pos_npd
        linarith
    refine leadInv_of_eq e1 e2 e4 e5 rfl hst ⟨li.pos_chain, hpp, li.pos_nd, hnpd, ?_, ?_, ?_⟩
    · intro h2
      omega
    · intro _
      rw [sum_push, bd]
      have := li.pos_npd
      linarith
    · intro h2
      omega
  · -- state >= 2, the honest miners find a block
    have hs0 : sim.state ≠ 0 := by omega
    obtain ⟨algo1, nd2, ha, hdv, _, _, e6, hcase⟩ :=
      moreThanTwoHonestWins_effect inv.store (hpne hs0) (hfne hs0) (by omega) h
    have hlead := li.lead hs
    unfold Blockchain.privWork Blockchain.mainWork at hcase
    rcases hcase with ⟨_, e1, e2, _, e4, e5, es⟩ | ⟨hnl, e1, e2, _, e4, e5, es⟩
    · exact leadInv_of_eq e1 e2 e4 e5 e6 es (LeadOrd.settled _
        (positive_append (positive_take li.pos_chain _) li.pos_priv) li.pos_npd li.pos_npd)
    · have hp1 : PositiveDifficulties (sim.blockchain.chain ++
          [(⟨sim.blockchain.height + 1, sim.blockchain.nextDifficulty,
            sim.realTime + d.delayHonest, true⟩ : Block)]) :=
        positive_append li.pos_chain (positive_singleton li.pos_nd)
      have hnd : 0 < nd2 := by
        have := publicPos _ _ algo1 e1 hp1 ha (by rw [e1, e5]; exact hdv)
        rw [e5] at this
        exact this
      refine leadInv_of_eq e1 e2 e4 e5 e6 es ⟨hp1, li.pos_priv, hnd, li.pos_npd, ?_, ?_, ?_⟩
      · intro h2
        rw [sum_drop_push _ _ _ hfit]
        by_contra hne
        rw [if_neg (by intro h0; apply hne; linarith)] at h2
        omega
      · intro h2
        rw [sum_drop_push _ _ _ hfit]
        by_cases h0 : (sim.blockchain.privateBranch.map (fun b => b.difficulty)).sum
            - (((sim.blockchain.chain.drop (sim.blockchain.forkHeight + 1).toNat).map
              (fun b => b.difficulty)).sum + sim.blockchain.nextDifficulty) - nd2 = 0
        · rw [if_pos h0] at h2
          omega
        · have hge := not_lt.mp hnl
          have : (0 : ℚ) < (sim.blockchain.privateBranch.map (fun b => b.difficulty)).sum
              - (((sim.blockchain.chain.drop (sim.blockchain.forkHeight + 1).toNat).map
                (fun b => b.difficulty)).sum + sim.blockchain.nextDifficulty) - nd2 :=
            lt_of_le_of_ne hge (Ne.symm h0)
          linarith
      · intro h2
        split at h2 <;> omega
  · -- race, the selfish miner wins
    have hs0 : sim.state ≠ 0 := by omega
    obtain ⟨b, bd, _, _, _, _, e1, e2, _, e4, ⟨algo1, ha, hdv⟩, e6, es⟩ :=
      smWinsRace_effect inv.store (hpne hs0) h
    have hpb : 0 < b.difficulty := by rw [bd]; exact li.pos_npd
    have hp1 : PositiveDifficulties
        (sim.blockchain.chain.take (sim.blockchain.forkHeight + 1).toNat
          ++ (sim.blockchain.privateBranch ++ [b])) :=
      positive_append (positive_take li.pos_chain _)
        (positive_append li.pos_priv (positive_singleton hpb))
    have hnd := publicPos (sim.blockchain.chain.take (sim.blockchain.forkHeight + 1).toNat
      ++ sim.blockchain.privateBranch) b algo1 (by rw [e1, List.append_assoc])
      (by rw [List.append_assoc]; exact hp1) ha hdv
    exact leadInv_of_eq e1 e2 e4 rfl e6 es (LeadOrd.settled _ hp1 hnd hnd)
  · -- race, the honest miners build on the selfish block
    obtain ⟨_, _, e1, e2, _, e4, ⟨algo1, ha, hdv⟩, e6, es⟩ := hmOnSm_effect inv.store h
    have hp1 : PositiveDifficulties
        (sim.blockchain.chain.take (sim.blockchain.forkHeight + 1).toNat
          ++ sim.blockchain.privateBranch
          ++ [(⟨sim.blockchain.forkHeight + sim.blockchain.privateBranch.length + 1,
            sim.blockchain.nextPrivateDifficulty, sim.realTime + d.delayHonest, true⟩ :
              Block)]) :=
      positive_append (positive_append (positive_take li.pos_chain _) li.pos_priv)
        (positive_singleton li.pos_npd)
    have hnd := publicPos _ _ algo1 e1 hp1 ha hdv
    exact leadInv_of_eq e1 e2 e4 rfl e6 es (LeadOrd.settled _ hp1 hnd hnd)
  · -- race, the honest miners win
    obtain ⟨_, _, e1, e2, _, e4, ⟨algo1, ha, hdv⟩, e6, es⟩ := hmWinsRace_effect h
    have hp1 : PositiveDifficulties (sim.blockchain.chain ++
        [(⟨sim.blockchain.height + 1, sim.blockchain.nextDifficulty,
          sim.realTime + d.delayHonest, true⟩ : Block)]) :=
      positive_append li.pos_chain (positive_singleton li.pos_nd)
    have hnd := publicPos _ _ algo1 e1 hp1 ha hdv
    exact leadInv_of_eq e1 e2 e4 rfl e6 es (LeadOrd.settled _ hp1 hnd hnd)
  · subst e
    exact li

theorem leadInv_reachable {sim : Simulation} {res : SimulationResult} {algo : Difficulty}
    (hr : Reachable sim res) (halgo : sim.blockchain.diffAlgo = some algo)
    (hpos : PositiveDAA algo sim.blockchain.expectedBlockTime) : LeadInv sim := by
  induction hr with
  | start alpha gamma blocks timewarp isBCHStrategic diffAlgo expectedBlockTime id =>
    exact leadInv_init alpha gamma blocks timewarp isBCHStrategic diffAlgo
      expectedBlockTime id
  | @step sim sim1 res res1 d hr hc hb ih =>
    have hpar := loopBody_params hr hb
    simp only [Simulation.params, Prod.mk.injEq] at hpar
    have halgo0 : sim.blockchain.diffAlgo = some algo := by
      rw [← hpar.2.2.2.2.2.2.2.2]
      exact halgo
    have hpos0 : PositiveDAA algo sim.blockchain.expectedBlockTime := by
      rw [← hpar.2.2.2.2.2.2.2.1]
      exact hpos
    have hr1 := Reachable.step d hr hc hb
    exact leadInv_step (SimInv.of_reachable hr) (SimInv.of_reachable hr1)
      (grounded_reachable hr) (grounded_reachable hr1) (ih halgo0 hpos0) halgo0 hpos0 hb

/-- C32: for every chain state, every `isPrivate` flag and every lookback and
mediantimepast, the BCH `getDiff` has the same outcome (the same difficulty, or
the same failure) with `OffByOne = true` as with `OffByOne = false`, also when
called through the `Difficulty` interface; setting the field of any BCH record
to any value does not change the outcome. -/
theorem bch_getDiff_ignores_offByOne (lookback mediantimepast : Int) (isPrivate : Bool)
    (bc : Blockchain) :
    (⟨lookback, true, mediantimepast⟩ : bchDifficulty).getDiff isPrivate bc
      = (⟨lookback, false, mediantimepast⟩ : bchDifficulty).getDiff isPrivate bc ∧
    (Difficulty.bch ⟨lookback, true, mediantimepast⟩).getDiff isPrivate bc
      = (Difficulty.bch ⟨lookback, false, mediantimepast⟩).getDiff isPrivate bc ∧
    ∀ (b : bchDifficulty) (o : Bool),
      ({ b with OffByOne := o } : bchDifficulty).getDiff isPrivate bc
        = b.getDiff isPrivate bc := by
  refine ⟨rfl, rfl, ?_⟩
  intro b o
  rfl

theorem moreThanTwoHonestWins_split {sim sim3 : Simulation} {delay : Int} {b : Block}
    {bc2 : Blockchain}
    (hb : sim.blockchain.newBlock (sim.realTime + delay) = .ok (b, bc2))
    (h3 : ({ sim.setRealTime delay with blockchain := bc2 } : Simulation).setState 0 = .ok sim3) :
    sim.moreThanTwoHonestWins delay =
      (if sim3.ifLose < 0 ∧ sim3.blockchain.privateBranch.length > 0 then
        sim3.blockchain.reorg >>= fun bc4 =>
          ({ sim3 with blockchain := bc4 } : Simulation).setState 0
      else pure sim3) := by
  unfold Simulation.moreThanTwoHonestWins
  simp only [Simulation.setRealTime] at hb h3 ⊢
  simp only [hb, h3, bind, Except.bind]

theorem smWinsRace_split {sim sim2 : Simulation} {delay : Int}
    (h2 : (sim.setRealTime delay).newPrivateBlock = .ok sim2) :
    sim.smWinsRace delay =
      sim2.blockchain.reorg >>= fun bc3 =>
        ({ sim2 with blockchain := bc3 } : Simulation).setState 0 := by
  unfold Simulation.smWinsRace
  simp only [h2, bind, Except.bind]

theorem hmOnSm_split (sim : Simulation) (delay : Int) :
    sim.hmOnSm delay =
      sim.blockchain.reorg >>= fun bc2 =>
        bc2.newBlock (sim.realTime + delay) >>= fun p =>
          ({ sim.setRealTime delay with
            blockchain := ({ p.2 with nextPrivateDifficulty := p.2.nextDifficulty } :
              Blockchain).setForkHeight 0 } : Simulation).setState 0 := by
  unfold Simulation.hmOnSm
  simp only [Simulation.setRealTime]

theorem nonnegRun_reachable {sim : Simulation} {res : SimulationResult}
    (h : NonnegRun sim res) : Reachable sim res := by
  induction h with
  | start alpha gamma blocks timewarp isBCHStrategic diffAlgo expectedBlockTime id =>
    exact Reachable.start alpha gamma blocks timewarp isBCHStrategic diffAlgo
      expectedBlockTime id
  | step d _ hc hb _ ih => exact Reachable.step d ih hc hb

theorem nonnegRun_npd {sim : Simulation} {res : SimulationResult}
    (h : NonnegRun sim res) : 0 ≤ sim.blockchain.nextPrivateDifficulty := by
  cases h with
  | start alpha gamma blocks timewarp isBCHStrategic diffAlgo expectedBlockTime id =>
    have li := leadInv_init alpha gamma blocks timewarp isBCHStrategic diffAlgo
      expectedBlockTime id
    exact li.pos_npd.le
  | step d _ _ _ h1 => exact h1

theorem nonnegRun_of_positiveDAA {sim : Simulation} {res : SimulationResult}
    {algo : Difficulty} (hr : Reachable sim res) (halgo : sim.blockchain.diffAlgo = some algo)
    (hpos : PositiveDAA algo sim.blockchain.expectedBlockTime) : NonnegRun sim res := by
  induction hr with
  | start alpha gamma blocks timewarp isBCHStrategic diffAlgo expectedBlockTime id =>
    exact NonnegRun.start alpha gamma blocks timewarp isBCHStrategic diffAlgo
      expectedBlockTime id
  | @step sim sim1 res res1 d hr hc hb ih =>
    have hpar := loopBody_params hr hb
    simp only [Simulation.params, Prod.mk.injEq] at hpar
    have halgo0 : sim.blockchain.diffAlgo = some algo := by
      rw [← hpar.2.2.2.2.2.2.2.2]
      exact halgo
    have hpos0 : PositiveDAA algo sim.blockchain.expectedBlockTime := by
      rw [← hpar.2.2.2.2.2.2.2.1]
      exact hpos
    have li := leadInv_reachable (Reachable.step d hr hc hb) halgo hpos
    exact NonnegRun.step d (ih halgo0 hpos0) hc hb li.pos_npd.le

theorem workInv_of_eq {sim1 : Simulation} {chain priv : List Block} {fh : Int} {nd : ℚ}
    {state : Int}
    (e1 : sim1.blockchain.chain = chain) (e2 : sim1.blockchain.privateBranch = priv)
    (e4 : sim1.blockchain.forkHeight = fh) (e5 : sim1.blockchain.nextDifficulty = nd)
    (e7 : sim1.state = state)
    (h : WorkOrd chain priv fh nd state) : WorkInv sim1 := by
  subst e1 e2 e4 e5 e7
  exact h

theorem workOrd_settled (chain priv : List Block) (fh : Int) (nd : ℚ) :
    WorkOrd chain priv fh nd 0 :=
  ⟨fun h => by omega, fun h => by omega, fun h => by omega⟩

theorem workInv_init (alpha gamma : ℚ) (blocks timewarp : Int) (isBCHStrategic : Bool)
    (diffAlgo : Option Difficulty) (expectedBlockTime id : Int) :
    WorkInv (Simulation.zero.init alpha gamma blocks timewarp isBCHStrategic diffAlgo
      expectedBlockTime id) := by
  have li := leadInv_init alpha gamma blocks timewarp isBCHStrategic diffAlgo
    expectedBlockTime id
  exact ⟨li.one, li.lead, li.race⟩

theorem workInv_step {sim sim1 : Simulation} {res res1 : SimulationResult} {d : Draw}
    (inv : SimInv sim) (g : Grounded sim.blockchain) (wi : WorkInv sim)
    (hnpd : 0 ≤ sim.blockchain.nextPrivateDifficulty)
    (h : sim.loopBody res d = .ok (sim1, res1)) : WorkInv sim1 := by
  have hlen := g.long
  have hh := inv.store.height_eq
  have hfn := inv.store.fork_nonneg
  have hfl := inv.store.fork_le
  have hpne : sim.state ≠ 0 → sim.blockchain.privateBranch ≠ [] :=
    fun hs e => hs (inv.state_zero.mpr e)
  have hfne : sim.state ≠ 0 → sim.blockchain.forkHeight ≠ 0 := by
    intro hs
    have := g.fork_high (hpne hs)
    omega
  have hfit : (sim.blockchain.forkHeight + 1).toNat ≤ sim.blockchain.chain.length := by omega
  unfold WorkInv at wi
  rcases loopBody_cases h with ⟨hs, hc, h⟩ | ⟨hs, hc, h⟩ | ⟨hs, hdl, hr, h⟩ | ⟨hs, hdl, h⟩ |
    ⟨hs, hdl, hr, h⟩ | ⟨hs, hdl, hr, h⟩ | ⟨hs, hdl, hr, h⟩ | ⟨hs, hdl, hg, hr, h⟩ |
    ⟨hs, hdl, hg, hr, h⟩ | ⟨hs, e, hr⟩
  · -- state 0, the selfish miner starts a private branch
    obtain ⟨_, _, _, es, e1, e2, _, e4, e5, _⟩ :=
      stepZero_selfish inv.store (inv.state_zero.mp hs) (by omega) hs hc h
    refine workInv_of_eq e1 e2 e4 e5 es ⟨?_, ?_, ?_⟩
    · intro _
      rw [drop_all_of_height inv.store]
      simp
    · intro h2
      omega
    · intro h2
      omega
  · -- state 0, the honest miners extend the chain
    obtain ⟨_, _, _, es, e1, e2, _, e4, _⟩ := stepZero_honest hc h
    exact workInv_of_eq e1 e2 e4 rfl (es.trans hs) (workOrd_settled _ _ _ _)
  · -- state 1, the selfish miner extends the private branch
    have hs0 : sim.state ≠ 0 := by omega
    obtain ⟨b, bd, _, _, _, _, e1, e2, _, e4, e5, _, est⟩ :=
      oneToTwo_effect inv.store (hpne hs0) (hfne hs0) h
    have hone := wi.one hs
    unfold Blockchain.privWork Blockchain.mainWork at est
    unfold statedState at est
    by_cases c1 : (sim.blockchain.privateBranch.map (fun b => b.difficulty)).sum
        + sim.blockchain.nextPrivateDifficulty
        - ((sim.blockchain.chain.drop (sim.blockchain.forkHeight + 1).toNat).map
          (fun b => b.difficulty)).sum = 0
    · rw [if_pos ⟨hs, by omega, c1⟩] at est
      refine workInv_of_eq e1 e2 e4 e5 est ⟨?_, ?_, ?_⟩
      · intro h2
        omega
      · intro h2
        omega
      · intro _
        rw [sum_push, bd]
        linarith
    · rw [if_neg (fun h => c1 h.2.2), if_neg (by omega), if_neg (by omega),
        if_neg (not_lt.mpr (by linarith))] at est
      by_cases c5 : (sim.blockchain.privateBranch.map (fun b => b.difficulty)).sum
          + sim.blockchain.nextPrivateDifficulty
          - ((sim.blockchain.chain.drop (sim.blockchain.forkHeight + 1).toNat).map
            (fun b => b.difficulty)).sum - sim.blockchain.nextDifficulty = 0
      · rw [if_pos c5] at est
        refine workInv_of_eq e1 e2 e4 e5 est ⟨?_, ?_, ?_⟩
        · intro _
          rw [sum_push, bd]
          linarith
        · intro h2
          omega
        · intro h2
          omega
      · rw [if_neg c5] at est
        refine workInv_of_eq e1 e2 e4 e5 est ⟨?_, ?_, ?_⟩
        · intro h2
          omega
        · intro _
          rw [sum_push, bd]
          exact lt_of_le_of_ne (by linarith) (fun e => c5 (by linarith))
        · intro h2
          omega
  · -- state 1, the honest miners find a block: race
    have hs0 : sim.state ≠ 0 := by omega
    obtain ⟨_, _, _, e1, e2, _, e4, _, _, es⟩ := stepOne_honest hdl h
    have hone := wi.one hs
    refine workInv_of_eq e1 e2 e4 rfl es ⟨?_, ?_, ?_⟩
    · intro h2
      omega
    · intro h2
      omega
    · intro _
      rw [sum_drop_push _ _ _ hfit]
      linarith
  · -- state >= 2, the selfish miner extends the private branch
    have hs0 : sim.state ≠ 0 := by omega
    obtain ⟨b, bd, _, _, _, _, e1, e2, _, e4, e5, _, est⟩ :=
      oneToTwo_effect inv.store (hpne hs0) (hfne hs0) h
    have hlead := wi.lead hs
    unfold Blockchain.privWork Blockchain.mainWork at est
    have hst : sim1.state = 2 := by
      rw [est]
      apply statedState_lead
      · intro h1
        omega
      · omega
      · omega
      · linarith
    refine workInv_of_eq e1 e2 e4 e5 hst ⟨?_, ?_, ?_⟩
    · intro h2
      omega
    · intro _
      rw [sum_push, bd]
      linarith
    · intro h2
      omega
  · -- state >= 2, the honest miners find a block
    have hs0 : sim.state ≠ 0 := by omega
    obtain ⟨algo1, nd2, ha, hdv, _, _, e6, hcase⟩ :=
      moreThanTwoHonestWins_effect inv.store (hpne hs0) (hfne hs0) (by omega) h
    have hlead := wi.lead hs
    unfold Blockchain.privWork Blockchain.mainWork at hcase
    rcases hcase with ⟨_, e1, e2, _, e4, e5, es⟩ | ⟨hnl, e1, e2, _, e4, e5, es⟩
    · exact workInv_of_eq e1 e2 e4 e5 es (workOrd_settled _ _ _ _)
    · refine workInv_of_eq e1 e2 e4 e5 es ⟨?_, ?_, ?_⟩
      · intro h2
        rw [sum_drop_push _ _ _ hfit]
        by_contra hne
        rw [if_neg (by intro h0; apply hne; linarith)] at h2
        omega
      · intro h2
        rw [sum_drop_push _ _ _ hfit]
        by_cases h0 : (sim.blockchain.privateBranch.map (fun b => b.difficulty)).sum
            - (((sim.blockchain.chain.drop (sim.blockchain.forkHeight + 1).toNat).map
              (fun b => b.difficulty)).sum + sim.blockchain.nextDifficulty) - nd2 = 0
        · rw [if_pos h0] at h2
          omega
        · have hge := not_lt.mp hnl
          have : (0 : ℚ) < (sim.blockchain.privateBranch.map (fun b => b.difficulty)).sum
              - (((sim.blockchain.chain.drop (sim.blockchain.forkHeight + 1).toNat).map
                (fun b => b.difficulty)).sum + sim.blockchain.nextDifficulty) - nd2 :=
            lt_of_le_of_ne hge (Ne.symm h0)
          linarith
      · intro h2
        split at h2 <;> omega
  · -- race, the selfish miner wins
    have hs0 : sim.state ≠ 0 := by omega
    obtain ⟨b, bd, _, _, _, _, e1, e2, _, e4, _, _, es⟩ :=
      smWinsRace_effect inv.store (hpne hs0) h
    exact workInv_of_eq e1 e2 e4 rfl es (workOrd_settled _ _ _ _)
  · -- race, the honest miners build on the selfish block
    obtain ⟨_, _, e1, e2, _, e4, _, _, es⟩ := hmOnSm_effect inv.store h
    exact workInv_of_eq e1 e2 e4 rfl es (workOrd_settled _ _ _ _)
  · -- race, the honest miners win
    obtain ⟨_, _, e1, e2, _, e4, _, _, es⟩ := hmWinsRace_effect h
    exact workInv_of_eq e1 e2 e4 rfl es (workOrd_settled _ _ _ _)
  · subst e
    exact wi

theorem workInv_nonnegRun {sim : Simulation} {res : SimulationResult}
    (hr : NonnegRun sim res) : WorkInv sim := by
  induction hr with
  | start alpha gamma blocks timewarp isBCHStrategic diffAlgo expectedBlockTime id =>
    exact workInv_init alpha gamma blocks timewarp isBCHStrategic diffAlgo
      expectedBlockTime id
  | @step sim sim1 res res1 d hr hc hb _ ih =>
    exact workInv_step (SimInv.of_reachable (nonnegRun_reachable hr))
      (grounded_reachable (nonnegRun_reachable hr)) ih (nonnegRun_npd hr) hb

theorem sumBlocks_nonneg (l : List Block) (h : NonnegDifficulties l) : 0 ≤ sumBlocks l := by
  rw [sumBlocks_eq]
  apply List.sum_nonneg
  intro x hx
  obtain ⟨b, hb, rfl⟩ := List.mem_map.mp hx
  exact h b hb

theorem nonneg_append {xs ys : List Block} (hx : NonnegDifficulties xs)
    (hy : NonnegDifficulties ys) : NonnegDifficulties (xs ++ ys) := by
  intro b hb
  rw [List.mem_append] at hb
  rcases hb with hb | hb
  · exact hx b hb
  · exact hy b hb

theorem nonneg_take {xs : List Block} (hx : NonnegDifficulties xs) (k : Nat) :
    NonnegDifficulties (xs.take k) :=
  fun b hb => hx b (List.mem_of_mem_take hb)

theorem nonneg_singleton {b : Block} (hb : 0 ≤ b.difficulty) : NonnegDifficulties [b] := by
  intro c hc
  rw [List.mem_singleton] at hc
  rw [hc]
  exact hb

theorem nonneg_nil : NonnegDifficulties [] := fun b hb => by simp at hb

theorem xmr_measure_nonneg (view : List Block) (hL : 3000 ≤ view.length)
    (hnn : NonnegDifficulties view) :
    ∃ (work : ℚ) (span : Int), xmrDefault.measure view = .ok (work, span) ∧
      0 ≤ work ∧ 0 ≤ span := by
  have hS := xmrSortedTimes_length view (by omega)
  obtain ⟨lo, hlo⟩ : ∃ t, (xmrSortedTimes view)[60]? = some t :=
    ⟨_, List.getElem?_eq_getElem (show 60 < (xmrSortedTimes view).length by rw [hS]; norm_num)⟩
  obtain ⟨hi, hhi⟩ : ∃ t, (xmrSortedTimes view)[659]? = some t :=
    ⟨_, List.getElem?_eq_getElem (show 659 < (xmrSortedTimes view).length by
      rw [hS]; norm_num)⟩
  refine ⟨_, _, xmr_measure_eq view (by omega) lo hi hlo hhi, ?_, ?_⟩
  · apply sumBlocks_nonneg
    intro b hb
    exact hnn b (window_subset view _ _ b (List.mem_of_mem_take (List.mem_of_mem_drop hb)))
  · have hsorted : (xmrSortedTimes view).Sorted (· ≤ ·) := List.sorted_insertionSort _ _
    obtain ⟨h1, e1⟩ := List.getElem?_eq_some_iff.mp hlo
    obtain ⟨h2, e2⟩ := List.getElem?_eq_some_iff.mp hhi
    have := List.pairwise_iff_getElem.mp hsorted 60 659 h1 h2 (by decide)
    rw [e1, e2] at this
    omega

theorem xmr_value_nonneg {T : Int} {view : List Block} {tip : Int} {d : ℚ}
    (hv : DaaValue (.xmr xmrDefault) T view tip d) (hT : 0 ≤ T) (hL : 3000 ≤ view.length)
    (hnn : NonnegDifficulties view) : 0 ≤ d := by
  obtain ⟨p, bc, hbT, hsrc, hd⟩ := hv
  have hview := dashSource_view hsrc
  have e : xmrDefault.getDiff p bc = .ok d := hd
  obtain ⟨work, span, hm, hwork, hspan⟩ := xmr_measure_nonneg view hL hnn
  have heq : xmrDefault.getDiff p bc
      = .ok (work * (bc.expectedBlockTime : ℚ) / (span : ℚ)) := by
    rw [xmr_getDiff_eq, hview]
    simp only [bind, Except.bind, hm]
    rfl
  rw [heq] at e
  rw [← Except.ok.inj e]
  have hTq : (0 : ℚ) ≤ (bc.expectedBlockTime : ℚ) := by
    rw [hbT]
    exact_mod_cast hT
  have hsq : (0 : ℚ) ≤ (span : ℚ) := by exact_mod_cast hspan
  exact div_nonneg (mul_nonneg hwork hTq) hsq

theorem nonnegInv_init (alpha gamma : ℚ) (blocks timewarp : Int) (isBCHStrategic : Bool)
    (diffAlgo : Option Difficulty) (expectedBlockTime id : Int) :
    NonnegInv (Simulation.zero.init alpha gamma blocks timewarp isBCHStrategic diffAlgo
      expectedBlockTime id) := by
  have li := leadInv_init alpha gamma blocks timewarp isBCHStrategic diffAlgo
    expectedBlockTime id
  exact ⟨fun b hb => (li.pos_chain b hb).le, fun b hb => (li.pos_priv b hb).le,
    li.pos_nd.le, li.pos_npd.le⟩

theorem nonnegInv_step {sim sim1 : Simulation} {res res1 : SimulationResult} {d : Draw}
    {algo : Difficulty} (inv : SimInv sim) (g : Grounded sim.blockchain)
    (g1 : Grounded sim1.blockchain) (ni : NonnegInv sim)
    (halgo : sim.blockchain.diffAlgo = some algo)
    (hdaa : ∀ (view : List Block) (tip : Int) (v : ℚ),
      DaaValue algo sim.blockchain.expectedBlockTime view tip v → 3000 ≤ view.length →
      NonnegDifficulties view → 0 ≤ v)
    (h : sim.loopBody res d = .ok (sim1, res1)) : NonnegInv sim1 := by
  have hlen := g.long
  have hlen1 := g1.long
  have hh := inv.store.height_eq
  have hfn := inv.store.fork_nonneg
  have hfl := inv.store.fork_le
  have hpne : sim.state ≠ 0 → sim.blockchain.privateBranch ≠ [] :=
    fun hs e => hs (inv.state_zero.mpr e)
  have hfne : sim.state ≠ 0 → sim.blockchain.forkHeight ≠ 0 := by
    intro hs
    have := g.fork_high (hpne hs)
    omega
  have hpush : NonnegDifficulties (sim.blockchain.chain ++
      [(⟨sim.blockchain.height + 1, sim.blockchain.nextDifficulty,
        sim.realTime + d.delayHonest, true⟩ : Block)]) :=
    nonneg_append ni.nn_chain (nonneg_singleton ni.nn_nd)
  -- the public DAA value of the new state
  have publicNonneg : ∀ (tip : Int) (algo1 : Difficulty),
      NonnegDifficulties sim1.blockchain.chain →
      sim.blockchain.diffAlgo = some algo1 →
      DaaValue algo1 sim.blockchain.expectedBlockTime sim1.blockchain.chain tip
        sim1.blockchain.nextDifficulty →
      0 ≤ sim1.blockchain.nextDifficulty := by
    intro tip algo1 hp ha hdv
    rw [algo_unique halgo ha] at hdv
    exact hdaa _ _ _ hdv hlen1 hp
  rcases loopBody_cases h with ⟨hs, hc, h⟩ | ⟨hs, hc, h⟩ | ⟨hs, hdl, hr, h⟩ | ⟨hs, hdl, h⟩ |
    ⟨hs, hdl, hr, h⟩ | ⟨hs, hdl, hr, h⟩ | ⟨hs, hdl, hr, h⟩ | ⟨hs, hdl, hg, hr, h⟩ |
    ⟨hs, hdl, hg, hr, h⟩ | ⟨hs, e, hr⟩
  · -- state 0, the selfish miner starts a private branch
    obtain ⟨_, _, _, es, e1, e2, _, e4, e5, algo1, ha, hdv⟩ :=
      stepZero_selfish inv.store (inv.state_zero.mp hs) (by omega) hs hc h
    rw [algo_unique halgo ha, e2] at hdv
    have hpv : NonnegDifficulties (sim.blockchain.chain ++
        [(⟨sim.blockchain.height + 1, sim.blockchain.nextDifficulty,
          sim.realTime + d.delay + sim.timewarpOffset, false⟩ : Block)]) :=
      nonneg_append ni.nn_chain (nonneg_singleton ni.nn_nd)
    have hnpd := hdaa _ _ _ hdv (by simp; omega) hpv
    refine ⟨?_, ?_, ?_, hnpd⟩
    · rw [e1]
      exact ni.nn_chain
    · rw [e2]
      exact nonneg_singleton ni.nn_nd
    · rw [e5]
      exact ni.nn_nd
  · -- state 0, the honest miners extend the chain
    obtain ⟨_, _, _, es, e1, e2, _, e4, e6, algo1, ha, hdv⟩ := stepZero_honest hc h
    have hp1 : NonnegDifficulties sim1.blockchain.chain := by
      rw [e1]
      exact nonneg_append ni.nn_chain (nonneg_singleton ni.nn_nd)
    refine ⟨hp1, ?_, publicNonneg _ algo1 hp1 ha hdv, ?_⟩
    · rw [e2]
      exact ni.nn_priv
    · rw [e6]
      exact ni.nn_nd
  · -- state 1, the selfish miner extends the private branch
    have hs0 : sim.state ≠ 0 := by omega
    obtain ⟨b, bd, _, _, _, _, e1, e2, _, e4, e5, ⟨algo1, ha, hdv⟩, est⟩ :=
      oneToTwo_effect inv.store (hpne hs0) (hfne hs0) h
    rw [algo_unique halgo ha] at hdv
    have hpb : 0 ≤ b.difficulty := by rw [bd]; exact ni.nn_npd
    have hpp := nonneg_append ni.nn_priv (nonneg_singleton hpb)
    have hfh := g.fork_high (hpne hs0)
    have hnpd := hdaa _ _ _ hdv
      (by simp only [List.length_append, List.length_take]; omega)
      (nonneg_append (nonneg_take ni.nn_chain _) hpp)
    refine ⟨?_, ?_, ?_, hnpd⟩
    · rw [e1]
      exact ni.nn_chain
    · rw [e2]
      exact hpp
    · rw [e5]
      exact ni.nn_nd
  · -- state 1, the honest miners find a block: race
    obtain ⟨_, _, _, e1, e2, _, e4, e6, ⟨algo1, ha, hdv⟩, es⟩ := stepOne_honest hdl h
    have hp1 : NonnegDifficulties sim1.blockchain.chain := by
      rw [e1]
      exact hpush
    refine ⟨hp1, ?_, publicNonneg _ algo1 hp1 ha hdv, ?_⟩
    · rw [e2]
      exact ni.nn_priv
    · rw [e6]
      exact ni.nn_npd
  · -- state >= 2, the selfish miner extends the private branch
    have hs0 : sim.state ≠ 0 := by omega
    obtain ⟨b, bd, _, _, _, _, e1, e2, _, e4, e5, ⟨algo1, ha, hdv⟩, est⟩ :=
      oneToTwo_effect inv.store (hpne hs0) (hfne hs0) h
    rw [algo_unique halgo ha] at hdv
    have hpb : 0 ≤ b.difficulty := by rw [bd]; exact ni.nn_npd
    have hpp := nonneg_append ni.nn_priv (nonneg_singleton hpb)
    have hfh := g.fork_high (hpne hs0)
    have hnpd := hdaa _ _ _ hdv
      (by simp only [List.length_append, List.length_take]; omega)
      (nonneg_append (nonneg_take ni.nn_chain _) hpp)
    refine ⟨?_, ?_, ?_, hnpd⟩
    · rw [e1]
      exact ni.nn_chain
    · rw [e2]
      exact hpp
    · rw [e5]
      exact ni.nn_nd
  · -- state >= 2, the honest miners find a block
    have hs0 : sim.state ≠ 0 := by omega
    obtain ⟨algo1, nd2, ha, hdv, _, _, e6, hcase⟩ :=
      moreThanTwoHonestWins_effect inv.store (hpne hs0) (hfne hs0) (by omega) h
    rw [algo_unique halgo ha] at hdv
    have hnd2 : 0 ≤ nd2 := hdaa _ _ _ hdv (by simp; omega) hpush
    rcases hcase with ⟨_, e1, e2, _, e4, e5, es⟩ | ⟨hnl, e1, e2, _, e4, e5, es⟩
    · refine ⟨?_, ?_, ?_, ?_⟩
      · rw [e1]
        exact nonneg_append (nonneg_take ni.nn_chain _) ni.nn_priv
      · rw [e2]
        exact nonneg_nil
      · rw [e5]
        exact ni.nn_npd
      · rw [e6]
        exact ni.nn_npd
    · refine ⟨?_, ?_, ?_, ?_⟩
      · rw [e1]
        exact hpush
      · rw [e2]
        exact ni.nn_priv
      · rw [e5]
        exact hnd2
      · rw [e6]
        exact ni.nn_npd
  · -- race, the selfish miner wins
    have hs0 : sim.state ≠ 0 := by omega
    obtain ⟨b, bd, _, _, _, _, e1, e2, _, e4, ⟨algo1, ha, hdv⟩, e6, es⟩ :=
      smWinsRace_effect inv.store (hpne hs0) h
    have hpb : 0 ≤ b.difficulty := by rw [bd]; exact ni.nn_npd
    have hp1 : NonnegDifficulties sim1.blockchain.chain := by
      rw [e1]
      exact nonneg_append (nonneg_take ni.nn_chain _)
        (nonneg_append ni.nn_priv (nonneg_singleton hpb))
    have hnd := publicNonneg _ algo1 hp1 ha hdv
    refine ⟨hp1, ?_, hnd, ?_⟩
    · rw [e2]
      exact nonneg_nil
    · rw [e6]
      exact hnd
  · -- race, the honest miners build on the selfish block
    obtain ⟨_, _, e1, e2, _, e4, ⟨algo1, ha, hdv⟩, e6, es⟩ := hmOnSm_effect inv.store h
    have hp1 : NonnegDifficulties sim1.blockchain.chain := by
      rw [e1]
      exact nonneg_append (nonneg_append (nonneg_take ni.nn_chain _) ni.nn_priv)
        (nonneg_singleton ni.nn_npd)
    have hnd := publicNonneg _ algo1 hp1 ha hdv
    refine ⟨hp1, ?_, hnd, ?_⟩
    · rw [e2]
      exact nonneg_nil
    · rw [e6]
      exact hnd
  · -- race, the honest miners win
    obtain ⟨_, _, e1, e2, _, e4, ⟨algo1, ha, hdv⟩, e6, es⟩ := hmWinsRace_effect h
    have hp1 : NonnegDifficulties sim1.blockchain.chain := by
      rw [e1]
      exact hpush
    have hnd := publicNonneg _ algo1 hp1 ha hdv
    refine ⟨hp1, ?_, hnd, ?_⟩
    · rw [e2]
      exact nonneg_nil
    · rw [e6]
      exact hnd
  · subst e
    exact ni

theorem nonnegInv_xmr {sim : Simulation} {res : SimulationResult}
    (hr : Reachable sim res) (halgo : sim.blockchain.diffAlgo = some (.xmr xmrDefault))
    (hT : 0 ≤ sim.blockchain.expectedBlockTime) : NonnegInv sim := by
  induction hr with
  | start alpha gamma blocks timewarp isBCHStrategic diffAlgo expectedBlockTime id =>
    exact nonnegInv_init alpha gamma blocks timewarp isBCHStrategic diffAlgo
      expectedBlockTime id
  | @step sim sim1 res res1 d hr hc hb ih =>
    have hpar := loopBody_params hr hb
    simp only [Simulation.params, Prod.mk.injEq] at hpar
    have halgo0 : sim.blockchain.diffAlgo = some (.xmr xmrDefault) := by
      rw [← hpar.2.2.2.2.2.2.2.2]
      exact halgo
    have hT0 : 0 ≤ sim.blockchain.expectedBlockTime := by
      rw [← hpar.2.2.2.2.2.2.2.1]
      exact hT
    have hr1 := Reachable.step d hr hc hb
    exact nonnegInv_step (SimInv.of_reachable hr) (grounded_reachable hr)
      (grounded_reachable hr1) (ih halgo0 hT0) halgo0
      (fun view tip v hv hL hnn => xmr_value_nonneg hv hT0 hL hnn) hb

theorem nonnegRun_xmr {sim : Simulation} {res : SimulationResult}
    (hr : Reachable sim res) (halgo : sim.blockchain.diffAlgo = some (.xmr xmrDefault))
    (hT : 0 ≤ sim.blockchain.expectedBlockTime) : NonnegRun sim res := by
  induction hr with
  | start alpha gamma blocks timewarp isBCHStrategic diffAlgo expectedBlockTime id =>
    exact NonnegRun.start alpha gamma blocks timewarp isBCHStrategic diffAlgo
      expectedBlockTime id
  | @step sim sim1 res res1 d hr hc hb ih =>
    have hpar := loopBody_params hr hb
    simp only [Simulation.params, Prod.mk.injEq] at hpar
    have halgo0 : sim.blockchain.diffAlgo = some (.xmr xmrDefault) := by
      rw [← hpar.2.2.2.2.2.2.2.2]
      exact halgo
    have hT0 : 0 ≤ sim.blockchain.expectedBlockTime := by
      rw [← hpar.2.2.2.2.2.2.2.1]
      exact hT
    exact NonnegRun.step d (ih halgo0 hT0) hc hb
      (nonnegInv_xmr (Reachable.step d hr hc hb) halgo hT).nn_npd

/-- Every run of the BTC, Dash, Monero or Zcash defaults, or of BCH with any
parameters, at a block time `T > 0` is a run in which the
`nextPrivateDifficulty` is never negative at the head of the loop.  For BTC,
Dash, Zcash and BCH the difficulties stay positive; for Monero they stay
non-negative, where a zero time span, a division by zero, gives the
difficulty 0 in `ℚ`. -/
theorem nonnegRun_of_defaults {sim : Simulation} {res : SimulationResult} {algo : Difficulty}
    (hr : Reachable sim res) (halgo : sim.blockchain.diffAlgo = some algo)
    (hT : 0 < sim.blockchain.expectedBlockTime)
    (hdef : algo = .btc btcDefault ∨ (∃ b, algo = .bch b) ∨ algo = .dash dashDefault ∨
      algo = .xmr xmrDefault ∨ algo = .zec zecDefault) : NonnegRun sim res := by
  rcases hdef with e | ⟨b, e⟩ | e | e | e
  · subst e
    exact nonnegRun_of_positiveDAA hr halgo (positiveDAA_btc hT)
  · subst e
    exact nonnegRun_of_positiveDAA hr halgo (positiveDAA_bch b _)
  · subst e
    exact nonnegRun_of_positiveDAA hr halgo (positiveDAA_dash hT)
  · subst e
    exact nonnegRun_xmr hr halgo hT.le
  · subst e
    exact nonnegRun_of_positiveDAA hr halgo (positiveDAA_zec hT)

theorem xmrBase_length : xmrBase.length = 3000 := by
  simp [xmrBase]

theorem steady_baseline (T : Int) (n : Nat) : Steady T ((List.range n).map (baseline T)) :=
  steadyChain_steady T n

theorem xmrBase_steady : Steady 120 xmrBase := steady_baseline 120 3000

theorem steady_push {T : Int} {view : List Block} (hs : Steady T view) (b : Block)
    (h1 : b.height = (view.length : Int)) (h2 : b.difficulty = 1)
    (h3 : b.timestamp = (view.length : Int) * T) : Steady T (view ++ [b]) := by
  intro i c hc
  by_cases hi : i < view.length
  · rw [List.getElem?_append_left hi] at hc
    exact hs i c hc
  · have hlt := (List.getElem?_eq_some_iff.mp hc).1
    simp only [List.length_append, List.length_singleton] at hlt
    have hi' : i = view.length := by omega
    subst hi'
    simp at hc
    subst hc
    exact ⟨h1, h2, h3⟩

theorem init_xmrOn (alpha gamma : ℚ) (blocks : Int) :
    Simulation.zero.init alpha gamma blocks 0 false (some (.xmr xmrDefault)) 120 1
      = xmrOn alpha gamma blocks ((List.range 3000).map (baseline 120)) := by
  simp [xmrOn, Simulation.init, Init_eq, Blockchain.setDiffAlgo, Simulation.zero,
    Blockchain.zero, startingBlocks, STARTING_BLOCKS]

theorem xmrOn_selfish_step (alpha gamma : ℚ) (blocks : Int) (chain0 : List Block)
    (hlen : chain0.length = 3000) (hst : Steady 120 chain0) (res : SimulationResult) (d : Draw)
    (hd : d.delay = 120) (hc : d.coin ≤ alpha) :
    (xmrOn alpha gamma blocks chain0).loopBody res d
      = .ok (xmrForked alpha gamma blocks chain0, res) := by
  have hne : chain0 ≠ [] := by
    intro e; rw [e] at hlen; simp at hlen
  unfold Simulation.loopBody Simulation.privHeight
  simp only [xmrOn, List.length_nil, gt_iff_lt, lt_self_iff_false, ↓reduceIte, pure_bind]
  unfold Simulation.stepZero Simulation.zeroToOne Simulation.newPrivateBlock
    Blockchain.newPrivateBlock
  simp only [Simulation.setRealTime, hd, hc, ↓reduceIte, Blockchain.setForkHeight]
  norm_num
  rw [pushToPrivateChain_eq _ _ hne]
  simp only [List.nil_append, bind, Except.bind]
  have hview : (Blockchain.view
      { chain := chain0, privateBranch := [⟨3000, 1, 360000, false⟩],
        forkHistory := [2999],
        height := 2999, forkHeight := 2999, time := 360000, privateTime := 0,
        nextDifficulty := 1, nextPrivateDifficulty := 1,
        diffAlgo := some (.xmr xmrDefault), expectedBlockTime := 120 } true)
      = .ok (chain0 ++ [⟨3000, 1, 360000, false⟩]) := by
    unfold Blockchain.view
    rw [if_pos rfl, getPrivateView_eq _ (by norm_num) (by simp only [hlen]; norm_num)]
    simp only [show ((2999 : Int) + 1).toNat = 3000 by rfl]
    rw [List.take_of_length_le (by rw [hlen])]
  have hdiff := xmr_getDiff_steady true _ _ hview (show (0 : Int) < 120 by decide)
    (by simp [hlen])
    (steady_push hst _ (by simp [hlen]) rfl (by simp [hlen]))
  unfold Blockchain.adjustDifficulty
  simp only [Difficulty.getDiff, hdiff, bind, Except.bind, ↓reduceIte, pure, Except.pure]
  unfold Simulation.setState
  rw [getPostForkWork_past_fork _ (by norm_num) (by simp only [hlen]; norm_num) (by norm_num)]
  have hdrop : chain0.drop (2999 + 1 : Int).toNat = [] := by
    apply List.drop_eq_nil_of_le
    rw [hlen]
    decide
  simp only [hdrop, bind, Except.bind, pure, Except.pure, Functor.map, Except.map]
  norm_num [xmrForked, xmrOn]

theorem xmrForked_honest_step (alpha gamma : ℚ) (blocks : Int) (chain0 : List Block)
    (hlen : chain0.length = 3000) (hst : Steady 120 chain0) (res : SimulationResult) (d : Draw)
    (hd : d.delayHonest = 0) (hc : ¬ d.delaySelfish < d.delayHonest) :
    (xmrForked alpha gamma blocks chain0).loopBody res d
      = .ok (xmrRacing alpha gamma blocks chain0, res) := by
  rw [hd] at hc
  unfold Simulation.loopBody Simulation.privHeight
  have hv0 : (xmrForked alpha gamma blocks chain0).blockchain.getPrivateView
      = .ok (chain0.take 3000 ++ [⟨3000, 1, 360000, false⟩]) := by
    rw [getPrivateView_eq _ (by norm_num [xmrForked, xmrOn])
      (by simp only [xmrForked, xmrOn, hlen]; norm_num)]
    rfl
  rw [hv0]
  simp only [xmrForked, xmrOn, List.length_singleton, gt_iff_lt, zero_lt_one, ↓reduceIte,
    bind, Except.bind, pure, Except.pure]
  norm_num
  unfold Simulation.stepOne Blockchain.newBlock Blockchain.pushToChain
  simp only [Simulation.setRealTime, hd, hc, ↓reduceIte]
  norm_num
  have hview : (Blockchain.view
      { chain := chain0 ++ [⟨3000, 1, 360000, true⟩],
        privateBranch := [⟨3000, 1, 360000, false⟩],
        forkHistory := [2999], height := 3000, forkHeight := 2999, time := 360000,
        privateTime := 0, nextDifficulty := 1, nextPrivateDifficulty := 600 / 599,
        diffAlgo := some (.xmr xmrDefault), expectedBlockTime := 120 } false)
      = .ok (chain0 ++ [⟨3000, 1, 360000, true⟩]) := rfl
  have hdiff := xmr_getDiff_steady false _ _ hview (show (0 : Int) < 120 by decide)
    (by simp [hlen])
    (steady_push hst _ (by simp [hlen]) rfl (by simp [hlen]))
  unfold Blockchain.adjustDifficulty
  simp only [Difficulty.getDiff, hdiff, bind, Except.bind, pure, Except.pure,
    Bool.false_eq_true, ↓reduceIte]
  unfold Simulation.setState
  rw [getPostForkWork_past_fork _ (by norm_num) (by simp [hlen]) (by norm_num)]
  have hdrop : (chain0 ++ [(⟨3000, 1, 360000, true⟩ : Block)]).drop (2999 + 1 : Int).toNat
      = [⟨3000, 1, 360000, true⟩] := by
    rw [List.drop_append_of_le_length (by rw [hlen]; decide),
      List.drop_eq_nil_of_le (by rw [hlen]; decide)]
    rfl
  simp only [hdrop, bind, Except.bind, pure, Except.pure, Functor.map, Except.map]
  norm_num [xmrRacing, xmrForked, xmrOn]

theorem xmrOn_loopCond (alpha gamma : ℚ) (blocks : Int) (chain0 : List Block)
    (hn : 0 ≤ blocks) : (xmrOn alpha gamma blocks chain0).loopCond = true := by
  simp only [Simulation.loopCond, xmrOn, startingBlocks, STARTING_BLOCKS, List.length_nil,
    ne_eq, not_true_eq_false, decide_False, Bool.or_false, decide_eq_true_eq]
  omega

theorem xmrForked_loopCond (alpha gamma : ℚ) (blocks : Int) (chain0 : List Block) :
    (xmrForked alpha gamma blocks chain0).loopCond = true := by
  simp [Simulation.loopCond, xmrForked, xmrOn]

theorem xmrRacing_nonnegRun (alpha gamma : ℚ) (blocks : Int) (hn : 0 ≤ blocks)
    (d1 d2 : Draw) (hd1 : d1.delay = 120) (hc1 : d1.coin ≤ alpha)
    (hd2 : d2.delayHonest = 0) (hc2 : ¬ d2.delaySelfish < d2.delayHonest) :
    NonnegRun (xmrRacing alpha gamma blocks xmrBase) SimulationResult.zero := by
  have h0 := NonnegRun.start alpha gamma blocks 0 false (some (.xmr xmrDefault)) 120 1
  rw [init_xmrOn] at h0
  have h1 := NonnegRun.step d1 h0 (xmrOn_loopCond alpha gamma blocks _ hn)
    (xmrOn_selfish_step alpha gamma blocks xmrBase xmrBase_length xmrBase_steady _ d1 hd1 hc1)
    (by norm_num [xmrForked, xmrOn])
  exact NonnegRun.step d2 h1 (xmrForked_loopCond alpha gamma blocks _)
    (xmrForked_honest_step alpha gamma blocks xmrBase xmrBase_length xmrBase_steady _ d2 hd2 hc2)
    (by norm_num [xmrRacing, xmrForked, xmrOn])

/-- C24: with difficulties as exact rationals, in every state reached through
iterations that leave a `nextPrivateDifficulty` that is not negative, in which
an iteration of the loop begins with `state == -1`, the private branch is
non-empty, `getPostForkWork` returns the two sums of difficulty past the fork,
and the work of the private branch equals the work of the public chain past
the fork.  The DAA, its parameters and the block time are arbitrary; every
reachable state of the BTC, Dash, Monero and Zcash defaults and of BCH at a
block time `T > 0` is such a state (`nonnegRun_of_defaults`). -/
theorem race_equal_work {sim : Simulation} {res : SimulationResult}
    (hr : NonnegRun sim res) (hs : sim.state = -1) :
    sim.blockchain.privateBranch ≠ [] ∧
    sim.blockchain.getPostForkWork
      = .ok (sim.blockchain.mainWork, sim.blockchain.privWork) ∧
    sim.blockchain.privWork = sim.blockchain.mainWork := by
  have inv := SimInv.of_reachable (nonnegRun_reachable hr)
  have g := grounded_reachable (nonnegRun_reachable hr)
  have wi := workInv_nonnegRun hr
  have hp : sim.blockchain.privateBranch ≠ [] := by
    intro e
    have := inv.state_zero.mpr e
    omega
  have hf : sim.blockchain.forkHeight ≠ 0 := by
    have := g.fork_high hp
    omega
  exact ⟨hp, getPostForkWork_sums inv.store hf, wi.race hs⟩

theorem race_equal_work_witness :
    NonnegRun (xmrRacing (1 / 3) (1 / 2) 5000 xmrBase) SimulationResult.zero ∧
    (xmrRacing (1 / 3) (1 / 2) 5000 xmrBase).blockchain.diffAlgo = some (.xmr xmrDefault) ∧
    (xmrRacing (1 / 3) (1 / 2) 5000 xmrBase).state = -1 ∧
    (xmrRacing (1 / 3) (1 / 2) 5000 xmrBase).blockchain.privateBranch ≠ [] ∧
    (xmrRacing (1 / 3) (1 / 2) 5000 xmrBase).blockchain.getPostForkWork
      = .ok ((xmrRacing (1 / 3) (1 / 2) 5000 xmrBase).blockchain.mainWork,
          (xmrRacing (1 / 3) (1 / 2) 5000 xmrBase).blockchain.privWork) ∧
    (xmrRacing (1 / 3) (1 / 2) 5000 xmrBase).blockchain.privWork
      = (xmrRacing (1 / 3) (1 / 2) 5000 xmrBase).blockchain.mainWork ∧
    (xmrRacing (1 / 3) (1 / 2) 5000 xmrBase).blockchain.privWork = 1 := by
  have hrun := xmrRacing_nonnegRun (1 / 3) (1 / 2) 5000 (by decide)
    ⟨120, 0, 0, 0⟩ ⟨0, 0, 30, 0⟩ rfl (by norm_num) rfl (by decide)
  have h := race_equal_work hrun rfl
  refine ⟨hrun, rfl, rfl, h.1, h.2.1, h.2.2, ?_⟩
  norm_num [Blockchain.privWork, xmrRacing, xmrForked, xmrOn]

/-- C31: with difficulties as exact rationals, in every state reached through
iterations that leave a `nextPrivateDifficulty` that is not negative, the store
on which the strategy calls `reorg()` has at least as much private work past
the fork as public work past the fork.  In a state `>= 2`,
`moreThanTwoHonestWins` mints the honest block, recomputes `ifLose` and calls
`reorg()` on that store when `ifLose < 0`: there the public work is strictly
less than the private work.  In the race state, `smWinsRace` calls `reorg()`
after the new private block, where the public work is not more than the
private work, and strictly less when `nextPrivateDifficulty` is positive, and
`hmOnSm` calls it on the store of the race state, where the two are equal.
`getPostForkWork` returns these sums in each case.  The DAA, its parameters and
the block time are arbitrary; every reachable state of the BTC, Dash, Monero
and Zcash defaults and of BCH at a block time `T > 0` is such a state
(`nonnegRun_of_defaults`). -/
theorem reorg_work_not_less {sim : Simulation} {res : SimulationResult}
    (hr : NonnegRun sim res) :
    (2 ≤ sim.state →
      ∀ (d : Int) (b : Block) (bc2 : Blockchain) (sim3 : Simulation),
        sim.blockchain.newBlock (sim.realTime + d) = .ok (b, bc2) →
        ({ sim.setRealTime d with blockchain := bc2 } : Simulation).setState 0 = .ok sim3 →
        sim.moreThanTwoHonestWins d =
          (if sim3.ifLose < 0 ∧ sim3.blockchain.privateBranch.length > 0 then
            sim3.blockchain.reorg >>= fun bc4 =>
              ({ sim3 with blockchain := bc4 } : Simulation).setState 0
          else pure sim3) ∧
        sim3.blockchain.getPostForkWork
          = .ok (sim3.blockchain.mainWork, sim3.blockchain.privWork) ∧
        sim3.blockchain.mainWork < sim3.blockchain.privWork) ∧
    (sim.state = -1 →
      ∀ (d : Int) (sim2 : Simulation), (sim.setRealTime d).newPrivateBlock = .ok sim2 →
        sim.smWinsRace d =
          (sim2.blockchain.reorg >>= fun bc3 =>
            ({ sim2 with blockchain := bc3 } : Simulation).setState 0) ∧
        sim2.blockchain.getPostForkWork
          = .ok (sim2.blockchain.mainWork, sim2.blockchain.privWork) ∧
        sim2.blockchain.mainWork ≤ sim2.blockchain.privWork ∧
        (0 < sim.blockchain.nextPrivateDifficulty →
          sim2.blockchain.mainWork < sim2.blockchain.privWork)) ∧
    (sim.state = -1 →
      ∀ d : Int,
        sim.hmOnSm d =
          (sim.blockchain.reorg >>= fun bc2 =>
            bc2.newBlock (sim.realTime + d) >>= fun p =>
              ({ sim.setRealTime d with
                blockchain := ({ p.2 with nextPrivateDifficulty := p.2.nextDifficulty } :
                  Blockchain).setForkHeight 0 } : Simulation).setState 0) ∧
        sim.blockchain.getPostForkWork
          = .ok (sim.blockchain.mainWork, sim.blockchain.privWork) ∧
        sim.blockchain.mainWork = sim.blockchain.privWork) := by
  have inv := SimInv.of_reachable (nonnegRun_reachable hr)
  have g := grounded_reachable (nonnegRun_reachable hr)
  have wi := workInv_nonnegRun hr
  have hnpd := nonnegRun_npd hr
  have hpne : sim.state ≠ 0 → sim.blockchain.privateBranch ≠ [] :=
    fun hs e => hs (inv.state_zero.mpr e)
  have hfne : sim.state ≠ 0 → sim.blockchain.forkHeight ≠ 0 := by
    intro hs
    have := g.fork_high (hpne hs)
    omega
  refine ⟨?_, ?_, ?_⟩
  · intro hs d b bc2 sim3 hb h3
    have hs0 : sim.state ≠ 0 := by omega
    obtain ⟨eb, e1, e2, _, e4, _⟩ := newBlock_effect hb
    have st2 : ChainInv bc2 := ChainInv.newBlock inv.store hb
    obtain ⟨k1, _⟩ := setState_ok h3
    have k1' : sim3.blockchain = bc2 := k1
    have hf2 : bc2.forkHeight ≠ 0 := by rw [e4]; exact hfne hs0
    have hm : bc2.mainWork = sim.blockchain.mainWork + b.difficulty :=
      mainWork_push b inv.store e1 e4
    have hpw : bc2.privWork = sim.blockchain.privWork := by
      unfold Blockchain.privWork
      rw [e2]
    have hbd : b.difficulty = sim.blockchain.nextDifficulty := by rw [eb]
    have hl : 0 < sim.blockchain.privWork - sim.blockchain.mainWork
        - sim.blockchain.nextDifficulty := wi.lead hs
    refine ⟨moreThanTwoHonestWins_split hb h3, ?_, ?_⟩
    · rw [k1']
      exact getPostForkWork_sums st2 hf2
    · rw [k1', hm, hpw, hbd]
      linarith
  · intro hs d sim2 h2
    have hs0 : sim.state ≠ 0 := by omega
    obtain ⟨b, hb⟩ := sim_newPrivateBlock_ok h2
    simp only [Simulation.setRealTime] at hb
    have a0 := inv.store.fork_nonneg
    have a1 := inv.store.fork_le
    obtain ⟨st2, _⟩ := ChainInv.newPrivateBlock inv.store (fun e => absurd e (hpne hs0)) hb
    obtain ⟨f1, _, _, f4, f5, _, f7, _⟩ := newPrivateBlock_effect (by omega) (by omega) hb
    have hf2 : sim2.blockchain.forkHeight ≠ 0 := by rw [f7]; exact hfne hs0
    have hm : sim2.blockchain.mainWork = sim.blockchain.mainWork := by
      unfold Blockchain.mainWork
      rw [f4, f7]
    have hpw : sim2.blockchain.privWork
        = sim.blockchain.privWork + sim.blockchain.nextPrivateDifficulty := by
      unfold Blockchain.privWork
      rw [f5, sum_push, f1]
    have hrace : sim.blockchain.privWork = sim.blockchain.mainWork := wi.race hs
    refine ⟨smWinsRace_split h2, getPostForkWork_sums st2 hf2, ?_, ?_⟩
    · rw [hm, hpw]
      linarith
    · intro hpos
      rw [hm, hpw]
      linarith
  · intro hs d
    have hs0 : sim.state ≠ 0 := by omega
    have hrace : sim.blockchain.privWork = sim.blockchain.mainWork := wi.race hs
    exact ⟨hmOnSm_split sim d, getPostForkWork_sums inv.store (hfne hs0), hrace.symm⟩

theorem reorg_work_not_less_witness :
    Reachable (racingOn (1 / 3) (1 / 2) 5000 0 baseChain) SimulationResult.zero ∧
    (racingOn (1 / 3) (1 / 2) 5000 0 baseChain).blockchain.diffAlgo
      = some (.btc btcDefault) ∧
    NonnegRun (racingOn (1 / 3) (1 / 2) 5000 0 baseChain) SimulationResult.zero ∧
    (racingOn (1 / 3) (1 / 2) 5000 0 baseChain).state = -1 ∧
    (racingOn (1 / 3) (1 / 2) 5000 0 baseChain).blockchain.getPostForkWork
      = .ok ((racingOn (1 / 3) (1 / 2) 5000 0 baseChain).blockchain.mainWork,
          (racingOn (1 / 3) (1 / 2) 5000 0 baseChain).blockchain.privWork) ∧
    (racingOn (1 / 3) (1 / 2) 5000 0 baseChain).blockchain.mainWork
      = (racingOn (1 / 3) (1 / 2) 5000 0 baseChain).blockchain.privWork ∧
    (racingOn (1 / 3) (1 / 2) 5000 0 baseChain).blockchain.privWork = 1 := by
  have hreach := (racingOn_reachableWith (fun _ => True) (1 / 3) (1 / 2) 5000 0 (by decide)
    ⟨10, 0, 0, 0⟩ ⟨0, 20, 30, 0⟩ trivial rfl (by norm_num) trivial rfl (by decide)).reachable
  have hrun : NonnegRun (racingOn (1 / 3) (1 / 2) 5000 0 baseChain) SimulationResult.zero :=
    nonnegRun_of_defaults hreach rfl (by show (0 : Int) < 600; decide) (Or.inl rfl)
  obtain ⟨_, h2, h3⟩ := (reorg_work_not_less hrun).2.2 rfl 5
  refine ⟨hreach, rfl, hrun, rfl, h2, h3, ?_⟩
  norm_num [Blockchain.privWork, racingOn, forkedOn, simOn]

end SelfishMining
